import Mathlib

/-!
# Copy-on-write thread-local storage (`src/cow/tls.c`)

A shallow embedding of the TLS library.  The C program state that the library
touches is made explicit:

* `thread_storage` is the global array of `MAX_THREADS` slots; a slot holds
  either `NULL` (`none`) or a `struct TLS` (`some t`);
* `heap` maps a `struct page *` pointer to the object it points to, when that
  object is allocated;
* `prot` maps the base address of a mapped memory page to its protection;
* `mem` gives the bytes of a page, addressed by base address and offset;
* `next_ptr` and `next_map` drive the host allocators `malloc` and `mmap`,
  which hand out objects and pages that are not in use;
* `is_first_call` is the static flag of `tls_create`.

The host page size `getpagesize()` is the parameter `ps` of every operation.
`unsigned int` arithmetic is reduced modulo `2 ^ 32` and conversions to `int`
are two's complement.  A call that does not return to its caller (the process
leaves through `exit(1)` in a protection helper, or an access goes outside an
allocated object or a mapped page) has result `none`.
-/

namespace Cow

/-- Return code `SUCCESS`. -/
def SUCCESS : Int := 0

/-- Return code `FAILURE`. -/
def FAILURE : Int := -1

/-- Number of slots of `thread_storage`. -/
def MAX_THREADS : Nat := 128

/-- Value of an `unsigned int` expression. -/
def to_uint (n : Nat) : Nat := n % 2 ^ 32

/-- Conversion of an `unsigned int` value to `int`. -/
def to_int (n : Nat) : Int :=
  if n % 2 ^ 32 < 2 ^ 31 then ((n % 2 ^ 32 : Nat) : Int)
  else ((n % 2 ^ 32 : Nat) : Int) - 2 ^ 32

/-- Page protections used by the library. -/
inductive Prot where
  | PROT_NONE
  | PROT_READ
  | PROT_READ_WRITE
deriving DecidableEq, Repr

/-- The C `struct page`. -/
structure page where
  address : Nat
  ref_count : Int
deriving DecidableEq, Repr

/-- The C `struct TLS`; `pages` is the array of `struct page *`. -/
structure TLS where
  tid : Nat
  size : Nat
  num_pages : Int
  pages : List Nat
deriving DecidableEq, Repr

/-- Program state seen by the TLS library. -/
structure State where
  thread_storage : Nat → Option TLS
  heap : Nat → Option page
  prot : Nat → Option Prot
  mem : Nat → Nat → Nat
  next_ptr : Nat
  next_map : Nat
  is_first_call : Bool

/-- State at program start: empty registry, nothing allocated or mapped. -/
def init : State where
  thread_storage := fun _ => none
  heap := fun _ => none
  prot := fun _ => none
  mem := fun _ _ => 0
  next_ptr := 1
  next_map := 1
  is_first_call := true

/-- Host `malloc(sizeof(struct page))` followed by the initialisation of the
object: a pointer that is not in use. -/
def malloc_page (s : State) (pg : page) : Nat × State :=
  (s.next_ptr,
    { s with heap := Function.update s.heap s.next_ptr (some pg), next_ptr := s.next_ptr + 1 })

/-- Host `mmap(0, PAGE_SIZE, prot, MAP_ANON | MAP_PRIVATE, 0, 0)`: a page-aligned,
zero-filled region that is not in use. -/
def mmap (ps : Nat) (s : State) (p : Prot) : Nat × State :=
  (s.next_map * ps,
    { s with
      prot := Function.update s.prot (s.next_map * ps) (some p)
      mem := Function.update s.mem (s.next_map * ps) (fun _ => 0)
      next_map := s.next_map + 1 })

/-- Host `munmap`. -/
def munmap (s : State) (addr : Nat) : State :=
  { s with prot := Function.update s.prot addr none }

/-- Host `mprotect` wrapped as in the three helpers: failure leaves through `exit(1)`. -/
def mprotect (s : State) (addr : Nat) (p : Prot) : Option State :=
  match s.prot addr with
  | some _ => some { s with prot := Function.update s.prot addr (some p) }
  | none => none

/-- The helper `tls_protect`. -/
def tls_protect (s : State) (p : Nat) : Option State :=
  match s.heap p with
  | some pg => mprotect s pg.address Prot.PROT_NONE
  | none => none

/-- The helper `tls_unprotect`. -/
def tls_unprotect (s : State) (p : Nat) : Option State :=
  match s.heap p with
  | some pg => mprotect s pg.address Prot.PROT_READ_WRITE
  | none => none

/-- The helper `tls_protect_read_only`. -/
def tls_protect_read_only (s : State) (p : Nat) : Option State :=
  match s.heap p with
  | some pg => mprotect s pg.address Prot.PROT_READ
  | none => none

/-- Load of one byte at `addr + off`; traps unless the page is readable. -/
def load (s : State) (addr off : Nat) : Option Nat :=
  match s.prot addr with
  | some Prot.PROT_READ => some (s.mem addr off)
  | some Prot.PROT_READ_WRITE => some (s.mem addr off)
  | _ => none

/-- Store of one byte at `addr + off`; traps unless the page is writable. -/
def store (s : State) (addr off v : Nat) : Option State :=
  match s.prot addr with
  | some Prot.PROT_READ_WRITE =>
    some { s with mem := Function.update s.mem addr (Function.update (s.mem addr) off v) }
  | _ => none

/-- The call `memcpy(dst, src, PAGE_SIZE)` between two pages. -/
def memcpy (ps : Nat) (s : State) (dst src : Nat) : Option State :=
  match s.prot dst, s.prot src with
  | some Prot.PROT_READ_WRITE, some Prot.PROT_READ_WRITE =>
    some { s with
      mem := Function.update s.mem dst (fun off => if off < ps then s.mem src off else s.mem dst off) }
  | some Prot.PROT_READ_WRITE, some Prot.PROT_READ =>
    some { s with
      mem := Function.update s.mem dst (fun off => if off < ps then s.mem src off else s.mem dst off) }
  | _, _ => none

/-- The scan `for (i = 0; i < MAX_THREADS; i++) if (thread_storage[i] &&
thread_storage[i]->tid == tid)` that stops at the first hit, started at slot `i`
with `n` slots to go. -/
def find_tid (ts : Nat → Option TLS) (tid : Nat) : Nat → Nat → Option Nat
  | _, 0 => none
  | i, n + 1 =>
    match ts i with
    | some t => if t.tid = tid then some i else find_tid ts tid (i + 1) n
    | none => find_tid ts tid (i + 1) n

/-- The scan of `tls_create` for the first slot holding `NULL`. -/
def find_free (ts : Nat → Option TLS) : Nat → Nat → Option Nat
  | _, 0 => none
  | i, n + 1 =>
    match ts i with
    | some _ => find_free ts (i + 1) n
    | none => some i

/-- The expression `(size + PAGE_SIZE - 1) / PAGE_SIZE` stored into the `int`
field `num_pages`. -/
def num_pages_of (ps size : Nat) : Int :=
  to_int (to_uint (to_uint (size + ps) + 2 ^ 32 - 1) / ps)

/-- The page allocation loop of `tls_create` (`n` iterations to go): each page
object is fresh, mapped with `PROT_NONE`, with `ref_count` 1. -/
def alloc_pages (ps : Nat) : Nat → State → State × List Nat
  | 0, s => (s, [])
  | n + 1, s =>
    let (a, s1) := mmap ps s Prot.PROT_NONE
    let (p, s2) := malloc_page s1 ⟨a, 1⟩
    let (s3, rest) := alloc_pages ps n s2
    (s3, p :: rest)

/-- The function `tls_create`, called by thread `tid`. -/
def tls_create (ps : Nat) (s : State) (tid size : Nat) : Int × State :=
  let s := { s with is_first_call := false }
  if size = 0 then (FAILURE, s)
  else
    match find_tid s.thread_storage tid 0 MAX_THREADS with
    | some _ => (FAILURE, s)
    | none =>
      match find_free s.thread_storage 0 MAX_THREADS with
      | none => (FAILURE, s)
      | some i =>
        let num_pages := num_pages_of ps size
        let r := alloc_pages ps num_pages.toNat s
        (SUCCESS,
          { r.1 with
            thread_storage :=
              Function.update r.1.thread_storage i (some ⟨tid, size, num_pages, r.2⟩) })

/-- The page loop of `tls_destroy` over `pages[i]`, `n` iterations to go. -/
def destroy_pages (pages : List Nat) : Nat → Nat → State → Option State
  | _, 0, s => some s
  | i, n + 1, s =>
    match pages[i]? with
    | none => none
    | some p =>
      match s.heap p with
      | none => none
      | some pg =>
        if pg.ref_count > 1 then
          destroy_pages pages (i + 1) n
            { s with heap := Function.update s.heap p (some { pg with ref_count := pg.ref_count - 1 }) }
        else
          destroy_pages pages (i + 1) n
            { munmap s pg.address with heap := Function.update s.heap p none }

/-- The function `tls_destroy`, called by thread `tid`. -/
def tls_destroy (s : State) (tid : Nat) : Option (Int × State) :=
  match find_tid s.thread_storage tid 0 MAX_THREADS with
  | none => some (FAILURE, s)
  | some tid_index =>
    match s.thread_storage tid_index with
    | none => none
    | some t =>
      match destroy_pages t.pages 0 t.num_pages.toNat s with
      | none => none
      | some s1 =>
        some (SUCCESS, { s1 with thread_storage := Function.update s1.thread_storage tid_index none })

/-- The element `thread_storage[tid_index]->pages[page_num]` for the byte at
`offset + byte`. -/
def page_at (ps : Nat) (s : State) (tid_index offset byte : Nat) : Option Nat :=
  match s.thread_storage tid_index with
  | none => none
  | some t =>
    let page_num := to_int (to_uint (offset + byte) / ps)
    if page_num < 0 then none else t.pages[page_num.toNat]?

/-- The byte loop of `tls_read`, at index `byte` with `n` iterations to go. -/
def read_loop (ps tid_index offset : Nat) :
    Nat → Nat → State → (Nat → Nat) → Option (State × (Nat → Nat))
  | 0, _, s, buffer => some (s, buffer)
  | n + 1, byte, s, buffer =>
    match page_at ps s tid_index offset byte with
    | none => none
    | some current_page =>
      match s.heap current_page with
      | none => none
      | some pg =>
        match tls_unprotect s current_page with
        | none => none
        | some s1 =>
          match load s1 pg.address (to_uint (offset + byte) % ps) with
          | none => none
          | some v =>
            match tls_protect s1 current_page with
            | none => none
            | some s2 => read_loop ps tid_index offset n (byte + 1) s2 (Function.update buffer byte v)

/-- The function `tls_read`, called by thread `tid`; the result carries the
return code, the caller's buffer and the state. -/
def tls_read (ps : Nat) (s : State) (tid offset length : Nat) (buffer : Nat → Nat) :
    Option (Int × (Nat → Nat) × State) :=
  match find_tid s.thread_storage tid 0 MAX_THREADS with
  | none => some (FAILURE, buffer, s)
  | some tid_index =>
    match s.thread_storage tid_index with
    | none => none
    | some t =>
      if to_uint (offset + length) > t.size then some (FAILURE, buffer, s)
      else
        match read_loop ps tid_index offset length 0 s buffer with
        | none => none
        | some (s1, buffer1) => some (SUCCESS, buffer1, s1)

/-- The copy-on-write branch of `tls_write` for a page with `ref_count > 1`;
returns the new `current_page`. -/
def cow_page (ps : Nat) (s : State) (tid_index page_num current_page : Nat) :
    Option (Nat × State) :=
  match s.thread_storage tid_index, s.heap current_page with
  | some t, some pg =>
    let (a, s1) := mmap ps s Prot.PROT_READ_WRITE
    let (new_page, s2) := malloc_page s1 ⟨a, 1⟩
    match tls_unprotect s2 current_page with
    | none => none
    | some s3 =>
      match memcpy ps s3 a pg.address with
      | none => none
      | some s4 =>
        match tls_protect_read_only s4 current_page with
        | none => none
        | some s5 =>
          let s6 : State :=
            { s5 with
              heap := Function.update s5.heap current_page
                (some { pg with ref_count := pg.ref_count - 1 })
              thread_storage := Function.update s5.thread_storage tid_index
                (some { t with pages := t.pages.set page_num new_page }) }
          match tls_protect s6 new_page with
          | none => none
          | some s7 => some (new_page, s7)
  | _, _ => none

/-- One iteration of the byte loop of `tls_write`. -/
def write_byte (ps : Nat) (s : State) (tid_index offset byte v : Nat) : Option State :=
  match page_at ps s tid_index offset byte with
  | none => none
  | some current_page =>
    match s.heap current_page with
    | none => none
    | some pg =>
      let r : Option (Nat × State) :=
        if pg.ref_count > 1 then
          cow_page ps s tid_index (to_int (to_uint (offset + byte) / ps)).toNat current_page
        else some (current_page, s)
      match r with
      | none => none
      | some (current_page, s1) =>
        match s1.heap current_page with
        | none => none
        | some pg1 =>
          match tls_unprotect s1 current_page with
          | none => none
          | some s2 =>
            match store s2 pg1.address (to_uint (offset + byte) % ps) v with
            | none => none
            | some s3 => tls_protect s3 current_page

/-- The byte loop of `tls_write`, at index `byte` with `n` iterations to go. -/
def write_loop (ps tid_index offset : Nat) (buffer : Nat → Nat) :
    Nat → Nat → State → Option State
  | 0, _, s => some s
  | n + 1, byte, s =>
    match write_byte ps s tid_index offset byte (buffer byte) with
    | none => none
    | some s1 => write_loop ps tid_index offset buffer n (byte + 1) s1

/-- The function `tls_write`, called by thread `tid`. -/
def tls_write (ps : Nat) (s : State) (tid offset length : Nat) (buffer : Nat → Nat) :
    Option (Int × State) :=
  match find_tid s.thread_storage tid 0 MAX_THREADS with
  | none => some (FAILURE, s)
  | some tid_index =>
    match s.thread_storage tid_index with
    | none => none
    | some t =>
      if to_uint (offset + length) > t.size then some (FAILURE, s)
      else
        match write_loop ps tid_index offset buffer length 0 s with
        | none => none
        | some s1 => some (SUCCESS, s1)

/-- The second scan of `tls_clone`: the last slot bound to `tid` and the first
slot holding `NULL`. -/
def clone_scan (ts : Nat → Option TLS) (tid : Nat) :
    Nat → Nat → Option Nat → Option Nat → Option Nat × Option Nat
  | _, 0, target_tid_index, new_tid_index => (target_tid_index, new_tid_index)
  | i, n + 1, target_tid_index, new_tid_index =>
    match ts i with
    | some t =>
      if t.tid = tid then clone_scan ts tid (i + 1) n (some i) new_tid_index
      else clone_scan ts tid (i + 1) n target_tid_index new_tid_index
    | none =>
      match new_tid_index with
      | none => clone_scan ts tid (i + 1) n target_tid_index (some i)
      | some _ => clone_scan ts tid (i + 1) n target_tid_index new_tid_index

/-- The sharing loop of `tls_clone` over the target's `pages[i]`, `n` iterations
to go; returns the clone's page array. -/
def share_pages (pages : List Nat) : Nat → Nat → State → Option (State × List Nat)
  | _, 0, s => some (s, [])
  | i, n + 1, s =>
    match pages[i]? with
    | none => none
    | some shared_page =>
      match s.heap shared_page with
      | none => none
      | some pg =>
        match share_pages pages (i + 1) n
            { s with
              heap := Function.update s.heap shared_page
                (some { pg with ref_count := pg.ref_count + 1 }) } with
        | none => none
        | some (s1, rest) => some (s1, shared_page :: rest)

/-- The function `tls_clone`, called by thread `current_tid` with target `tid`. -/
def tls_clone (s : State) (current_tid tid : Nat) : Option (Int × State) :=
  match find_tid s.thread_storage current_tid 0 MAX_THREADS with
  | some _ => some (FAILURE, s)
  | none =>
    match clone_scan s.thread_storage tid 0 MAX_THREADS none none with
    | (some target_tid_index, some new_tid_index) =>
      match s.thread_storage target_tid_index with
      | none => none
      | some t =>
        match share_pages t.pages 0 t.num_pages.toNat s with
        | none => none
        | some (s1, pages) =>
          some (SUCCESS,
            { s1 with
              thread_storage := Function.update s1.thread_storage new_tid_index
                (some ⟨current_tid, t.size, t.num_pages, pages⟩) })
    | _ => some (FAILURE, s)

/-- One call of the TLS API by some thread. -/
inductive Call where
  | create (tid size : Nat)
  | destroy (tid : Nat)
  | read (tid offset length : Nat) (buffer : Nat → Nat)
  | write (tid offset length : Nat) (buffer : Nat → Nat)
  | clone (current_tid tid : Nat)

/-- The arguments of a call fit their C types (`unsigned int`). -/
def Call.typed : Call → Prop
  | Call.create _ size => size < 2 ^ 32
  | Call.destroy _ => True
  | Call.read _ offset length _ => offset < 2 ^ 32 ∧ length < 2 ^ 32
  | Call.write _ offset length _ => offset < 2 ^ 32 ∧ length < 2 ^ 32
  | Call.clone _ _ => True

/-- State after a call that returns to its caller. -/
def step (ps : Nat) (s : State) : Call → Option State
  | Call.create tid size => some (tls_create ps s tid size).2
  | Call.destroy tid => (tls_destroy s tid).map (fun r => r.2)
  | Call.read tid offset length buffer =>
    (tls_read ps s tid offset length buffer).map (fun r => r.2.2)
  | Call.write tid offset length buffer =>
    (tls_write ps s tid offset length buffer).map (fun r => r.2)
  | Call.clone current_tid tid => (tls_clone s current_tid tid).map (fun r => r.2)

/-- State after a sequence of calls, each of which returns. -/
def run (ps : Nat) : State → List Call → Option State
  | s, [] => some s
  | s, c :: cs =>
    match step ps s c with
    | none => none
    | some s1 => run ps s1 cs

/-- States reachable from program start by completed, well-typed API calls. -/
def Reachable (ps : Nat) (s : State) : Prop :=
  ∃ calls : List Call, (∀ c ∈ calls, c.typed) ∧ run ps init calls = some s

/-- The page array held by slot `i` (empty for a `NULL` slot). -/
def slot_pages (ts : Nat → Option TLS) (i : Nat) : List Nat :=
  match ts i with
  | some t => t.pages
  | none => []

/-- Number of (slot, page index) pairs of the registry that point to page object `p`. -/
def holders (ts : Nat → Option TLS) (p : Nat) : Nat :=
  ∑ i in Finset.range MAX_THREADS, (slot_pages ts i).count p

/-- Thread `tid` has an area in the registry. -/
def has_area (s : State) (tid : Nat) : Prop :=
  ∃ i, i < MAX_THREADS ∧ ∃ t, s.thread_storage i = some t ∧ t.tid = tid

/-- What a `tls_read` hands back to its caller: return code and buffer. -/
def read_result (r : Option (Int × (Nat → Nat) × State)) : Option (Int × (Nat → Nat)) :=
  r.map (fun x => (x.1, x.2.1))

/-- Consistency of the registry, the page objects and the page mappings. -/
structure Inv (ps : Nat) (s : State) : Prop where
  uniq : ∀ i j t u, i < MAX_THREADS → j < MAX_THREADS →
    s.thread_storage i = some t → s.thread_storage j = some u → t.tid = u.tid → i = j
  shape : ∀ i t, i < MAX_THREADS → s.thread_storage i = some t →
    t.pages.length = t.num_pages.toNat ∧ t.pages.Nodup ∧
      t.num_pages = num_pages_of ps t.size ∧ 0 < t.size ∧ t.size < 2 ^ 32
  live : ∀ i t, i < MAX_THREADS → s.thread_storage i = some t →
    ∀ p ∈ t.pages, ∃ pg, s.heap p = some pg
  refs : ∀ p pg, s.heap p = some pg →
    pg.ref_count = holders s.thread_storage p ∧ 1 ≤ holders s.thread_storage p
  mapped : ∀ p pg, s.heap p = some pg →
    s.prot pg.address = some Prot.PROT_NONE ∨ s.prot pg.address = some Prot.PROT_READ
  inj : ∀ p q pg pg1, s.heap p = some pg → s.heap q = some pg1 →
    pg.address = pg1.address → p = q
  fresh : ∀ p pg, s.heap p = some pg → p < s.next_ptr ∧ pg.address < s.next_map * ps
  aligned : ∀ p pg, s.heap p = some pg → ps ∣ pg.address

/-- `s1` differs from `s` at most in page protections: some mapped pages were
set back to `PROT_NONE`. -/
def reprotected (s s1 : State) : Prop :=
  s1.thread_storage = s.thread_storage ∧ s1.heap = s.heap ∧ s1.mem = s.mem ∧
    s1.next_ptr = s.next_ptr ∧ s1.next_map = s.next_map ∧
    s1.is_first_call = s.is_first_call ∧
    ∀ x, s1.prot x = s.prot x ∨ (s1.prot x = some Prot.PROT_NONE ∧ (s.prot x).isSome)

/-- Everything a read through slot `idx` depends on is the same in `s1` as in
`s`: the slot itself and, for each of its pages, the page address, whether the
page is mapped, and the page bytes. -/
def same_view (idx : Nat) (s s1 : State) : Prop :=
  s1.thread_storage idx = s.thread_storage idx ∧
    ∀ p ∈ slot_pages s.thread_storage idx,
      (s1.heap p).map page.address = (s.heap p).map page.address ∧
      ∀ pg, s.heap p = some pg →
        (s1.prot pg.address).isSome = (s.prot pg.address).isSome ∧
        s1.mem pg.address = s.mem pg.address

/-- The byte at offset `x` of the area in slot `idx`, when the offset lies on a
page of the area. -/
def area_byte (ps : Nat) (s : State) (idx x : Nat) : Option Nat :=
  match s.thread_storage idx with
  | none => none
  | some t =>
    match t.pages[x / ps]? with
    | none => none
    | some p =>
      match s.heap p with
      | none => none
      | some pg => some (s.mem pg.address (x % ps))

/-- The call is a `tls_write` or a `tls_destroy` issued by thread `a` or by thread `b`. -/
def Call.disturbs (a b : Nat) : Call → Prop
  | Call.write tid _ _ _ => tid = a ∨ tid = b
  | Call.destroy tid => tid = a ∨ tid = b
  | _ => False

/-- Threads `a` and `b` hold areas of the same size and page count whose page
arrays point, slot for slot, to the same page objects. -/
def shares_area (s : State) (a b : Nat) : Prop :=
  ∃ i j ta tb, i < MAX_THREADS ∧ j < MAX_THREADS ∧
    s.thread_storage i = some ta ∧ s.thread_storage j = some tb ∧
    ta.tid = a ∧ tb.tid = b ∧
    ta.size = tb.size ∧ ta.num_pages = tb.num_pages ∧ ta.pages = tb.pages

/-- Scenario S2 before the clone, with 4096-byte pages: thread 1 creates a
two-page area and writes `A` at the start of each page. -/
def scenario_written : List Call :=
  [Call.create 1 8192, Call.write 1 0 1 (fun _ => 65), Call.write 1 4096 1 (fun _ => 65)]

/-- The state after `scenario_written`. -/
def state_written : State := (run 4096 init scenario_written).getD init

/-- Scenario S2 up to the clone: thread 2 clones the area of thread 1. -/
def scenario_shared : List Call := scenario_written ++ [Call.clone 2 1]

/-- The state after `scenario_shared`. -/
def state_shared : State := ((tls_clone state_written 2 1).getD (0, init)).2

/-- The state after thread 2 then writes `B` at offset 0 of its clone. -/
def state_diverged : State :=
  ((tls_write 4096 state_shared 2 0 1 (fun _ => 66)).getD (0, init)).2

/-- The state after one `tls_create(100)` by thread 7. -/
def state_small : State := (tls_create 4096 init 7 100).2

/-- The state after one `tls_create(4294967295)` by thread 7. -/
def state_huge : State := (tls_create 4096 init 7 4294967295).2

/-- The page array of the area reaches its declared size. -/
def covers (ps : Nat) (t : TLS) : Prop := t.size ≤ t.pages.length * ps

/-- The call is a `tls_write`. -/
def Call.is_write : Call → Prop
  | Call.write _ _ _ _ => True
  | _ => False

/-- What the signal handler `tls_page_fault` ends with: the diagnostic naming the
thread and page index of the area found, followed by `pthread_exit(NULL)`, which
terminates the thread that took the fault; or the default handlers restored and
the signal raised again. -/
inductive FaultAction where
  | exit_thread (tid page_index : Nat)
  | reraise
deriving DecidableEq, Repr

/-- The expression `((unsigned long) si->si_addr) & ~(PAGE_SIZE - 1)`: the
complement of the `int` value `PAGE_SIZE - 1` converts to the 64-bit value
`2 ^ 64 - PAGE_SIZE`. -/
def fault_page (ps si_addr : Nat) : Nat :=
  (si_addr % 2 ^ 64) &&& ((2 ^ 64 - ps) % 2 ^ 64)

/-- The inner loop of `tls_page_fault` over `pages[j]` of one area, `n`
iterations to go: the first page index whose address is `fault_addr`. -/
def fault_scan_pages (s : State) (t : TLS) (fault_addr : Nat) : Nat → Nat → Option (Option Nat)
  | _, 0 => some none
  | j, n + 1 =>
    match t.pages[j]? with
    | none => none
    | some p =>
      match s.heap p with
      | none => none
      | some pg =>
        if pg.address = fault_addr then some (some j)
        else fault_scan_pages s t fault_addr (j + 1) n

/-- The outer loop of `tls_page_fault` over the registry slots, `n` slots to go. -/
def fault_scan (s : State) (fault_addr : Nat) : Nat → Nat → Option FaultAction
  | _, 0 => some FaultAction.reraise
  | i, n + 1 =>
    match s.thread_storage i with
    | none => fault_scan s fault_addr (i + 1) n
    | some t =>
      match fault_scan_pages s t fault_addr 0 t.num_pages.toNat with
      | none => none
      | some (some j) => some (FaultAction.exit_thread t.tid j)
      | some none => fault_scan s fault_addr (i + 1) n

/-- The signal handler `tls_page_fault` for a fault at address `si_addr`: what
it ends with, and the program state of the library when it does, to which the
handler never writes. -/
def tls_page_fault (ps : Nat) (s : State) (si_addr : Nat) : Option (FaultAction × State) :=
  (fault_scan s (fault_page ps si_addr) 0 MAX_THREADS).map (fun a => (a, s))

/-- The value `t->pages[j]->address`, when the array entry and the page object exist. -/
def entry_address (s : State) (t : TLS) (j : Nat) : Option Nat :=
  match t.pages[j]? with
  | none => none
  | some p => (s.heap p).map page.address

/-- The value `thread_storage[i]->pages[j]->address`. -/
def page_address (s : State) (i j : Nat) : Option Nat :=
  match s.thread_storage i with
  | none => none
  | some t => entry_address s t j

/-- What thread 2 gets from `tls_read(0, 1, ..)` on the shared page of scenario S2. -/
def read_shared : Int × (Nat → Nat) × State :=
  (tls_read 4096 state_shared 2 0 1 (fun _ => 0)).getD (0, fun _ => 0, init)

/-- Return codes of a sequence of `tls_create` calls, one per pair of calling
thread and size, and the state after the last of them. -/
def create_all (ps : Nat) : State → List (Nat × Nat) → List Int × State
  | s, [] => ([], s)
  | s, c :: rest =>
    let r := tls_create ps s c.1 c.2
    let q := create_all ps r.2 rest
    (r.1 :: q.1, q.2)

/-- Threads 0 to 127 each call `tls_create(1)`. -/
def scenario_full : List (Nat × Nat) := (List.range 128).map (fun tid => (tid, 1))

/-- A sequence of `tls_write` calls, one per tuple of calling thread, offset,
length and buffer, each of which returns `SUCCESS`; the state after the last. -/
def write_all (ps : Nat) : State → List (Nat × Nat × Nat × (Nat → Nat)) → Option State
  | s, [] => some s
  | s, w :: rest =>
    match tls_write ps s w.1 w.2.1 w.2.2.1 w.2.2.2 with
    | some (r, s1) => if r = SUCCESS then write_all ps s1 rest else none
    | none => none

/-- The area in slot `i` has at page index `k` a page object with `ref_count` 1. -/
def private_at (s : State) (i k : Nat) : Prop :=
  ∃ t p pg, s.thread_storage i = some t ∧ t.pages[k]? = some p ∧
    s.heap p = some pg ∧ pg.ref_count = 1

/-- Threads 0 to 128 each call `tls_create(1)`. -/
def scenario_overfull : List (Nat × Nat) := (List.range 129).map (fun tid => (tid, 1))

end Cow

/-!
# User-level threads (`src/multithreading/threads.c`, `threads.h`)

The synchronisation objects and the saved register buffer.  A barrier or
mutex variable holds in its `__align` field the address of a heap object; the heap
of these objects is explicit.  `SIGALRM` is either blocked or not: `lock()`
blocks it, `unlock()` unblocks it, and the preemption handler `schedule` can
only be entered by a timer signal while it is not blocked.
-/

namespace Threads

/-- The constant `MAX_THREADS` of `threads.c`. -/
def MAX_THREADS : Nat := 128

/-- The host constant `PTHREAD_BARRIER_SERIAL_THREAD`. -/
def PTHREAD_BARRIER_SERIAL_THREAD : Int := -1

/-- The host constant `EINVAL`. -/
def EINVAL : Int := 22

/-- The C `struct barrier_info`. -/
structure barrier_info where
  current_count : Int
  max_count : Int
  exited : Int
deriving DecidableEq, Repr

/-- The heap of `struct barrier_info` objects and the host allocator. -/
structure BarrierHeap where
  objects : Nat → Option barrier_info
  next_ptr : Nat

/-- A heap without barrier objects; address 0 is `NULL`. -/
def BarrierHeap.empty : BarrierHeap where
  objects := fun _ => none
  next_ptr := 1

/-- The function `pthread_barrier_init`; `barrier` is the value of
`barrier->__align` before the call, `count` an `unsigned`.  The result carries
the return code, the heap and the value of `barrier->__align` after the call. -/
def pthread_barrier_init (h : BarrierHeap) (barrier : Nat) (count : Nat) :
    Int × BarrierHeap × Nat :=
  if Cow.to_uint count = 0 then (EINVAL, h, barrier)
  else
    (0,
      { objects := Function.update h.objects h.next_ptr
          (some { max_count := Cow.to_int (Cow.to_uint count), current_count := 0, exited := 0 })
        next_ptr := h.next_ptr + 1 },
      h.next_ptr)

/-- The function `pthread_barrier_destroy`; `none` when `barrier->__align` does
not point to an object. -/
def pthread_barrier_destroy (h : BarrierHeap) (barrier : Nat) :
    Option (Int × BarrierHeap × Nat) :=
  match h.objects barrier with
  | none => none
  | some _ => some (0, { h with objects := Function.update h.objects barrier none }, 0)

/-- How a call of `pthread_barrier_wait` goes on after its arrival has been
counted: it returns a value to its caller, or it yields through `schedule(0)`
inside the waiting loop. -/
inductive WaitOutcome where
  | returned (is_serial : Int)
  | yielded
deriving DecidableEq, Repr

/-- The function `pthread_barrier_wait` up to its first return or yield;
`new_barrier` is the value of `barrier->__align`.  The loop condition is
`!new_barrier && (current_count < max_count)`. -/
def pthread_barrier_wait (h : BarrierHeap) (new_barrier : Nat) :
    Option (WaitOutcome × BarrierHeap) :=
  match h.objects new_barrier with
  | none => none
  | some b =>
    let b1 : barrier_info :=
      if b.exited = 1 then { b with current_count := 0, exited := 0 } else b
    let b2 : barrier_info := { b1 with current_count := b1.current_count + 1 }
    let is_serial : Int :=
      if b2.current_count ≥ b2.max_count then PTHREAD_BARRIER_SERIAL_THREAD else 0
    if new_barrier = 0 ∧ b2.current_count < b2.max_count then
      some (WaitOutcome.yielded, { h with objects := Function.update h.objects new_barrier (some b2) })
    else
      some (WaitOutcome.returned is_serial,
        { h with objects := Function.update h.objects new_barrier (some { b2 with exited := 1 }) })

/-- The outcomes of `n` successive calls of `pthread_barrier_wait` on one barrier. -/
def wait_all (new_barrier : Nat) : Nat → BarrierHeap → Option (List WaitOutcome × BarrierHeap)
  | 0, h => some ([], h)
  | n + 1, h =>
    match pthread_barrier_wait h new_barrier with
    | none => none
    | some (r, h1) =>
      match wait_all new_barrier n h1 with
      | none => none
      | some (rs, h2) => some (r :: rs, h2)

/-- The C `struct mutex_info`. -/
structure mutex_info where
  is_locked : Bool
  is_init : Bool
deriving DecidableEq, Repr

/-- Where a thread stands with respect to the mutex operations: outside them,
or before one of the statements of `pthread_mutex_lock` or
`pthread_mutex_unlock`. -/
inductive Pc where
  | outside
  | lock_mask
  | lock_test
  | lock_unmask
  | lock_yield
  | lock_set
  | lock_return
  | unlock_mask
  | unlock_clear
  | unlock_return
deriving DecidableEq, Repr

/-- Two threads using one mutex: the mutex object, whether `SIGALRM` is
blocked, the running thread, the program point of each thread, which threads
have returned from `pthread_mutex_lock` and not yet called
`pthread_mutex_unlock`, how many writes to the mutex object were done while
`SIGALRM` was not blocked, and the value returned by the last call that each
thread completed. -/
structure MutexSys where
  mutex : mutex_info
  masked : Bool
  running : Nat
  pc : Nat → Pc
  holding : Nat → Bool
  unmasked_writes : Nat
  last_return : Nat → Option Int

/-- One move of the system. -/
inductive Move where
  | call_lock
  | call_unlock
  | exec
  | switch_to (j : Nat)

/-- The mutex after `pthread_mutex_init`: the fields set by the function. -/
def pthread_mutex_init : Int × mutex_info := (0, { is_locked := false, is_init := true })

/-- The system after `pthread_mutex_init`, thread 0 running outside the library. -/
def MutexSys.init : MutexSys where
  mutex := pthread_mutex_init.2
  masked := false
  running := 0
  pc := fun _ => Pc.outside
  holding := fun _ => false
  unmasked_writes := 0
  last_return := fun _ => none

/-- One move: the running thread calls an operation, executes the statement it
stands before (`lock()`, the loop test, `unlock()`, the assignment, the
return), or the processor goes to thread `j`, either because the running
thread stands before `schedule(0)` or because the timer signal is delivered,
which needs `SIGALRM` not to be blocked.  A thread comes back from
`schedule(0)` at the loop test. -/
def MutexSys.move (s : MutexSys) : Move → Option MutexSys
  | Move.call_lock =>
    match s.pc s.running with
    | Pc.outside => some { s with pc := Function.update s.pc s.running Pc.lock_mask }
    | _ => none
  | Move.call_unlock =>
    match s.pc s.running with
    | Pc.outside =>
      some { s with
        pc := Function.update s.pc s.running Pc.unlock_mask
        holding := Function.update s.holding s.running false }
    | _ => none
  | Move.exec =>
    match s.pc s.running with
    | Pc.outside => none
    | Pc.lock_mask =>
      some { s with masked := true, pc := Function.update s.pc s.running Pc.lock_test }
    | Pc.lock_test =>
      some { s with
        pc := Function.update s.pc s.running
          (if s.mutex.is_locked then Pc.lock_unmask else Pc.lock_set) }
    | Pc.lock_unmask =>
      some { s with masked := false, pc := Function.update s.pc s.running Pc.lock_yield }
    | Pc.lock_yield => none
    | Pc.lock_set =>
      some { s with
        mutex := { s.mutex with is_locked := true }
        unmasked_writes := if s.masked then s.unmasked_writes else s.unmasked_writes + 1
        pc := Function.update s.pc s.running Pc.lock_return }
    | Pc.lock_return =>
      some { s with
        masked := false
        pc := Function.update s.pc s.running Pc.outside
        holding := Function.update s.holding s.running true
        last_return := Function.update s.last_return s.running (some 0) }
    | Pc.unlock_mask =>
      some { s with masked := true, pc := Function.update s.pc s.running Pc.unlock_clear }
    | Pc.unlock_clear =>
      some { s with
        mutex := { s.mutex with is_locked := false }
        unmasked_writes := if s.masked then s.unmasked_writes else s.unmasked_writes + 1
        pc := Function.update s.pc s.running Pc.unlock_return }
    | Pc.unlock_return =>
      some { s with
        masked := false
        pc := Function.update s.pc s.running Pc.outside
        last_return := Function.update s.last_return s.running (some 0) }
  | Move.switch_to j =>
    match s.pc s.running with
    | Pc.lock_yield =>
      some { s with pc := Function.update s.pc s.running Pc.lock_test, running := j }
    | _ => if s.masked then none else some { s with running := j }

/-- A sequence of moves. -/
def MutexSys.run : MutexSys → List Move → Option MutexSys
  | s, [] => some s
  | s, m :: ms =>
    match s.move m with
    | none => none
    | some s1 => s1.run ms

/-- Thread 1 takes the mutex; thread 0 finds it locked and yields; thread 1
releases the mutex; thread 0 comes back from `schedule(0)`, sees the mutex
unlocked and is preempted before its assignment; thread 1 takes the mutex
again; thread 0 then performs its assignment and returns as well. -/
def race : List Move :=
  [Move.switch_to 1, Move.call_lock, Move.exec, Move.exec, Move.exec, Move.exec,
    Move.switch_to 0, Move.call_lock, Move.exec, Move.exec, Move.exec,
    Move.switch_to 1, Move.call_unlock, Move.exec, Move.exec, Move.exec,
    Move.switch_to 0, Move.exec,
    Move.switch_to 1, Move.call_lock, Move.exec, Move.exec, Move.exec, Move.exec,
    Move.switch_to 0, Move.exec, Move.exec]

/-- Thread 1 holds the mutex; thread 0 calls `pthread_mutex_lock`, finds the
mutex locked and yields; thread 1 releases the mutex; thread 0 comes back from
`schedule(0)`, tests the mutex and sets it. -/
def lock_after_yield : List Move :=
  [Move.switch_to 1, Move.call_lock, Move.exec, Move.exec, Move.exec, Move.exec,
    Move.switch_to 0, Move.call_lock, Move.exec, Move.exec, Move.exec,
    Move.switch_to 1, Move.call_unlock, Move.exec, Move.exec, Move.exec,
    Move.switch_to 0, Move.exec, Move.exec]

/-- The scenario of `test_barrier_reininitialize.c` with 5 and then 4 threads:
a barrier initialised with count 5 is passed by five callers, destroyed,
initialised again with count 4 and passed by four callers.  The result is the
list of outcomes of the nine calls of `pthread_barrier_wait`. -/
def scenario_reinit : Option (List WaitOutcome) :=
  let r1 := pthread_barrier_init BarrierHeap.empty 0 5
  match wait_all r1.2.2 5 r1.2.1 with
  | none => none
  | some (rs1, h1) =>
    match pthread_barrier_destroy h1 r1.2.2 with
    | none => none
    | some (_, h2, b2) =>
      let r3 := pthread_barrier_init h2 b2 4
      match wait_all r3.2.2 4 r3.2.1 with
      | none => none
      | some (rs2, _) => some (rs1 ++ rs2)

/-- The 64-bit rotation `rolq $0x11`. -/
def rolq (x : Nat) : Nat := (x % 2 ^ 64 * 2 ^ 17) % 2 ^ 64 + x % 2 ^ 64 / 2 ^ 47

/-- The 64-bit rotation `rorq $0x11`. -/
def rorq (x : Nat) : Nat := x % 2 ^ 64 / 2 ^ 17 + (x % 2 ^ 17) * 2 ^ 47

/-- The function `_ptr_mangle`; `guard` is the 64-bit word at `%fs:0x30`. -/
def _ptr_mangle (guard p : Nat) : Nat := rolq ((p % 2 ^ 64) ^^^ (guard % 2 ^ 64))

/-- The function `_ptr_demangle`. -/
def _ptr_demangle (guard p : Nat) : Nat := rorq p ^^^ (guard % 2 ^ 64)

/-- The C `enum JBL`. -/
inductive JBL where
  | JBL_RBX
  | JBL_RBP
  | JBL_R12
  | JBL_R13
  | JBL_R14
  | JBL_R15
  | JBL_RSP
  | JBL_PC
deriving DecidableEq, Repr

/-- The value of an enumerator of `enum JBL`. -/
def JBL.val : JBL → Nat
  | JBL.JBL_RBX => 0
  | JBL.JBL_RBP => 1
  | JBL.JBL_R12 => 2
  | JBL.JBL_R13 => 3
  | JBL.JBL_R14 => 4
  | JBL.JBL_R15 => 5
  | JBL.JBL_RSP => 6
  | JBL.JBL_PC => 7

/-- The function `set_reg` on the array `__jmpbuf` of a `jmp_buf`. -/
def set_reg (guard : Nat) (buf : Nat → Nat) (reg : JBL) (val : Nat) : Nat → Nat :=
  match reg with
  | JBL.JBL_RBX | JBL.JBL_RBP | JBL.JBL_RSP | JBL.JBL_PC =>
    Function.update buf reg.val (_ptr_mangle guard val)
  | JBL.JBL_R12 | JBL.JBL_R13 | JBL.JBL_R14 | JBL.JBL_R15 =>
    Function.update buf reg.val (val % 2 ^ 64)

/-- The function `get_reg`. -/
def get_reg (guard : Nat) (buf : Nat → Nat) (reg : JBL) : Nat :=
  match reg with
  | JBL.JBL_RBX | JBL.JBL_RBP | JBL.JBL_RSP | JBL.JBL_PC => _ptr_demangle guard (buf reg.val)
  | JBL.JBL_R12 | JBL.JBL_R13 | JBL.JBL_R14 | JBL.JBL_R15 => buf reg.val

/-! ### The ring of thread control blocks

A thread control block is a heap object; `current_thread`, `next` and `prev`
hold addresses.  Objects are never freed by the library.  The register buffer
and the stack of a thread do not influence which thread the library selects;
they are not part of the state.  A call that dereferences an address without
object, or that ends the process, has result `none`. -/

/-- The C `enum thread_status`. -/
inductive thread_status where
  | TS_EXITED
  | TS_RUNNING
  | TS_READY
deriving DecidableEq, Repr

/-- The C `struct thread_control_block`. -/
structure thread_control_block where
  ID : Nat
  status : thread_status
  retval : Nat
  next : Nat
  prev : Nat
deriving DecidableEq, Repr

/-- The global variables of `threads.c`, the static flag of `pthread_create`,
and the heap of control blocks with the host allocator (`current_thread` is
`none` for `NULL`). -/
structure Sched where
  tcb : Nat → Option thread_control_block
  next_ptr : Nat
  current_thread : Option Nat
  num_running_threads : Int
  num_thread_total : Nat
  is_first_call : Bool

/-- The state at program start. -/
def Sched.init : Sched where
  tcb := fun _ => none
  next_ptr := 1
  current_thread := none
  num_running_threads := 0
  num_thread_total := 0
  is_first_call := true

/-- An assignment to fields of the object at address `p`. -/
def Sched.assign (s : Sched) (p : Nat) (f : thread_control_block → thread_control_block) :
    Option Sched :=
  match s.tcb p with
  | none => none
  | some t => some { s with tcb := Function.update s.tcb p (some (f t)) }

/-- The function `scheduler_init`: the control block of the main thread. -/
def scheduler_init (s : Sched) : Sched :=
  { s with
    tcb := Function.update s.tcb s.next_ptr
      (some
        { ID := s.num_thread_total, status := thread_status.TS_READY, retval := 0,
          next := s.next_ptr, prev := s.next_ptr })
    next_ptr := s.next_ptr + 1
    current_thread := some s.next_ptr
    num_running_threads := s.num_running_threads + 1
    num_thread_total := s.num_thread_total + 1 }

/-- How a call of `schedule` ends: with `longjmp` into the thread that was
selected, or with the `return` taken when `i > MAX_THREADS`. -/
inductive Resume where
  | switched
  | returned
deriving DecidableEq, Repr

/-- The search loop of `schedule` from control block `c`, with `n` further
advances allowed before `i > MAX_THREADS`: the control block found with status
`TS_READY`, or the control block at which the function returns. -/
def schedule_scan (tcb : Nat → Option thread_control_block) :
    Nat → Nat → Option (Resume × Nat)
  | c, 0 =>
    match tcb c with
    | none => none
    | some t =>
      if t.status = thread_status.TS_READY then some (Resume.switched, c)
      else some (Resume.returned, t.next)
  | c, n + 1 =>
    match tcb c with
    | none => none
    | some t =>
      if t.status = thread_status.TS_READY then some (Resume.switched, c)
      else schedule_scan tcb t.next n

/-- The first statement of `schedule`: the control block `t` at the cursor `cur`
is marked `TS_READY` unless it is `TS_EXITED`. -/
def schedule_mark (s : Sched) (cur : Nat) (t : thread_control_block) : Sched :=
  if t.status ≠ thread_status.TS_EXITED then
    { s with tcb := Function.update s.tcb cur (some { t with status := thread_status.TS_READY }) }
  else s

/-- The function `schedule`, called by the thread that is running (from the
timer signal or directly). -/
def schedule (s : Sched) : Option (Resume × Sched) :=
  match s.current_thread with
  | none => none
  | some cur =>
    match s.tcb cur with
    | none => none
    | some t =>
      match schedule_scan (schedule_mark s cur t).tcb t.next MAX_THREADS with
      | none => none
      | some (Resume.returned, c) =>
        some (Resume.returned, { schedule_mark s cur t with current_thread := some c })
      | some (Resume.switched, c) =>
        match (schedule_mark s cur t).tcb c with
        | none => none
        | some u =>
          some (Resume.switched,
            { schedule_mark s cur t with
              tcb := Function.update (schedule_mark s cur t).tcb c
                (some { u with status := thread_status.TS_RUNNING })
              current_thread := some c })

/-- The branch `num_running_threads < MAX_THREADS` of `pthread_create`: the new
control block is allocated, linked just before `current_thread`, given its
identity and made ready. -/
def pthread_create_link (s0 : Sched) : Option (Int × Sched × Option Nat) :=
  match s0.current_thread with
  | none => none
  | some cur =>
    let new := s0.next_ptr
    let s1 : Sched :=
      { s0 with
        tcb := Function.update s0.tcb new
          (some { ID := 0, status := thread_status.TS_EXITED, retval := 0, next := 0, prev := 0 })
        next_ptr := s0.next_ptr + 1
        num_running_threads := s0.num_running_threads + 1 }
    match s1.tcb cur with
    | none => none
    | some c =>
      match s1.assign c.prev (fun t => { t with next := new }) with
      | none => none
      | some s2 =>
        match s2.tcb cur with
        | none => none
        | some c2 =>
          match s2.assign new (fun t => { t with prev := c2.prev }) with
          | none => none
          | some s3 =>
            match s3.assign cur (fun t => { t with prev := new }) with
            | none => none
            | some s4 =>
              match s4.assign new
                  (fun t =>
                    { t with next := cur, ID := s4.num_thread_total,
                             status := thread_status.TS_READY }) with
              | none => none
              | some s5 =>
                some (0, { s5 with num_thread_total := s5.num_thread_total + 1 },
                  some s4.num_thread_total)

/-- The function `pthread_create`: return code, state, and the value stored
through `thread` when one is stored. -/
def pthread_create (s : Sched) : Option (Int × Sched × Option Nat) :=
  let s0 : Sched :=
    if s.is_first_call then scheduler_init { s with is_first_call := false } else s
  if s0.num_running_threads < MAX_THREADS then pthread_create_link s0
  else some (-1, s0, none)

/-- The function `pthread_exit`: `some (some s)` when another thread goes on in
state `s`, `some none` when the function reaches `exit(0)`, which ends the
process. -/
def pthread_exit (s : Sched) (value_ptr : Nat) : Option (Option Sched) :=
  match s.current_thread with
  | none => none
  | some cur =>
    match
      ({ s with num_running_threads := s.num_running_threads - 1 } : Sched).assign cur
        (fun t => { t with status := thread_status.TS_EXITED, retval := value_ptr }) with
    | none => none
    | some s1 =>
      match schedule s1 with
      | none => none
      | some (Resume.switched, s2) => some (some s2)
      | some (Resume.returned, _) => some none

/-- The function `pthread_self`. -/
def pthread_self (s : Sched) : Option Nat :=
  match s.current_thread with
  | none => none
  | some cur => (s.tcb cur).map thread_control_block.ID

/-- The search loop `while (temp->ID != thread) temp = temp->next` of
`pthread_join`, with a bound on the number of iterations: the control block
found, or `none` when the bound is reached (or an address has no object). -/
def join_find (tcb : Nat → Option thread_control_block) (thread : Nat) :
    Nat → Nat → Option Nat
  | _, 0 => none
  | temp, fuel + 1 =>
    match tcb temp with
    | none => none
    | some t => if t.ID = thread then some temp else join_find tcb thread t.next fuel

/-- How a call of `pthread_join` goes on once its target is found: it returns
its code and stores the target's `retval` through `retval`, or it calls
`schedule` because the target has not exited. -/
inductive JoinOutcome where
  | returned (code : Int) (stored : Nat)
  | yielded (r : Resume)
deriving DecidableEq, Repr

/-- The waiting loop of `pthread_join` at control block `temp`, up to its
return or its next call of `schedule`. -/
def join_wait (s : Sched) (temp : Nat) : Option (JoinOutcome × Sched) :=
  match s.tcb temp with
  | none => none
  | some t =>
    if t.status ≠ thread_status.TS_EXITED then
      match schedule s with
      | none => none
      | some (r, s1) => some (JoinOutcome.yielded r, s1)
    else some (JoinOutcome.returned 0 t.retval, s)

/-- The function `pthread_join` with a non-null `retval`, up to its return or
its first call of `schedule`; `fuel` bounds the search loop. -/
def pthread_join (fuel : Nat) (s : Sched) (thread : Nat) : Option (JoinOutcome × Sched) :=
  match s.current_thread with
  | none => none
  | some cur =>
    match join_find s.tcb thread cur fuel with
    | none => none
    | some temp => join_wait s temp

/-- One step of the program as seen by the library: a call of `pthread_create`,
an entry into `schedule` (timer signal or yield), a call of `pthread_exit`, or a
call of `pthread_join` up to its return or its first yield. -/
inductive Op where
  | create
  | sched
  | exit (value_ptr : Nat)
  | join (thread : Nat)

/-- The state after one step that does not end the process; the search of
`pthread_join` is given as many iterations as there are control blocks. -/
def Sched.step (s : Sched) : Op → Option Sched
  | Op.create => (pthread_create s).map (fun r => r.2.1)
  | Op.sched => (schedule s).map (fun r => r.2)
  | Op.exit v => (pthread_exit s v).bind (fun r => r)
  | Op.join thread => (pthread_join s.next_ptr s thread).map (fun r => r.2)

/-- The state after a sequence of steps. -/
def Sched.run : Sched → List Op → Option Sched
  | s, [] => some s
  | s, o :: os =>
    match s.step o with
    | none => none
    | some s1 => s1.run os

/-- States reachable from program start. -/
def Sched.Reachable (s : Sched) : Prop := ∃ ops : List Op, Sched.init.run ops = some s

/-- Number of control blocks whose status is not `TS_EXITED`. -/
def live_count (s : Sched) : Nat :=
  ((List.range s.next_ptr).filter
    (fun p => (s.tcb p).any (fun t => t.status ≠ thread_status.TS_EXITED))).length

/-- Number of control blocks whose status is `TS_RUNNING`. -/
def running_count (s : Sched) : Nat :=
  ((List.range s.next_ptr).filter
    (fun p => (s.tcb p).any (fun t => t.status = thread_status.TS_RUNNING))).length

/-- The main thread creates 127 threads, which run and exit one after the
other, thread `k` with value `k`; it creates `m` more, which run and exit; then
it creates one more thread.  The ring then holds the main thread, `127 + m`
exited threads and, just before the main thread, one thread that is ready. -/
def ring_ops (m : Nat) : List Op :=
  List.replicate 127 Op.create ++ [Op.sched] ++
    (List.range 127).map (fun k => Op.exit (k + 1)) ++
    List.replicate m Op.create ++ [Op.sched] ++
    (List.range m).map (fun k => Op.exit (k + 128)) ++ [Op.create]

/-- The state after `ring_ops 2`: the main thread is running, 129 exited
threads follow it in the ring, then the ready thread. -/
def long_ring : Sched := (Sched.init.run (ring_ops 2)).getD Sched.init

/-- The state after `ring_ops 3`, a timer signal taken by the main thread, and
`pthread_exit(999)` called by the main thread. -/
def after_stray_exit : Sched :=
  (Sched.init.run (ring_ops 3 ++ [Op.sched, Op.exit 999])).getD Sched.init

/-- The state `after_stray_exit` followed by 126 calls of `pthread_create`. -/
def crowded : Sched :=
  (Sched.init.run (ring_ops 3 ++ [Op.sched, Op.exit 999] ++ List.replicate 126 Op.create)).getD
    Sched.init

/-- The identities stored through `thread` by the calls of `pthread_create` in a
sequence of steps, in the order of the calls, and the state after the steps. -/
def Sched.run_ids : Sched → List Op → Option (List Nat × Sched)
  | s, [] => some ([], s)
  | s, Op.create :: os =>
    match pthread_create s with
    | none => none
    | some (_, s1, id) =>
      match s1.run_ids os with
      | none => none
      | some (ids, s2) => some (id.toList ++ ids, s2)
  | s, Op.sched :: os =>
    match s.step Op.sched with
    | none => none
    | some s1 => s1.run_ids os
  | s, Op.exit v :: os =>
    match s.step (Op.exit v) with
    | none => none
    | some s1 => s1.run_ids os
  | s, Op.join thread :: os =>
    match s.step (Op.join thread) with
    | none => none
    | some s1 => s1.run_ids os

/-- Consistency of the control blocks: the identity of a block is its
allocation number, `next` and `prev` of a block hold addresses of blocks, once
`scheduler_init` has run the cursor and the block of the main thread (at the
first address handed out) exist, and before that nothing is allocated. -/
structure RingInv (s : Sched) : Prop where
  ids : ∀ p t, s.tcb p = some t → t.ID + 1 = p ∧ p < s.next_ptr
  total : s.next_ptr = s.num_thread_total + 1
  closed : ∀ p t, s.tcb p = some t → (s.tcb t.next).isSome ∧ (s.tcb t.prev).isSome
  cursor : ∀ c, s.current_thread = some c → (s.tcb c).isSome
  started : s.is_first_call = false → s.current_thread.isSome ∧ (s.tcb 1).isSome
  fresh : s.is_first_call = true → s.next_ptr = 1 ∧ s.current_thread = none

/-- The state after the first call of `pthread_create`. -/
def two_threads : Sched := ((pthread_create Sched.init).map (fun r => r.2.1)).getD Sched.init

/-- Identities stored and state after: two calls of `pthread_create`, an entry
into `schedule`, `pthread_exit(5)` by the thread then running, and a third call
of `pthread_create`. -/
def three_created : List Nat × Sched :=
  (Sched.init.run_ids [Op.create, Op.create, Op.sched, Op.exit 5, Op.create]).getD
    ([], Sched.init)

/-- In the ring, control block `b` comes right after control block `a`:
`a->next` is `b` and `b->prev` is `a`. -/
def linked (tcb : Nat → Option thread_control_block) (a b : Nat) : Prop :=
  (tcb a).map (fun t => t.next) = some b ∧ (tcb b).map (fun t => t.prev) = some a

/-- The ring read from the cursor: `current_thread` is `c`; following `next`
from `c` one meets the control blocks of `rest` in order and comes back to `c`,
`prev` leading the other way; these are all the control blocks there are, each
met once; and no control block other than the one at the cursor has status
`TS_RUNNING`. -/
structure RingList (s : Sched) (c : Nat) (rest : List Nat) : Prop where
  cursor : s.current_thread = some c
  nodup : (c :: rest).Nodup
  all : ∀ p, (s.tcb p).isSome ↔ p ∈ c :: rest
  chain : List.Chain (linked s.tcb) c (rest ++ [c])
  idle : ∀ p t, p ∈ rest → s.tcb p = some t → t.status ≠ thread_status.TS_RUNNING

/-- The state after `n` consecutive invocations of `schedule`, each of which
ends with the jump into the thread it selected. -/
def schedule_n : Nat → Sched → Option Sched
  | 0, s => some s
  | n + 1, s =>
    match schedule s with
    | some (Resume.switched, s1) => schedule_n n s1
    | _ => none

/-- The identities stored by `m` successive calls of `pthread_create` that all
return 0, and the state after them. -/
def create_n : Nat → Sched → Option (List Nat × Sched)
  | 0, s => some ([], s)
  | m + 1, s =>
    match pthread_create s with
    | some (r, s1, some id) =>
      if r = 0 then (create_n m s1).map (fun x => (id :: x.1, x.2)) else none
    | _ => none

/-- The state after the first call of `pthread_create` followed by two more
calls. -/
def four_threads : Sched := ((create_n 2 two_threads).getD ([], two_threads)).2

end Threads

/-!
# The file system (`src/fs/fs.c`)

The global variables of `fs.c` form the state `FS`, together with the simulated
disk.  Values of type `int` are integers kept in the 32-bit range by `to_int`,
values of type `size_t` are naturals below 2^64, a buffer is a function from
byte offsets to bytes, and a file name is the list of its characters (each in
1..255) without the terminating NUL.  A function returns `none` where the code
indexes an array outside its bounds.  The byte images used by `memcpy` follow
the layout of the structures on x86-64 (`int` 4 bytes, little-endian, aligned
to 4).
-/

namespace Fs

/-- The constant `DISK_BLOCKS` of `disk.h`. -/
def DISK_BLOCKS : Nat := 8192

/-- The constant `BLOCK_SIZE` of `disk.h`. -/
def BLOCK_SIZE : Nat := 4096

/-- The constant `MAX_FILES`. -/
def MAX_FILES : Nat := 64

/-- The constant `MAX_FILE_DESCRIPTORS`. -/
def MAX_FILE_DESCRIPTORS : Nat := 32

/-- The constant `MAX_FILE_NAME`. -/
def MAX_FILE_NAME : Nat := 15

/-- The constant `MAX_FILE_SIZE`. -/
def MAX_FILE_SIZE : Nat := 1024 * 1024

/-- Conversion of an integer to the type `int`. -/
def to_int (v : Int) : Int := (v + 2147483648) % 4294967296 - 2147483648

/-- Conversion of an integer to the type `size_t`. -/
def to_size_t (v : Int) : Nat := (v % 18446744073709551616).toNat

/-- Modelled from the spec: the simulated disk.  The file `disk.c` is not part
of the sources; `disk.h` declares its functions and the constants `DISK_BLOCKS`
and `BLOCK_SIZE`.  The disk holds 8192 blocks of 4096 bytes; `active` tells
whether it is open. -/
structure Disk where
  active : Bool
  data : Nat → Nat → Nat

/-- Modelled from the spec: `make_disk` of the absent `disk.c` creates a disk
whose blocks hold zero bytes. -/
def make_disk (d : Disk) : Int × Disk := (0, { d with data := fun _ _ => 0 })

/-- Modelled from the spec: `open_disk` of the absent `disk.c` opens the disk
and fails when a disk is open already. -/
def open_disk (d : Disk) : Int × Disk :=
  if d.active then (-1, d) else (0, { d with active := true })

/-- Modelled from the spec: `close_disk` of the absent `disk.c` closes the disk
and fails when no disk is open. -/
def close_disk (d : Disk) : Int × Disk :=
  if d.active then (0, { d with active := false }) else (-1, d)

/-- Modelled from the spec: `block_write` of the absent `disk.c` stores the
buffer as the content of the block; it fails, storing nothing, when the disk is
not open or the block number is not in `0 .. DISK_BLOCKS - 1`. -/
def block_write (d : Disk) (block : Int) (buf : Nat → Nat) : Int × Disk :=
  if d.active = false ∨ block < 0 ∨ (DISK_BLOCKS : Int) ≤ block then (-1, d)
  else (0, { d with data := Function.update d.data block.toNat buf })

/-- Modelled from the spec: `block_read` of the absent `disk.c` copies the
content of the block into the buffer; it fails, leaving the buffer as it is,
when the disk is not open or the block number is not in
`0 .. DISK_BLOCKS - 1`. -/
def block_read (d : Disk) (block : Int) (buf : Nat → Nat) : Int × (Nat → Nat) :=
  if d.active = false ∨ block < 0 ∨ (DISK_BLOCKS : Int) ≤ block then (-1, buf)
  else (0, d.data block.toNat)

/-- The structure `super_block`; `usage_bitmap` gives the byte at each index of
the array. -/
structure super_block where
  usage_bitmap : Nat → Nat
  directory_offset : Int
  directory_size : Int
  inode_table_offset : Int
  inode_table_size : Int
  data_offset : Int
  data_size : Int
  is_mounted : Bool

/-- The structure `inode`. -/
structure inode where
  ref_count : Int
  file_size : Int
  blocks : Nat → Int

/-- The structure `directory_file`: `name` gives the 15 bytes of the array
`name` and, at index 15, the padding byte between it and `inode_index`. -/
structure directory_file where
  name : Nat → Nat
  inode_index : Int

/-- The structure `file_descriptor`. -/
structure file_descriptor where
  inode_index : Int
  file_pointer : Int

/-- The global variables of `fs.c` and the disk. -/
structure FS where
  disk : Disk
  file_descriptors : Nat → file_descriptor
  disk_super_block : super_block
  inode_table : Nat → inode
  directory : Nat → directory_file

/-- The state at program start: every global variable is zero and no disk
is open. -/
def FS.start : FS where
  disk := { active := false, data := fun _ _ => 0 }
  file_descriptors := fun _ => { inode_index := 0, file_pointer := 0 }
  disk_super_block :=
    { usage_bitmap := fun _ => 0, directory_offset := 0, directory_size := 0,
      inode_table_offset := 0, inode_table_size := 0, data_offset := 0, data_size := 0,
      is_mounted := false }
  inode_table := fun _ => { ref_count := 0, file_size := 0, blocks := fun _ => 0 }
  directory := fun _ => { name := fun _ => 0, inode_index := 0 }

/-- Byte `k` of the 4 bytes of an `int`. -/
def int_byte (v : Int) (k : Nat) : Nat := (v % 4294967296).toNat / 256 ^ k % 256

/-- The `int` stored in the 4 bytes of `m` from offset `p`. -/
def int_at (m : Nat → Nat) (p : Nat) : Int :=
  to_int ((m p + 256 * m (p + 1) + 65536 * m (p + 2) + 16777216 * m (p + 3) : Nat) : Int)

/-- The bytes of a `struct super_block` (`sizeof` is 1052). -/
def super_block.image (sb : super_block) (k : Nat) : Nat :=
  if k < 1024 then sb.usage_bitmap k
  else if k < 1028 then int_byte sb.directory_offset (k - 1024)
  else if k < 1032 then int_byte sb.directory_size (k - 1028)
  else if k < 1036 then int_byte sb.inode_table_offset (k - 1032)
  else if k < 1040 then int_byte sb.inode_table_size (k - 1036)
  else if k < 1044 then int_byte sb.data_offset (k - 1040)
  else if k < 1048 then int_byte sb.data_size (k - 1044)
  else if k = 1048 then (if sb.is_mounted then 1 else 0)
  else 0

/-- The `struct super_block` whose bytes are the first 1052 bytes of `m`. -/
def super_block.load (m : Nat → Nat) : super_block where
  usage_bitmap := fun k => if k < 1024 then m k else 0
  directory_offset := int_at m 1024
  directory_size := int_at m 1028
  inode_table_offset := int_at m 1032
  inode_table_size := int_at m 1036
  data_offset := int_at m 1040
  data_size := int_at m 1044
  is_mounted := m 1048 != 0

/-- The bytes of a `struct inode` (`sizeof` is 1032). -/
def inode.image (n : inode) (k : Nat) : Nat :=
  if k < 4 then int_byte n.ref_count k
  else if k < 8 then int_byte n.file_size (k - 4)
  else if k < 1032 then int_byte (n.blocks ((k - 8) / 4)) ((k - 8) % 4)
  else 0

/-- The `struct inode` whose bytes are the first 1032 bytes of `m`. -/
def inode.load (m : Nat → Nat) : inode where
  ref_count := int_at m 0
  file_size := int_at m 4
  blocks := fun j => if j < 256 then int_at m (8 + 4 * j) else 0

/-- The bytes of the array `directory` (64 entries of 20 bytes). -/
def directory_image (dir : Nat → directory_file) (k : Nat) : Nat :=
  if k < 1280 then
    (if k % 20 < 16 then (dir (k / 20)).name (k % 20)
     else int_byte (dir (k / 20)).inode_index (k % 20 - 16))
  else 0

/-- The array `directory` whose bytes are the first 1280 bytes of `m`. -/
def directory_load (m : Nat → Nat) (i : Nat) : directory_file where
  name := fun r => if i < 64 ∧ r < 16 then m (20 * i + r) else 0
  inode_index := if i < 64 then int_at m (20 * i + 16) else 0

/-- The call `memcpy(dst, src, n)` on buffers. -/
def memcpy (dst src : Nat → Nat) (n : Nat) : Nat → Nat :=
  fun k => if k < n then src k else dst k

/-- The statement `usage_bitmap[idx] |= (1 << bit)`. -/
def set_bit (bm : Nat → Nat) (idx bit : Nat) : Nat → Nat :=
  Function.update bm idx (bm idx ||| (1 <<< bit))

/-- The statement `usage_bitmap[idx] &= ~(1 << bit)`. -/
def clear_bit (bm : Nat → Nat) (idx bit : Nat) : Nat → Nat :=
  Function.update bm idx (bm idx &&& (255 - (1 <<< bit)))

/-- The test `usage_bitmap[i / 8] & (1 << (i % 8))`: the usage bit of disk block
`i`. -/
def is_used (bm : Nat → Nat) (i : Nat) : Bool := bm (i / 8) &&& (1 <<< (i % 8)) != 0

/-- The loop of `make_fs` and `umount_fs` that writes the inodes to disk through
the buffer `block`. -/
def write_inodes (tbl : Nat → inode) (off : Int) :
    List Nat → Disk × (Nat → Nat) → Disk × (Nat → Nat)
  | [], r => r
  | i :: is, (d, block) =>
    write_inodes tbl off is
      ((block_write d (off + i) (memcpy block (tbl i).image 1032)).2,
        memcpy block (tbl i).image 1032)

/-- The function `make_fs`; `sizeof(struct directory_file)` is 20 and
`sizeof(struct super_block)` is 1052. -/
def make_fs (s : FS) : Int × FS :=
  let d0 := (make_disk s.disk).2
  if (make_disk s.disk).1 ≠ 0 then (-1, s)
  else if (open_disk d0).1 ≠ 0 then (-1, { s with disk := d0 })
  else
    let d1 := (open_disk d0).2
    let directory_offset : Int := 1
    let directory_size : Int := ((20 * MAX_FILES / BLOCK_SIZE : Nat) : Int)
    let inode_table_offset : Int := to_int (directory_offset + directory_size)
    let inode_table_size : Int := MAX_FILES
    let data_offset : Int := to_int (inode_table_offset + inode_table_size)
    let data_size : Int := to_int (DISK_BLOCKS - data_offset)
    let sb : super_block :=
      { usage_bitmap :=
          (List.range data_offset.toNat).foldl (fun bm i => set_bit bm (i / 8) (i % 8))
            (fun _ => 0)
        directory_offset := directory_offset
        directory_size := directory_size
        inode_table_offset := inode_table_offset
        inode_table_size := inode_table_size
        data_offset := data_offset
        data_size := data_size
        is_mounted := false }
    let block0 : Nat → Nat := memcpy (fun _ => 0) sb.image 1052
    let d2 := (block_write d1 0 block0).2
    let dir : Nat → directory_file :=
      fun i => if i < MAX_FILES then { s.directory i with inode_index := -1 } else s.directory i
    let block1 := memcpy block0 (directory_image dir) (20 * MAX_FILES)
    let d3 := (block_write d2 sb.directory_offset block1).2
    let tbl : Nat → inode :=
      fun i =>
        if i < MAX_FILES then
          { ref_count := 0, file_size := 0,
            blocks := fun j => if j < MAX_FILE_SIZE / BLOCK_SIZE then -1 else (s.inode_table i).blocks j }
        else s.inode_table i
    let d4 := (write_inodes tbl sb.inode_table_offset (List.range MAX_FILES) (d3, block1)).1
    let s1 : FS :=
      { s with disk := (close_disk d4).2, disk_super_block := sb, directory := dir,
               inode_table := tbl }
    if (close_disk d4).1 ≠ 0 then (-1, s1) else (0, s1)

/-- The loop of `mount_fs` that loads the inodes from disk through the buffer
`block`. -/
def read_inodes (d : Disk) (off : Int) :
    List Nat → (Nat → inode) × (Nat → Nat) → (Nat → inode) × (Nat → Nat)
  | [], r => r
  | i :: is, (tbl, block) =>
    read_inodes d off is
      (Function.update tbl i (inode.load (block_read d (off + i) block).2),
        (block_read d (off + i) block).2)

/-- The function `mount_fs`. -/
def mount_fs (s : FS) : Int × FS :=
  if (open_disk s.disk).1 ≠ 0 then (-1, s)
  else
    let d := (open_disk s.disk).2
    if s.disk_super_block.is_mounted = true then (-1, { s with disk := d })
    else
      let block0 := (block_read d 0 (fun _ => 0)).2
      let sb := super_block.load block0
      let block1 := (block_read d sb.directory_offset block0).2
      let dir := directory_load block1
      let tbl := (read_inodes d sb.inode_table_offset (List.range MAX_FILES)
        (s.inode_table, block1)).1
      (0,
        { disk := d
          file_descriptors :=
            fun i =>
              if i < MAX_FILE_DESCRIPTORS then { inode_index := -1, file_pointer := -1 }
              else s.file_descriptors i
          disk_super_block := { sb with is_mounted := true }
          inode_table := tbl
          directory := dir })

/-- The test `strcmp(directory[i].name, name) == 0`, entry `i` starting at byte
`p` of the array `directory`: the bytes are compared up to the first difference
or the end of `name`; `none` when the comparison leaves the array. -/
def name_eq (dir : Nat → directory_file) : Nat → List Nat → Option Bool
  | p, [] => if p < 1280 then some (directory_image dir p == 0) else none
  | p, c :: cs =>
    if p < 1280 then
      (if directory_image dir p = c then name_eq dir (p + 1) cs else some false)
    else none

/-- The loop of `fs_open` and `fs_delete` over the directory, from entry `i`
with `n` entries to go: the pair `inode_index`, `directory_index` of the last
entry whose name is `name`. -/
def find_name (dir : Nat → directory_file) (name : List Nat) :
    Nat → Nat → Int × Int → Option (Int × Int)
  | _, 0, acc => some acc
  | i, n + 1, acc =>
    match name_eq dir (20 * i) name with
    | none => none
    | some true => find_name dir name (i + 1) n ((dir i).inode_index, (i : Int))
    | some false => find_name dir name (i + 1) n acc

/-- The loop of `fs_open` for the first free file descriptor. -/
def find_free_descriptor (fds : Nat → file_descriptor) : Nat → Nat → Option Nat
  | _, 0 => none
  | i, n + 1 => if (fds i).inode_index = -1 then some i else find_free_descriptor fds (i + 1) n

/-- The function `fs_open`. -/
def fs_open (s : FS) (name : List Nat) : Option (Int × FS) :=
  if s.disk_super_block.is_mounted = false then some (-1, s)
  else
    match find_name s.directory name 0 MAX_FILES (-1, -1) with
    | none => none
    | some (inode_index, _) =>
      if inode_index = -1 then some (-1, s)
      else
        match find_free_descriptor s.file_descriptors 0 MAX_FILE_DESCRIPTORS with
        | none => some (-1, s)
        | some i =>
          if inode_index < 0 ∨ (MAX_FILES : Int) ≤ inode_index then none
          else
            some ((i : Int),
              { s with
                file_descriptors :=
                  Function.update s.file_descriptors i
                    { inode_index := inode_index, file_pointer := 0 }
                inode_table :=
                  Function.update s.inode_table inode_index.toNat
                    { s.inode_table inode_index.toNat with
                      ref_count := to_int ((s.inode_table inode_index.toNat).ref_count + 1) } })

/-- The function `fs_close`. -/
def fs_close (s : FS) (fildes : Int) : Option (Int × FS) :=
  if fildes < 0 ∨ fildes > (MAX_FILE_DESCRIPTORS : Int) - 1 ∨
      (s.file_descriptors fildes.toNat).inode_index = -1 then some (-1, s)
  else if s.disk_super_block.is_mounted = false then some (-1, s)
  else
    let inode_index := (s.file_descriptors fildes.toNat).inode_index
    if inode_index < 0 ∨ (MAX_FILES : Int) ≤ inode_index then none
    else
      some (0,
        { s with
          inode_table :=
            Function.update s.inode_table inode_index.toNat
              { s.inode_table inode_index.toNat with
                ref_count := to_int ((s.inode_table inode_index.toNat).ref_count - 1) }
          file_descriptors :=
            Function.update s.file_descriptors fildes.toNat
              { inode_index := -1, file_pointer := -1 } })

/-- The loop of `fs_create` that looks for an entry named `name`, from entry
`i` with `n` entries to go. -/
def name_exists (dir : Nat → directory_file) (name : List Nat) : Nat → Nat → Option Bool
  | _, 0 => some false
  | i, n + 1 =>
    match name_eq dir (20 * i) name with
    | none => none
    | some true => some true
    | some false => name_exists dir name (i + 1) n

/-- The loop of `fs_create` for the first directory entry whose `inode_index`
is -1. -/
def find_free_entry (dir : Nat → directory_file) : Nat → Nat → Option Nat
  | _, 0 => none
  | i, n + 1 => if (dir i).inode_index = -1 then some i else find_free_entry dir (i + 1) n

/-- The loop of `fs_create` over the inode table, which has no `break`: from
inode `i` with `n` inodes to go, `inode_index` is overwritten at every inode
whose `ref_count` is 0. -/
def find_free_inode (tbl : Nat → inode) : Nat → Nat → Int → Int
  | _, 0, acc => acc
  | i, n + 1, acc =>
    find_free_inode tbl (i + 1) n (if (tbl i).ref_count = 0 then (i : Int) else acc)

/-- The call `strcpy(directory[i].name, name)` for a name of at most 15
characters: the characters, then a NUL. -/
def strcpy (e : directory_file) (name : List Nat) : directory_file :=
  { e with name := fun r => if r < name.length then name.getD r 0
                            else if r = name.length then 0 else e.name r }

/-- The function `fs_create`. -/
def fs_create (s : FS) (name : List Nat) : Option (Int × FS) :=
  if name.length > MAX_FILE_NAME then some (-1, s)
  else if s.disk_super_block.is_mounted = false then some (-1, s)
  else
    match name_exists s.directory name 0 MAX_FILES with
    | none => none
    | some true => some (-1, s)
    | some false =>
      match find_free_entry s.directory 0 MAX_FILES with
      | none => some (-1, s)
      | some directory_index =>
        let inode_index := find_free_inode s.inode_table 0 MAX_FILES (-1)
        if inode_index = -1 then some (-1, s)
        else
          some (0,
            { s with
              directory :=
                Function.update s.directory directory_index
                  { strcpy (s.directory directory_index) name with inode_index := inode_index }
              inode_table :=
                Function.update s.inode_table inode_index.toNat
                  { s.inode_table inode_index.toNat with
                    ref_count :=
                      to_int ((s.inode_table inode_index.toNat).ref_count + 1) } })

/-- The loop of `fs_delete` over the blocks of inode `ii`, from index `i` with
`n` indices to go. -/
def delete_blocks (ii : Nat) : Nat → Nat → FS → Option FS
  | _, 0, s => some s
  | i, n + 1, s =>
    let block_location := (s.inode_table ii).blocks i
    if block_location ≠ -1 then
      if block_location < 0 ∨ (DISK_BLOCKS : Int) ≤ block_location then none
      else
        delete_blocks ii (i + 1) n
          { s with
            disk := (block_write s.disk block_location (fun _ => 0)).2
            disk_super_block :=
              { s.disk_super_block with
                usage_bitmap :=
                  clear_bit s.disk_super_block.usage_bitmap (block_location.toNat / 8)
                    (block_location.toNat % 8) }
            inode_table :=
              Function.update s.inode_table ii
                { s.inode_table ii with
                  blocks := Function.update (s.inode_table ii).blocks i (-1) } }
    else delete_blocks ii (i + 1) n s

/-- The function `fs_delete`. -/
def fs_delete (s : FS) (name : List Nat) : Option (Int × FS) :=
  if s.disk_super_block.is_mounted = false then some (-1, s)
  else
    match find_name s.directory name 0 MAX_FILES (-1, -1) with
    | none => none
    | some (inode_index, directory_index) =>
      if directory_index = -1 then some (-1, s)
      else if inode_index = -1 then some (-1, s)
      else if inode_index < 0 ∨ (MAX_FILES : Int) ≤ inode_index then none
      else if (s.inode_table inode_index.toNat).ref_count > 1 then some (-1, s)
      else
        match delete_blocks inode_index.toNat 0 (MAX_FILE_SIZE / BLOCK_SIZE) s with
        | none => none
        | some s1 =>
          some (0,
            { s1 with
              directory :=
                Function.update s1.directory directory_index.toNat
                  { strcpy (s1.directory directory_index.toNat) [] with inode_index := -1 }
              inode_table :=
                Function.update s1.inode_table inode_index.toNat
                  { s1.inode_table inode_index.toNat with ref_count := 0, file_size := 0 } })

/-- The element `blocks[i]` of an inode; `none` outside the array. -/
def block_at (n : inode) (i : Int) : Option Int :=
  if 0 ≤ i ∧ i < ((MAX_FILE_SIZE / BLOCK_SIZE : Nat) : Int) then some (n.blocks i.toNat) else none

/-- The copy loop of `fs_read`, with `n` bytes to go: `i` is the index into
`buffer`, `block` the block read last. -/
def read_bytes (d : Disk) (node : inode) :
    Nat → Nat → Int → Int → Int → (Nat → Nat) → (Nat → Nat) → Option (Nat → Nat)
  | 0, _, _, _, _, _, buffer => some buffer
  | n + 1, i, file_offset, j, file_block, block, buffer =>
    if file_offset + j < 0 then none
    else
      let buffer1 := Function.update buffer i (block (file_offset + j).toNat)
      if file_offset + (j + 1) ≥ (BLOCK_SIZE : Int) then
        match block_at node (file_block + 1) with
        | none => none
        | some b =>
          read_bytes d node n (i + 1) 0 0 (file_block + 1) (block_read d b block).2 buffer1
      else read_bytes d node n (i + 1) file_offset (j + 1) file_block block buffer1

/-- The function `fs_read`: the result, the bytes copied into `buf`, and the
state. -/
def fs_read (s : FS) (fildes : Int) (buf : Nat → Nat) (nbyte : Nat) :
    Option (Int × (Nat → Nat) × FS) :=
  if s.disk_super_block.is_mounted = false then some (-1, buf, s)
  else if fildes < 0 ∨ fildes > (MAX_FILE_DESCRIPTORS : Int) - 1 ∨
      (s.file_descriptors fildes.toNat).inode_index = -1 then some (-1, buf, s)
  else
    let fd := s.file_descriptors fildes.toNat
    if fd.inode_index < 0 ∨ (MAX_FILES : Int) ≤ fd.inode_index then none
    else
      let node := s.inode_table fd.inode_index.toNat
      let nbyte1 : Nat :=
        if (to_size_t fd.file_pointer + nbyte) % 18446744073709551616 > to_size_t node.file_size
        then to_size_t (to_int (node.file_size - fd.file_pointer))
        else nbyte
      let file_offset := Int.tmod fd.file_pointer BLOCK_SIZE
      let file_block := Int.tdiv fd.file_pointer BLOCK_SIZE
      match block_at node file_block with
      | none => none
      | some b =>
        match read_bytes s.disk node nbyte1 0 file_offset 0 file_block
            (block_read s.disk b (fun _ => 0)).2 (fun _ => 0) with
        | none => none
        | some buffer =>
          some (to_int nbyte1, memcpy buf buffer nbyte1,
            { s with
              file_descriptors :=
                Function.update s.file_descriptors fildes.toNat
                  { fd with file_pointer := to_int (fd.file_pointer + nbyte1) } })

/-- The loop of `fs_write` for the first disk block, from block `i` with `n`
blocks to go, whose usage bit is clear. -/
def find_free_block (bm : Nat → Nat) : Nat → Nat → Option Nat
  | _, 0 => none
  | i, n + 1 => if is_used bm i then find_free_block bm (i + 1) n else some i

/-- The block search of `fs_write`: the value of `free_block` and the super
block with the usage bit of that block set; `none` when `data_offset` is
negative. -/
def alloc_block (sb : super_block) : Option (Int × super_block) :=
  if sb.data_offset < 0 then none
  else
    match find_free_block sb.usage_bitmap sb.data_offset.toNat
        (DISK_BLOCKS - sb.data_offset.toNat) with
    | none => some (-1, sb)
    | some i =>
      some ((i : Int),
        { sb with usage_bitmap := set_bit sb.usage_bitmap (i / 8) (i % 8) })

/-- The statement of `fs_write` that gives index `i` of inode `ii` a disk block
when it has none. -/
def ensure_block (s : FS) (ii : Nat) (i : Int) : Option FS :=
  match block_at (s.inode_table ii) i with
  | none => none
  | some b =>
    if b = -1 then
      match alloc_block s.disk_super_block with
      | none => none
      | some (free_block, sb) =>
        some
          { s with
            disk_super_block := sb
            inode_table :=
              Function.update s.inode_table ii
                { s.inode_table ii with
                  blocks := Function.update (s.inode_table ii).blocks i.toNat free_block } }
    else some s

/-- The copy loops of `fs_write` into one block, with `n` iterations to go:
`block[i] = buffer[j]` while `i < BLOCK_SIZE` and `j < nbyte`. -/
def copy_in (buffer : Nat → Nat) (nbyte : Nat) :
    Nat → Nat → Nat → (Nat → Nat) → (Nat → Nat) × Nat
  | 0, _, j, block => (block, j)
  | n + 1, i, j, block =>
    if i < BLOCK_SIZE ∧ j < nbyte then
      copy_in buffer nbyte n (i + 1) (j + 1) (Function.update block i (buffer j))
    else (block, j)

/-- The loop of `fs_write` over the blocks after the first, from index `i` up
to `bound`, with `n` iterations to go: the result is `Sum.inl` of the state when
the function returns -1 from inside the loop. -/
def write_blocks (ii : Nat) (buffer : Nat → Nat) (nbyte bound : Nat) :
    Nat → Int → Nat → (Nat → Nat) → FS → Option (FS ⊕ FS)
  | 0, _, _, _, _ => none
  | n + 1, i, j, block, s =>
    if to_size_t i < bound then
      match ensure_block s ii i with
      | none => none
      | some s1 =>
        match block_at (s1.inode_table ii) i with
        | none => none
        | some b =>
          if b = -1 then some (Sum.inl s1)
          else
            let block1 := (block_read s1.disk b block).2
            let r := copy_in buffer nbyte BLOCK_SIZE 0 j block1
            write_blocks ii buffer nbyte bound n (i + 1) r.2 r.1
              { s1 with disk := (block_write s1.disk b r.1).2 }
    else some (Sum.inr s)

/-- The function `fs_write`. -/
def fs_write (s : FS) (fildes : Int) (buf : Nat → Nat) (nbyte : Nat) : Option (Int × FS) :=
  if s.disk_super_block.is_mounted = false then some (-1, s)
  else if fildes < 0 ∨ fildes > (MAX_FILE_DESCRIPTORS : Int) - 1 ∨
      (s.file_descriptors fildes.toNat).inode_index = -1 then some (-1, s)
  else
    let fd := s.file_descriptors fildes.toNat
    if fd.inode_index < 0 ∨ (MAX_FILES : Int) ≤ fd.inode_index then none
    else
      let ii := fd.inode_index.toNat
      let over : Bool :=
        (to_size_t fd.file_pointer + nbyte) % 18446744073709551616 > MAX_FILE_SIZE
      let nbyte1 : Nat :=
        if over then to_size_t (to_int ((MAX_FILE_SIZE : Int) - fd.file_pointer)) else nbyte
      if over = true ∧ nbyte1 = 0 then some (-1, s)
      else
        let file_offset := Int.tmod fd.file_pointer BLOCK_SIZE
        let file_block := Int.tdiv fd.file_pointer BLOCK_SIZE
        match ensure_block s ii file_block with
        | none => none
        | some s1 =>
          let end_pos : Nat := (to_size_t fd.file_pointer + nbyte1) % 18446744073709551616
          let s2 : FS :=
            if end_pos > to_size_t (s1.inode_table ii).file_size then
              { s1 with
                inode_table :=
                  Function.update s1.inode_table ii
                    { s1.inode_table ii with file_size := to_int end_pos } }
            else s1
          match block_at (s2.inode_table ii) file_block with
          | none => none
          | some b =>
            if b = -1 then some (-1, s2)
            else if file_offset < 0 then none
            else
              let block := (block_read s2.disk b (fun _ => 0)).2
              let r := copy_in buf nbyte1 BLOCK_SIZE file_offset.toNat 0 block
              let s3 : FS := { s2 with disk := (block_write s2.disk b r.1).2 }
              match write_blocks ii buf nbyte1 (end_pos / BLOCK_SIZE + 1)
                  (MAX_FILE_SIZE / BLOCK_SIZE + 2) (file_block + 1) r.2 r.1 s3 with
              | none => none
              | some (Sum.inl s4) => some (-1, s4)
              | some (Sum.inr s4) =>
                some (to_int nbyte1,
                  { s4 with
                    file_descriptors :=
                      Function.update s4.file_descriptors fildes.toNat
                        { fd with file_pointer := to_int (fd.file_pointer + nbyte1) } })

/-- The function `fs_lseek`. -/
def fs_lseek (s : FS) (fildes : Int) (offset : Int) : Option (Int × FS) :=
  if fildes < 0 ∨ fildes > (MAX_FILE_DESCRIPTORS : Int) - 1 ∨
      (s.file_descriptors fildes.toNat).inode_index = -1 then some (-1, s)
  else
    let fd := s.file_descriptors fildes.toNat
    if fd.inode_index < 0 ∨ (MAX_FILES : Int) ≤ fd.inode_index then none
    else if offset < 0 ∨
        offset > to_int ((s.inode_table fd.inode_index.toNat).file_size - 1) then some (-1, s)
    else
      some (0,
        { s with
          file_descriptors :=
            Function.update s.file_descriptors fildes.toNat
              { fd with file_pointer := to_int offset } })

/-- The `while` loop of `fs_truncate`, with `n` iterations to go: as long as
`blocks[last_block]` is not -1, a bit of the usage bitmap is cleared at byte
`last_block / sizeof(char)`, the block is overwritten with zeros and
`blocks[last_block]` is set to -1. -/
def free_blocks (ii : Nat) : Nat → Int → FS → Option FS
  | 0, _, _ => none
  | n + 1, last_block, s =>
    match block_at (s.inode_table ii) last_block with
    | none => none
    | some b =>
      if b ≠ -1 then
        free_blocks ii n (last_block + 1)
          { s with
            disk_super_block :=
              { s.disk_super_block with
                usage_bitmap :=
                  clear_bit s.disk_super_block.usage_bitmap (last_block.toNat / 1)
                    (last_block.toNat % 1) }
            disk := (block_write s.disk b (fun _ => 0)).2
            inode_table :=
              Function.update s.inode_table ii
                { s.inode_table ii with
                  blocks := Function.update (s.inode_table ii).blocks last_block.toNat (-1) } }
      else some s

/-- The function `fs_truncate`.  The check of `fildes` only prints a message, so
that a descriptor outside the array or one that is not open makes the function
index an array outside its bounds. -/
def fs_truncate (s : FS) (fildes : Int) (length : Int) : Option (Int × FS) :=
  if fildes < 0 ∨ fildes > (MAX_FILE_DESCRIPTORS : Int) - 1 then none
  else
    let inode_index := (s.file_descriptors fildes.toNat).inode_index
    if inode_index < 0 ∨ (MAX_FILES : Int) ≤ inode_index then none
    else
      let ii := inode_index.toNat
      if length > (s.inode_table ii).file_size then some (-1, s)
      else
        let last_block := to_int (Int.tdiv length BLOCK_SIZE)
        let last_block_offset := to_int (Int.tmod length BLOCK_SIZE)
        match block_at (s.inode_table ii) last_block with
        | none => none
        | some b =>
          if last_block_offset < 0 then none
          else
            let block := (block_read s.disk b (fun _ => 0)).2
            let block1 : Nat → Nat :=
              fun k => if last_block_offset.toNat ≤ k ∧ k < BLOCK_SIZE then 0 else block k
            let s1 : FS := { s with disk := (block_write s.disk b block1).2 }
            match free_blocks ii (MAX_FILE_SIZE / BLOCK_SIZE + 1) last_block s1 with
            | none => none
            | some s2 =>
              some (0,
                { s2 with
                  inode_table :=
                    Function.update s2.inode_table ii
                      { s2.inode_table ii with file_size := to_int length } })

/-- The state after `make_fs` and `mount_fs` from program start. -/
def mounted : FS := (mount_fs (make_fs FS.start).2).2

/-- The buffer holding the bytes of a list. -/
def bytes (l : List Nat) : Nat → Nat := fun k => l.getD k 0

/-- The state after `fs_create("a")` on the freshly mounted file system. -/
def created : FS := ((fs_create mounted [97]).getD (0, mounted)).2

/-- The state after `fs_open("a")` in `created`; the call returns descriptor 0. -/
def opened : FS := ((fs_open created [97]).getD (0, created)).2

/-- The state after `fs_write(0, "xy", 2)` in `opened`. -/
def written : FS := ((fs_write opened 0 (bytes [120, 121]) 2).getD (0, opened)).2

/-- The state after `fs_truncate(0, 0)` in `written`. -/
def emptied : FS := ((fs_truncate written 0 0).getD (0, written)).2

/-- The state after `fs_truncate(0, 1)` in `written`. -/
def shortened : FS := ((fs_truncate written 0 1).getD (0, written)).2

/-- The calls `fs_lseek(0, 0)` and `fs_read(0, buf, 1)` in state `s`: the results
of the two calls and the byte read. -/
def read_first (s : FS) : Option (Int × Int × Nat) :=
  match fs_lseek s 0 0 with
  | none => none
  | some (r, s1) =>
    match fs_read s1 0 (fun _ => 0) 1 with
    | none => none
    | some (n, buf, _) => some (r, n, buf 0)

end Fs

/-! # Theorems about the TLS library -/

namespace Cow

/-! ## The registry scans -/

theorem find_tid_none_iff (ts : Nat → Option TLS) (tid : Nat) (n i : Nat) :
    find_tid ts tid i n = none ↔
      ∀ j, i ≤ j → j < i + n → ∀ t, ts j = some t → t.tid ≠ tid := by
  induction n generalizing i with
  | zero =>
    simp only [find_tid, true_iff]
    intro j h1 h2
    omega
  | succ n ih =>
    unfold find_tid
    cases hi : ts i with
    | none =>
      simp only []
      rw [ih]
      constructor
      · intro h j h1 h2 t ht
        by_cases hj : j = i
        · subst hj
          rw [hi] at ht
          cases ht
        · exact h j (by omega) (by omega) t ht
      · intro h j h1 h2
        exact h j (by omega) (by omega)
    | some t =>
      simp only []
      by_cases ht : t.tid = tid
      · simp only [ht, if_true]
        constructor
        · intro h
          cases h
        · intro h
          exact absurd ht (h i (le_refl i) (by omega) t hi)
      · simp only [ht, if_false]
        rw [ih]
        constructor
        · intro h j h1 h2 u hu
          by_cases hj : j = i
          · subst hj
            rw [hi] at hu
            cases hu
            exact ht
          · exact h j (by omega) (by omega) u hu
        · intro h j h1 h2
          exact h j (by omega) (by omega)

theorem find_tid_some_spec (ts : Nat → Option TLS) (tid : Nat) (n i k : Nat)
    (h : find_tid ts tid i n = some k) :
    i ≤ k ∧ k < i + n ∧ (∃ t, ts k = some t ∧ t.tid = tid) ∧
      ∀ j, i ≤ j → j < k → ∀ t, ts j = some t → t.tid ≠ tid := by
  induction n generalizing i with
  | zero => simp [find_tid] at h
  | succ n ih =>
    unfold find_tid at h
    cases hi : ts i with
    | none =>
      rw [hi] at h
      simp only [] at h
      obtain ⟨h1, h2, h3, h4⟩ := ih (i + 1) h
      refine ⟨by omega, by omega, h3, ?_⟩
      intro j hj1 hj2 t ht
      by_cases hj : j = i
      · subst hj
        rw [hi] at ht
        cases ht
      · exact h4 j (by omega) hj2 t ht
    | some t =>
      rw [hi] at h
      simp only [] at h
      by_cases ht : t.tid = tid
      · simp only [ht, if_true, Option.some.injEq] at h
        subst h
        refine ⟨le_refl _, by omega, ⟨t, hi, ht⟩, ?_⟩
        intro j hj1 hj2
        omega
      · simp only [ht, if_false] at h
        obtain ⟨h1, h2, h3, h4⟩ := ih (i + 1) h
        refine ⟨by omega, by omega, h3, ?_⟩
        intro j hj1 hj2 u hu
        by_cases hj : j = i
        · subst hj
          rw [hi] at hu
          cases hu
          exact ht
        · exact h4 j (by omega) hj2 u hu

/-- A thread has an area exactly when the scan for its identity finds a slot. -/
theorem has_area_iff (s : State) (tid : Nat) :
    has_area s tid ↔ ∃ k, find_tid s.thread_storage tid 0 MAX_THREADS = some k := by
  constructor
  · rintro ⟨i, hi, t, ht, htid⟩
    cases h : find_tid s.thread_storage tid 0 MAX_THREADS with
    | some k => exact ⟨k, rfl⟩
    | none =>
      rw [find_tid_none_iff] at h
      exact absurd htid (h i (Nat.zero_le _) (by omega) t ht)
  · rintro ⟨k, hk⟩
    obtain ⟨_, h2, h3, _⟩ := find_tid_some_spec _ _ _ _ _ hk
    exact ⟨k, by omega, h3⟩

theorem not_has_area_iff (s : State) (tid : Nat) :
    ¬ has_area s tid ↔ find_tid s.thread_storage tid 0 MAX_THREADS = none := by
  rw [has_area_iff]
  cases find_tid s.thread_storage tid 0 MAX_THREADS <;> simp

/-- With unique identities the scan returns the slot bound to the identity. -/
theorem find_tid_of_slot (s : State)
    (huniq : ∀ i j t u, i < MAX_THREADS → j < MAX_THREADS →
      s.thread_storage i = some t → s.thread_storage j = some u → t.tid = u.tid → i = j)
    (i : Nat) (t : TLS) (hi : i < MAX_THREADS) (ht : s.thread_storage i = some t) :
    find_tid s.thread_storage t.tid 0 MAX_THREADS = some i := by
  obtain ⟨k, hk⟩ := (has_area_iff s t.tid).1 ⟨i, hi, t, ht, rfl⟩
  obtain ⟨_, h2, ⟨u, hu, hut⟩, _⟩ := find_tid_some_spec _ _ _ _ _ hk
  have : k = i := huniq k i u t (by omega) hi hu ht hut
  rw [hk, this]

theorem find_tid_congr (ts ts1 : Nat → Option TLS) (tid : Nat) (n i : Nat)
    (h : ∀ j, i ≤ j → j < i + n → (ts j).map TLS.tid = (ts1 j).map TLS.tid) :
    find_tid ts tid i n = find_tid ts1 tid i n := by
  induction n generalizing i with
  | zero => rfl
  | succ n ih =>
    unfold find_tid
    have hi := h i (le_refl i) (by omega)
    have hrec := ih (i + 1) (fun j h1 h2 => h j (by omega) (by omega))
    cases h1 : ts i with
    | none =>
      rw [h1] at hi
      cases h2 : ts1 i with
      | none => simpa using hrec
      | some u => rw [h2] at hi; simp at hi
    | some t =>
      rw [h1] at hi
      cases h2 : ts1 i with
      | none => rw [h2] at hi; simp at hi
      | some u =>
        rw [h2] at hi
        simp only [Option.map_some', Option.some.injEq] at hi
        simp only [hi, hrec]

theorem find_free_none_iff (ts : Nat → Option TLS) (n i : Nat) :
    find_free ts i n = none ↔ ∀ j, i ≤ j → j < i + n → (ts j).isSome := by
  induction n generalizing i with
  | zero =>
    simp only [find_free, true_iff]
    intro j h1 h2
    omega
  | succ n ih =>
    unfold find_free
    cases hi : ts i with
    | none =>
      simp only []
      constructor
      · intro h
        cases h
      · intro h
        have := h i (le_refl i) (by omega)
        rw [hi] at this
        cases this
    | some t =>
      simp only []
      rw [ih]
      constructor
      · intro h j h1 h2
        by_cases hj : j = i
        · subst hj
          rw [hi]
          rfl
        · exact h j (by omega) (by omega)
      · intro h j h1 h2
        exact h j (by omega) (by omega)

theorem find_free_some_spec (ts : Nat → Option TLS) (n i k : Nat)
    (h : find_free ts i n = some k) :
    i ≤ k ∧ k < i + n ∧ ts k = none ∧ ∀ j, i ≤ j → j < k → (ts j).isSome := by
  induction n generalizing i with
  | zero => simp [find_free] at h
  | succ n ih =>
    unfold find_free at h
    cases hi : ts i with
    | none =>
      rw [hi] at h
      simp only [Option.some.injEq] at h
      subst h
      refine ⟨le_refl _, by omega, hi, ?_⟩
      intro j h1 h2
      omega
    | some t =>
      rw [hi] at h
      simp only [] at h
      obtain ⟨h1, h2, h3, h4⟩ := ih (i + 1) h
      refine ⟨by omega, by omega, h3, ?_⟩
      intro j hj1 hj2
      by_cases hj : j = i
      · subst hj
        rw [hi]
        rfl
      · exact h4 j (by omega) hj2

/-- The second component of `clone_scan` is the first free slot, once none is held. -/
theorem clone_scan_snd (ts : Nat → Option TLS) (tid : Nat) (n i : Nat) (tgt : Option Nat) :
    (clone_scan ts tid i n tgt none).2 = find_free ts i n ∧
    ∀ k, (clone_scan ts tid i n tgt (some k)).2 = some k := by
  induction n generalizing i tgt with
  | zero => simp [clone_scan, find_free]
  | succ n ih =>
    constructor
    · unfold clone_scan find_free
      cases hi : ts i with
      | none =>
        simp only []
        exact (ih (i + 1) tgt).2 i
      | some t =>
        simp only []
        split
        · exact (ih (i + 1) (some i)).1
        · exact (ih (i + 1) tgt).1
    · intro k
      unfold clone_scan
      cases hi : ts i with
      | none =>
        simp only []
        exact (ih (i + 1) tgt).2 k
      | some t =>
        simp only []
        split
        · exact (ih (i + 1) (some i)).2 k
        · exact (ih (i + 1) tgt).2 k

/-- The first component of `clone_scan` is the last slot bound to `tid`, or the
initial value when there is none. -/
theorem clone_scan_fst (ts : Nat → Option TLS) (tid : Nat) (n i : Nat)
    (tgt new : Option Nat) :
    ((∀ j, i ≤ j → j < i + n → ∀ t, ts j = some t → t.tid ≠ tid) →
      (clone_scan ts tid i n tgt new).1 = tgt) ∧
    ((∃ j, i ≤ j ∧ j < i + n ∧ ∃ t, ts j = some t ∧ t.tid = tid) →
      ∃ k, (clone_scan ts tid i n tgt new).1 = some k ∧ i ≤ k ∧ k < i + n ∧
        ∃ t, ts k = some t ∧ t.tid = tid) := by
  induction n generalizing i tgt new with
  | zero =>
    constructor
    · intro _
      rfl
    · rintro ⟨j, h1, h2, _⟩
      omega
  | succ n ih =>
    constructor
    · intro h
      unfold clone_scan
      have hrest : ∀ j, i + 1 ≤ j → j < i + 1 + n → ∀ t, ts j = some t → t.tid ≠ tid :=
        fun j h1 h2 => h j (by omega) (by omega)
      cases hi : ts i with
      | none =>
        simp only []
        cases new with
        | none => exact (ih (i + 1) tgt (some i)).1 hrest
        | some k => exact (ih (i + 1) tgt (some k)).1 hrest
      | some t =>
        simp only []
        have := h i (le_refl i) (by omega) t hi
        simp only [this, if_false]
        exact (ih (i + 1) tgt new).1 hrest
    · rintro ⟨j, h1, h2, t, ht, htid⟩
      unfold clone_scan
      by_cases hlater : ∃ j, i + 1 ≤ j ∧ j < i + 1 + n ∧ ∃ t, ts j = some t ∧ t.tid = tid
      · have key : ∀ tgt1 new1, ∃ k, (clone_scan ts tid (i + 1) n tgt1 new1).1 = some k ∧
            i ≤ k ∧ k < i + (n + 1) ∧ ∃ t, ts k = some t ∧ t.tid = tid := by
          intro tgt1 new1
          obtain ⟨k, hk1, hk2, hk3, hk4⟩ := (ih (i + 1) tgt1 new1).2 hlater
          exact ⟨k, hk1, by omega, by omega, hk4⟩
        cases hi : ts i with
        | none =>
          simp only []
          cases new with
          | none => exact key _ _
          | some k => exact key _ _
        | some u =>
          simp only []
          split
          · exact key _ _
          · exact key _ _
      · have hji : j = i := by
          by_contra hne
          exact hlater ⟨j, by omega, by omega, t, ht, htid⟩
        subst hji
        have hnone : ∀ j1, j + 1 ≤ j1 → j1 < j + 1 + n → ∀ t, ts j1 = some t → t.tid ≠ tid := by
          intro j1 h3 h4 u hu hutid
          exact hlater ⟨j1, h3, h4, u, hu, hutid⟩
        rw [ht]
        simp only [htid, if_true]
        refine ⟨j, (ih (j + 1) (some j) new).1 hnone, le_refl _, by omega, t, ht, htid⟩

/-! ## Counting the holders of a page -/

theorem slot_pages_update_same (ts : Nat → Option TLS) (k : Nat) (t : TLS) :
    slot_pages (Function.update ts k (some t)) k = t.pages := by
  simp [slot_pages]

theorem slot_pages_update_none (ts : Nat → Option TLS) (k : Nat) :
    slot_pages (Function.update ts k none) k = [] := by
  simp [slot_pages]

theorem slot_pages_update_ne (ts : Nat → Option TLS) (k i : Nat) (v : Option TLS) (h : i ≠ k) :
    slot_pages (Function.update ts k v) i = slot_pages ts i := by
  simp [slot_pages, Function.update_noteq h]

theorem slot_pages_of_some (ts : Nat → Option TLS) (i : Nat) (t : TLS) (h : ts i = some t) :
    slot_pages ts i = t.pages := by
  simp [slot_pages, h]

theorem slot_pages_of_none (ts : Nat → Option TLS) (i : Nat) (h : ts i = none) :
    slot_pages ts i = [] := by
  simp [slot_pages, h]

theorem holders_update (ts : Nat → Option TLS) (k : Nat) (hk : k < MAX_THREADS)
    (v : Option TLS) (p : Nat) :
    holders (Function.update ts k v) p + (slot_pages ts k).count p =
      holders ts p + (slot_pages (Function.update ts k v) k).count p := by
  unfold holders
  have hmem : k ∈ Finset.range MAX_THREADS := Finset.mem_range.2 hk
  rw [← Finset.add_sum_erase _ _ hmem, ← Finset.add_sum_erase _ _ hmem]
  have hrest : ∑ i in (Finset.range MAX_THREADS).erase k,
        (slot_pages (Function.update ts k v) i).count p =
      ∑ i in (Finset.range MAX_THREADS).erase k, (slot_pages ts i).count p := by
    apply Finset.sum_congr rfl
    intro i hi
    rw [slot_pages_update_ne ts k i v (Finset.ne_of_mem_erase hi)]
  rw [hrest]
  omega

theorem holders_eq_zero (ts : Nat → Option TLS) (p : Nat)
    (h : ∀ i, i < MAX_THREADS → p ∉ slot_pages ts i) : holders ts p = 0 := by
  unfold holders
  apply Finset.sum_eq_zero
  intro i hi
  exact List.count_eq_zero_of_not_mem (h i (Finset.mem_range.1 hi))

theorem holders_pos (ts : Nat → Option TLS) (p i : Nat) (hi : i < MAX_THREADS)
    (h : p ∈ slot_pages ts i) : 1 ≤ holders ts p := by
  unfold holders
  have h1 : (slot_pages ts i).count p ≤
      ∑ j in Finset.range MAX_THREADS, (slot_pages ts j).count p :=
    Finset.single_le_sum (f := fun j => (slot_pages ts j).count p)
      (fun j _ => Nat.zero_le _) (Finset.mem_range.2 hi)
  have h2 : 0 < (slot_pages ts i).count p := List.count_pos_iff.2 h
  omega

theorem holders_pos_iff (ts : Nat → Option TLS) (p : Nat) :
    1 ≤ holders ts p ↔ ∃ i, i < MAX_THREADS ∧ p ∈ slot_pages ts i := by
  constructor
  · intro h
    by_contra hne
    have := holders_eq_zero ts p (fun i hi hp => hne ⟨i, hi, hp⟩)
    omega
  · rintro ⟨i, hi, hp⟩
    exact holders_pos ts p i hi hp

theorem count_set (l : List Nat) (k : Nat) (hk : k < l.length) (x y : Nat) :
    (l.set k x).count y + (if l[k] = y then 1 else 0) =
      l.count y + (if x = y then 1 else 0) := by
  induction l generalizing k with
  | nil => simp at hk
  | cons a l ih =>
    cases k with
    | zero =>
      simp only [List.set_cons_zero, List.getElem_cons_zero, List.count_cons, beq_iff_eq]
      omega
    | succ k =>
      simp only [List.set_cons_succ, List.getElem_cons_succ, List.count_cons, beq_iff_eq]
      have := ih k (by simpa using hk)
      omega

theorem nodup_set (l : List Nat) (k : Nat) (x : Nat) (hl : l.Nodup) (hx : x ∉ l) :
    (l.set k x).Nodup := by
  induction l generalizing k with
  | nil => simp
  | cons a l ih =>
    rw [List.nodup_cons] at hl
    cases k with
    | zero =>
      simp only [List.set_cons_zero, List.nodup_cons]
      exact ⟨fun h => hx (List.mem_cons_of_mem _ h), hl.2⟩
    | succ k =>
      simp only [List.set_cons_succ, List.nodup_cons]
      refine ⟨?_, ih k hl.2 (fun h => hx (List.mem_cons_of_mem _ h))⟩
      intro h
      rcases List.mem_or_eq_of_mem_set h with h1 | h1
      · exact hl.1 h1
      · exact hx (by rw [h1]; exact List.mem_cons_self _ _)

theorem mem_set_cases (l : List Nat) (k x y : Nat) (h : y ∈ l.set k x) : y ∈ l ∨ y = x :=
  List.mem_or_eq_of_mem_set h

/-! ## Closed forms of the protection helpers and of one loop iteration -/

theorem mprotect_eq (s : State) (a : Nat) (p : Prot) :
    mprotect s a p =
      if (s.prot a).isSome then some { s with prot := Function.update s.prot a (some p) }
      else none := by
  unfold mprotect
  cases s.prot a <;> rfl

theorem read_loop_succ (ps idx o n byte : Nat) (s : State) (buf : Nat → Nat) :
    read_loop ps idx o (n + 1) byte s buf =
      match page_at ps s idx o byte with
      | none => none
      | some cur =>
        match s.heap cur with
        | none => none
        | some pg =>
          if (s.prot pg.address).isSome then
            read_loop ps idx o n (byte + 1)
              { s with prot := Function.update s.prot pg.address (some Prot.PROT_NONE) }
              (Function.update buf byte (s.mem pg.address (to_uint (o + byte) % ps)))
          else none := by
  rw [read_loop]
  cases hp : page_at ps s idx o byte with
  | none => rfl
  | some cur =>
    simp only []
    cases hh : s.heap cur with
    | none => rfl
    | some pg =>
      simp only [tls_unprotect, tls_protect, hh, mprotect_eq, load]
      cases hm : s.prot pg.address with
      | none => simp
      | some pr => simp [hh, Function.update_idem]

theorem write_byte_private (ps idx o byte v cur : Nat) (s : State) (pg : page)
    (hp : page_at ps s idx o byte = some cur) (hh : s.heap cur = some pg)
    (hrc : ¬ pg.ref_count > 1) :
    write_byte ps s idx o byte v =
      if (s.prot pg.address).isSome then
        some { s with
          prot := Function.update s.prot pg.address (some Prot.PROT_NONE)
          mem := Function.update s.mem pg.address
            (Function.update (s.mem pg.address) (to_uint (o + byte) % ps) v) }
      else none := by
  unfold write_byte
  simp only [hp, hh, hrc, if_false, tls_unprotect, tls_protect, mprotect_eq, store]
  cases hm : s.prot pg.address with
  | none => simp
  | some pr => simp [hh, Function.update_idem]

theorem write_byte_shared (ps idx o byte v cur : Nat) (s : State) (t : TLS) (pg : page)
    (ht : s.thread_storage idx = some t)
    (hp : page_at ps s idx o byte = some cur) (hh : s.heap cur = some pg)
    (hrc : pg.ref_count > 1) (hne : cur ≠ s.next_ptr) (hna : pg.address ≠ s.next_map * ps) :
    write_byte ps s idx o byte v =
      if (s.prot pg.address).isSome then
        some
          { thread_storage := Function.update s.thread_storage idx
              (some { t with
                pages := t.pages.set (to_int (to_uint (o + byte) / ps)).toNat s.next_ptr })
            heap := Function.update
              (Function.update s.heap s.next_ptr (some ⟨s.next_map * ps, 1⟩)) cur
              (some { pg with ref_count := pg.ref_count - 1 })
            prot := Function.update
              (Function.update s.prot (s.next_map * ps) (some Prot.PROT_NONE)) pg.address
              (some Prot.PROT_READ)
            mem := Function.update s.mem (s.next_map * ps)
              (Function.update (fun off => if off < ps then s.mem pg.address off else 0)
                (to_uint (o + byte) % ps) v)
            next_ptr := s.next_ptr + 1
            next_map := s.next_map + 1
            is_first_call := s.is_first_call }
      else none := by
  unfold write_byte
  simp only [hp, hh, hrc, if_true, cow_page, ht, mmap, malloc_page, tls_unprotect, tls_protect,
    tls_protect_read_only, mprotect_eq, store, memcpy]
  cases hm : s.prot pg.address with
  | none => simp [hh, hne, hna, Function.update_noteq, hm]
  | some pr =>
    simp [hh, hne, hna, Ne.symm hne, Ne.symm hna, Function.update_noteq, hm, Function.update_idem]
    funext x
    by_cases h1 : x = s.next_map * ps
    · subst h1
      simp [Function.update_noteq (Ne.symm hna)]
    · by_cases h2 : x = pg.address <;> simp [Function.update_apply, h1, h2, hna]

/-! ## Steps that only touch protections and bytes -/

theorem Inv.of_same_objects {ps : Nat} {s s1 : State} (h : Inv ps s)
    (hts : s1.thread_storage = s.thread_storage) (hheap : s1.heap = s.heap)
    (hptr : s1.next_ptr = s.next_ptr) (hmap : s1.next_map = s.next_map)
    (hprot : ∀ x, s1.prot x = s.prot x ∨
      (s1.prot x = some Prot.PROT_NONE ∧ (s.prot x).isSome)) : Inv ps s1 := by
  constructor
  · intro i j t u hi hj h1 h2
    rw [hts] at h1 h2
    exact h.uniq i j t u hi hj h1 h2
  · intro i t hi h1
    rw [hts] at h1
    exact h.shape i t hi h1
  · intro i t hi h1 p hp
    rw [hts] at h1
    rw [hheap]
    exact h.live i t hi h1 p hp
  · intro p pg h1
    rw [hheap] at h1
    rw [hts]
    exact h.refs p pg h1
  · intro p pg h1
    rw [hheap] at h1
    rcases hprot pg.address with h2 | h2
    · rw [h2]
      exact h.mapped p pg h1
    · exact Or.inl h2.1
  · intro p q pg pg1 h1 h2
    rw [hheap] at h1 h2
    exact h.inj p q pg pg1 h1 h2
  · intro p pg h1
    rw [hheap] at h1
    rw [hptr, hmap]
    exact h.fresh p pg h1
  · intro p pg h1
    rw [hheap] at h1
    exact h.aligned p pg h1

theorem reprotected_refl (s : State) : reprotected s s :=
  ⟨rfl, rfl, rfl, rfl, rfl, rfl, fun _ => Or.inl rfl⟩

theorem reprotected_trans {s s1 s2 : State} (h1 : reprotected s s1) (h2 : reprotected s1 s2) :
    reprotected s s2 := by
  obtain ⟨a1, a2, a3, a4, a5, a6, a7⟩ := h1
  obtain ⟨b1, b2, b3, b4, b5, b6, b7⟩ := h2
  refine ⟨b1.trans a1, b2.trans a2, b3.trans a3, b4.trans a4, b5.trans a5, b6.trans a6, ?_⟩
  intro x
  rcases b7 x with hb | hb
  · rcases a7 x with ha | ha
    · exact Or.inl (hb.trans ha)
    · exact Or.inr ⟨hb.trans ha.1, ha.2⟩
  · rcases a7 x with ha | ha
    · exact Or.inr ⟨hb.1, by rw [← ha]; exact hb.2⟩
    · exact Or.inr ⟨hb.1, ha.2⟩

theorem Inv.of_reprotected {ps : Nat} {s s1 : State} (h : Inv ps s) (hr : reprotected s s1) :
    Inv ps s1 :=
  h.of_same_objects hr.1 hr.2.1 hr.2.2.2.1 hr.2.2.2.2.1 hr.2.2.2.2.2.2

theorem reprotected_update (s : State) (a : Nat) (ha : (s.prot a).isSome) :
    reprotected s { s with prot := Function.update s.prot a (some Prot.PROT_NONE) } := by
  refine ⟨rfl, rfl, rfl, rfl, rfl, rfl, ?_⟩
  intro x
  by_cases hx : x = a
  · subst hx
    exact Or.inr ⟨by simp, ha⟩
  · exact Or.inl (by simp [Function.update_noteq hx])

/-- The byte loop of `tls_read` changes nothing but protections. -/
theorem read_loop_reprotected (ps idx o : Nat) (n byte : Nat) (s s1 : State)
    (buf buf1 : Nat → Nat) (h : read_loop ps idx o n byte s buf = some (s1, buf1)) :
    reprotected s s1 := by
  induction n generalizing byte s buf with
  | zero =>
    simp only [read_loop, Option.some.injEq, Prod.mk.injEq] at h
    rw [← h.1]
    exact reprotected_refl s
  | succ n ih =>
    rw [read_loop_succ] at h
    cases hp : page_at ps s idx o byte with
    | none => simp [hp] at h
    | some cur =>
      cases hh : s.heap cur with
      | none => simp [hp, hh] at h
      | some pg =>
        by_cases hm : (s.prot pg.address).isSome
        · simp only [hp, hh, hm, if_true] at h
          exact reprotected_trans (reprotected_update s pg.address hm) (ih _ _ _ h)
        · simp [hp, hh, hm] at h

theorem tls_read_reprotected (ps : Nat) (s s1 : State) (tid o n : Nat) (buf buf1 : Nat → Nat)
    (r : Int) (h : tls_read ps s tid o n buf = some (r, buf1, s1)) : reprotected s s1 := by
  unfold tls_read at h
  cases hf : find_tid s.thread_storage tid 0 MAX_THREADS with
  | none =>
    simp only [hf, Option.some.injEq, Prod.mk.injEq] at h
    rw [← h.2.2]
    exact reprotected_refl s
  | some idx =>
    cases ht : s.thread_storage idx with
    | none => simp [hf, ht] at h
    | some t =>
      simp only [hf, ht] at h
      by_cases hb : to_uint (o + n) > t.size
      · simp only [hb, if_true, Option.some.injEq, Prod.mk.injEq] at h
        rw [← h.2.2]
        exact reprotected_refl s
      · simp only [hb, if_false] at h
        cases hl : read_loop ps idx o n 0 s buf with
        | none => simp [hl] at h
        | some x =>
          obtain ⟨s2, buf2⟩ := x
          simp only [hl, Option.some.injEq, Prod.mk.injEq] at h
          rw [← h.2.2]
          exact read_loop_reprotected ps idx o n 0 s s2 buf buf2 hl

theorem holders_ge_two (ts : Nat → Option TLS) (p i j : Nat) (hij : i ≠ j)
    (hi : i < MAX_THREADS) (hj : j < MAX_THREADS)
    (hpi : p ∈ slot_pages ts i) (hpj : p ∈ slot_pages ts j) : 2 ≤ holders ts p := by
  unfold holders
  have hsub : ({i, j} : Finset Nat) ⊆ Finset.range MAX_THREADS := by
    intro x hx
    rw [Finset.mem_insert, Finset.mem_singleton] at hx
    rcases hx with hx | hx <;> rw [hx] <;> exact Finset.mem_range.2 ‹_›
  have h1 := Finset.sum_le_sum_of_subset (f := fun k => (slot_pages ts k).count p) hsub
  rw [Finset.sum_pair hij] at h1
  have h2 : 0 < (slot_pages ts i).count p := List.count_pos_iff.2 hpi
  have h3 : 0 < (slot_pages ts j).count p := List.count_pos_iff.2 hpj
  simp only at h1
  omega

theorem page_at_mem (ps : Nat) (s : State) (idx o byte cur : Nat)
    (h : page_at ps s idx o byte = some cur) :
    ∃ t, s.thread_storage idx = some t ∧
      t.pages[(to_int (to_uint (o + byte) / ps)).toNat]? = some cur ∧ cur ∈ t.pages := by
  unfold page_at at h
  cases ht : s.thread_storage idx with
  | none => simp [ht] at h
  | some t =>
    simp only [ht] at h
    split at h
    · cases h
    · exact ⟨t, rfl, h, List.getElem?_mem h⟩

/-! ## Copy-on-write keeps the state consistent -/

theorem not_referenced_of_fresh {ps : Nat} {s : State} (h : Inv ps s) (p : Nat)
    (hp : s.next_ptr ≤ p) (i : Nat) (hi : i < MAX_THREADS) : p ∉ slot_pages s.thread_storage i := by
  intro hmem
  cases ht : s.thread_storage i with
  | none => simp [slot_pages, ht] at hmem
  | some t =>
    rw [slot_pages_of_some _ _ _ ht] at hmem
    obtain ⟨pg, hpg⟩ := h.live i t hi ht p hmem
    have := (h.fresh p pg hpg).1
    omega

theorem cow_inv {ps : Nat} (hps : 0 < ps) {s s1 : State} (h : Inv ps s)
    (idx k cur : Nat) (t : TLS) (pg : page)
    (hidx : idx < MAX_THREADS) (ht : s.thread_storage idx = some t)
    (hk : t.pages[k]? = some cur) (hh : s.heap cur = some pg) (hrc : pg.ref_count > 1)
    (hts : s1.thread_storage = Function.update s.thread_storage idx
      (some { t with pages := t.pages.set k s.next_ptr }))
    (hheap : s1.heap = Function.update
      (Function.update s.heap s.next_ptr (some ⟨s.next_map * ps, 1⟩)) cur
      (some { pg with ref_count := pg.ref_count - 1 }))
    (hprot : s1.prot = Function.update
      (Function.update s.prot (s.next_map * ps) (some Prot.PROT_NONE)) pg.address
      (some Prot.PROT_READ))
    (hptr : s1.next_ptr = s.next_ptr + 1) (hmap : s1.next_map = s.next_map + 1) :
    Inv ps s1 := by
  have hcur_mem : cur ∈ t.pages := List.getElem?_mem hk
  obtain ⟨hklt, hkget⟩ := List.getElem?_eq_some.1 hk
  obtain ⟨hcur_lt, hcur_addr⟩ := h.fresh cur pg hh
  have hne : cur ≠ s.next_ptr := by omega
  have hna : pg.address ≠ s.next_map * ps := by omega
  obtain ⟨hlen, hnodup, hnum, hsz⟩ := h.shape idx t hidx ht
  have hnew_notin : s.next_ptr ∉ t.pages := by
    have := not_referenced_of_fresh h s.next_ptr (le_refl _) idx hidx
    rwa [slot_pages_of_some _ _ _ ht] at this
  have hslot : ∀ i u, s1.thread_storage i = some u →
      (i = idx ∧ u = { t with pages := t.pages.set k s.next_ptr }) ∨
      (i ≠ idx ∧ s.thread_storage i = some u) := by
    intro i u hu
    rw [hts] at hu
    by_cases hi : i = idx
    · subst hi
      rw [Function.update_same] at hu
      exact Or.inl ⟨rfl, (Option.some.inj hu).symm⟩
    · rw [Function.update_noteq hi] at hu
      exact Or.inr ⟨hi, hu⟩
  have hslot_tid : ∀ i u, s1.thread_storage i = some u →
      ∃ u0, s.thread_storage i = some u0 ∧ u0.tid = u.tid := by
    intro i u hu
    rcases hslot i u hu with ⟨h1, h2⟩ | ⟨_, h2⟩
    · subst h1
      exact ⟨t, ht, by rw [h2]⟩
    · exact ⟨u, h2, rfl⟩
  have hheap_cur : s1.heap cur = some { pg with ref_count := pg.ref_count - 1 } := by
    rw [hheap, Function.update_same]
  have hheap_new : s1.heap s.next_ptr = some ⟨s.next_map * ps, 1⟩ := by
    rw [hheap, Function.update_noteq (Ne.symm hne), Function.update_same]
  have hheap_other : ∀ p, p ≠ cur → p ≠ s.next_ptr → s1.heap p = s.heap p := by
    intro p h1 h2
    rw [hheap, Function.update_noteq h1, Function.update_noteq h2]
  have hheap_cases : ∀ p q, s1.heap p = some q →
      (p = cur ∧ q = { pg with ref_count := pg.ref_count - 1 }) ∨
      (p = s.next_ptr ∧ q = ⟨s.next_map * ps, 1⟩) ∨
      (p ≠ cur ∧ p ≠ s.next_ptr ∧ s.heap p = some q) := by
    intro p q hq
    by_cases h1 : p = cur
    · subst h1
      rw [hheap_cur] at hq
      exact Or.inl ⟨rfl, (Option.some.inj hq).symm⟩
    · by_cases h2 : p = s.next_ptr
      · subst h2
        rw [hheap_new] at hq
        exact Or.inr (Or.inl ⟨rfl, (Option.some.inj hq).symm⟩)
      · rw [hheap_other p h1 h2] at hq
        exact Or.inr (Or.inr ⟨h1, h2, hq⟩)
  have hheap_addr : ∀ p q, s1.heap p = some q →
      (p = s.next_ptr ∧ q.address = s.next_map * ps) ∨
      (p ≠ s.next_ptr ∧ ∃ q0, s.heap p = some q0 ∧ q0.address = q.address) := by
    intro p q hq
    rcases hheap_cases p q hq with ⟨h1, h2⟩ | ⟨h1, h2⟩ | ⟨h1, h2, h3⟩
    · subst h1
      exact Or.inr ⟨hne, pg, hh, by rw [h2]⟩
    · exact Or.inl ⟨h1, by rw [h2]⟩
    · exact Or.inr ⟨h2, q, h3, rfl⟩
  have hholders : ∀ p, holders s1.thread_storage p + t.pages.count p =
      holders s.thread_storage p + (t.pages.set k s.next_ptr).count p := by
    intro p
    have := holders_update s.thread_storage idx hidx
      (some { t with pages := t.pages.set k s.next_ptr }) p
    rw [slot_pages_update_same, slot_pages_of_some _ _ _ ht] at this
    rw [hts]
    exact this
  have hcount : ∀ p, (t.pages.set k s.next_ptr).count p + (if cur = p then 1 else 0) =
      t.pages.count p + (if s.next_ptr = p then 1 else 0) := by
    intro p
    have := count_set t.pages k hklt s.next_ptr p
    rwa [hkget] at this
  constructor
  · intro i j u w hi hj h1 h2 htid
    obtain ⟨u0, hu0, hu0t⟩ := hslot_tid i u h1
    obtain ⟨w0, hw0, hw0t⟩ := hslot_tid j w h2
    exact h.uniq i j u0 w0 hi hj hu0 hw0 (by rw [hu0t, hw0t, htid])
  · intro i u hi hu
    rcases hslot i u hu with ⟨_, h2⟩ | ⟨_, h2⟩
    · subst h2
      refine ⟨?_, nodup_set _ _ _ hnodup hnew_notin, hnum, hsz⟩
      simpa using hlen
    · exact h.shape i u hi h2
  · intro i u hi hu p hp
    have hp0 : p = s.next_ptr ∨ ∃ pg0, s.heap p = some pg0 := by
      rcases hslot i u hu with ⟨h1, h2⟩ | ⟨_, h2⟩
      · subst h2
        rcases mem_set_cases _ _ _ _ hp with h3 | h3
        · exact Or.inr (h.live idx t hidx ht p h3)
        · exact Or.inl h3
      · exact Or.inr (h.live i u hi h2 p hp)
    rcases hp0 with h1 | ⟨pg0, h1⟩
    · subst h1
      exact ⟨_, hheap_new⟩
    · by_cases h2 : p = cur
      · subst h2
        exact ⟨_, hheap_cur⟩
      · by_cases h3 : p = s.next_ptr
        · subst h3
          exact ⟨_, hheap_new⟩
        · exact ⟨pg0, by rw [hheap_other p h2 h3]; exact h1⟩
  · intro p q hq
    have hH := hholders p
    have hC := hcount p
    rcases hheap_cases p q hq with ⟨h1, h2⟩ | ⟨h1, h2⟩ | ⟨h1, h2, h3⟩
    · subst h1
      have hc1 : t.pages.count p = 1 := List.count_eq_one_of_mem hnodup hcur_mem
      obtain ⟨hr1, hr2⟩ := h.refs p pg hh
      simp only [if_true, hne, Ne.symm hne, if_false] at hC
      rw [h2]
      simp only
      constructor <;> omega
    · subst h1
      have hz : holders s.thread_storage s.next_ptr = 0 :=
        holders_eq_zero _ _ (fun i hi => not_referenced_of_fresh h _ (le_refl _) i hi)
      have hc0 : t.pages.count s.next_ptr = 0 := List.count_eq_zero_of_not_mem hnew_notin
      simp only [hne, Ne.symm hne, if_false, if_true] at hC
      rw [h2]
      simp only
      constructor <;> omega
    · obtain ⟨hr1, hr2⟩ := h.refs p q h3
      simp only [Ne.symm h1, Ne.symm h2, if_false] at hC
      constructor <;> omega
  · intro p q hq
    rw [hprot]
    rcases hheap_cases p q hq with ⟨h1, h2⟩ | ⟨h1, h2⟩ | ⟨h1, h2, h3⟩
    · right
      rw [h2]
      simp
    · left
      rw [h2]
      simp only
      rw [Function.update_noteq (Ne.symm hna), Function.update_same]
    · have ha1 : q.address ≠ pg.address := fun hc => h1 (h.inj p cur q pg h3 hh hc)
      have ha2 : q.address ≠ s.next_map * ps := by
        have := (h.fresh p q h3).2
        omega
      rw [Function.update_noteq ha1, Function.update_noteq ha2]
      exact h.mapped p q h3
  · intro p q pg1 pg2 h1 h2 haddr
    rcases hheap_addr p pg1 h1 with ⟨a1, a2⟩ | ⟨a1, q1, a2, a3⟩
    · rcases hheap_addr q pg2 h2 with ⟨b1, b2⟩ | ⟨b1, q2, b2, b3⟩
      · rw [a1, b1]
      · have := (h.fresh q q2 b2).2
        omega
    · rcases hheap_addr q pg2 h2 with ⟨b1, b2⟩ | ⟨b1, q2, b2, b3⟩
      · have := (h.fresh p q1 a2).2
        omega
      · exact h.inj p q q1 q2 a2 b2 (by rw [a3, b3, haddr])
  · intro p q hq
    rw [hptr, hmap]
    have hlt : s.next_map * ps < (s.next_map + 1) * ps := by
      rw [Nat.add_mul, one_mul]
      omega
    rcases hheap_addr p q hq with ⟨a1, a2⟩ | ⟨a1, q1, a2, a3⟩
    · constructor <;> omega
    · have := h.fresh p q1 a2
      constructor <;> omega
  · intro p q hq
    rcases hheap_addr p q hq with ⟨_, a2⟩ | ⟨_, q1, a2, a3⟩
    · rw [a2]
      exact Dvd.intro_left _ rfl
    · rw [← a3]
      exact h.aligned p q1 a2

/-! ## One iteration of the write loop -/

theorem mapped_isSome {ps : Nat} {s : State} (h : Inv ps s) (p : Nat) (pg : page)
    (hp : s.heap p = some pg) : (s.prot pg.address).isSome := by
  rcases h.mapped p pg hp with h1 | h1 <;> rw [h1] <;> rfl

theorem write_byte_spec {ps : Nat} (hps : 0 < ps) {s s1 : State} (h : Inv ps s)
    (idx o byte v : Nat) (hidx : idx < MAX_THREADS)
    (hw : write_byte ps s idx o byte v = some s1) :
    Inv ps s1 ∧ (∀ j, j ≠ idx → s1.thread_storage j = s.thread_storage j) ∧
    (∃ t t1, s.thread_storage idx = some t ∧ s1.thread_storage idx = some t1 ∧
      t1.tid = t.tid ∧ t1.size = t.size ∧ t1.num_pages = t.num_pages) ∧
    (∀ j, j < MAX_THREADS → j ≠ idx → same_view j s s1) := by
  cases hpa : page_at ps s idx o byte with
  | none =>
    unfold write_byte at hw
    simp [hpa] at hw
  | some cur =>
    obtain ⟨t, ht, hk, hcur_mem⟩ := page_at_mem ps s idx o byte cur hpa
    obtain ⟨pg, hh⟩ := h.live idx t hidx ht cur hcur_mem
    have hm : (s.prot pg.address).isSome = true := mapped_isSome h cur pg hh
    by_cases hrc : pg.ref_count > 1
    · obtain ⟨hcur_lt, hcur_addr⟩ := h.fresh cur pg hh
      have hne : cur ≠ s.next_ptr := by omega
      have hna : pg.address ≠ s.next_map * ps := by omega
      rw [write_byte_shared ps idx o byte v cur s t pg ht hpa hh hrc hne hna] at hw
      simp only [hm, if_true, Option.some.injEq] at hw
      subst hw
      refine ⟨cow_inv hps h idx _ cur t pg hidx ht hk hh hrc rfl rfl rfl rfl rfl, ?_, ?_, ?_⟩
      · intro j hj
        simp only [Function.update_noteq hj]
      · exact ⟨t, { t with pages := t.pages.set (to_int (to_uint (o + byte) / ps)).toNat s.next_ptr },
          ht, by simp only [Function.update_same], rfl, rfl, rfl⟩
      · intro j hj hji
        refine ⟨by simp only [Function.update_noteq hji], ?_⟩
        intro p hp
        cases htj : s.thread_storage j with
        | none => simp [slot_pages, htj] at hp
        | some tj =>
          rw [slot_pages_of_some _ _ _ htj] at hp
          obtain ⟨pgp, hpgp⟩ := h.live j tj hj htj p hp
          obtain ⟨hp_lt, hp_addr⟩ := h.fresh p pgp hpgp
          have hpn : p ≠ s.next_ptr := by omega
          have han : pgp.address ≠ s.next_map * ps := by omega
          constructor
          · simp only
            by_cases hpc : p = cur
            · subst hpc
              rw [Function.update_same, hh]
              rfl
            · rw [Function.update_noteq hpc, Function.update_noteq hpn]
          · intro pg0 hpg0
            rw [hpgp] at hpg0
            cases hpg0
            simp only
            constructor
            · by_cases hac : pgp.address = pg.address
              · rw [hac, Function.update_same, hm]
                rfl
              · rw [Function.update_noteq hac, Function.update_noteq han]
            · rw [Function.update_noteq han]
    · rw [write_byte_private ps idx o byte v cur s pg hpa hh hrc] at hw
      simp only [hm, if_true, Option.some.injEq] at hw
      subst hw
      refine ⟨?_, ?_, ?_, ?_⟩
      · refine @Inv.of_same_objects ps s _ h rfl rfl rfl rfl ?_
        intro x
        simp only
        by_cases hx : x = pg.address
        · subst hx
          exact Or.inr ⟨by rw [Function.update_same], hm⟩
        · exact Or.inl (by rw [Function.update_noteq hx])
      · intro j _
        rfl
      · exact ⟨t, t, ht, ht, rfl, rfl, rfl⟩
      · intro j hj hji
        refine ⟨rfl, ?_⟩
        intro p hp
        refine ⟨rfl, ?_⟩
        intro pgp hpgp
        have hpc : p ≠ cur := by
          intro hpc
          subst hpc
          have h2 := holders_ge_two s.thread_storage p j idx hji hj hidx hp
            (by rw [slot_pages_of_some _ _ _ ht]; exact hcur_mem)
          have h3 := (h.refs p pg hh).1
          omega
        have hac : pgp.address ≠ pg.address := fun hc => hpc (h.inj p cur pgp pg hpgp hh hc)
        simp only
        constructor
        · rw [Function.update_noteq hac]
        · rw [Function.update_noteq hac]

/-! ## Reads through an undisturbed slot -/

theorem same_view_refl (idx : Nat) (s : State) : same_view idx s s :=
  ⟨rfl, fun _ _ => ⟨rfl, fun _ _ => ⟨rfl, rfl⟩⟩⟩

theorem same_view_heap {idx : Nat} {s s1 : State} (h : same_view idx s s1) (p : Nat)
    (hp : p ∈ slot_pages s.thread_storage idx) (pg : page) (hpg : s.heap p = some pg) :
    ∃ pg1, s1.heap p = some pg1 ∧ pg1.address = pg.address := by
  have := (h.2 p hp).1
  rw [hpg] at this
  cases h1 : s1.heap p with
  | none => rw [h1] at this; simp at this
  | some pg1 =>
    rw [h1] at this
    simp only [Option.map_some', Option.some.injEq] at this
    exact ⟨pg1, rfl, this⟩

theorem same_view_trans {idx : Nat} {s s1 s2 : State} (h1 : same_view idx s s1)
    (h2 : same_view idx s1 s2) : same_view idx s s2 := by
  refine ⟨h2.1.trans h1.1, ?_⟩
  intro p hp
  have hp1 : p ∈ slot_pages s1.thread_storage idx := by
    simp only [slot_pages, h1.1]
    exact hp
  refine ⟨(h2.2 p hp1).1.trans (h1.2 p hp).1, ?_⟩
  intro pg hpg
  obtain ⟨pg1, hpg1, haddr⟩ := same_view_heap h1 p hp pg hpg
  obtain ⟨a1, a2⟩ := (h1.2 p hp).2 pg hpg
  obtain ⟨b1, b2⟩ := (h2.2 p hp1).2 pg1 hpg1
  rw [haddr] at b1 b2
  exact ⟨b1.trans a1, b2.trans a2⟩

theorem same_view_of_reprotected {s s1 : State} (h : reprotected s s1) (idx : Nat) :
    same_view idx s s1 := by
  obtain ⟨a1, a2, a3, _, _, _, a7⟩ := h
  refine ⟨by rw [a1], ?_⟩
  intro p _
  refine ⟨by rw [a2], ?_⟩
  intro pg _
  refine ⟨?_, by rw [a3]⟩
  rcases a7 pg.address with h1 | h1
  · rw [h1]
  · rw [h1.1, h1.2]
    rfl

theorem same_view_protect {idx : Nat} {s s1 : State} (h : same_view idx s s1) (a : Nat)
    (pr : Prot) :
    same_view idx { s with prot := Function.update s.prot a (some pr) }
      { s1 with prot := Function.update s1.prot a (some pr) } := by
  refine ⟨h.1, ?_⟩
  intro p hp
  refine ⟨(h.2 p hp).1, ?_⟩
  intro pg hpg
  obtain ⟨a1, a2⟩ := (h.2 p hp).2 pg hpg
  refine ⟨?_, a2⟩
  simp only
  by_cases hx : pg.address = a
  · rw [hx, Function.update_same, Function.update_same]
  · rw [Function.update_noteq hx, Function.update_noteq hx]
    exact a1

theorem page_at_congr (ps : Nat) (s s1 : State) (idx o byte : Nat)
    (h : s1.thread_storage idx = s.thread_storage idx) :
    page_at ps s1 idx o byte = page_at ps s idx o byte := by
  unfold page_at
  rw [h]

/-- The bytes delivered by the read loop depend only on the view of the slot. -/
theorem read_loop_congr (ps idx o : Nat) (n byte : Nat) (s s1 : State) (buf : Nat → Nat)
    (h : same_view idx s s1) :
    (read_loop ps idx o n byte s1 buf).map Prod.snd =
      (read_loop ps idx o n byte s buf).map Prod.snd := by
  induction n generalizing byte s s1 buf with
  | zero => rfl
  | succ n ih =>
    rw [read_loop_succ, read_loop_succ, page_at_congr ps s s1 idx o byte h.1]
    cases hpa : page_at ps s idx o byte with
    | none => rfl
    | some cur =>
      obtain ⟨t, ht, _, hcur_mem⟩ := page_at_mem ps s idx o byte cur hpa
      have hcur : cur ∈ slot_pages s.thread_storage idx := by
        rw [slot_pages_of_some _ _ _ ht]
        exact hcur_mem
      cases hh : s.heap cur with
      | none =>
        have := (h.2 cur hcur).1
        rw [hh] at this
        cases hh1 : s1.heap cur with
        | none => simp only [hh, hh1]
        | some pg1 => rw [hh1] at this; simp at this
      | some pg =>
        obtain ⟨pg1, hpg1, haddr⟩ := same_view_heap h cur hcur pg hh
        obtain ⟨a1, a2⟩ := (h.2 cur hcur).2 pg hh
        simp only [hh, hpg1, haddr, a1, a2]
        by_cases hm : (s.prot pg.address).isSome
        · simp only [hm, if_true]
          exact ih (byte + 1) _ _ _ (same_view_protect h pg.address Prot.PROT_NONE)
        · simp [hm]

theorem tls_read_congr (ps : Nat) (s s1 : State) (tid o n : Nat) (buf : Nat → Nat)
    (hfind : find_tid s1.thread_storage tid 0 MAX_THREADS =
      find_tid s.thread_storage tid 0 MAX_THREADS)
    (hview : ∀ idx, find_tid s.thread_storage tid 0 MAX_THREADS = some idx →
      same_view idx s s1) :
    read_result (tls_read ps s1 tid o n buf) = read_result (tls_read ps s tid o n buf) := by
  unfold tls_read
  rw [hfind]
  cases hf : find_tid s.thread_storage tid 0 MAX_THREADS with
  | none => rfl
  | some idx =>
    have hv := hview idx hf
    simp only [hv.1]
    cases ht : s.thread_storage idx with
    | none => rfl
    | some t =>
      simp only
      by_cases hb : to_uint (o + n) > t.size
      · simp only [hb, if_true]
        rfl
      · simp only [hb, if_false]
        have := read_loop_congr ps idx o n 0 s s1 buf hv
        cases h1 : read_loop ps idx o n 0 s1 buf with
        | none =>
          cases h2 : read_loop ps idx o n 0 s buf with
          | none => rfl
          | some x => rw [h1, h2] at this; simp at this
        | some x =>
          cases h2 : read_loop ps idx o n 0 s buf with
          | none => rw [h1, h2] at this; simp at this
          | some y =>
            rw [h1, h2] at this
            simp only [Option.map_some', Option.some.injEq] at this
            simp only [read_result, Option.map_some', this]

/-! ## The write loop -/

theorem write_loop_spec {ps : Nat} (hps : 0 < ps) (idx o : Nat) (buf : Nat → Nat)
    (hidx : idx < MAX_THREADS) (n byte : Nat) {s s1 : State} (h : Inv ps s)
    (hw : write_loop ps idx o buf n byte s = some s1) :
    Inv ps s1 ∧ (∀ j, j ≠ idx → s1.thread_storage j = s.thread_storage j) ∧
    (∀ t, s.thread_storage idx = some t → ∃ t1, s1.thread_storage idx = some t1 ∧
      t1.tid = t.tid ∧ t1.size = t.size ∧ t1.num_pages = t.num_pages) ∧
    (∀ j, j < MAX_THREADS → j ≠ idx → same_view j s s1) := by
  induction n generalizing byte s with
  | zero =>
    simp only [write_loop, Option.some.injEq] at hw
    subst hw
    exact ⟨h, fun _ _ => rfl, fun t ht => ⟨t, ht, rfl, rfl, rfl⟩,
      fun j _ _ => same_view_refl j s⟩
  | succ n ih =>
    rw [write_loop] at hw
    cases hb : write_byte ps s idx o byte (buf byte) with
    | none => simp [hb] at hw
    | some s2 =>
      simp only [hb] at hw
      obtain ⟨a1, a2, ⟨t, t2, a3, a4, a5, a6, a7⟩, a8⟩ :=
        write_byte_spec hps h idx o byte (buf byte) hidx hb
      obtain ⟨b1, b2, b3, b4⟩ := ih (byte + 1) a1 hw
      refine ⟨b1, fun j hj => (b2 j hj).trans (a2 j hj), ?_,
        fun j hj hji => same_view_trans (a8 j hj hji) (b4 j hj hji)⟩
      intro t0 ht0
      rw [a3] at ht0
      cases ht0
      obtain ⟨t1, c1, c2, c3, c4⟩ := b3 t2 a4
      exact ⟨t1, c1, c2.trans a5, c3.trans a6, c4.trans a7⟩

/-- What a returning `tls_write` leaves behind. -/
theorem tls_write_spec {ps : Nat} (hps : 0 < ps) {s s1 : State} (h : Inv ps s)
    (tid o n : Nat) (buf : Nat → Nat) (r : Int)
    (hw : tls_write ps s tid o n buf = some (r, s1)) :
    Inv ps s1 ∧
    (∀ j, (s1.thread_storage j).map TLS.tid = (s.thread_storage j).map TLS.tid) ∧
    (∀ j t, j < MAX_THREADS → s.thread_storage j = some t → t.tid ≠ tid →
      same_view j s s1) := by
  unfold tls_write at hw
  cases hf : find_tid s.thread_storage tid 0 MAX_THREADS with
  | none =>
    simp only [hf, Option.some.injEq, Prod.mk.injEq] at hw
    rw [← hw.2]
    exact ⟨h, fun _ => rfl, fun j _ _ _ _ => same_view_refl j s⟩
  | some idx =>
    obtain ⟨_, hidx, ⟨t, ht, htid⟩, _⟩ := find_tid_some_spec _ _ _ _ _ hf
    simp only [hf, ht] at hw
    by_cases hb : to_uint (o + n) > t.size
    · simp only [hb, if_true, Option.some.injEq, Prod.mk.injEq] at hw
      rw [← hw.2]
      exact ⟨h, fun _ => rfl, fun j _ _ _ _ => same_view_refl j s⟩
    · simp only [hb, if_false] at hw
      cases hl : write_loop ps idx o buf n 0 s with
      | none => simp [hl] at hw
      | some s2 =>
        simp only [hl, Option.some.injEq, Prod.mk.injEq] at hw
        rw [← hw.2]
        obtain ⟨a1, a2, a3, a4⟩ :=
          write_loop_spec hps idx o buf (by omega) n 0 h hl
        refine ⟨a1, ?_, ?_⟩
        · intro j
          by_cases hj : j = idx
          · subst hj
            obtain ⟨t1, c1, c2, _⟩ := a3 t ht
            rw [c1, ht]
            simp [c2]
          · rw [a2 j hj]
        · intro j u hj hu hut
          have hji : j ≠ idx := by
            intro hji
            subst hji
            rw [ht] at hu
            cases hu
            exact hut htid
          exact a4 j hj hji

/-! ## The allocation loop of `tls_create` -/

theorem alloc_pages_succ (ps n : Nat) (s s2 : State)
    (hs2 : s2 = { s with
      heap := Function.update s.heap s.next_ptr (some ⟨s.next_map * ps, 1⟩)
      prot := Function.update s.prot (s.next_map * ps) (some Prot.PROT_NONE)
      mem := Function.update s.mem (s.next_map * ps) (fun _ => 0)
      next_ptr := s.next_ptr + 1
      next_map := s.next_map + 1 }) :
    alloc_pages ps (n + 1) s =
      ((alloc_pages ps n s2).1, s.next_ptr :: (alloc_pages ps n s2).2) := by
  subst hs2
  rfl

theorem alloc_pages_spec (ps n : Nat) (s : State) :
    (alloc_pages ps n s).1.thread_storage = s.thread_storage ∧
    (alloc_pages ps n s).1.is_first_call = s.is_first_call ∧
    (alloc_pages ps n s).1.next_ptr = s.next_ptr + n ∧
    (alloc_pages ps n s).1.next_map = s.next_map + n ∧
    (alloc_pages ps n s).2 = List.range' s.next_ptr n ∧
    (∀ p, p < s.next_ptr ∨ s.next_ptr + n ≤ p → (alloc_pages ps n s).1.heap p = s.heap p) ∧
    (∀ k, k < n →
      (alloc_pages ps n s).1.heap (s.next_ptr + k) = some ⟨(s.next_map + k) * ps, 1⟩) ∧
    (∀ a, (∀ k, k < n → a ≠ (s.next_map + k) * ps) →
      (alloc_pages ps n s).1.prot a = s.prot a ∧ (alloc_pages ps n s).1.mem a = s.mem a) ∧
    (∀ k, k < n →
      (alloc_pages ps n s).1.prot ((s.next_map + k) * ps) = some Prot.PROT_NONE ∧
      (alloc_pages ps n s).1.mem ((s.next_map + k) * ps) = fun _ => 0) := by
  induction n generalizing s with
  | zero =>
    refine ⟨rfl, rfl, rfl, rfl, rfl, fun _ _ => rfl, ?_, fun _ _ => ⟨rfl, rfl⟩, ?_⟩
    · intro k hk
      omega
    · intro k hk
      omega
  | succ n ih =>
    obtain ⟨s2, hs2⟩ : ∃ s2 : State, s2 = { s with
        heap := Function.update s.heap s.next_ptr (some ⟨s.next_map * ps, 1⟩)
        prot := Function.update s.prot (s.next_map * ps) (some Prot.PROT_NONE)
        mem := Function.update s.mem (s.next_map * ps) (fun _ => 0)
        next_ptr := s.next_ptr + 1
        next_map := s.next_map + 1 } := ⟨_, rfl⟩
    rw [alloc_pages_succ ps n s s2 hs2]
    have f1 : s2.thread_storage = s.thread_storage := by rw [hs2]
    have f2 : s2.is_first_call = s.is_first_call := by rw [hs2]
    have f3 : s2.next_ptr = s.next_ptr + 1 := by rw [hs2]
    have f4 : s2.next_map = s.next_map + 1 := by rw [hs2]
    have f5 : s2.heap = Function.update s.heap s.next_ptr (some ⟨s.next_map * ps, 1⟩) := by
      rw [hs2]
    have f6 : s2.prot = Function.update s.prot (s.next_map * ps) (some Prot.PROT_NONE) := by
      rw [hs2]
    have f7 : s2.mem = Function.update s.mem (s.next_map * ps) (fun _ => 0) := by rw [hs2]
    clear hs2
    obtain ⟨a1, a2, a3, a4, a5, a6, a7, a8, a9⟩ := ih s2
    simp only
    rw [f3] at a3 a5 a6 a7
    rw [f4] at a4 a7 a8 a9
    refine ⟨a1.trans f1, a2.trans f2, by omega, by omega, ?_, ?_, ?_, ?_, ?_⟩
    · rw [a5]
      rfl
    · intro p hp
      rw [a6 p (by omega), f5, Function.update_noteq (by omega)]
    · intro k hk
      cases k with
      | zero =>
        rw [Nat.add_zero, Nat.add_zero, a6 s.next_ptr (Or.inl (by omega)), f5,
          Function.update_same]
      | succ k =>
        have := a7 k (by omega)
        rw [show s.next_ptr + (k + 1) = s.next_ptr + 1 + k by omega,
          show s.next_map + (k + 1) = s.next_map + 1 + k by omega]
        exact this
    · intro a ha
      have h0 : a ≠ s.next_map * ps := by
        have := ha 0 (by omega)
        simpa using this
      have hrest : ∀ k, k < n → a ≠ (s.next_map + 1 + k) * ps := by
        intro k hk
        have := ha (k + 1) (by omega)
        rwa [show s.next_map + (k + 1) = s.next_map + 1 + k by omega] at this
      obtain ⟨b1, b2⟩ := a8 a hrest
      rw [b1, b2, f6, f7, Function.update_noteq h0, Function.update_noteq h0]
      exact ⟨rfl, rfl⟩
    · intro k hk
      cases k with
      | succ k =>
        have := a9 k (by omega)
        rw [show s.next_map + (k + 1) = s.next_map + 1 + k by omega]
        exact this
      | zero =>
        rw [Nat.add_zero]
        by_cases hx : ∀ k, k < n → s.next_map * ps ≠ (s.next_map + 1 + k) * ps
        · obtain ⟨b1, b2⟩ := a8 _ hx
          rw [b1, b2, f6, f7, Function.update_same, Function.update_same]
          exact ⟨rfl, rfl⟩
        · push_neg at hx
          obtain ⟨k, hk, hkeq⟩ := hx
          rw [hkeq]
          exact a9 k hk

/-! ## `tls_create` keeps the state consistent -/

theorem create_inv {ps : Nat} (hps : 0 < ps) {s s1 : State} (h : Inv ps s)
    (i tid size n : Nat) (np : Int)
    (hi : i < MAX_THREADS) (hfree : s.thread_storage i = none)
    (hnot : ∀ j, j < MAX_THREADS → ∀ t, s.thread_storage j = some t → t.tid ≠ tid)
    (hnp : np = num_pages_of ps size) (hn : np.toNat = n)
    (hsz0 : 0 < size) (hsz : size < 2 ^ 32)
    (hts : s1.thread_storage = Function.update s.thread_storage i
      (some ⟨tid, size, np, List.range' s.next_ptr n⟩))
    (hptr : s1.next_ptr = s.next_ptr + n) (hmap : s1.next_map = s.next_map + n)
    (hheap_old : ∀ p, p < s.next_ptr ∨ s.next_ptr + n ≤ p → s1.heap p = s.heap p)
    (hheap_new : ∀ k, k < n →
      s1.heap (s.next_ptr + k) = some ⟨(s.next_map + k) * ps, 1⟩)
    (hprot_old : ∀ a, (∀ k, k < n → a ≠ (s.next_map + k) * ps) → s1.prot a = s.prot a)
    (hprot_new : ∀ k, k < n → s1.prot ((s.next_map + k) * ps) = some Prot.PROT_NONE) :
    Inv ps s1 := by
  have hslot : ∀ j u, s1.thread_storage j = some u →
      (j = i ∧ u = ⟨tid, size, np, List.range' s.next_ptr n⟩) ∨
      (j ≠ i ∧ s.thread_storage j = some u) := by
    intro j u hu
    rw [hts] at hu
    by_cases hj : j = i
    · subst hj
      rw [Function.update_same] at hu
      exact Or.inl ⟨rfl, (Option.some.inj hu).symm⟩
    · rw [Function.update_noteq hj] at hu
      exact Or.inr ⟨hj, hu⟩
  have hheap_cases : ∀ p pg, s1.heap p = some pg →
      (p < s.next_ptr ∧ s.heap p = some pg) ∨
      (∃ k, k < n ∧ p = s.next_ptr + k ∧ pg = ⟨(s.next_map + k) * ps, 1⟩) := by
    intro p pg hpg
    by_cases h1 : p < s.next_ptr
    · rw [hheap_old p (Or.inl h1)] at hpg
      exact Or.inl ⟨h1, hpg⟩
    · by_cases h2 : p < s.next_ptr + n
      · right
        refine ⟨p - s.next_ptr, by omega, by omega, ?_⟩
        have := hheap_new (p - s.next_ptr) (by omega)
        rw [show s.next_ptr + (p - s.next_ptr) = p by omega, hpg] at this
        exact Option.some.inj this
      · rw [hheap_old p (Or.inr (by omega))] at hpg
        have := (h.fresh p pg hpg).1
        omega
  have hmul : ∀ k, s.next_map * ps ≤ (s.next_map + k) * ps :=
    fun k => Nat.mul_le_mul_right ps (Nat.le_add_right _ _)
  have hold_addr : ∀ p pg, s.heap p = some pg → ∀ k, k < n →
      pg.address ≠ (s.next_map + k) * ps := by
    intro p pg hpg k _
    have := (h.fresh p pg hpg).2
    have := hmul k
    omega
  have hholders : ∀ p, holders s1.thread_storage p =
      holders s.thread_storage p + (List.range' s.next_ptr n).count p := by
    intro p
    have := holders_update s.thread_storage i hi
      (some ⟨tid, size, np, List.range' s.next_ptr n⟩) p
    rw [slot_pages_update_same, slot_pages_of_none _ _ hfree] at this
    rw [hts]
    simpa using this
  constructor
  · intro j1 j2 u w hj1 hj2 h1 h2 htid
    rcases hslot j1 u h1 with ⟨a1, a2⟩ | ⟨a1, a2⟩
    · rcases hslot j2 w h2 with ⟨b1, b2⟩ | ⟨b1, b2⟩
      · rw [a1, b1]
      · exfalso
        apply hnot j2 hj2 w b2
        rw [← htid, a2]
    · rcases hslot j2 w h2 with ⟨b1, b2⟩ | ⟨b1, b2⟩
      · exfalso
        apply hnot j1 hj1 u a2
        rw [htid, b2]
      · exact h.uniq j1 j2 u w hj1 hj2 a2 b2 htid
  · intro j u hj hu
    rcases hslot j u hu with ⟨_, a2⟩ | ⟨_, a2⟩
    · subst a2
      exact ⟨by simp [hn], List.nodup_range' _ _, hnp, hsz0, hsz⟩
    · exact h.shape j u hj a2
  · intro j u hj hu p hp
    rcases hslot j u hu with ⟨_, a2⟩ | ⟨_, a2⟩
    · subst a2
      simp only [List.mem_range'_1] at hp
      have := hheap_new (p - s.next_ptr) (by omega)
      rw [show s.next_ptr + (p - s.next_ptr) = p by omega] at this
      exact ⟨_, this⟩
    · obtain ⟨pg, hpg⟩ := h.live j u hj a2 p hp
      exact ⟨pg, by rw [hheap_old p (Or.inl (h.fresh p pg hpg).1)]; exact hpg⟩
  · intro p pg hpg
    rw [hholders p]
    rcases hheap_cases p pg hpg with ⟨a1, a2⟩ | ⟨k, a1, a2, a3⟩
    · have hc : (List.range' s.next_ptr n).count p = 0 := by
        apply List.count_eq_zero_of_not_mem
        simp only [List.mem_range'_1]
        omega
      obtain ⟨r1, r2⟩ := h.refs p pg a2
      rw [hc]
      exact ⟨by omega, by omega⟩
    · have hc : (List.range' s.next_ptr n).count p = 1 := by
        apply List.count_eq_one_of_mem (List.nodup_range' _ _)
        simp only [List.mem_range'_1]
        omega
      have hz : holders s.thread_storage p = 0 :=
        holders_eq_zero _ _ (fun j hj => not_referenced_of_fresh h p (by omega) j hj)
      rw [hc, hz, a3]
      simp
  · intro p pg hpg
    rcases hheap_cases p pg hpg with ⟨a1, a2⟩ | ⟨k, a1, a2, a3⟩
    · rw [hprot_old pg.address (hold_addr p pg a2)]
      exact h.mapped p pg a2
    · rw [a3]
      exact Or.inl (hprot_new k a1)
  · intro p q pg pg1 hp hq haddr
    rcases hheap_cases p pg hp with ⟨a1, a2⟩ | ⟨k, a1, a2, a3⟩
    · rcases hheap_cases q pg1 hq with ⟨b1, b2⟩ | ⟨k1, b1, b2, b3⟩
      · exact h.inj p q pg pg1 a2 b2 haddr
      · exfalso
        apply hold_addr p pg a2 k1 b1
        rw [haddr, b3]
    · rcases hheap_cases q pg1 hq with ⟨b1, b2⟩ | ⟨k1, b1, b2, b3⟩
      · exfalso
        apply hold_addr q pg1 b2 k a1
        rw [← haddr, a3]
      · rw [a3, b3] at haddr
        simp only at haddr
        have := Nat.eq_of_mul_eq_mul_right hps haddr
        omega
  · intro p pg hpg
    rw [hptr, hmap]
    rcases hheap_cases p pg hpg with ⟨a1, a2⟩ | ⟨k, a1, a2, a3⟩
    · have := (h.fresh p pg a2).2
      have := Nat.mul_le_mul_right ps (Nat.le_add_right s.next_map n)
      constructor <;> omega
    · rw [a3]
      simp only
      have : (s.next_map + k) * ps < (s.next_map + n) * ps :=
        Nat.mul_lt_mul_of_pos_right (by omega) hps
      constructor <;> omega
  · intro p pg hpg
    rcases hheap_cases p pg hpg with ⟨_, a2⟩ | ⟨k, _, _, a3⟩
    · exact h.aligned p pg a2
    · rw [a3]
      exact Dvd.intro_left _ rfl

/-- The two ways `tls_create` can end. -/
theorem tls_create_cases (ps : Nat) (s : State) (tid size : Nat) :
    ((size = 0 ∨ has_area s tid ∨ ∀ i, i < MAX_THREADS → (s.thread_storage i).isSome) ∧
      tls_create ps s tid size = (FAILURE, { s with is_first_call := false })) ∨
    (size ≠ 0 ∧ ¬ has_area s tid ∧ ∃ i, find_free s.thread_storage 0 MAX_THREADS = some i ∧
      tls_create ps s tid size =
        (SUCCESS,
          { (alloc_pages ps (num_pages_of ps size).toNat { s with is_first_call := false }).1 with
            thread_storage := Function.update s.thread_storage i
              (some ⟨tid, size, num_pages_of ps size,
                List.range' s.next_ptr (num_pages_of ps size).toNat⟩) })) := by
  obtain ⟨a1, a2, a3, a4, a5, _⟩ :=
    alloc_pages_spec ps (num_pages_of ps size).toNat { s with is_first_call := false }
  unfold tls_create
  by_cases hsz : size = 0
  · left
    refine ⟨Or.inl hsz, ?_⟩
    rw [if_pos hsz]
  · rw [if_neg hsz]
    cases hf : find_tid s.thread_storage tid 0 MAX_THREADS with
    | some k =>
      left
      exact ⟨Or.inr (Or.inl ((has_area_iff s tid).2 ⟨k, hf⟩)), rfl⟩
    | none =>
      have hna : ¬ has_area s tid := (not_has_area_iff s tid).2 hf
      cases hfr : find_free s.thread_storage 0 MAX_THREADS with
      | none =>
        left
        refine ⟨Or.inr (Or.inr ?_), rfl⟩
        intro i hi
        exact (find_free_none_iff _ _ _).1 hfr i (Nat.zero_le _) (by omega)
      | some i =>
        right
        refine ⟨hsz, hna, i, rfl, ?_⟩
        simp only
        rw [a1, a5]
theorem tls_create_inv {ps : Nat} (hps : 0 < ps) {s : State} (h : Inv ps s)
    (tid size : Nat) (hsz : size < 2 ^ 32) : Inv ps (tls_create ps s tid size).2 := by
  rcases tls_create_cases ps s tid size with ⟨_, h1⟩ | ⟨h0, hna, i, hi, h1⟩
  · rw [h1]
    exact @Inv.of_same_objects ps s _ h rfl rfl rfl rfl (fun _ => Or.inl rfl)
  · rw [h1]
    have hspec :=
      alloc_pages_spec ps (num_pages_of ps size).toNat { s with is_first_call := false }
    obtain ⟨_, b2, b3, _⟩ := find_free_some_spec _ _ _ _ hi
    have hnot : ∀ j, j < MAX_THREADS → ∀ t, s.thread_storage j = some t → t.tid ≠ tid :=
      fun j hj t ht htid => hna ⟨j, hj, t, ht, htid⟩
    have hnp : ∃ np : Int, np = num_pages_of ps size := ⟨_, rfl⟩
    obtain ⟨np, hnp⟩ := hnp
    rw [← hnp] at hspec ⊢
    have hn : ∃ n : Nat, np.toNat = n := ⟨_, rfl⟩
    obtain ⟨n, hn⟩ := hn
    rw [hn] at hspec ⊢
    generalize alloc_pages ps n { s with is_first_call := false } = r at hspec ⊢
    obtain ⟨a1, a2, a3, a4, a5, a6, a7, a8, a9⟩ := hspec
    exact create_inv hps h i tid size n np (by omega) b3 hnot hnp hn (by omega) hsz rfl a3 a4 a6
      a7 (fun a ha => (a8 a ha).1) (fun k hk => (a9 k hk).1)

/-! ## The sharing loop of `tls_clone` -/

theorem share_pages_spec (pages : List Nat) (n i : Nat) (s : State)
    (hlen : i + n = pages.length) (hlive : ∀ p ∈ pages, ∃ pg, s.heap p = some pg) :
    ∃ s1, share_pages pages i n s = some (s1, pages.drop i) ∧
      s1.thread_storage = s.thread_storage ∧ s1.prot = s.prot ∧ s1.mem = s.mem ∧
      s1.next_ptr = s.next_ptr ∧ s1.next_map = s.next_map ∧
      s1.is_first_call = s.is_first_call ∧
      ∀ p, s1.heap p = (s.heap p).map
        (fun pg => { pg with ref_count := pg.ref_count + ((pages.drop i).count p : Nat) }) := by
  induction n generalizing i s with
  | zero =>
    have hd : pages.drop i = [] := List.drop_eq_nil_of_le (by omega)
    refine ⟨s, ?_, rfl, rfl, rfl, rfl, rfl, rfl, ?_⟩
    · rw [hd]
      rfl
    · intro p
      rw [hd]
      cases s.heap p <;> simp
  | succ n ih =>
    have hi : i < pages.length := by omega
    have hget : pages[i]? = some pages[i] := List.getElem?_eq_getElem hi
    have hdrop : pages.drop i = pages[i] :: pages.drop (i + 1) := List.drop_eq_getElem_cons hi
    obtain ⟨pg, hpg⟩ := hlive pages[i] (List.getElem_mem hi)
    obtain ⟨s2, hs2⟩ : ∃ s2 : State, s2 = { s with
        heap := Function.update s.heap pages[i]
          (some { pg with ref_count := pg.ref_count + 1 }) } := ⟨_, rfl⟩
    have hlive2 : ∀ p ∈ pages, ∃ pg, s2.heap p = some pg := by
      intro p hp
      rw [hs2]
      simp only
      by_cases hpi : p = pages[i]
      · rw [hpi, Function.update_same]
        exact ⟨_, rfl⟩
      · rw [Function.update_noteq hpi]
        exact hlive p hp
    obtain ⟨s1, a1, a2, a3, a4, a5, a6, a7, a8⟩ := ih (i + 1) s2 (by omega) hlive2
    refine ⟨s1, ?_, ?_, ?_, ?_, ?_, ?_, ?_, ?_⟩
    · rw [share_pages, hget]
      simp only [hpg]
      rw [← hs2, a1, hdrop]
    · rw [a2, hs2]
    · rw [a3, hs2]
    · rw [a4, hs2]
    · rw [a5, hs2]
    · rw [a6, hs2]
    · rw [a7, hs2]
    · intro p
      rw [a8 p, hdrop, hs2]
      simp only
      by_cases hpi : p = pages[i]
      · rw [hpi, Function.update_same, hpg]
        simp only [Option.map_some', List.count_cons_self, Option.some.injEq, page.mk.injEq,
          true_and]
        push_cast
        ring
      · rw [Function.update_noteq hpi, List.count_cons_of_ne hpi]

/-! ## `tls_clone` -/

theorem all_occupied_iff (s : State) :
    (∀ i, i < MAX_THREADS → (s.thread_storage i).isSome) ↔
      find_free s.thread_storage 0 MAX_THREADS = none := by
  rw [find_free_none_iff]
  constructor
  · intro h j _ hj
    exact h j (by omega)
  · intro h i hi
    exact h i (Nat.zero_le _) (by omega)

theorem clone_scan_eq {ps : Nat} {s : State} (h : Inv ps s) (tid tgt new : Nat) (t : TLS)
    (htgt : tgt < MAX_THREADS) (ht : s.thread_storage tgt = some t) (htid : t.tid = tid)
    (hnew : find_free s.thread_storage 0 MAX_THREADS = some new) :
    clone_scan s.thread_storage tid 0 MAX_THREADS none none = (some tgt, some new) := by
  obtain ⟨k, hk1, _, hk3, u, hu, hut⟩ :=
    (clone_scan_fst s.thread_storage tid MAX_THREADS 0 none none).2
      ⟨tgt, Nat.zero_le _, by omega, t, ht, htid⟩
  have hkt : k = tgt := h.uniq k tgt u t (by omega) htgt hu ht (by rw [hut, htid])
  have h2 := (clone_scan_snd s.thread_storage tid MAX_THREADS 0 none).1
  apply Prod.ext
  · rw [hk1, hkt]
  · rw [h2, hnew]

theorem tls_clone_fail (s : State) (cur tid : Nat)
    (h : has_area s cur ∨ ¬ has_area s tid ∨
      ∀ i, i < MAX_THREADS → (s.thread_storage i).isSome) :
    tls_clone s cur tid = some (FAILURE, s) := by
  unfold tls_clone
  cases hf : find_tid s.thread_storage cur 0 MAX_THREADS with
  | some k => rfl
  | none =>
    simp only
    have hnc : ¬ has_area s cur := (not_has_area_iff s cur).2 hf
    have h1 := (clone_scan_snd s.thread_storage tid MAX_THREADS 0 none).1
    have h2 := (clone_scan_fst s.thread_storage tid MAX_THREADS 0 none none).1
    split
    · rename_i a b heq
      exfalso
      have e1 : (clone_scan s.thread_storage tid 0 MAX_THREADS none none).1 = some a := by
        rw [heq]
      have e2 : (clone_scan s.thread_storage tid 0 MAX_THREADS none none).2 = some b := by
        rw [heq]
      rcases h with h | h | h
      · exact hnc h
      · have := h2 (fun j _ hj t ht htid => h ⟨j, by omega, t, ht, htid⟩)
        rw [e1] at this
        cases this
      · rw [h1, (all_occupied_iff s).1 h] at e2
        cases e2
    · rfl

theorem tls_clone_ok {ps : Nat} {s : State} (h : Inv ps s) (cur tid tgt new : Nat) (t : TLS)
    (hc : ¬ has_area s cur)
    (htgt : tgt < MAX_THREADS) (ht : s.thread_storage tgt = some t) (htid : t.tid = tid)
    (hnew : find_free s.thread_storage 0 MAX_THREADS = some new) :
    ∃ s1, tls_clone s cur tid = some (SUCCESS, s1) ∧
      s1.thread_storage = Function.update s.thread_storage new
        (some ⟨cur, t.size, t.num_pages, t.pages⟩) ∧
      s1.prot = s.prot ∧ s1.mem = s.mem ∧ s1.next_ptr = s.next_ptr ∧
      s1.next_map = s.next_map ∧ s1.is_first_call = s.is_first_call ∧
      ∀ p, s1.heap p = (s.heap p).map
        (fun pg => { pg with ref_count := pg.ref_count + (t.pages.count p : Nat) }) := by
  obtain ⟨hlen, _, _, _⟩ := h.shape tgt t htgt ht
  obtain ⟨s1, a1, a2, a3, a4, a5, a6, a7, a8⟩ :=
    share_pages_spec t.pages t.num_pages.toNat 0 s (by omega) (h.live tgt t htgt ht)
  rw [List.drop_zero] at a1 a8
  refine ⟨{ s1 with
      thread_storage := Function.update s1.thread_storage new
        (some ⟨cur, t.size, t.num_pages, t.pages⟩) }, ?_, ?_, a3, a4, a5, a6, a7, a8⟩
  · unfold tls_clone
    rw [(not_has_area_iff s cur).1 hc]
    simp only
    rw [clone_scan_eq h tid tgt new t htgt ht htid hnew]
    simp only [ht, a1]
  · simp only
    rw [a2]

theorem clone_inv {ps : Nat} {s s1 : State} (h : Inv ps s) (cur new : Nat) (tgt : Nat) (t : TLS)
    (hc : ¬ has_area s cur) (htgt : tgt < MAX_THREADS) (ht : s.thread_storage tgt = some t)
    (hnew : new < MAX_THREADS) (hfree : s.thread_storage new = none)
    (hts : s1.thread_storage = Function.update s.thread_storage new
      (some ⟨cur, t.size, t.num_pages, t.pages⟩))
    (hprot : s1.prot = s.prot) (hptr : s1.next_ptr = s.next_ptr)
    (hmap : s1.next_map = s.next_map)
    (hheap : ∀ p, s1.heap p = (s.heap p).map
      (fun pg => { pg with ref_count := pg.ref_count + (t.pages.count p : Nat) })) :
    Inv ps s1 := by
  obtain ⟨hlen, hnodup, hnum, hsz⟩ := h.shape tgt t htgt ht
  have hslot : ∀ j u, s1.thread_storage j = some u →
      (j = new ∧ u = ⟨cur, t.size, t.num_pages, t.pages⟩) ∨
      (j ≠ new ∧ s.thread_storage j = some u) := by
    intro j u hu
    rw [hts] at hu
    by_cases hj : j = new
    · subst hj
      rw [Function.update_same] at hu
      exact Or.inl ⟨rfl, (Option.some.inj hu).symm⟩
    · rw [Function.update_noteq hj] at hu
      exact Or.inr ⟨hj, hu⟩
  have hheap_some : ∀ p pg1, s1.heap p = some pg1 → ∃ pg, s.heap p = some pg ∧
      pg1 = { pg with ref_count := pg.ref_count + (t.pages.count p : Nat) } := by
    intro p pg1 hp
    rw [hheap p] at hp
    cases hsp : s.heap p with
    | none => rw [hsp] at hp; simp at hp
    | some pg =>
      rw [hsp] at hp
      simp only [Option.map_some', Option.some.injEq] at hp
      exact ⟨pg, rfl, hp.symm⟩
  have hholders : ∀ p, holders s1.thread_storage p =
      holders s.thread_storage p + t.pages.count p := by
    intro p
    have := holders_update s.thread_storage new hnew
      (some ⟨cur, t.size, t.num_pages, t.pages⟩) p
    rw [slot_pages_update_same, slot_pages_of_none _ _ hfree] at this
    rw [hts]
    simpa using this
  constructor
  · intro j1 j2 u w hj1 hj2 h1 h2 htid
    rcases hslot j1 u h1 with ⟨a1, a2⟩ | ⟨a1, a2⟩
    · rcases hslot j2 w h2 with ⟨b1, b2⟩ | ⟨b1, b2⟩
      · rw [a1, b1]
      · exfalso
        apply hc
        refine ⟨j2, hj2, w, b2, ?_⟩
        rw [← htid, a2]
    · rcases hslot j2 w h2 with ⟨b1, b2⟩ | ⟨b1, b2⟩
      · exfalso
        apply hc
        refine ⟨j1, hj1, u, a2, ?_⟩
        rw [htid, b2]
      · exact h.uniq j1 j2 u w hj1 hj2 a2 b2 htid
  · intro j u hj hu
    rcases hslot j u hu with ⟨_, a2⟩ | ⟨_, a2⟩
    · subst a2
      exact ⟨hlen, hnodup, hnum, hsz⟩
    · exact h.shape j u hj a2
  · intro j u hj hu p hp
    have hlive0 : ∃ pg, s.heap p = some pg := by
      rcases hslot j u hu with ⟨_, a2⟩ | ⟨_, a2⟩
      · subst a2
        exact h.live tgt t htgt ht p hp
      · exact h.live j u hj a2 p hp
    obtain ⟨pg, hpg⟩ := hlive0
    rw [hheap p, hpg]
    exact ⟨_, rfl⟩
  · intro p pg1 hp
    obtain ⟨pg, hpg, heq⟩ := hheap_some p pg1 hp
    obtain ⟨r1, r2⟩ := h.refs p pg hpg
    rw [hholders p, heq]
    simp only
    constructor
    · rw [r1]
      push_cast
      ring
    · omega
  · intro p pg1 hp
    obtain ⟨pg, hpg, heq⟩ := hheap_some p pg1 hp
    rw [hprot, heq]
    exact h.mapped p pg hpg
  · intro p q pg1 pg2 hp hq haddr
    obtain ⟨pg, hpg, heq⟩ := hheap_some p pg1 hp
    obtain ⟨pg0, hpg0, heq0⟩ := hheap_some q pg2 hq
    rw [heq, heq0] at haddr
    exact h.inj p q pg pg0 hpg hpg0 haddr
  · intro p pg1 hp
    obtain ⟨pg, hpg, heq⟩ := hheap_some p pg1 hp
    rw [hptr, hmap, heq]
    exact h.fresh p pg hpg
  · intro p pg1 hp
    obtain ⟨pg, hpg, heq⟩ := hheap_some p pg1 hp
    rw [heq]
    exact h.aligned p pg hpg

/-- The ways `tls_clone` can end in a consistent state. -/
theorem tls_clone_cases {ps : Nat} {s : State} (h : Inv ps s) (cur tid : Nat) :
    ((has_area s cur ∨ ¬ has_area s tid ∨
        ∀ i, i < MAX_THREADS → (s.thread_storage i).isSome) ∧
      tls_clone s cur tid = some (FAILURE, s)) ∨
    (¬ has_area s cur ∧ ∃ tgt new t s1, tgt < MAX_THREADS ∧ s.thread_storage tgt = some t ∧
      t.tid = tid ∧ find_free s.thread_storage 0 MAX_THREADS = some new ∧
      tls_clone s cur tid = some (SUCCESS, s1) ∧
      s1.thread_storage = Function.update s.thread_storage new
        (some ⟨cur, t.size, t.num_pages, t.pages⟩) ∧
      s1.prot = s.prot ∧ s1.mem = s.mem ∧ s1.next_ptr = s.next_ptr ∧
      s1.next_map = s.next_map ∧ s1.is_first_call = s.is_first_call ∧
      ∀ p, s1.heap p = (s.heap p).map
        (fun pg => { pg with ref_count := pg.ref_count + (t.pages.count p : Nat) })) := by
  by_cases hfail : has_area s cur ∨ ¬ has_area s tid ∨
      ∀ i, i < MAX_THREADS → (s.thread_storage i).isSome
  · exact Or.inl ⟨hfail, tls_clone_fail s cur tid hfail⟩
  · right
    push_neg at hfail
    obtain ⟨hc, ⟨tgt, htgt, t, ht, htid⟩, hfull⟩ := hfail
    have hnew : ∃ new, find_free s.thread_storage 0 MAX_THREADS = some new := by
      cases hfr : find_free s.thread_storage 0 MAX_THREADS with
      | some new => exact ⟨new, rfl⟩
      | none =>
        exfalso
        obtain ⟨i, hi, hnone⟩ := hfull
        have := (all_occupied_iff s).2 hfr i hi
        rw [this] at hnone
        simp at hnone
    obtain ⟨new, hnew⟩ := hnew
    obtain ⟨s1, hs1⟩ := tls_clone_ok h cur tid tgt new t hc htgt ht htid hnew
    exact ⟨hc, tgt, new, t, s1, htgt, ht, htid, hnew, hs1⟩

theorem tls_clone_inv {ps : Nat} {s s1 : State} (h : Inv ps s) (cur tid : Nat) (r : Int)
    (hcl : tls_clone s cur tid = some (r, s1)) : Inv ps s1 := by
  rcases tls_clone_cases h cur tid with ⟨_, h1⟩ |
    ⟨hc, tgt, new, t, s2, htgt, ht, htid, hnew, h1, a1, a2, a3, a4, a5, a6, a7⟩
  · rw [h1] at hcl
    simp only [Option.some.injEq, Prod.mk.injEq] at hcl
    rw [← hcl.2]
    exact h
  · rw [h1] at hcl
    simp only [Option.some.injEq, Prod.mk.injEq] at hcl
    rw [← hcl.2]
    obtain ⟨_, b2, b3, _⟩ := find_free_some_spec _ _ _ _ hnew
    exact clone_inv h cur new tgt t hc htgt ht (by omega) b3 a1 a2 a4 a5 a7

/-! ## The page loop of `tls_destroy` -/

theorem destroy_pages_spec (pages : List Nat) (hnd : pages.Nodup) (n i : Nat) (s : State)
    (hlen : i + n = pages.length)
    (hlive : ∀ p ∈ pages.drop i, ∃ pg, s.heap p = some pg) :
    ∃ s1, destroy_pages pages i n s = some s1 ∧
      s1.thread_storage = s.thread_storage ∧ s1.mem = s.mem ∧
      s1.next_ptr = s.next_ptr ∧ s1.next_map = s.next_map ∧
      s1.is_first_call = s.is_first_call ∧
      (∀ p, p ∉ pages.drop i → s1.heap p = s.heap p) ∧
      (∀ p ∈ pages.drop i, ∀ pg, s.heap p = some pg →
        (1 < pg.ref_count → s1.heap p = some { pg with ref_count := pg.ref_count - 1 }) ∧
        (¬ 1 < pg.ref_count → s1.heap p = none ∧ s1.prot pg.address = none)) ∧
      (∀ a, (∀ p ∈ pages.drop i, ∀ pg, s.heap p = some pg → ¬ 1 < pg.ref_count →
        pg.address ≠ a) → s1.prot a = s.prot a) := by
  induction n generalizing i s with
  | zero =>
    have hd : pages.drop i = [] := List.drop_eq_nil_of_le (by omega)
    refine ⟨s, rfl, rfl, rfl, rfl, rfl, rfl, fun _ _ => rfl, ?_, fun _ _ => rfl⟩
    intro p hp
    rw [hd] at hp
    cases hp
  | succ n ih =>
    have hi : i < pages.length := by omega
    have hget : pages[i]? = some pages[i] := List.getElem?_eq_getElem hi
    have hdrop : pages.drop i = pages[i] :: pages.drop (i + 1) := List.drop_eq_getElem_cons hi
    have hnd2 : (pages[i] :: pages.drop (i + 1)).Nodup := by
      rw [← hdrop]
      exact List.Nodup.sublist (List.drop_sublist i pages) hnd
    have hnotin : pages[i] ∉ pages.drop (i + 1) := (List.nodup_cons.1 hnd2).1
    rw [hdrop] at hlive ⊢
    obtain ⟨pg0, hpg0⟩ := hlive pages[i] (List.mem_cons_self _ _)
    by_cases hrc : pg0.ref_count > 1
    · obtain ⟨s2, hs2⟩ : ∃ s2 : State, s2 = { s with
          heap := Function.update s.heap pages[i]
            (some { pg0 with ref_count := pg0.ref_count - 1 }) } := ⟨_, rfl⟩
      have hheap2 : ∀ p, p ≠ pages[i] → s2.heap p = s.heap p := by
        intro p hp
        rw [hs2]
        exact Function.update_noteq hp _ _
      have hheap2_in : ∀ p, p ∈ pages.drop (i + 1) → s2.heap p = s.heap p :=
        fun p hp => hheap2 p (fun hc => hnotin (hc ▸ hp))
      have hlive2 : ∀ p ∈ pages.drop (i + 1), ∃ pg, s2.heap p = some pg := by
        intro p hp
        rw [hheap2_in p hp]
        exact hlive p (List.mem_cons_of_mem _ hp)
      obtain ⟨s1, a1, a2, a3, a4, a5, a6, a7, a8, a9⟩ := ih (i + 1) s2 (by omega) hlive2
      refine ⟨s1, ?_, ?_, ?_, ?_, ?_, ?_, ?_, ?_, ?_⟩
      · rw [destroy_pages, hget]
        simp only [hpg0, hrc, if_true]
        rw [← hs2, a1]
      · rw [a2, hs2]
      · rw [a3, hs2]
      · rw [a4, hs2]
      · rw [a5, hs2]
      · rw [a6, hs2]
      · intro p hp
        rw [List.mem_cons, not_or] at hp
        rw [a7 p hp.2, hheap2 p hp.1]
      · intro p hp pg hpg
        rcases List.mem_cons.1 hp with h1 | h1
        · subst h1
          rw [hpg0] at hpg
          cases hpg
          constructor
          · intro _
            rw [a7 _ hnotin, hs2]
            exact Function.update_same _ _ _
          · intro hc
            exact absurd hrc hc
        · have := a8 p h1 pg (by rw [hheap2_in p h1]; exact hpg)
          exact this
      · intro a ha
        rw [a9 a, hs2]
        intro p hp pg hpg
        rw [hheap2_in p hp] at hpg
        exact ha p (List.mem_cons_of_mem _ hp) pg hpg
    · obtain ⟨s2, hs2⟩ : ∃ s2 : State, s2 = { munmap s pg0.address with
          heap := Function.update s.heap pages[i] none } := ⟨_, rfl⟩
      have hheap2 : ∀ p, p ≠ pages[i] → s2.heap p = s.heap p := by
        intro p hp
        rw [hs2]
        exact Function.update_noteq hp _ _
      have hheap2_in : ∀ p, p ∈ pages.drop (i + 1) → s2.heap p = s.heap p :=
        fun p hp => hheap2 p (fun hc => hnotin (hc ▸ hp))
      have hprot2 : s2.prot = Function.update s.prot pg0.address none := by
        rw [hs2]
        rfl
      have hlive2 : ∀ p ∈ pages.drop (i + 1), ∃ pg, s2.heap p = some pg := by
        intro p hp
        rw [hheap2_in p hp]
        exact hlive p (List.mem_cons_of_mem _ hp)
      obtain ⟨s1, a1, a2, a3, a4, a5, a6, a7, a8, a9⟩ := ih (i + 1) s2 (by omega) hlive2
      refine ⟨s1, ?_, ?_, ?_, ?_, ?_, ?_, ?_, ?_, ?_⟩
      · rw [destroy_pages, hget]
        simp only [hpg0, hrc, if_false]
        rw [← hs2, a1]
      · rw [a2, hs2]
        rfl
      · rw [a3, hs2]
        rfl
      · rw [a4, hs2]
        rfl
      · rw [a5, hs2]
        rfl
      · rw [a6, hs2]
        rfl
      · intro p hp
        rw [List.mem_cons, not_or] at hp
        rw [a7 p hp.2, hheap2 p hp.1]
      · intro p hp pg hpg
        rcases List.mem_cons.1 hp with h1 | h1
        · subst h1
          rw [hpg0] at hpg
          cases hpg
          constructor
          · intro hc
            exact absurd hc hrc
          · intro _
            constructor
            · rw [a7 _ hnotin, hs2]
              exact Function.update_same _ _ _
            · by_cases hall : ∀ q ∈ pages.drop (i + 1), ∀ pg, s2.heap q = some pg →
                  ¬ 1 < pg.ref_count → pg.address ≠ pg0.address
              · rw [a9 _ hall, hprot2, Function.update_same]
              · push_neg at hall
                obtain ⟨q, hq, pgq, hpgq, hrcq, haddr⟩ := hall
                have := ((a8 q hq pgq hpgq).2 (not_lt.2 hrcq)).2
                rwa [haddr] at this
        · have := a8 p h1 pg (by rw [hheap2_in p h1]; exact hpg)
          exact this
      · intro a ha
        have hne : a ≠ pg0.address := fun hc =>
          ha pages[i] (List.mem_cons_self _ _) pg0 hpg0 hrc hc.symm
        rw [a9 a, hprot2, Function.update_noteq hne]
        intro p hp pg hpg
        rw [hheap2_in p hp] at hpg
        exact ha p (List.mem_cons_of_mem _ hp) pg hpg

/-! ## `tls_destroy` -/

theorem tls_destroy_fail (s : State) (tid : Nat) (h : ¬ has_area s tid) :
    tls_destroy s tid = some (FAILURE, s) := by
  unfold tls_destroy
  rw [(not_has_area_iff s tid).1 h]

theorem tls_destroy_ok {ps : Nat} {s : State} (h : Inv ps s) (tid idx : Nat) (t : TLS)
    (hidx : idx < MAX_THREADS) (ht : s.thread_storage idx = some t) (htid : t.tid = tid) :
    ∃ s1, tls_destroy s tid = some (SUCCESS, s1) ∧
      s1.thread_storage = Function.update s.thread_storage idx none ∧ s1.mem = s.mem ∧
      s1.next_ptr = s.next_ptr ∧ s1.next_map = s.next_map ∧
      s1.is_first_call = s.is_first_call ∧
      (∀ p, p ∉ t.pages → s1.heap p = s.heap p) ∧
      (∀ p ∈ t.pages, ∀ pg, s.heap p = some pg →
        (1 < pg.ref_count → s1.heap p = some { pg with ref_count := pg.ref_count - 1 }) ∧
        (¬ 1 < pg.ref_count → s1.heap p = none ∧ s1.prot pg.address = none)) ∧
      (∀ a, (∀ p ∈ t.pages, ∀ pg, s.heap p = some pg → ¬ 1 < pg.ref_count →
        pg.address ≠ a) → s1.prot a = s.prot a) := by
  obtain ⟨hlen, hnodup, _, _⟩ := h.shape idx t hidx ht
  have hfind : find_tid s.thread_storage tid 0 MAX_THREADS = some idx := by
    rw [← htid]
    exact find_tid_of_slot s h.uniq idx t hidx ht
  obtain ⟨s1, a1, a2, a3, a4, a5, a6, a7, a8, a9⟩ :=
    destroy_pages_spec t.pages hnodup t.num_pages.toNat 0 s (by omega)
      (by rw [List.drop_zero]; exact h.live idx t hidx ht)
  rw [List.drop_zero] at a7 a8 a9
  refine ⟨{ s1 with thread_storage := Function.update s1.thread_storage idx none },
    ?_, ?_, a3, a4, a5, a6, a7, a8, a9⟩
  · unfold tls_destroy
    rw [hfind]
    simp only [ht, a1]
  · simp only
    rw [a2]

theorem destroy_inv {ps : Nat} {s s1 : State} (h : Inv ps s) (idx : Nat) (t : TLS)
    (hidx : idx < MAX_THREADS) (ht : s.thread_storage idx = some t)
    (hts : s1.thread_storage = Function.update s.thread_storage idx none)
    (hmem : s1.mem = s.mem) (hptr : s1.next_ptr = s.next_ptr)
    (hmap : s1.next_map = s.next_map)
    (hout : ∀ p, p ∉ t.pages → s1.heap p = s.heap p)
    (hin : ∀ p ∈ t.pages, ∀ pg, s.heap p = some pg →
      (1 < pg.ref_count → s1.heap p = some { pg with ref_count := pg.ref_count - 1 }) ∧
      (¬ 1 < pg.ref_count → s1.heap p = none ∧ s1.prot pg.address = none))
    (hprot : ∀ a, (∀ p ∈ t.pages, ∀ pg, s.heap p = some pg → ¬ 1 < pg.ref_count →
      pg.address ≠ a) → s1.prot a = s.prot a) :
    Inv ps s1 ∧ ∀ j, j < MAX_THREADS → j ≠ idx → same_view j s s1 := by
  obtain ⟨hlen, hnodup, hnum, hsz⟩ := h.shape idx t hidx ht
  have hslot : ∀ j u, s1.thread_storage j = some u → j ≠ idx ∧ s.thread_storage j = some u := by
    intro j u hu
    rw [hts] at hu
    by_cases hj : j = idx
    · subst hj
      rw [Function.update_same] at hu
      cases hu
    · rw [Function.update_noteq hj] at hu
      exact ⟨hj, hu⟩
  have hheap_some : ∀ p pg1, s1.heap p = some pg1 → ∃ pg, s.heap p = some pg ∧
      pg1.address = pg.address ∧
      (p ∈ t.pages → 1 < pg.ref_count ∧ pg1.ref_count = pg.ref_count - 1) ∧
      (p ∉ t.pages → pg1 = pg) := by
    intro p pg1 hp
    by_cases hmem : p ∈ t.pages
    · obtain ⟨pg, hpg⟩ := h.live idx t hidx ht p hmem
      obtain ⟨b1, b2⟩ := hin p hmem pg hpg
      by_cases hrc : 1 < pg.ref_count
      · rw [b1 hrc] at hp
        cases hp
        exact ⟨pg, hpg, rfl, fun _ => ⟨hrc, rfl⟩, fun hc => absurd hmem hc⟩
      · rw [(b2 hrc).1] at hp
        cases hp
    · rw [hout p hmem] at hp
      exact ⟨pg1, hp, rfl, fun hc => absurd hc hmem, fun _ => rfl⟩
  have hprot_live : ∀ p pg1, s1.heap p = some pg1 → s1.prot pg1.address = s.prot pg1.address := by
    intro p pg1 hp
    obtain ⟨pg, hpg, haddr, _, _⟩ := hheap_some p pg1 hp
    apply hprot
    intro q hq pgq hpgq hrcq hc
    have hqp : q = p := h.inj q p pgq pg hpgq hpg (by rw [hc, haddr])
    subst hqp
    rw [((hin q hq pgq hpgq).2 hrcq).1] at hp
    cases hp
  have hholders : ∀ p, holders s1.thread_storage p + t.pages.count p =
      holders s.thread_storage p := by
    intro p
    have := holders_update s.thread_storage idx hidx none p
    rw [slot_pages_update_none, slot_pages_of_some _ _ _ ht] at this
    rw [hts]
    simpa using this
  have hshared : ∀ j u p, j < MAX_THREADS → j ≠ idx → s.thread_storage j = some u →
      p ∈ u.pages → ∃ pg pg1, s.heap p = some pg ∧ s1.heap p = some pg1 ∧
        pg1.address = pg.address := by
    intro j u p hj hji hu hp
    obtain ⟨pg, hpg⟩ := h.live j u hj hu p hp
    by_cases hmem : p ∈ t.pages
    · have h2 := holders_ge_two s.thread_storage p j idx hji hj hidx
        (by rw [slot_pages_of_some _ _ _ hu]; exact hp)
        (by rw [slot_pages_of_some _ _ _ ht]; exact hmem)
      have h3 := (h.refs p pg hpg).1
      have hrc : 1 < pg.ref_count := by omega
      exact ⟨pg, _, hpg, (hin p hmem pg hpg).1 hrc, rfl⟩
    · exact ⟨pg, pg, hpg, by rw [hout p hmem]; exact hpg, rfl⟩
  refine ⟨?_, ?_⟩
  · constructor
    · intro j1 j2 u w hj1 hj2 h1 h2 htid
      exact h.uniq j1 j2 u w hj1 hj2 (hslot j1 u h1).2 (hslot j2 w h2).2 htid
    · intro j u hj hu
      exact h.shape j u hj (hslot j u hu).2
    · intro j u hj hu p hp
      obtain ⟨hji, hu0⟩ := hslot j u hu
      obtain ⟨_, pg1, _, hpg1, _⟩ := hshared j u p hj hji hu0 hp
      exact ⟨pg1, hpg1⟩
    · intro p pg1 hp
      obtain ⟨pg, hpg, _, b1, b2⟩ := hheap_some p pg1 hp
      obtain ⟨r1, r2⟩ := h.refs p pg hpg
      have hH := hholders p
      by_cases hmem : p ∈ t.pages
      · obtain ⟨c1, c2⟩ := b1 hmem
        have hc1 : t.pages.count p = 1 := List.count_eq_one_of_mem hnodup hmem
        rw [c2]
        constructor <;> omega
      · have hc0 : t.pages.count p = 0 := List.count_eq_zero_of_not_mem hmem
        rw [b2 hmem]
        constructor <;> omega
    · intro p pg1 hp
      obtain ⟨pg, hpg, haddr, _, _⟩ := hheap_some p pg1 hp
      rw [hprot_live p pg1 hp, haddr]
      exact h.mapped p pg hpg
    · intro p q pg1 pg2 hp hq haddr
      obtain ⟨pg, hpg, ha1, _, _⟩ := hheap_some p pg1 hp
      obtain ⟨pg0, hpg0, ha2, _, _⟩ := hheap_some q pg2 hq
      exact h.inj p q pg pg0 hpg hpg0 (by rw [← ha1, ← ha2, haddr])
    · intro p pg1 hp
      obtain ⟨pg, hpg, haddr, _, _⟩ := hheap_some p pg1 hp
      rw [hptr, hmap, haddr]
      exact h.fresh p pg hpg
    · intro p pg1 hp
      obtain ⟨pg, hpg, haddr, _, _⟩ := hheap_some p pg1 hp
      rw [haddr]
      exact h.aligned p pg hpg
  · intro j hj hji
    refine ⟨by rw [hts, Function.update_noteq hji], ?_⟩
    intro p hp
    cases hu : s.thread_storage j with
    | none => simp [slot_pages, hu] at hp
    | some u =>
      rw [slot_pages_of_some _ _ _ hu] at hp
      obtain ⟨pg, pg1, hpg, hpg1, haddr⟩ := hshared j u p hj hji hu hp
      constructor
      · rw [hpg, hpg1]
        simp [haddr]
      · intro pg0 hpg0
        rw [hpg] at hpg0
        cases hpg0
        have := hprot_live p pg1 hpg1
        rw [haddr] at this
        exact ⟨by rw [this], by rw [hmem]⟩

theorem tls_destroy_spec {ps : Nat} {s s1 : State} (h : Inv ps s) (tid : Nat) (r : Int)
    (hd : tls_destroy s tid = some (r, s1)) :
    Inv ps s1 ∧
    (∀ j t, j < MAX_THREADS → s.thread_storage j = some t → t.tid ≠ tid →
      s1.thread_storage j = some t ∧ same_view j s s1) := by
  by_cases ha : has_area s tid
  · obtain ⟨idx, hidx, t, ht, htid⟩ := ha
    obtain ⟨s2, a1, a2, a3, a4, a5, a6, a7, a8, a9⟩ := tls_destroy_ok h tid idx t hidx ht htid
    rw [a1] at hd
    simp only [Option.some.injEq, Prod.mk.injEq] at hd
    rw [← hd.2]
    obtain ⟨b1, b2⟩ := destroy_inv h idx t hidx ht a2 a3 a4 a5 a7 a8 a9
    refine ⟨b1, ?_⟩
    intro j u hj hu hut
    have hji : j ≠ idx := by
      intro hji
      subst hji
      rw [ht] at hu
      cases hu
      exact hut htid
    exact ⟨by rw [a2, Function.update_noteq hji]; exact hu, b2 j hj hji⟩
  · rw [tls_destroy_fail s tid ha] at hd
    simp only [Option.some.injEq, Prod.mk.injEq] at hd
    rw [← hd.2]
    exact ⟨h, fun j u _ hu _ => ⟨hu, same_view_refl j s⟩⟩

/-! ## Every reachable state is consistent -/

theorem init_inv (ps : Nat) : Inv ps init := by
  constructor
  · intro i j t u _ _ h1
    cases h1
  · intro i t _ h1
    cases h1
  · intro i t _ h1
    cases h1
  · intro p pg h1
    cases h1
  · intro p pg h1
    cases h1
  · intro p q pg pg1 h1
    cases h1
  · intro p pg h1
    cases h1
  · intro p pg h1
    cases h1

theorem step_inv {ps : Nat} (hps : 0 < ps) {s s1 : State} (h : Inv ps s) (c : Call)
    (hc : c.typed) (hstep : step ps s c = some s1) : Inv ps s1 := by
  cases c with
  | create tid size =>
    simp only [step, Option.some.injEq] at hstep
    rw [← hstep]
    exact tls_create_inv hps h tid size hc
  | destroy tid =>
    simp only [step, Option.map_eq_some'] at hstep
    obtain ⟨⟨r, s2⟩, h1, h2⟩ := hstep
    simp only at h2
    subst h2
    exact (tls_destroy_spec h tid r h1).1
  | read tid o n buf =>
    simp only [step, Option.map_eq_some'] at hstep
    obtain ⟨⟨r, buf1, s2⟩, h1, h2⟩ := hstep
    simp only at h2
    subst h2
    exact h.of_reprotected (tls_read_reprotected ps s s2 tid o n buf buf1 r h1)
  | write tid o n buf =>
    simp only [step, Option.map_eq_some'] at hstep
    obtain ⟨⟨r, s2⟩, h1, h2⟩ := hstep
    simp only at h2
    subst h2
    exact (tls_write_spec hps h tid o n buf r h1).1
  | clone cur tid =>
    simp only [step, Option.map_eq_some'] at hstep
    obtain ⟨⟨r, s2⟩, h1, h2⟩ := hstep
    simp only at h2
    subst h2
    exact tls_clone_inv h cur tid r h1

theorem run_inv {ps : Nat} (hps : 0 < ps) (calls : List Call) {s s1 : State} (h : Inv ps s)
    (hc : ∀ c ∈ calls, c.typed) (hrun : run ps s calls = some s1) : Inv ps s1 := by
  induction calls generalizing s with
  | nil =>
    simp only [run, Option.some.injEq] at hrun
    rw [← hrun]
    exact h
  | cons c cs ih =>
    rw [run] at hrun
    cases hstep : step ps s c with
    | none => simp [hstep] at hrun
    | some s2 =>
      simp only [hstep] at hrun
      exact ih (step_inv hps h c (hc c (List.mem_cons_self _ _)) hstep)
        (fun c1 hc1 => hc c1 (List.mem_cons_of_mem _ hc1)) hrun

theorem reachable_inv {ps : Nat} (hps : 0 < ps) {s : State} (h : Reachable ps s) : Inv ps s := by
  obtain ⟨calls, hc, hrun⟩ := h
  exact run_inv hps calls (init_inv ps) hc hrun

theorem reachable_init (ps : Nat) : Reachable ps init :=
  ⟨[], fun c h => absurd h (List.not_mem_nil c), rfl⟩

theorem run_append (ps : Nat) (l1 l2 : List Call) (s s1 : State)
    (h : run ps s l1 = some s1) : run ps s (l1 ++ l2) = run ps s1 l2 := by
  induction l1 generalizing s with
  | nil =>
    simp only [run, Option.some.injEq] at h
    rw [h]
    rfl
  | cons c cs ih =>
    rw [run] at h
    rw [List.cons_append, run]
    cases hstep : step ps s c with
    | none => simp [hstep] at h
    | some s2 =>
      simp only [hstep] at h ⊢
      exact ih s2 h

theorem reachable_run {ps : Nat} {s s1 : State} (h : Reachable ps s) (calls : List Call)
    (hc : ∀ c ∈ calls, c.typed) (hrun : run ps s calls = some s1) : Reachable ps s1 := by
  obtain ⟨l, hl, hrunl⟩ := h
  refine ⟨l ++ calls, ?_, ?_⟩
  · intro c hcm
    rcases List.mem_append.1 hcm with h1 | h1
    · exact hl c h1
    · exact hc c h1
  · rw [run_append ps l calls init s hrunl]
    exact hrun

/-! ## The concrete scenarios -/

theorem reachable_written : Reachable 4096 state_written :=
  ⟨scenario_written, by simp [scenario_written, Call.typed], rfl⟩

theorem clone_shared : tls_clone state_written 2 1 = some (SUCCESS, state_shared) := rfl

theorem reachable_shared : Reachable 4096 state_shared :=
  ⟨scenario_shared, by simp [scenario_shared, scenario_written, Call.typed], rfl⟩

theorem write_diverged :
    tls_write 4096 state_shared 2 0 1 (fun _ => 66) = some (SUCCESS, state_diverged) := rfl

theorem reachable_diverged : Reachable 4096 state_diverged :=
  ⟨scenario_shared ++ [Call.write 2 0 1 (fun _ => 66)],
    by simp [scenario_shared, scenario_written, Call.typed], rfl⟩

theorem reachable_small : Reachable 4096 state_small :=
  ⟨[Call.create 7 100], by simp [Call.typed], rfl⟩

/-! ## Claims on writes, reference counts and protections -/

/-- C2 (write divergence): in a reachable state, a successful `tls_write` by
thread `T` leaves unchanged what `tls_read` returns (return code and bytes) to
every other thread `U`, for every offset and length. -/
theorem tls_write_invisible_to_other_threads (ps : Nat) (hps : 0 < ps) (s s1 : State)
    (hs : Reachable ps s) (T o n : Nat) (B : Nat → Nat)
    (hw : tls_write ps s T o n B = some (SUCCESS, s1))
    (U : Nat) (hU : U ≠ T) (o1 n1 : Nat) (buf : Nat → Nat) :
    read_result (tls_read ps s1 U o1 n1 buf) = read_result (tls_read ps s U o1 n1 buf) := by
  have hinv := reachable_inv hps hs
  obtain ⟨_, htid, hview⟩ := tls_write_spec hps hinv T o n B SUCCESS hw
  apply tls_read_congr
  · exact find_tid_congr _ _ _ _ _ (fun j _ _ => htid j)
  · intro idx hidx
    obtain ⟨_, hlt, ⟨t, ht, htU⟩, _⟩ := find_tid_some_spec _ _ _ _ _ hidx
    exact hview idx t (by omega) ht (by rw [htU]; exact hU)

/-- Witness for C2: after thread 2 has written `B` into its clone, thread 1 reads
what it read before. -/
theorem tls_write_invisible_to_other_threads_witness :
    read_result (tls_read 4096 state_diverged 1 0 1 (fun _ => 0)) =
      read_result (tls_read 4096 state_shared 1 0 1 (fun _ => 0)) :=
  tls_write_invisible_to_other_threads 4096 (by decide) state_shared state_diverged
    reachable_shared 2 0 1 (fun _ => 66) write_diverged 1 (by decide) 0 1 (fun _ => 0)

/-- C4 (refcount soundness): in every reachable state the `ref_count` of every
allocated page object equals the number of (area, slot) pairs of the registry
that point to it and is at least 1; no page occurs twice within one area, and
every page an area points to is allocated. -/
theorem refcount_soundness (ps : Nat) (hps : 0 < ps) (s : State) (hs : Reachable ps s) :
    (∀ p pg, s.heap p = some pg →
      pg.ref_count = (holders s.thread_storage p : Int) ∧ 1 ≤ pg.ref_count) ∧
    (∀ i t, i < MAX_THREADS → s.thread_storage i = some t →
      t.pages.Nodup ∧ ∀ p ∈ t.pages, (s.heap p).isSome) := by
  have hinv := reachable_inv hps hs
  constructor
  · intro p pg hpg
    obtain ⟨r1, r2⟩ := hinv.refs p pg hpg
    exact ⟨r1, by omega⟩
  · intro i t hi ht
    refine ⟨(hinv.shape i t hi ht).2.1, ?_⟩
    intro p hp
    obtain ⟨pg, hpg⟩ := hinv.live i t hi ht p hp
    rw [hpg]
    rfl

/-- Witness for C4: the state in which two threads share one page and each of
them holds a private copy of the other page. -/
theorem refcount_soundness_witness :
    (∀ p pg, state_diverged.heap p = some pg →
      pg.ref_count = (holders state_diverged.thread_storage p : Int) ∧ 1 ≤ pg.ref_count) ∧
    (∀ i t, i < MAX_THREADS → state_diverged.thread_storage i = some t →
      t.pages.Nodup ∧ ∀ p ∈ t.pages, (state_diverged.heap p).isSome) :=
  refcount_soundness 4096 (by decide) state_diverged reachable_diverged

/-- C5 as stated fails: after thread 2's copy-on-write the page that thread 1
still holds is left with protection `PROT_READ`, not `PROT_NONE`. -/
theorem isolation_protection_none_fails :
    ¬ ∀ s, Reachable 4096 s → ∀ i t, i < MAX_THREADS → s.thread_storage i = some t →
      ∀ p ∈ t.pages, ∀ pg, s.heap p = some pg → s.prot pg.address = some Prot.PROT_NONE := by
  intro h
  have h1 := h state_diverged reachable_diverged 0 ⟨1, 8192, 2, [1, 2]⟩ (by decide) (by decide)
    1 (by decide) ⟨4096, 1⟩ (by decide)
  have h2 : state_diverged.prot 4096 = some Prot.PROT_READ := by decide
  rw [h2] at h1
  cases h1

/-- C7: `tls_create` returns `FAILURE` exactly when `size` is 0, or the caller
already has an area, or all `MAX_THREADS` slots are occupied, and then leaves the
registry, the page objects, the mappings and the page bytes unchanged; in every
other case it returns `SUCCESS` and the registry gains exactly one area, bound
to the caller, in a slot that was free. -/
theorem tls_create_failure_iff (ps : Nat) (s : State) (tid size : Nat) :
    ((tls_create ps s tid size).1 = FAILURE ↔
      (size = 0 ∨ has_area s tid ∨ ∀ i, i < MAX_THREADS → (s.thread_storage i).isSome)) ∧
    ((tls_create ps s tid size).1 = FAILURE →
      (tls_create ps s tid size).2.thread_storage = s.thread_storage ∧
      (tls_create ps s tid size).2.heap = s.heap ∧
      (tls_create ps s tid size).2.prot = s.prot ∧
      (tls_create ps s tid size).2.mem = s.mem) ∧
    ((tls_create ps s tid size).1 ≠ FAILURE →
      (tls_create ps s tid size).1 = SUCCESS ∧
      ∃ i t, i < MAX_THREADS ∧ s.thread_storage i = none ∧ t.tid = tid ∧ t.size = size ∧
        (tls_create ps s tid size).2.thread_storage =
          Function.update s.thread_storage i (some t)) := by
  rcases tls_create_cases ps s tid size with ⟨hc, h1⟩ | ⟨h0, hna, i, hi, h1⟩
  · rw [h1]
    refine ⟨⟨fun _ => hc, fun _ => rfl⟩, fun _ => ⟨rfl, rfl, rfl, rfl⟩, fun h => absurd rfl h⟩
  · rw [h1]
    obtain ⟨_, b2, b3, _⟩ := find_free_some_spec _ _ _ _ hi
    have hne : SUCCESS ≠ FAILURE := by decide
    refine ⟨⟨fun h => absurd h hne, ?_⟩, fun h => absurd h hne, fun _ => ⟨rfl, i, _, by omega, b3,
      rfl, rfl, rfl⟩⟩
    rintro (h | h | h)
    · exact absurd h h0
    · exact absurd h hna
    · have := h i (by omega)
      rw [b3] at this
      cases this

/-! ## Claims on `tls_clone` and `tls_destroy` -/

theorem find_tid_update_none (ts : Nat → Option TLS) (idx : Nat) (t : TLS) (tid : Nat)
    (ht : ts idx = some t) (hne : t.tid ≠ tid) (n i : Nat) :
    find_tid (Function.update ts idx none) tid i n = find_tid ts tid i n := by
  induction n generalizing i with
  | zero => rfl
  | succ n ih =>
    rw [find_tid, find_tid, ih (i + 1)]
    by_cases hi : i = idx
    · subst hi
      rw [Function.update_same, ht]
      simp only [hne, if_false]
    · rw [Function.update_noteq hi]

/-- C9: in a reachable state `tls_clone` returns `FAILURE`, changing nothing,
exactly when the caller already has an area, or no area is bound to the donor,
or no slot is free; otherwise it returns `SUCCESS`, leaves the donor's area as
it was, raises by one the `ref_count` of each page of the donor's area and
leaves every other page object as it was. -/
theorem tls_clone_failure_iff (ps : Nat) (hps : 0 < ps) (s : State) (hs : Reachable ps s)
    (cur tid : Nat) :
    ∃ r s1, tls_clone s cur tid = some (r, s1) ∧
      (r = FAILURE ↔ (has_area s cur ∨ ¬ has_area s tid ∨
        ∀ i, i < MAX_THREADS → (s.thread_storage i).isSome)) ∧
      (r = FAILURE → s1 = s) ∧
      (r ≠ FAILURE → r = SUCCESS ∧
        ∀ j t, j < MAX_THREADS → s.thread_storage j = some t → t.tid = tid →
          s1.thread_storage j = some t ∧
          (∀ p ∈ t.pages, ∃ pg, s.heap p = some pg ∧
            s1.heap p = some { pg with ref_count := pg.ref_count + 1 }) ∧
          (∀ p, p ∉ t.pages → s1.heap p = s.heap p)) := by
  have hinv := reachable_inv hps hs
  have hne : SUCCESS ≠ FAILURE := by decide
  rcases tls_clone_cases hinv cur tid with ⟨hc, h1⟩ |
    ⟨hc, tgt, new, t, s1, htgt, ht, htid, hnew, h1, a1, a2, a3, a4, a5, a6, a7⟩
  · exact ⟨FAILURE, s, h1, ⟨fun _ => hc, fun _ => rfl⟩, fun _ => rfl, fun h => absurd rfl h⟩
  · obtain ⟨_, b2, b3, b4⟩ := find_free_some_spec _ _ _ _ hnew
    refine ⟨SUCCESS, s1, h1, ⟨fun h => absurd h hne, ?_⟩, fun h => absurd h hne, fun _ => ⟨rfl, ?_⟩⟩
    · rintro (h | h | h)
      · exact absurd h hc
      · exact absurd ⟨tgt, htgt, t, ht, htid⟩ h
      · have := h new (by omega)
        rw [b3] at this
        cases this
    · intro j u hj hu hut
      have hjt : j = tgt := hinv.uniq j tgt u t hj htgt hu ht (by rw [hut, htid])
      subst hjt
      rw [ht] at hu
      cases hu
      have hjn : j ≠ new := by
        intro hc2
        rw [hc2, b3] at ht
        cases ht
      refine ⟨by rw [a1, Function.update_noteq hjn]; exact ht, ?_, ?_⟩
      · intro p hp
        obtain ⟨pg, hpg⟩ := hinv.live j t hj ht p hp
        refine ⟨pg, hpg, ?_⟩
        rw [a7 p, hpg, List.count_eq_one_of_mem (hinv.shape j t hj ht).2.1 hp]
        rfl
      · intro p hp
        rw [a7 p, List.count_eq_zero_of_not_mem hp]
        cases s.heap p <;> simp

/-- Witness for C9: thread 3 clones the area of thread 1 in the shared scenario. -/
theorem tls_clone_failure_iff_witness :
    ∃ r s1, tls_clone state_shared 3 1 = some (r, s1) ∧
      (r = FAILURE ↔ (has_area state_shared 3 ∨ ¬ has_area state_shared 1 ∨
        ∀ i, i < MAX_THREADS → (state_shared.thread_storage i).isSome)) ∧
      (r = FAILURE → s1 = state_shared) ∧
      (r ≠ FAILURE → r = SUCCESS ∧
        ∀ j t, j < MAX_THREADS → state_shared.thread_storage j = some t → t.tid = 1 →
          s1.thread_storage j = some t ∧
          (∀ p ∈ t.pages, ∃ pg, state_shared.heap p = some pg ∧
            s1.heap p = some { pg with ref_count := pg.ref_count + 1 }) ∧
          (∀ p, p ∉ t.pages → s1.heap p = state_shared.heap p)) :=
  tls_clone_failure_iff 4096 (by decide) state_shared reachable_shared 3 1

/-- C10: in a reachable state `tls_destroy` returns `FAILURE` and changes nothing
when the caller has no area; otherwise it returns `SUCCESS`, clears exactly the
caller's slot, lowers by one the `ref_count` of each of its pages whose
`ref_count` was above 1 (the page stays mapped with its bytes), frees and unmaps
each of its pages whose `ref_count` was 1, leaves every other page object as it
was, and what `tls_read` returns to every other thread is unchanged. -/
theorem tls_destroy_effect (ps : Nat) (hps : 0 < ps) (s : State) (hs : Reachable ps s)
    (tid : Nat) :
    (¬ has_area s tid → tls_destroy s tid = some (FAILURE, s)) ∧
    (∀ idx t, idx < MAX_THREADS → s.thread_storage idx = some t → t.tid = tid →
      ∃ s1, tls_destroy s tid = some (SUCCESS, s1) ∧
        s1.thread_storage = Function.update s.thread_storage idx none ∧
        (∀ p ∈ t.pages, ∃ pg, s.heap p = some pg ∧ 1 ≤ pg.ref_count ∧
          (1 < pg.ref_count →
            s1.heap p = some { pg with ref_count := pg.ref_count - 1 } ∧
            s1.prot pg.address = s.prot pg.address ∧
            s1.mem pg.address = s.mem pg.address) ∧
          (pg.ref_count = 1 → s1.heap p = none ∧ s1.prot pg.address = none)) ∧
        (∀ p, p ∉ t.pages → s1.heap p = s.heap p) ∧
        (∀ U, U ≠ tid → ∀ o n buf,
          read_result (tls_read ps s1 U o n buf) = read_result (tls_read ps s U o n buf))) := by
  have hinv := reachable_inv hps hs
  refine ⟨tls_destroy_fail s tid, ?_⟩
  intro idx t hidx ht htid
  obtain ⟨s1, a1, a2, a3, a4, a5, a6, a7, a8, a9⟩ := tls_destroy_ok hinv tid idx t hidx ht htid
  obtain ⟨b1, b2⟩ := destroy_inv hinv idx t hidx ht a2 a3 a4 a5 a7 a8 a9
  refine ⟨s1, a1, a2, ?_, a7, ?_⟩
  · intro p hp
    obtain ⟨pg, hpg⟩ := hinv.live idx t hidx ht p hp
    obtain ⟨r1, r2⟩ := hinv.refs p pg hpg
    obtain ⟨c1, c2⟩ := a8 p hp pg hpg
    refine ⟨pg, hpg, by omega, ?_, ?_⟩
    · intro hrc
      refine ⟨c1 hrc, ?_, by rw [a3]⟩
      apply a9
      intro q hq pgq hpgq hrcq hc
      have hqp : q = p := hinv.inj q p pgq pg hpgq hpg hc
      subst hqp
      rw [hpg] at hpgq
      cases hpgq
      exact hrcq hrc
    · intro hrc
      exact c2 (by omega)
  · intro U hU o n buf
    apply tls_read_congr
    · rw [a2]
      exact find_tid_update_none _ idx t U ht (by rw [htid]; exact Ne.symm hU) _ _
    · intro k hk
      obtain ⟨_, hlt, ⟨u, hu, hut⟩, _⟩ := find_tid_some_spec _ _ _ _ _ hk
      have hki : k ≠ idx := by
        intro hc
        subst hc
        rw [ht] at hu
        cases hu
        exact hU (hut.symm.trans htid)
      exact b2 k (by omega) hki

/-- Witness for C10: thread 2 destroys its clone in the shared scenario. -/
theorem tls_destroy_effect_witness :
    (¬ has_area state_shared 2 → tls_destroy state_shared 2 = some (FAILURE, state_shared)) ∧
    (∀ idx t, idx < MAX_THREADS → state_shared.thread_storage idx = some t → t.tid = 2 →
      ∃ s1, tls_destroy state_shared 2 = some (SUCCESS, s1) ∧
        s1.thread_storage = Function.update state_shared.thread_storage idx none ∧
        (∀ p ∈ t.pages, ∃ pg, state_shared.heap p = some pg ∧ 1 ≤ pg.ref_count ∧
          (1 < pg.ref_count →
            s1.heap p = some { pg with ref_count := pg.ref_count - 1 } ∧
            s1.prot pg.address = state_shared.prot pg.address ∧
            s1.mem pg.address = state_shared.mem pg.address) ∧
          (pg.ref_count = 1 → s1.heap p = none ∧ s1.prot pg.address = none)) ∧
        (∀ p, p ∉ t.pages → s1.heap p = state_shared.heap p) ∧
        (∀ U, U ≠ 2 → ∀ o n buf,
          read_result (tls_read 4096 s1 U o n buf) =
            read_result (tls_read 4096 state_shared U o n buf))) :=
  tls_destroy_effect 4096 (by decide) state_shared reachable_shared 2

/-! ## Claim on reads through a clone -/

theorem read_loop_slot_congr (ps i j o : Nat) (n byte : Nat) (s : State) (buf : Nat → Nat)
    (ta tb : TLS) (hi : s.thread_storage i = some ta) (hj : s.thread_storage j = some tb)
    (hpages : ta.pages = tb.pages) :
    read_loop ps i o n byte s buf = read_loop ps j o n byte s buf := by
  induction n generalizing byte s buf with
  | zero => rfl
  | succ n ih =>
    rw [read_loop_succ, read_loop_succ]
    have hpa : page_at ps s i o byte = page_at ps s j o byte := by
      unfold page_at
      simp only [hi, hj, hpages]
    rw [hpa]
    cases page_at ps s j o byte with
    | none => rfl
    | some cur =>
      simp only
      cases s.heap cur with
      | none => rfl
      | some pg =>
        simp only
        by_cases hm : (s.prot pg.address).isSome
        · simp only [hm, if_true]
          exact ih _ _ _ hi hj
        · simp [hm]

/-- Two threads whose areas share all pages read the same bytes. -/
theorem tls_read_shared {ps : Nat} {s : State} (h : Inv ps s) (a b : Nat)
    (hsh : shares_area s a b) (o n : Nat) (buf : Nat → Nat) :
    tls_read ps s a o n buf = tls_read ps s b o n buf := by
  obtain ⟨i, j, ta, tb, hi, hj, hta, htb, htida, htidb, hsize, _, hpages⟩ := hsh
  have hfa : find_tid s.thread_storage a 0 MAX_THREADS = some i := by
    rw [← htida]
    exact find_tid_of_slot s h.uniq i ta hi hta
  have hfb : find_tid s.thread_storage b 0 MAX_THREADS = some j := by
    rw [← htidb]
    exact find_tid_of_slot s h.uniq j tb hj htb
  unfold tls_read
  rw [hfa, hfb]
  simp only [hta, htb, hsize]
  rw [read_loop_slot_congr ps i j o n 0 s buf ta tb hta htb hpages]

/-- The thread a call acts for when it is a `tls_write` or a `tls_destroy`. -/
theorem step_keeps_slot {ps : Nat} (hps : 0 < ps) {s s1 : State} (h : Inv ps s) (c : Call)
    (hstep : step ps s c = some s1) (j : Nat) (t : TLS) (hj : j < MAX_THREADS)
    (ht : s.thread_storage j = some t) (hc : ¬ c.disturbs t.tid t.tid) :
    s1.thread_storage j = some t := by
  cases c with
  | create tid size =>
    simp only [step, Option.some.injEq] at hstep
    rw [← hstep]
    rcases tls_create_cases ps s tid size with ⟨_, h1⟩ | ⟨_, _, i, hi, h1⟩
    · rw [h1]
      exact ht
    · rw [h1]
      obtain ⟨_, _, b3, _⟩ := find_free_some_spec _ _ _ _ hi
      have hji : j ≠ i := by
        intro hc2
        rw [hc2, b3] at ht
        cases ht
      simp only
      rw [Function.update_noteq hji]
      exact ht
  | destroy tid =>
    simp only [step, Option.map_eq_some'] at hstep
    obtain ⟨⟨r, s2⟩, h1, h2⟩ := hstep
    simp only at h2
    subst h2
    have hne : t.tid ≠ tid := by
      intro hc2
      exact hc (Or.inl hc2.symm)
    exact ((tls_destroy_spec h tid r h1).2 j t hj ht hne).1
  | read tid o n buf =>
    simp only [step, Option.map_eq_some'] at hstep
    obtain ⟨⟨r, buf1, s2⟩, h1, h2⟩ := hstep
    simp only at h2
    subst h2
    rw [(tls_read_reprotected ps s s2 tid o n buf buf1 r h1).1]
    exact ht
  | write tid o n buf =>
    simp only [step, Option.map_eq_some'] at hstep
    obtain ⟨⟨r, s2⟩, h1, h2⟩ := hstep
    simp only at h2
    subst h2
    have hne : t.tid ≠ tid := by
      intro hc2
      exact hc (Or.inl hc2.symm)
    rw [((tls_write_spec hps h tid o n buf r h1).2.2 j t hj ht hne).1]
    exact ht
  | clone cur tid =>
    simp only [step, Option.map_eq_some'] at hstep
    obtain ⟨⟨r, s2⟩, h1, h2⟩ := hstep
    simp only at h2
    subst h2
    rcases tls_clone_cases h cur tid with ⟨_, h3⟩ |
      ⟨_, tgt, new, u, s3, _, _, _, hnew, h3, a1, _⟩
    · rw [h3] at h1
      simp only [Option.some.injEq, Prod.mk.injEq] at h1
      rw [← h1.2]
      exact ht
    · rw [h3] at h1
      simp only [Option.some.injEq, Prod.mk.injEq] at h1
      rw [← h1.2, a1]
      obtain ⟨_, _, b3, _⟩ := find_free_some_spec _ _ _ _ hnew
      have hji : j ≠ new := by
        intro hc2
        rw [hc2, b3] at ht
        cases ht
      rw [Function.update_noteq hji]
      exact ht

theorem disturbs_mono (c : Call) (a b : Nat) (h : ¬ c.disturbs a b) :
    ¬ c.disturbs a a ∧ ¬ c.disturbs b b := by
  cases c <;> simp only [Call.disturbs, not_or, or_self, not_false_eq_true, and_self] at h ⊢
  all_goals exact ⟨h.1, h.2⟩

theorem run_keeps_shares {ps : Nat} (hps : 0 < ps) (calls : List Call) {s s1 : State}
    (h : Inv ps s) (a b : Nat) (hsh : shares_area s a b)
    (hc : ∀ c ∈ calls, c.typed ∧ ¬ c.disturbs a b) (hrun : run ps s calls = some s1) :
    Inv ps s1 ∧ shares_area s1 a b := by
  induction calls generalizing s with
  | nil =>
    simp only [run, Option.some.injEq] at hrun
    rw [← hrun]
    exact ⟨h, hsh⟩
  | cons c cs ih =>
    rw [run] at hrun
    cases hstep : step ps s c with
    | none => simp [hstep] at hrun
    | some s2 =>
      simp only [hstep] at hrun
      obtain ⟨hty, hnd⟩ := hc c (List.mem_cons_self _ _)
      obtain ⟨i, j, ta, tb, hi, hj, hta, htb, htida, htidb, hrest⟩ := hsh
      obtain ⟨hda, hdb⟩ := disturbs_mono c a b hnd
      have hta2 := step_keeps_slot hps h c hstep i ta hi hta (by rw [htida]; exact hda)
      have htb2 := step_keeps_slot hps h c hstep j tb hj htb (by rw [htidb]; exact hdb)
      exact ih (step_inv hps h c hty hstep) ⟨i, j, ta, tb, hi, hj, hta2, htb2, htida, htidb, hrest⟩
        (fun c1 hc1 => hc c1 (List.mem_cons_of_mem _ hc1)) hrun

/-- C3 (read-through-CoW): right after a successful `tls_clone` in a reachable
state the page bytes are what they were, and the caller's new area has the
donor's size and page count and points, slot for slot, to the same page
objects; after any further completed calls among which neither of the two
threads issues a `tls_write` (or gives up its area with `tls_destroy`), the two
areas still share all pages and `tls_read` returns the same to both threads for
every offset and length. -/
theorem tls_clone_read_through (ps : Nat) (hps : 0 < ps) (s s1 : State)
    (hs : Reachable ps s) (cur donor : Nat)
    (hclone : tls_clone s cur donor = some (SUCCESS, s1)) :
    s1.mem = s.mem ∧ shares_area s1 cur donor ∧
    (∀ j t, j < MAX_THREADS → s.thread_storage j = some t → t.tid = donor →
      s1.thread_storage j = some t) ∧
    ∀ calls s2, (∀ c ∈ calls, c.typed ∧ ¬ c.disturbs cur donor) →
      run ps s1 calls = some s2 →
      shares_area s2 cur donor ∧
      ∀ o n buf, tls_read ps s2 cur o n buf = tls_read ps s2 donor o n buf := by
  have hinv := reachable_inv hps hs
  have hne : FAILURE ≠ SUCCESS := by decide
  have hinv1 : Inv ps s1 := tls_clone_inv hinv cur donor SUCCESS hclone
  rcases tls_clone_cases hinv cur donor with ⟨_, h1⟩ |
    ⟨hc, tgt, new, t, s3, htgt, ht, htid, hnew, h1, a1, a2, a3, a4, a5, a6, a7⟩
  · rw [h1] at hclone
    simp only [Option.some.injEq, Prod.mk.injEq] at hclone
    exact absurd hclone.1 hne
  · rw [h1] at hclone
    simp only [Option.some.injEq, Prod.mk.injEq, true_and] at hclone
    subst hclone
    obtain ⟨_, b2, b3, _⟩ := find_free_some_spec _ _ _ _ hnew
    have htn : tgt ≠ new := by
      intro hc2
      rw [hc2, b3] at ht
      cases ht
    have hsh : shares_area s3 cur donor :=
      ⟨new, tgt, ⟨cur, t.size, t.num_pages, t.pages⟩, t, by omega, htgt,
        by rw [a1, Function.update_same], by rw [a1, Function.update_noteq htn]; exact ht,
        rfl, htid, rfl, rfl, rfl⟩
    refine ⟨a3, hsh, ?_, ?_⟩
    · intro j u hj hu hut
      have hjt : j = tgt := hinv.uniq j tgt u t hj htgt hu ht (by rw [hut, htid])
      subst hjt
      rw [a1, Function.update_noteq htn]
      exact hu
    · intro calls s2 hcalls hrun
      obtain ⟨hinv2, hsh2⟩ := run_keeps_shares hps calls hinv1 cur donor hsh hcalls hrun
      exact ⟨hsh2, fun o n buf => tls_read_shared hinv2 cur donor hsh2 o n buf⟩

/-- Witness for C3: thread 2 clones the area of thread 1 in scenario S2. -/
theorem tls_clone_read_through_witness :
    state_shared.mem = state_written.mem ∧ shares_area state_shared 2 1 ∧
    (∀ j t, j < MAX_THREADS → state_written.thread_storage j = some t → t.tid = 1 →
      state_shared.thread_storage j = some t) ∧
    ∀ calls s2, (∀ c ∈ calls, c.typed ∧ ¬ c.disturbs 2 1) →
      run 4096 state_shared calls = some s2 →
      shares_area s2 2 1 ∧
      ∀ o n buf, tls_read 4096 s2 2 o n buf = tls_read 4096 s2 1 o n buf :=
  tls_clone_read_through 4096 (by decide) state_written state_shared reachable_written 2 1
    clone_shared

/-! ## Claims that meet the 32-bit arithmetic of the code -/

/-- Without wrap-around of `offset + length` an out-of-range request is refused
by both `tls_read` and `tls_write`, and nothing changes. -/
theorem out_of_range_refused (ps : Nat) (s : State) (tid o n idx : Nat) (t : TLS)
    (buf : Nat → Nat)
    (hfind : find_tid s.thread_storage tid 0 MAX_THREADS = some idx)
    (ht : s.thread_storage idx = some t) (hsum : o + n < 2 ^ 32) (hout : t.size < o + n) :
    tls_read ps s tid o n buf = some (FAILURE, buf, s) ∧
      tls_write ps s tid o n buf = some (FAILURE, s) := by
  have hu : to_uint (o + n) = o + n := Nat.mod_eq_of_lt hsum
  constructor
  · unfold tls_read
    rw [hfind]
    simp only [ht, hu]
    rw [if_pos hout]
  · unfold tls_write
    rw [hfind]
    simp only [ht, hu]
    rw [if_pos hout]

/-- C6 at its failing input: thread 7 owns an area of 100 bytes; for offset
4294967295 and length 2 the sum 4294967297 exceeds the size, but the 32-bit sum
is 1, the range check passes, and both `tls_read` and `tls_write` go on to
index the page array at 1048575 instead of returning `FAILURE`. -/
theorem out_of_range_wrapped_sum_not_rejected :
    state_small.thread_storage 0 = some ⟨7, 100, 1, [1]⟩ ∧
    100 < 4294967295 + 2 ∧ to_uint (4294967295 + 2) = 1 ∧
    to_int (to_uint (4294967295 + 0) / 4096) = 1048575 ∧
    tls_read 4096 state_small 7 4294967295 2 (fun _ => 0) = none ∧
    tls_write 4096 state_small 7 4294967295 2 (fun _ => 0) = none :=
  ⟨by decide, by decide, by decide, by decide, rfl, rfl⟩

/-- C8 at its failing input: `tls_create(4294967295)` succeeds, but
`(size + PAGE_SIZE - 1) / PAGE_SIZE` wraps to 0, so the area records size
4294967295 with no page at all, where 1048576 pages are needed. -/
theorem tls_create_page_count_wraps :
    (tls_create 4096 init 7 4294967295).1 = SUCCESS ∧
    state_huge.thread_storage 0 = some ⟨7, 4294967295, 0, []⟩ ∧
    (4294967295 + 4096 - 1) / 4096 = 1048576 :=
  ⟨by decide, by decide, by decide⟩

/-- C1 at its failing input: thread 7 owns the area of declared size 4294967295
made by `tls_create(4294967295)`, offset 0 and length 1 are in range, and
`tls_write` does not return: it indexes the empty page array. -/
theorem round_trip_fails_on_wrapped_area :
    (tls_create 4096 init 7 4294967295).1 = SUCCESS ∧
    state_huge.thread_storage 0 = some ⟨7, 4294967295, 0, []⟩ ∧
    0 + 1 ≤ 4294967295 ∧
    tls_write 4096 state_huge 7 0 1 (fun _ => 120) = none :=
  ⟨by decide, by decide, by decide, rfl⟩

/-! ## Page arithmetic without wrap-around -/

theorem to_int_of_lt (q : Nat) (h : q < 2 ^ 31) : to_int q = (q : Int) := by
  unfold to_int
  have h1 : q % 2 ^ 32 = q := Nat.mod_eq_of_lt (by omega)
  rw [h1, if_pos h]

theorem to_int_lt (q : Nat) : to_int q < 2 ^ 31 := by
  unfold to_int
  split
  · omega
  · omega

theorem to_uint_of_lt (x : Nat) (h : x < 2 ^ 32) : to_uint x = x :=
  Nat.mod_eq_of_lt h

theorem num_pages_of_eq (ps size : Nat) (hps : 2 ≤ ps) (h0 : 0 < size)
    (hfit : size + ps ≤ 2 ^ 32) :
    num_pages_of ps size = (((size + ps - 1) / ps : Nat) : Int) := by
  unfold num_pages_of to_uint
  have h1 : ((size + ps) % 2 ^ 32 + 2 ^ 32 - 1) % 2 ^ 32 = size + ps - 1 := by omega
  rw [h1]
  apply to_int_of_lt
  have h2 := Nat.div_mul_le_self (size + ps - 1) ps
  have h3 : (size + ps - 1) / ps * 2 ≤ (size + ps - 1) / ps * ps := Nat.mul_le_mul_left _ hps
  omega

theorem ceil_covers (ps size : Nat) (hps : 0 < ps) : size ≤ (size + ps - 1) / ps * ps := by
  have h1 := Nat.div_add_mod (size + ps - 1) ps
  have h2 := Nat.mod_lt (size + ps - 1) hps
  have h3 : ps * ((size + ps - 1) / ps) = (size + ps - 1) / ps * ps := Nat.mul_comm _ _
  omega

/-- In a consistent state an area whose size does not wrap the page count
reaches its declared size with its pages. -/
theorem covers_of_fit {ps : Nat} (hps : 2 ≤ ps) {s : State} (h : Inv ps s) (idx : Nat)
    (t : TLS) (hidx : idx < MAX_THREADS) (ht : s.thread_storage idx = some t)
    (hfit : t.size + ps ≤ 2 ^ 32) :
    covers ps t ∧ t.pages.length = (t.size + ps - 1) / ps := by
  obtain ⟨hlen, _, hnum, hsz0, _⟩ := h.shape idx t hidx ht
  rw [num_pages_of_eq ps t.size hps hsz0 hfit] at hnum
  have hl : t.pages.length = (t.size + ps - 1) / ps := by
    rw [hlen, hnum]
    rfl
  refine ⟨?_, hl⟩
  unfold covers
  rw [hl]
  exact ceil_covers ps t.size (by omega)

theorem pages_length_lt {ps : Nat} {s : State} (h : Inv ps s) (idx : Nat) (t : TLS)
    (hidx : idx < MAX_THREADS) (ht : s.thread_storage idx = some t) :
    t.pages.length < 2 ^ 31 := by
  obtain ⟨hlen, _, hnum, _⟩ := h.shape idx t hidx ht
  have := to_int_lt (to_uint (to_uint (t.size + ps) + 2 ^ 32 - 1) / ps)
  rw [hlen, hnum]
  unfold num_pages_of
  omega

/-- The page the loops pick for byte `byte` of a request that stays inside an
area that reaches its size. -/
theorem page_at_in_range {ps : Nat} (hps : 0 < ps) {s : State} (h : Inv ps s) (idx : Nat)
    (t : TLS) (hidx : idx < MAX_THREADS) (ht : s.thread_storage idx = some t)
    (hcov : covers ps t) (o byte : Nat) (hin : o + byte < t.size) :
    to_uint (o + byte) = o + byte ∧
    (to_int (to_uint (o + byte) / ps)).toNat = (o + byte) / ps ∧
    (o + byte) / ps < t.pages.length ∧
    page_at ps s idx o byte = t.pages[(o + byte) / ps]? := by
  obtain ⟨_, _, _, _, hsz⟩ := h.shape idx t hidx ht
  have hu : to_uint (o + byte) = o + byte := to_uint_of_lt _ (by omega)
  have hk : (o + byte) / ps < t.pages.length := by
    rw [Nat.div_lt_iff_lt_mul hps]
    unfold covers at hcov
    omega
  have hl := pages_length_lt h idx t hidx ht
  have hti : to_int ((o + byte) / ps) = (((o + byte) / ps : Nat) : Int) :=
    to_int_of_lt _ (by omega)
  have hnn : ¬ to_int ((o + byte) / ps) < 0 := by
    rw [hti]
    exact not_lt.2 (Int.natCast_nonneg _)
  have htn : (to_int ((o + byte) / ps)).toNat = (o + byte) / ps := by
    rw [hti]
    rfl
  refine ⟨hu, ?_, hk, ?_⟩
  · rw [hu, htn]
  · unfold page_at
    simp only [ht, hu]
    rw [if_neg hnn, htn]

/-! ## The bytes of the writer's own area -/

theorem nodup_getElem?_inj (l : List Nat) (hnd : l.Nodup) (i j p : Nat)
    (hi : l[i]? = some p) (hj : l[j]? = some p) : i = j := by
  obtain ⟨h1, h2⟩ := List.getElem?_eq_some.1 hi
  obtain ⟨h3, h4⟩ := List.getElem?_eq_some.1 hj
  exact (@List.Nodup.getElem_inj_iff Nat l hnd i h1 j h3).1 (h2.trans h4.symm)

theorem area_byte_eq (ps : Nat) (s : State) (idx x p : Nat) (t : TLS) (pg : page)
    (ht : s.thread_storage idx = some t) (hp : t.pages[x / ps]? = some p)
    (hpg : s.heap p = some pg) :
    area_byte ps s idx x = some (s.mem pg.address (x % ps)) := by
  unfold area_byte
  simp only [ht, hp, hpg]

theorem div_mod_ne (ps x y : Nat) (hne : y ≠ x) (hdiv : y / ps = x / ps) : y % ps ≠ x % ps := by
  intro hmod
  apply hne
  rw [← Nat.div_add_mod y ps, ← Nat.div_add_mod x ps, hdiv, hmod]

/-- One iteration of the write loop inside the area: it returns, the byte
written reads back, and every other byte of the area is as before. -/
theorem write_byte_own {ps : Nat} (hps : 0 < ps) {s : State} (h : Inv ps s)
    (idx o byte v : Nat) (t : TLS) (hidx : idx < MAX_THREADS)
    (ht : s.thread_storage idx = some t) (hcov : covers ps t) (hin : o + byte < t.size) :
    ∃ s1, write_byte ps s idx o byte v = some s1 ∧
      area_byte ps s1 idx (o + byte) = some v ∧
      ∀ y, y ≠ o + byte → y / ps < t.pages.length →
        area_byte ps s1 idx y = area_byte ps s idx y := by
  obtain ⟨hu, htn, hk, hpa⟩ := page_at_in_range hps h idx t hidx ht hcov o byte hin
  obtain ⟨hlen, hnodup, _, _⟩ := h.shape idx t hidx ht
  rw [hu] at htn
  have hget : t.pages[(o + byte) / ps]? = some t.pages[(o + byte) / ps] :=
    List.getElem?_eq_getElem hk
  obtain ⟨cur, hcur⟩ : ∃ cur, cur = t.pages[(o + byte) / ps] := ⟨_, rfl⟩
  rw [← hcur] at hget
  rw [hget] at hpa
  have hcur_mem : cur ∈ t.pages := List.getElem?_mem hget
  obtain ⟨pg, hpg⟩ := h.live idx t hidx ht cur hcur_mem
  have hm : (s.prot pg.address).isSome = true := mapped_isSome h cur pg hpg
  have hmodlt : ∀ y : Nat, y % ps < ps := fun y => Nat.mod_lt y hps
  by_cases hrc : pg.ref_count > 1
  · obtain ⟨hcur_lt, hcur_addr⟩ := h.fresh cur pg hpg
    have hne : cur ≠ s.next_ptr := by omega
    have hna : pg.address ≠ s.next_map * ps := by omega
    rw [write_byte_shared ps idx o byte v cur s t pg ht hpa hpg hrc hne hna]
    simp only [hm, if_true, hu, htn]
    refine ⟨_, rfl, ?_, ?_⟩
    · unfold area_byte
      simp only [Function.update_same, List.getElem?_set_self hk,
        Function.update_noteq (Ne.symm hne)]
    · intro y hy hyk
      have hgety : t.pages[y / ps]? = some t.pages[y / ps] := List.getElem?_eq_getElem hyk
      obtain ⟨py, hpy⟩ : ∃ py, py = t.pages[y / ps] := ⟨_, rfl⟩
      rw [← hpy] at hgety
      obtain ⟨pgy, hpgy⟩ := h.live idx t hidx ht py (List.getElem?_mem hgety)
      rw [area_byte_eq ps s idx y py t pgy ht hgety hpgy]
      by_cases hyx : y / ps = (o + byte) / ps
      · have hpc : py = cur := by
          rw [hyx, hget] at hgety
          exact (Option.some.inj hgety).symm
        subst hpc
        rw [hpg] at hpgy
        cases hpgy
        have hmod := div_mod_ne ps (o + byte) y hy hyx
        unfold area_byte
        simp only [Function.update_same, hyx, List.getElem?_set_self hk,
          Function.update_noteq (Ne.symm hne), Function.update_noteq hmod, hmodlt, if_true]
      · have hpc : py ≠ cur := by
          intro hc
          rw [hc] at hgety
          exact hyx (nodup_getElem?_inj t.pages hnodup _ _ cur hgety hget)
        obtain ⟨hpy_lt, hpy_addr⟩ := h.fresh py pgy hpgy
        have hpn : py ≠ s.next_ptr := by omega
        have han : pgy.address ≠ s.next_map * ps := by omega
        unfold area_byte
        simp only [Function.update_same, List.getElem?_set_ne (Ne.symm hyx), hgety,
          Function.update_noteq hpc, Function.update_noteq hpn, hpgy,
          Function.update_noteq han]
  · rw [write_byte_private ps idx o byte v cur s pg hpa hpg hrc]
    simp only [hm, if_true, hu]
    refine ⟨_, rfl, ?_, ?_⟩
    · unfold area_byte
      simp only [ht, hget, hpg, Function.update_same]
    · intro y hy hyk
      have hgety : t.pages[y / ps]? = some t.pages[y / ps] := List.getElem?_eq_getElem hyk
      obtain ⟨py, hpy⟩ : ∃ py, py = t.pages[y / ps] := ⟨_, rfl⟩
      rw [← hpy] at hgety
      obtain ⟨pgy, hpgy⟩ := h.live idx t hidx ht py (List.getElem?_mem hgety)
      rw [area_byte_eq ps s idx y py t pgy ht hgety hpgy]
      unfold area_byte
      simp only [ht, hgety, hpgy]
      by_cases hpc : py = cur
      · subst hpc
        rw [hpg] at hpgy
        cases hpgy
        have hyx : y / ps = (o + byte) / ps :=
          nodup_getElem?_inj t.pages hnodup _ _ py hgety hget
        have hmod := div_mod_ne ps (o + byte) y hy hyx
        simp only [Function.update_same, Function.update_noteq hmod]
      · have hac : pgy.address ≠ pg.address :=
          fun hc => hpc (h.inj py cur pgy pg hpgy hpg hc)
        simp only [Function.update_noteq hac]

/-! ## Round trip inside an area that reaches its size -/

theorem covers_step {ps : Nat} {s s1 : State} (h : Inv ps s) (h1 : Inv ps s1) (idx : Nat)
    (t t1 : TLS) (hidx : idx < MAX_THREADS) (ht : s.thread_storage idx = some t)
    (ht1 : s1.thread_storage idx = some t1) (hsize : t1.size = t.size)
    (hnum : t1.num_pages = t.num_pages) (hcov : covers ps t) :
    covers ps t1 ∧ t1.pages.length = t.pages.length := by
  have hl : t1.pages.length = t.pages.length := by
    rw [(h.shape idx t hidx ht).1, (h1.shape idx t1 hidx ht1).1, hnum]
  refine ⟨?_, hl⟩
  unfold covers at hcov ⊢
  rw [hl, hsize]
  exact hcov

theorem write_loop_own {ps : Nat} (hps : 0 < ps) (idx o : Nat) (B : Nat → Nat)
    (hidx : idx < MAX_THREADS) (n b : Nat) {s : State} (h : Inv ps s) (t : TLS)
    (ht : s.thread_storage idx = some t) (hcov : covers ps t) (hin : o + b + n ≤ t.size) :
    ∃ s1, write_loop ps idx o B n b s = some s1 ∧
      (∀ j, b ≤ j → j < b + n → area_byte ps s1 idx (o + j) = some (B j)) ∧
      (∀ y, (∀ j, b ≤ j → j < b + n → y ≠ o + j) → y / ps < t.pages.length →
        area_byte ps s1 idx y = area_byte ps s idx y) := by
  induction n generalizing b s t with
  | zero =>
    refine ⟨s, rfl, ?_, fun _ _ _ => rfl⟩
    intro j h1 h2
    omega
  | succ n ih =>
    obtain ⟨s2, hw, hset, hframe⟩ :=
      write_byte_own hps h idx o b (B b) t hidx ht hcov (by omega)
    obtain ⟨hinv2, _, ⟨t0, t2, ht0, ht2, _, hsize, hnum⟩, _⟩ :=
      write_byte_spec hps h idx o b (B b) hidx hw
    rw [ht] at ht0
    cases ht0
    obtain ⟨hcov2, hl2⟩ := covers_step h hinv2 idx t t2 hidx ht ht2 hsize hnum hcov
    obtain ⟨s1, hloop, hvals, hrest⟩ :=
      ih (b + 1) hinv2 t2 ht2 hcov2 (by rw [hsize]; omega)
    have hkb : (o + b) / ps < t.pages.length := by
      rw [Nat.div_lt_iff_lt_mul hps]
      unfold covers at hcov
      omega
    refine ⟨s1, ?_, ?_, ?_⟩
    · rw [write_loop, hw]
      exact hloop
    · intro j h1 h2
      by_cases hjb : j = b
      · subst hjb
        rw [hrest (o + j) (fun j1 h3 _ => by omega) (by rw [hl2]; exact hkb)]
        exact hset
      · exact hvals j (by omega) (by omega)
    · intro y hy hyk
      rw [hrest y (fun j h1 h2 => hy j (by omega) (by omega)) (by rw [hl2]; exact hyk)]
      exact hframe y (hy b (le_refl b) (by omega)) hyk

theorem read_loop_own {ps : Nat} (hps : 0 < ps) (idx o : Nat) (hidx : idx < MAX_THREADS)
    (n b : Nat) {s : State} (h : Inv ps s) (t : TLS) (ht : s.thread_storage idx = some t)
    (hcov : covers ps t) (hin : o + b + n ≤ t.size) (buf : Nat → Nat) :
    ∃ s1 buf1, read_loop ps idx o n b s buf = some (s1, buf1) ∧
      (∀ j, b ≤ j → j < b + n → area_byte ps s idx (o + j) = some (buf1 j)) ∧
      (∀ j, j < b ∨ b + n ≤ j → buf1 j = buf j) := by
  induction n generalizing b s buf with
  | zero =>
    refine ⟨s, buf, rfl, ?_, fun _ _ => rfl⟩
    intro j h1 h2
    omega
  | succ n ih =>
    obtain ⟨hu, _, hk, hpa⟩ := page_at_in_range hps h idx t hidx ht hcov o b (by omega)
    have hget : t.pages[(o + b) / ps]? = some t.pages[(o + b) / ps] :=
      List.getElem?_eq_getElem hk
    obtain ⟨cur, hcur⟩ : ∃ cur, cur = t.pages[(o + b) / ps] := ⟨_, rfl⟩
    rw [← hcur] at hget
    rw [hget] at hpa
    obtain ⟨pg, hpg⟩ := h.live idx t hidx ht cur (List.getElem?_mem hget)
    have hm : (s.prot pg.address).isSome = true := mapped_isSome h cur pg hpg
    obtain ⟨s2, hs2⟩ : ∃ s2 : State,
        s2 = { s with prot := Function.update s.prot pg.address (some Prot.PROT_NONE) } :=
      ⟨_, rfl⟩
    have hinv2 : Inv ps s2 := by
      rw [hs2]
      exact h.of_reprotected (reprotected_update s pg.address hm)
    have ht2 : s2.thread_storage idx = some t := by
      rw [hs2]
      exact ht
    have harea : ∀ x, area_byte ps s2 idx x = area_byte ps s idx x := by
      intro x
      rw [hs2]
      rfl
    obtain ⟨s1, buf1, hloop, hvals, hrest⟩ := ih (b + 1) hinv2 ht2 (by omega)
      (Function.update buf b (s.mem pg.address (to_uint (o + b) % ps)))
    refine ⟨s1, buf1, ?_, ?_, ?_⟩
    · rw [read_loop_succ, hpa]
      simp only [hpg, hm, if_true]
      rw [← hs2]
      exact hloop
    · intro j h1 h2
      by_cases hjb : j = b
      · subst hjb
        rw [hrest j (Or.inl (by omega)), Function.update_same, hu]
        exact area_byte_eq ps s idx (o + j) cur t pg ht hget hpg
      · rw [← harea]
        exact hvals j (by omega) (by omega)
    · intro j hj
      rw [hrest j (by omega), Function.update_noteq (by omega)]

/-- Round trip for an area whose size does not wrap the page count: in a
reachable state, for an owned area with `size + pagesize ≤ 2 ^ 32`, an in-range
`tls_write` returns `SUCCESS` and the `tls_read` of the same range that follows
returns `SUCCESS` with the bytes written. -/
theorem tls_write_read_round_trip (ps : Nat) (hps : 2 ≤ ps) (s : State)
    (hs : Reachable ps s) (tid idx : Nat) (t : TLS) (hidx : idx < MAX_THREADS)
    (ht : s.thread_storage idx = some t) (htid : t.tid = tid)
    (hfit : t.size + ps ≤ 2 ^ 32) (o n : Nat) (hin : o + n ≤ t.size) (B B0 : Nat → Nat) :
    ∃ s1 s2 B1, tls_write ps s tid o n B = some (SUCCESS, s1) ∧
      tls_read ps s1 tid o n B0 = some (SUCCESS, B1, s2) ∧
      ∀ j, j < n → B1 j = B j := by
  have hps0 : 0 < ps := by omega
  have hinv := reachable_inv hps0 hs
  obtain ⟨hcov, _⟩ := covers_of_fit hps hinv idx t hidx ht hfit
  obtain ⟨_, _, _, _, hsz⟩ := hinv.shape idx t hidx ht
  have hfind : find_tid s.thread_storage tid 0 MAX_THREADS = some idx := by
    rw [← htid]
    exact find_tid_of_slot s hinv.uniq idx t hidx ht
  have hu : to_uint (o + n) = o + n := to_uint_of_lt _ (by omega)
  obtain ⟨s1, hloop, hvals, _⟩ :=
    write_loop_own hps0 idx o B hidx n 0 hinv t ht hcov (by omega)
  obtain ⟨hinv1, _, hhead, _⟩ := write_loop_spec hps0 idx o B hidx n 0 hinv hloop
  obtain ⟨t1, ht1, htid1, hsize1, hnum1⟩ := hhead t ht
  obtain ⟨hcov1, _⟩ := covers_step hinv hinv1 idx t t1 hidx ht ht1 hsize1 hnum1 hcov
  have hfind1 : find_tid s1.thread_storage tid 0 MAX_THREADS = some idx := by
    rw [← htid, ← htid1]
    exact find_tid_of_slot s1 hinv1.uniq idx t1 hidx ht1
  obtain ⟨s2, B1, hread, hrvals, _⟩ :=
    read_loop_own hps0 idx o hidx n 0 hinv1 t1 ht1 hcov1 (by rw [hsize1]; omega) B0
  refine ⟨s1, s2, B1, ?_, ?_, ?_⟩
  · unfold tls_write
    rw [hfind]
    simp only [ht, hu]
    rw [if_neg (by omega)]
    simp only [hloop]
  · unfold tls_read
    rw [hfind1]
    simp only [ht1, hu, hsize1]
    rw [if_neg (by omega)]
    simp only [hread]
  · intro j hj
    have h1 := hvals j (Nat.zero_le _) (by omega)
    have h2 := hrvals j (Nat.zero_le _) (by omega)
    rw [h1] at h2
    exact (Option.some.inj h2).symm

/-- The round trip on scenario S1: `tls_create(100)`, then `tls_write(0, 5, ..)`
and `tls_read(0, 5, ..)` by the same thread. -/
theorem tls_write_read_round_trip_small :
    ∃ s1 s2 B1, tls_write 4096 state_small 7 0 5 (fun i => 104 + i) = some (SUCCESS, s1) ∧
      tls_read 4096 s1 7 0 5 (fun _ => 0) = some (SUCCESS, B1, s2) ∧
      ∀ j, j < 5 → B1 j = 104 + j :=
  tls_write_read_round_trip 4096 (by decide) state_small reachable_small 7 0 ⟨7, 100, 1, [1]⟩
    (by decide) (by decide) rfl (by decide) 0 5 (by decide) (fun i => 104 + i) (fun _ => 0)

/-- The pages of a new area when the page count does not wrap: for
`size + pagesize ≤ 2 ^ 32` a successful `tls_create` in a reachable state
records `size`, gives the area `ceil(size / pagesize)` pages, and each of them
is a page object that was not allocated before, belongs to no other area, has
`ref_count` 1 and is mapped with `PROT_NONE`. -/
theorem tls_create_pages (ps : Nat) (hps : 2 ≤ ps) (s : State) (hs : Reachable ps s)
    (tid size : Nat) (h0 : 0 < size) (hfit : size + ps ≤ 2 ^ 32)
    (hok : (tls_create ps s tid size).1 = SUCCESS) :
    ∃ i t, i < MAX_THREADS ∧ s.thread_storage i = none ∧
      (tls_create ps s tid size).2.thread_storage i = some t ∧
      t.tid = tid ∧ t.size = size ∧ t.num_pages = (((size + ps - 1) / ps : Nat) : Int) ∧
      t.pages.length = (size + ps - 1) / ps ∧
      ∀ p ∈ t.pages, s.heap p = none ∧
        (∀ j, j < MAX_THREADS → j ≠ i →
          p ∉ slot_pages (tls_create ps s tid size).2.thread_storage j) ∧
        ∃ a, (tls_create ps s tid size).2.heap p = some ⟨a, 1⟩ ∧
          (tls_create ps s tid size).2.prot a = some Prot.PROT_NONE := by
  have hinv := reachable_inv (by omega : 0 < ps) hs
  have hne : FAILURE ≠ SUCCESS := by decide
  rcases tls_create_cases ps s tid size with ⟨_, h1⟩ | ⟨_, _, i, hi, h1⟩
  · rw [h1] at hok
    exact absurd hok hne
  · rw [h1]
    obtain ⟨_, b2, b3, _⟩ := find_free_some_spec _ _ _ _ hi
    have hspec :=
      alloc_pages_spec ps (num_pages_of ps size).toNat { s with is_first_call := false }
    have hnum := num_pages_of_eq ps size hps h0 hfit
    obtain ⟨np, hnp⟩ : ∃ np : Int, np = num_pages_of ps size := ⟨_, rfl⟩
    rw [← hnp] at hspec hnum ⊢
    obtain ⟨n, hn⟩ : ∃ n : Nat, np.toNat = n := ⟨_, rfl⟩
    have hn2 : n = (size + ps - 1) / ps := by
      rw [← hn, hnum]
      rfl
    rw [hn] at hspec ⊢
    generalize alloc_pages ps n { s with is_first_call := false } = r at hspec ⊢
    obtain ⟨a1, a2, a3, a4, a5, a6, a7, a8, a9⟩ := hspec
    refine ⟨i, ⟨tid, size, np, List.range' s.next_ptr n⟩, by omega, b3, ?_, rfl, rfl, hnum, ?_, ?_⟩
    · simp only [Function.update_same]
    · simp only [List.length_range', hn2]
    · intro p hp
      simp only [List.mem_range'_1] at hp
      refine ⟨?_, ?_, ?_⟩
      · cases hsp : s.heap p with
        | none => rfl
        | some pg =>
          have := (hinv.fresh p pg hsp).1
          omega
      · intro j hj hji hmem
        rw [slot_pages_update_ne _ _ _ _ hji] at hmem
        exact not_referenced_of_fresh hinv p hp.1 j hj hmem
      · have e1 := a7 (p - s.next_ptr) (by omega)
        have e2 := (a9 (p - s.next_ptr) (by omega)).1
        simp only at e1 e2
        rw [show s.next_ptr + (p - s.next_ptr) = p by omega] at e1
        exact ⟨_, e1, e2⟩

/-- The new area on scenario S1: `tls_create(100)` with 4096-byte pages on the
empty registry gives one page. -/
theorem tls_create_pages_small :
    ∃ i t, i < MAX_THREADS ∧ init.thread_storage i = none ∧
      (tls_create 4096 init 7 100).2.thread_storage i = some t ∧
      t.tid = 7 ∧ t.size = 100 ∧ t.num_pages = (((100 + 4096 - 1) / 4096 : Nat) : Int) ∧
      t.pages.length = (100 + 4096 - 1) / 4096 ∧
      ∀ p ∈ t.pages, init.heap p = none ∧
        (∀ j, j < MAX_THREADS → j ≠ i →
          p ∉ slot_pages (tls_create 4096 init 7 100).2.thread_storage j) ∧
        ∃ a, (tls_create 4096 init 7 100).2.heap p = some ⟨a, 1⟩ ∧
          (tls_create 4096 init 7 100).2.prot a = some Prot.PROT_NONE :=
  tls_create_pages 4096 (by decide) init (reachable_init 4096) 7 100 (by decide) (by decide)
    (by decide)

/-! ## Claims on reads, the registry and slot choice -/

/-- C11 (read is read-only): whatever the caller, the offset and the length, and
whether the call returns `SUCCESS` or `FAILURE`, a `tls_read` leaves the
registry (so every area's size, page count and page sequence), every page
object (so every `ref_count`) and every byte of every page as they were, and
allocates neither a page object nor a mapping: no copy-on-write takes place. -/
theorem tls_read_is_read_only (ps : Nat) (s s1 : State) (tid o n : Nat)
    (buf buf1 : Nat → Nat) (r : Int)
    (h : tls_read ps s tid o n buf = some (r, buf1, s1)) :
    s1.thread_storage = s.thread_storage ∧ s1.heap = s.heap ∧ s1.mem = s.mem ∧
      s1.next_ptr = s.next_ptr ∧ s1.next_map = s.next_map := by
  obtain ⟨h1, h2, h3, h4, h5, _, _⟩ := tls_read_reprotected ps s s1 tid o n buf buf1 r h
  exact ⟨h1, h2, h3, h4, h5⟩

/-- Witness for C11: thread 2 reads the first byte of a page it shares with
thread 1 (`ref_count` 2). -/
theorem tls_read_is_read_only_witness :
    tls_read 4096 state_shared 2 0 1 (fun _ => 0) =
        some (read_shared.1, read_shared.2.1, read_shared.2.2) ∧
      state_shared.heap 1 = some ⟨4096, 2⟩ ∧
      read_shared.2.2.thread_storage = state_shared.thread_storage ∧
      read_shared.2.2.heap = state_shared.heap ∧
      read_shared.2.2.mem = state_shared.mem ∧
      read_shared.2.2.next_ptr = state_shared.next_ptr ∧
      read_shared.2.2.next_map = state_shared.next_map :=
  ⟨rfl, rfl, tls_read_is_read_only 4096 state_shared read_shared.2.2 2 0 1 (fun _ => 0)
    read_shared.2.1 read_shared.1 rfl⟩

/-- C12 (registry identity uniqueness): in every state reachable from the empty
registry by completed API calls no two occupied slots are bound to the same
thread identity, and the number of occupied slots is at most 128. -/
theorem registry_identity_unique (ps : Nat) (hps : 0 < ps) (s : State)
    (hs : Reachable ps s) :
    (∀ i j t u, i < MAX_THREADS → j < MAX_THREADS →
      s.thread_storage i = some t → s.thread_storage j = some u → t.tid = u.tid → i = j) ∧
    ((Finset.range MAX_THREADS).filter (fun i => (s.thread_storage i).isSome)).card ≤ 128 := by
  refine ⟨(reachable_inv hps hs).uniq, ?_⟩
  calc ((Finset.range MAX_THREADS).filter (fun i => (s.thread_storage i).isSome)).card
      ≤ (Finset.range MAX_THREADS).card := Finset.card_filter_le _ _
    _ = 128 := Finset.card_range 128

/-- Witness for C12: the state in which threads 1 and 2 hold areas. -/
theorem registry_identity_unique_witness :
    (∀ i j t u, i < MAX_THREADS → j < MAX_THREADS →
      state_shared.thread_storage i = some t → state_shared.thread_storage j = some u →
      t.tid = u.tid → i = j) ∧
    ((Finset.range MAX_THREADS).filter
      (fun i => (state_shared.thread_storage i).isSome)).card ≤ 128 :=
  registry_identity_unique 4096 (by decide) state_shared reachable_shared

/-- C13 (lowest free slot): in a reachable state, when `tls_create` or
`tls_clone` returns `SUCCESS` the registry after the call is the registry before
it with the caller's new area stored in slot `i`, where slot `i` was free and
every slot below `i` was occupied; no other slot changes. -/
theorem new_area_in_lowest_free_slot (ps : Nat) (hps : 0 < ps) (s : State)
    (hs : Reachable ps s) :
    (∀ tid size, (tls_create ps s tid size).1 = SUCCESS →
      ∃ i t, i < MAX_THREADS ∧ s.thread_storage i = none ∧
        (∀ j, j < i → (s.thread_storage j).isSome) ∧ t.tid = tid ∧
        (tls_create ps s tid size).2.thread_storage =
          Function.update s.thread_storage i (some t)) ∧
    (∀ cur tid s1, tls_clone s cur tid = some (SUCCESS, s1) →
      ∃ i t, i < MAX_THREADS ∧ s.thread_storage i = none ∧
        (∀ j, j < i → (s.thread_storage j).isSome) ∧ t.tid = cur ∧
        s1.thread_storage = Function.update s.thread_storage i (some t)) := by
  have hne : FAILURE ≠ SUCCESS := by decide
  constructor
  · intro tid size hok
    rcases tls_create_cases ps s tid size with ⟨_, h1⟩ | ⟨_, _, i, hi, h1⟩
    · rw [h1] at hok
      exact absurd hok hne
    · obtain ⟨_, b2, b3, b4⟩ := find_free_some_spec _ _ _ _ hi
      rw [h1]
      exact ⟨i, _, by omega, b3, fun j hj => b4 j (Nat.zero_le j) hj, rfl, rfl⟩
  · intro cur tid s1 hok
    rcases tls_clone_cases (reachable_inv hps hs) cur tid with
      ⟨_, h1⟩ | ⟨_, tgt, new, t, s2, _, _, _, hnew, h1, hts, _⟩
    · rw [h1] at hok
      simp only [Option.some.injEq, Prod.mk.injEq] at hok
      exact absurd hok.1 hne
    · rw [h1] at hok
      simp only [Option.some.injEq, Prod.mk.injEq, true_and] at hok
      subst hok
      obtain ⟨_, b2, b3, b4⟩ := find_free_some_spec _ _ _ _ hnew
      exact ⟨new, _, by omega, b3, fun j hj => b4 j (Nat.zero_le j) hj, rfl, hts⟩

/-- Witness for C13: thread 2 clones the area of thread 1, which sits in slot 0;
the clone is stored in slot 1. -/
theorem new_area_in_lowest_free_slot_witness :
    (∀ tid size, (tls_create 4096 state_written tid size).1 = SUCCESS →
      ∃ i t, i < MAX_THREADS ∧ state_written.thread_storage i = none ∧
        (∀ j, j < i → (state_written.thread_storage j).isSome) ∧ t.tid = tid ∧
        (tls_create 4096 state_written tid size).2.thread_storage =
          Function.update state_written.thread_storage i (some t)) ∧
    (∀ cur tid s1, tls_clone state_written cur tid = some (SUCCESS, s1) →
      ∃ i t, i < MAX_THREADS ∧ state_written.thread_storage i = none ∧
        (∀ j, j < i → (state_written.thread_storage j).isSome) ∧ t.tid = cur ∧
        s1.thread_storage = Function.update state_written.thread_storage i (some t)) :=
  new_area_in_lowest_free_slot 4096 (by decide) state_written reachable_written

/-- C28 fails on the code: with 4096-byte pages `tls_create(4294967295)` returns
`SUCCESS` and registers an area of declared size 4294967295 whose `num_pages` is
0; for offset 0 and length 1, which lie within the size, the page index 0 that
`tls_read` and `tls_write` compute is not smaller than `num_pages`. -/
theorem page_index_out_of_bounds_on_wrapped_area :
    (tls_create 4096 init 7 4294967295).1 = SUCCESS ∧
    ∃ t, state_huge.thread_storage 0 = some t ∧ t.size = 4294967295 ∧ t.num_pages = 0 ∧
      0 + 1 ≤ t.size ∧ ¬ (to_int (to_uint (0 + 0) / 4096) < t.num_pages) ∧
      page_at 4096 state_huge 0 0 0 = none := by
  refine ⟨by decide, ⟨7, 4294967295, 0, []⟩, by decide, rfl, rfl, by decide, by decide,
    by decide⟩

/-! ## The frame of a write inside the writer's own area -/

theorem to_int_nonneg_lt (q : Nat) (hq : q < 2 ^ 32) (h : ¬ to_int q < 0) : q < 2 ^ 31 := by
  by_contra hc
  apply h
  unfold to_int
  have h1 : q % 2 ^ 32 = q := Nat.mod_eq_of_lt hq
  rw [h1, if_neg hc]
  omega

theorem to_uint_lt (n : Nat) : to_uint n < 2 ^ 32 := Nat.mod_lt n (by norm_num)

/-- What `page_at` returns when it returns: the page index is the unsigned
quotient and lies inside the page array. -/
theorem page_at_some (ps : Nat) (s : State) (idx o byte cur : Nat) (t : TLS)
    (ht : s.thread_storage idx = some t)
    (hpa : page_at ps s idx o byte = some cur) :
    (to_int (to_uint (o + byte) / ps)).toNat = to_uint (o + byte) / ps ∧
    to_uint (o + byte) / ps < t.pages.length ∧
    t.pages[to_uint (o + byte) / ps]? = some cur := by
  have hxlt := to_uint_lt (o + byte)
  unfold page_at at hpa
  rw [ht] at hpa
  simp only [] at hpa
  generalize to_uint (o + byte) = x at hxlt hpa ⊢
  by_cases hneg : to_int (x / ps) < 0
  · rw [if_pos hneg] at hpa
    cases hpa
  · rw [if_neg hneg] at hpa
    have hq : x / ps < 2 ^ 31 :=
      to_int_nonneg_lt _ (lt_of_le_of_lt (Nat.div_le_self _ _) hxlt) hneg
    have htn : (to_int (x / ps)).toNat = x / ps := by
      rw [to_int_of_lt _ hq]
      exact Int.toNat_natCast _
    rw [htn] at hpa
    refine ⟨htn, ?_, hpa⟩
    by_contra hc
    rw [List.getElem?_eq_none (by omega)] at hpa
    cases hpa

/-- One iteration of the write loop that returns: the page index was inside the
page array, the byte written reads back, and every other byte of the area is
as before. -/
theorem write_byte_frame {ps : Nat} (hps : 0 < ps) {s s1 : State} (h : Inv ps s)
    (idx o byte v : Nat) (t : TLS) (hidx : idx < MAX_THREADS)
    (ht : s.thread_storage idx = some t)
    (hw : write_byte ps s idx o byte v = some s1) :
    to_uint (o + byte) / ps < t.pages.length ∧
    area_byte ps s1 idx (to_uint (o + byte)) = some v ∧
    ∀ y, y ≠ to_uint (o + byte) → area_byte ps s1 idx y = area_byte ps s idx y := by
  obtain ⟨hlen, hnodup, _, _⟩ := h.shape idx t hidx ht
  cases hpa : page_at ps s idx o byte with
  | none =>
    unfold write_byte at hw
    simp only [hpa] at hw
    cases hw
  | some cur =>
    obtain ⟨htn, hk, hget⟩ := page_at_some ps s idx o byte cur t ht hpa
    have hcur_mem : cur ∈ t.pages := List.getElem?_mem hget
    obtain ⟨pg, hpg⟩ := h.live idx t hidx ht cur hcur_mem
    have hm : (s.prot pg.address).isSome = true := mapped_isSome h cur pg hpg
    have hmodlt : ∀ y : Nat, y % ps < ps := fun y => Nat.mod_lt y hps
    have hnone : ∀ y (l : List Nat), l.length = t.pages.length → ¬ y / ps < t.pages.length →
        l[y / ps]? = none := fun y l hl hy => List.getElem?_eq_none (by omega)
    by_cases hrc : pg.ref_count > 1
    · obtain ⟨hcur_lt, hcur_addr⟩ := h.fresh cur pg hpg
      have hne : cur ≠ s.next_ptr := by omega
      have hna : pg.address ≠ s.next_map * ps := by omega
      rw [write_byte_shared ps idx o byte v cur s t pg ht hpa hpg hrc hne hna] at hw
      simp only [hm, if_true, htn, Option.some.injEq] at hw
      subst hw
      refine ⟨hk, ?_, ?_⟩
      · unfold area_byte
        simp only [Function.update_same, List.getElem?_set_self hk,
          Function.update_noteq (Ne.symm hne)]
      · intro y hy
        by_cases hyk : y / ps < t.pages.length
        · have hgety : t.pages[y / ps]? = some t.pages[y / ps] := List.getElem?_eq_getElem hyk
          obtain ⟨py, hpy⟩ : ∃ py, py = t.pages[y / ps] := ⟨_, rfl⟩
          rw [← hpy] at hgety
          obtain ⟨pgy, hpgy⟩ := h.live idx t hidx ht py (List.getElem?_mem hgety)
          rw [area_byte_eq ps s idx y py t pgy ht hgety hpgy]
          by_cases hyx : y / ps = to_uint (o + byte) / ps
          · have hpc : py = cur := by
              rw [hyx, hget] at hgety
              exact (Option.some.inj hgety).symm
            subst hpc
            rw [hpg] at hpgy
            cases hpgy
            have hmod := div_mod_ne ps (to_uint (o + byte)) y hy hyx
            unfold area_byte
            simp only [Function.update_same, hyx, List.getElem?_set_self hk,
              Function.update_noteq (Ne.symm hne), Function.update_noteq hmod, hmodlt, if_true]
          · have hpc : py ≠ cur := by
              intro hc
              rw [hc] at hgety
              exact hyx (nodup_getElem?_inj t.pages hnodup _ _ cur hgety hget)
            obtain ⟨hpy_lt, hpy_addr⟩ := h.fresh py pgy hpgy
            have hpn : py ≠ s.next_ptr := by omega
            have han : pgy.address ≠ s.next_map * ps := by omega
            unfold area_byte
            simp only [Function.update_same, List.getElem?_set_ne (Ne.symm hyx), hgety,
              Function.update_noteq hpc, Function.update_noteq hpn, hpgy,
              Function.update_noteq han]
        · unfold area_byte
          simp only [Function.update_same, ht,
            hnone y _ (List.length_set _ _ _) hyk, hnone y _ rfl hyk]
    · rw [write_byte_private ps idx o byte v cur s pg hpa hpg hrc] at hw
      simp only [hm, if_true, Option.some.injEq] at hw
      subst hw
      refine ⟨hk, ?_, ?_⟩
      · unfold area_byte
        simp only [ht, hget, hpg, Function.update_same]
      · intro y hy
        by_cases hyk : y / ps < t.pages.length
        · have hgety : t.pages[y / ps]? = some t.pages[y / ps] := List.getElem?_eq_getElem hyk
          obtain ⟨py, hpy⟩ : ∃ py, py = t.pages[y / ps] := ⟨_, rfl⟩
          rw [← hpy] at hgety
          obtain ⟨pgy, hpgy⟩ := h.live idx t hidx ht py (List.getElem?_mem hgety)
          rw [area_byte_eq ps s idx y py t pgy ht hgety hpgy]
          unfold area_byte
          simp only [ht, hgety, hpgy]
          by_cases hpc : py = cur
          · subst hpc
            rw [hpg] at hpgy
            cases hpgy
            have hyx : y / ps = to_uint (o + byte) / ps :=
              nodup_getElem?_inj t.pages hnodup _ _ py hgety hget
            have hmod := div_mod_ne ps (to_uint (o + byte)) y hy hyx
            simp only [Function.update_same, Function.update_noteq hmod]
          · have hac : pgy.address ≠ pg.address :=
              fun hc => hpc (h.inj py cur pgy pg hpgy hpg hc)
            simp only [Function.update_noteq hac]
        · unfold area_byte
          simp only [ht, hnone y _ rfl hyk]

theorem write_loop_frame {ps : Nat} (hps : 0 < ps) (idx o : Nat) (B : Nat → Nat)
    (hidx : idx < MAX_THREADS) (n b : Nat) {s s1 : State} (h : Inv ps s) (t : TLS)
    (ht : s.thread_storage idx = some t)
    (hw : write_loop ps idx o B n b s = some s1) :
    (∀ j, b ≤ j → j < b + n → to_uint (o + j) / ps < t.pages.length) ∧
    (∀ y, (∀ j, b ≤ j → j < b + n → y ≠ to_uint (o + j)) →
      area_byte ps s1 idx y = area_byte ps s idx y) := by
  induction n generalizing b s t with
  | zero =>
    rw [write_loop] at hw
    cases hw
    exact ⟨fun j h1 h2 => by omega, fun _ _ => rfl⟩
  | succ n ih =>
    rw [write_loop] at hw
    cases hwb : write_byte ps s idx o b (B b) with
    | none =>
      rw [hwb] at hw
      cases hw
    | some s2 =>
      rw [hwb] at hw
      simp only [] at hw
      obtain ⟨hk, _, hframe⟩ := write_byte_frame hps h idx o b (B b) t hidx ht hwb
      obtain ⟨hinv2, _, ⟨t0, t2, ht0, ht2, _, hsize, hnum⟩, _⟩ :=
        write_byte_spec hps h idx o b (B b) hidx hwb
      rw [ht] at ht0
      cases ht0
      have hl : t2.pages.length = t.pages.length := by
        rw [(h.shape idx t hidx ht).1, (hinv2.shape idx t2 hidx ht2).1, hnum]
      obtain ⟨hks, hrest⟩ := ih (b + 1) hinv2 t2 ht2 hw
      constructor
      · intro j h1 h2
        by_cases hjb : j = b
        · subst hjb
          exact hk
        · rw [← hl]
          exact hks j (by omega) (by omega)
      · intro y hy
        rw [hrest y (fun j h1 h2 => hy j (by omega) (by omega))]
        exact hframe y (hy b (le_refl b) (by omega))

/-- The page array of a registered area is shorter than `2 ^ 32 / pagesize`
rounded up: the page index of offset `2 ^ 32 - 1` is never inside it. -/
theorem last_offset_outside {ps : Nat} {s : State} (h : Inv ps s) (idx : Nat)
    (t : TLS) (hidx : idx < MAX_THREADS) (ht : s.thread_storage idx = some t) :
    t.pages.length ≤ 4294967295 / ps := by
  obtain ⟨hlen, _, hnum, _, _⟩ := h.shape idx t hidx ht
  rw [hlen, hnum]
  unfold num_pages_of
  have hx := to_uint_lt (to_uint (t.size + ps) + 2 ^ 32 - 1)
  generalize to_uint (to_uint (t.size + ps) + 2 ^ 32 - 1) = x at hx ⊢
  have hx1 : x ≤ 4294967295 := by omega
  have hq : x / ps ≤ 4294967295 / ps := Nat.div_le_div_right hx1
  have hq2 : x / ps ≤ x := Nat.div_le_self _ _
  generalize 4294967295 / ps = m at hq ⊢
  generalize x / ps = q at hq hq2 ⊢
  by_cases hq31 : q < 2 ^ 31
  · rw [to_int_of_lt _ hq31, Int.toNat_natCast]
    exact hq
  · have hneg : to_int q < 0 := by
      by_contra hc
      exact hq31 (to_int_nonneg_lt q (by omega) hc)
    rw [Int.toNat_eq_zero.2 (le_of_lt hneg)]
    exact Nat.zero_le m

/-- What one-byte `tls_read` at offset `y` hands back to the owner of slot `idx`. -/
theorem tls_read_one {ps : Nat} {s : State} (h : Inv ps s) (idx : Nat) (t : TLS)
    (hidx : idx < MAX_THREADS) (ht : s.thread_storage idx = some t) (y : Nat)
    (hy : y < 2 ^ 32) (buf : Nat → Nat) :
    read_result (tls_read ps s t.tid y 1 buf) =
      if to_uint (y + 1) > t.size then some (FAILURE, buf)
      else (area_byte ps s idx y).map (fun v => (SUCCESS, Function.update buf 0 v)) := by
  have hlt := pages_length_lt h idx t hidx ht
  unfold tls_read
  rw [find_tid_of_slot s h.uniq idx t hidx ht]
  simp only [ht]
  by_cases hout : to_uint (y + 1) > t.size
  · rw [if_pos hout, if_pos hout]
    rfl
  · rw [if_neg hout, if_neg hout, read_loop_succ]
    have hu : to_uint (y + 0) = y := to_uint_of_lt _ hy
    cases hpa : page_at ps s idx y 0 with
    | none =>
      simp only []
      unfold page_at at hpa
      rw [ht, hu] at hpa
      simp only [] at hpa
      unfold area_byte
      rw [ht]
      simp only []
      by_cases hneg : to_int (y / ps) < 0
      · have hq : ¬ y / ps < 2 ^ 31 := by
          intro hc
          rw [to_int_of_lt _ hc] at hneg
          exact absurd hneg (not_lt.2 (Int.ofNat_nonneg _))
        rw [List.getElem?_eq_none (by omega)]
        rfl
      · rw [if_neg hneg] at hpa
        have hq : y / ps < 2 ^ 31 :=
          to_int_nonneg_lt _ (lt_of_le_of_lt (Nat.div_le_self _ _) hy) hneg
        rw [to_int_of_lt _ hq, Int.toNat_natCast] at hpa
        rw [hpa]
        rfl
    | some cur =>
      obtain ⟨_, hk, hget⟩ := page_at_some ps s idx y 0 cur t ht hpa
      rw [hu] at hget
      obtain ⟨pg, hpg⟩ := h.live idx t hidx ht cur (List.getElem?_mem hget)
      have hm : (s.prot pg.address).isSome = true := mapped_isSome h cur pg hpg
      rw [area_byte_eq ps s idx y cur t pg ht hget hpg]
      simp only [hpg, hm, if_true, hu, read_loop, read_result, Option.map_some']

/-- C33 (write frame): in a reachable state, after a `tls_write(o, n, B)` by the
owner of an area that returns `SUCCESS`, the area keeps its declared size and
page count, and for every offset `y` outside `[o, o + n)` the byte of the area
at `y` is the same as before and a one-byte `tls_read` at `y` hands back the
same return code and byte as before; this holds whether the pages written
were private or were copied on write. -/
theorem tls_write_frame (ps : Nat) (hps : 0 < ps) (s s1 : State) (hs : Reachable ps s)
    (tid idx : Nat) (t : TLS) (hidx : idx < MAX_THREADS)
    (ht : s.thread_storage idx = some t) (htid : t.tid = tid)
    (o n : Nat) (ho : o < 2 ^ 32) (hn : n < 2 ^ 32) (B : Nat → Nat)
    (hw : tls_write ps s tid o n B = some (SUCCESS, s1)) :
    (∃ t1, s1.thread_storage idx = some t1 ∧ t1.tid = tid ∧ t1.size = t.size ∧
      t1.num_pages = t.num_pages) ∧
    ∀ y, y < o ∨ o + n ≤ y →
      area_byte ps s1 idx y = area_byte ps s idx y ∧
      (y < 2 ^ 32 → ∀ buf, read_result (tls_read ps s1 tid y 1 buf) =
        read_result (tls_read ps s tid y 1 buf)) := by
  have hinv := reachable_inv hps hs
  have hfind : find_tid s.thread_storage tid 0 MAX_THREADS = some idx := by
    rw [← htid]
    exact find_tid_of_slot s hinv.uniq idx t hidx ht
  unfold tls_write at hw
  rw [hfind] at hw
  simp only [ht] at hw
  by_cases hout : to_uint (o + n) > t.size
  · rw [if_pos hout] at hw
    simp only [Option.some.injEq, Prod.mk.injEq] at hw
    exact absurd hw.1 (by decide)
  · rw [if_neg hout] at hw
    cases hloop : write_loop ps idx o B n 0 s with
    | none =>
      rw [hloop] at hw
      cases hw
    | some s2 =>
      rw [hloop] at hw
      simp only [Option.some.injEq, Prod.mk.injEq, true_and] at hw
      subst hw
      obtain ⟨hinv1, _, hhead, _⟩ := write_loop_spec hps idx o B hidx n 0 hinv hloop
      obtain ⟨t1, ht1, htid1, hsize1, hnum1⟩ := hhead t ht
      obtain ⟨hks, hframe⟩ := write_loop_frame hps idx o B hidx n 0 hinv t ht hloop
      have hlast := last_offset_outside hinv idx t hidx ht
      have hsum : o + n ≤ 4294967295 ∨ n = 0 := by
        by_contra hc
        have h1 := hks (4294967295 - o) (Nat.zero_le _) (by omega)
        have h2 : o + (4294967295 - o) = 4294967295 := by omega
        rw [h2, to_uint_of_lt _ (by norm_num)] at h1
        omega
      have hb : ∀ y, y < o ∨ o + n ≤ y →
          area_byte ps s2 idx y = area_byte ps s idx y := by
        intro y hy
        apply hframe
        intro j _ hj
        have hoj : o + j < 2 ^ 32 := by omega
        rw [to_uint_of_lt _ hoj]
        omega
      refine ⟨⟨t1, ht1, by rw [htid1, htid], hsize1, hnum1⟩, fun y hy => ⟨hb y hy, ?_⟩⟩
      intro hy32 buf
      have r1 := tls_read_one hinv1 idx t1 hidx ht1 y hy32 buf
      have r0 := tls_read_one hinv idx t hidx ht y hy32 buf
      rw [htid1, htid] at r1
      rw [htid] at r0
      rw [r1, r0, hsize1, hb y hy]

/-- Witness for C33: thread 2 writes one byte at offset 0 of the page it shares
with thread 1, which triggers copy-on-write. -/
theorem tls_write_frame_witness :
    (∃ t1, state_diverged.thread_storage 1 = some t1 ∧ t1.tid = 2 ∧ t1.size = 8192 ∧
      t1.num_pages = 2) ∧
    ∀ y, y < 0 ∨ 0 + 1 ≤ y →
      area_byte 4096 state_diverged 1 y = area_byte 4096 state_shared 1 y ∧
      (y < 2 ^ 32 → ∀ buf, read_result (tls_read 4096 state_diverged 2 y 1 buf) =
        read_result (tls_read 4096 state_shared 2 y 1 buf)) :=
  tls_write_frame 4096 (by decide) state_shared state_diverged reachable_shared 2 1
    ⟨2, 8192, 2, [1, 2]⟩ (by decide) (by decide) rfl 0 1 (by decide) (by decide)
    (fun _ => 66) write_diverged

/-! ## The fault handler -/

/-- The mask of `tls_page_fault` rounds a 64-bit address down to a multiple of
the page size, when the page size is a power of two. -/
theorem fault_page_eq (k a : Nat) (hk : k ≤ 64) (ha : a < 2 ^ 64) :
    fault_page (2 ^ k) a = a / 2 ^ k * 2 ^ k := by
  have hpos : 0 < 2 ^ k := Nat.two_pow_pos k
  have hsplit : (2 : Nat) ^ 64 = 2 ^ k * 2 ^ (64 - k) := by
    rw [← Nat.pow_add]
    congr 1
    omega
  have hmask : 2 ^ 64 - 2 ^ k = 2 ^ k * (2 ^ (64 - k) - 1) := by
    rw [Nat.mul_sub, Nat.mul_one, ← hsplit]
  have hlt : 2 ^ 64 - 2 ^ k < 2 ^ 64 := Nat.sub_lt (Nat.two_pow_pos 64) hpos
  unfold fault_page
  rw [Nat.mod_eq_of_lt ha, Nat.mod_eq_of_lt hlt, hmask, Nat.mul_comm (a / 2 ^ k)]
  apply Nat.eq_of_testBit_eq
  intro j
  rw [Nat.testBit_and, Nat.testBit_mul_pow_two, Nat.testBit_mul_pow_two,
    Nat.testBit_two_pow_sub_one, ← Nat.shiftRight_eq_div_pow, Nat.testBit_shiftRight]
  by_cases hj : k ≤ j
  · have hkj : k + (j - k) = j := by omega
    simp only [ge_iff_le, hj, decide_True, Bool.true_and, hkj]
    by_cases hj64 : j - k < 64 - k
    · simp [hj64]
    · have : a.testBit j = false :=
        Nat.testBit_lt_two_pow
          (Nat.lt_of_lt_of_le ha (Nat.pow_le_pow_right (by decide) (by omega)))
      simp [this, hj64]
  · simp [hj]

theorem fault_scan_pages_spec (s : State) (t : TLS) (fa : Nat) (n j : Nat)
    (hwf : ∀ j1, j ≤ j1 → j1 < j + n → ∃ a, entry_address s t j1 = some a) :
    (∃ j0, fault_scan_pages s t fa j n = some (some j0) ∧ j ≤ j0 ∧ j0 < j + n ∧
      entry_address s t j0 = some fa ∧
      ∀ j1, j ≤ j1 → j1 < j0 → entry_address s t j1 ≠ some fa) ∨
    (fault_scan_pages s t fa j n = some none ∧
      ∀ j1, j ≤ j1 → j1 < j + n → entry_address s t j1 ≠ some fa) := by
  induction n generalizing j with
  | zero =>
    right
    exact ⟨rfl, fun j1 h1 h2 => by omega⟩
  | succ n ih =>
    obtain ⟨a, ha⟩ := hwf j (le_refl j) (by omega)
    have ha0 := ha
    unfold entry_address at ha0
    unfold fault_scan_pages
    cases hp : t.pages[j]? with
    | none =>
      rw [hp] at ha0
      cases ha0
    | some p =>
      rw [hp] at ha0
      simp only [] at ha0 ⊢
      cases hh : s.heap p with
      | none =>
        rw [hh] at ha0
        cases ha0
      | some pg =>
        rw [hh] at ha0
        simp only [Option.map_some', Option.some.injEq] at ha0
        simp only []
        by_cases heq : pg.address = fa
        · left
          rw [if_pos heq]
          refine ⟨j, rfl, le_refl j, by omega, ?_, fun j1 h1 h2 => by omega⟩
          rw [ha, ← ha0, heq]
        · rw [if_neg heq]
          have hj : entry_address s t j ≠ some fa := by
            rw [ha, ← ha0]
            intro hc
            exact heq (Option.some.inj hc)
          rcases ih (j + 1) (fun j1 h1 h2 => hwf j1 (by omega) (by omega)) with
            ⟨j0, h1, h2, h3, h4, h5⟩ | ⟨h1, h2⟩
          · left
            refine ⟨j0, h1, by omega, by omega, h4, ?_⟩
            intro j1 h6 h7
            by_cases hj1 : j1 = j
            · rw [hj1]
              exact hj
            · exact h5 j1 (by omega) h7
          · right
            refine ⟨h1, ?_⟩
            intro j1 h6 h7
            by_cases hj1 : j1 = j
            · rw [hj1]
              exact hj
            · exact h2 j1 (by omega) (by omega)

theorem entry_address_wf {ps : Nat} {s : State} (h : Inv ps s) (i : Nat) (t : TLS)
    (hi : i < MAX_THREADS) (ht : s.thread_storage i = some t) :
    (∀ j, j < t.num_pages.toNat → ∃ a, entry_address s t j = some a) ∧
    (∀ j, t.num_pages.toNat ≤ j → entry_address s t j = none) := by
  obtain ⟨hlen, _, _, _, _⟩ := h.shape i t hi ht
  constructor
  · intro j hj
    have hget : t.pages[j]? = some t.pages[j] := List.getElem?_eq_getElem (by omega)
    obtain ⟨pg, hpg⟩ := h.live i t hi ht _ (List.getElem?_mem hget)
    refine ⟨pg.address, ?_⟩
    unfold entry_address
    rw [hget]
    simp only [hpg, Option.map_some']
  · intro j hj
    unfold entry_address
    rw [List.getElem?_eq_none (by omega)]

theorem fault_scan_spec {ps : Nat} {s : State} (h : Inv ps s) (fa : Nat) (n i : Nat)
    (hn : i + n ≤ MAX_THREADS) :
    (∃ i0 t j0, fault_scan s fa i n = some (FaultAction.exit_thread t.tid j0) ∧
      i ≤ i0 ∧ i0 < i + n ∧ s.thread_storage i0 = some t ∧
      page_address s i0 j0 = some fa ∧
      (∀ j1, j1 < j0 → page_address s i0 j1 ≠ some fa) ∧
      ∀ i1, i ≤ i1 → i1 < i0 → ∀ j1, page_address s i1 j1 ≠ some fa) ∨
    (fault_scan s fa i n = some FaultAction.reraise ∧
      ∀ i1, i ≤ i1 → i1 < i + n → ∀ j1, page_address s i1 j1 ≠ some fa) := by
  induction n generalizing i with
  | zero =>
    right
    exact ⟨rfl, fun i1 h1 h2 => by omega⟩
  | succ n ih =>
    have hrec := ih (i + 1) (by omega)
    have hslot : (∀ j1, page_address s i j1 ≠ some fa) →
        fault_scan s fa (i + 1) n = fault_scan s fa i (n + 1) →
        (∃ i0 t j0, fault_scan s fa i (n + 1) = some (FaultAction.exit_thread t.tid j0) ∧
          i ≤ i0 ∧ i0 < i + (n + 1) ∧ s.thread_storage i0 = some t ∧
          page_address s i0 j0 = some fa ∧
          (∀ j1, j1 < j0 → page_address s i0 j1 ≠ some fa) ∧
          ∀ i1, i ≤ i1 → i1 < i0 → ∀ j1, page_address s i1 j1 ≠ some fa) ∨
        (fault_scan s fa i (n + 1) = some FaultAction.reraise ∧
          ∀ i1, i ≤ i1 → i1 < i + (n + 1) → ∀ j1, page_address s i1 j1 ≠ some fa) := by
      intro hnot heq
      rw [← heq]
      rcases hrec with ⟨i0, t, j0, h1, h2, h3, h4, h5, h6, h7⟩ | ⟨h1, h2⟩
      · left
        refine ⟨i0, t, j0, h1, by omega, by omega, h4, h5, h6, ?_⟩
        intro i1 h8 h9
        by_cases hi1 : i1 = i
        · rw [hi1]
          exact hnot
        · exact h7 i1 (by omega) h9
      · right
        refine ⟨h1, ?_⟩
        intro i1 h8 h9
        by_cases hi1 : i1 = i
        · rw [hi1]
          exact hnot
        · exact h2 i1 (by omega) (by omega)
    cases hts : s.thread_storage i with
    | none =>
      apply hslot
      · intro j1
        unfold page_address
        rw [hts]
        simp
      · rw [fault_scan.eq_2]
        simp only [hts]
    | some t =>
      obtain ⟨hwf1, hwf2⟩ := entry_address_wf h i t (by omega) hts
      have hpa : ∀ j1, page_address s i j1 = entry_address s t j1 := by
        intro j1
        unfold page_address
        rw [hts]
      rcases fault_scan_pages_spec s t fa t.num_pages.toNat 0
          (fun j1 _ h2 => hwf1 j1 (by omega)) with ⟨j0, h1, _, h3, h4, h5⟩ | ⟨h1, h2⟩
      · left
        refine ⟨i, t, j0, ?_, le_refl i, by omega, hts, ?_, ?_, fun i1 h8 h9 => by omega⟩
        · rw [fault_scan.eq_2]
          simp only [hts, h1]
        · rw [hpa]
          exact h4
        · intro j1 hj1
          rw [hpa]
          exact h5 j1 (Nat.zero_le _) hj1
      · apply hslot
        · intro j1
          rw [hpa]
          by_cases hj1 : j1 < t.num_pages.toNat
          · exact h2 j1 (Nat.zero_le _) (by omega)
          · rw [hwf2 j1 (by omega)]
            simp
        · rw [fault_scan.eq_2]
          simp only [hts, h1]

/-- C15 (fault classification): with a page size that is a power of two, in
every reachable state and for every 64-bit fault address `a`, `tls_page_fault`
ends and leaves the state of the library as it was; it ends with the
diagnostic and `pthread_exit`, which terminates the current thread, exactly
when `a` rounded down to a multiple of the page size is the address of some
page of some registered area, and then the diagnostic names the thread of the
first such area in slot order and the first such page index within it;
otherwise it restores the default handlers and raises the signal again. -/
theorem fault_classification (k : Nat) (hk : k ≤ 64) (s : State)
    (hs : Reachable (2 ^ k) s) (a : Nat) (ha : a < 2 ^ 64) :
    ∃ act, tls_page_fault (2 ^ k) s a = some (act, s) ∧
      ((∃ tid j, act = FaultAction.exit_thread tid j) ↔
        ∃ i j, i < MAX_THREADS ∧ page_address s i j = some (a / 2 ^ k * 2 ^ k)) ∧
      (act = FaultAction.reraise ↔
        ¬ ∃ i j, i < MAX_THREADS ∧ page_address s i j = some (a / 2 ^ k * 2 ^ k)) ∧
      ∀ tid j, act = FaultAction.exit_thread tid j →
        ∃ i t, i < MAX_THREADS ∧ s.thread_storage i = some t ∧ t.tid = tid ∧
          page_address s i j = some (a / 2 ^ k * 2 ^ k) ∧
          (∀ j1, j1 < j → page_address s i j1 ≠ some (a / 2 ^ k * 2 ^ k)) ∧
          ∀ i1, i1 < i → ∀ j1, page_address s i1 j1 ≠ some (a / 2 ^ k * 2 ^ k) := by
  have hinv := reachable_inv (Nat.two_pow_pos k) hs
  unfold tls_page_fault
  rw [fault_page_eq k a hk ha]
  generalize a / 2 ^ k * 2 ^ k = fa
  rcases fault_scan_spec hinv fa MAX_THREADS 0 (by decide) with
    ⟨i0, t, j0, h1, _, h3, h4, h5, h6, h7⟩ | ⟨h1, h2⟩
  · have h3a : i0 < MAX_THREADS := by omega
    refine ⟨FaultAction.exit_thread t.tid j0, ?_, ?_, ?_, ?_⟩
    · rw [h1]
      rfl
    · exact ⟨fun _ => ⟨i0, j0, h3a, h5⟩, fun _ => ⟨t.tid, j0, rfl⟩⟩
    · constructor
      · intro hc
        cases hc
      · intro hc
        exact absurd ⟨i0, j0, h3a, h5⟩ hc
    · intro tid j hact
      cases hact
      exact ⟨i0, t, h3a, h4, rfl, h5, h6, fun i1 hi1 => h7 i1 (Nat.zero_le _) hi1⟩
  · have hno : ¬ ∃ i j, i < MAX_THREADS ∧ page_address s i j = some fa := by
      rintro ⟨i, j, hi, hp⟩
      exact h2 i (Nat.zero_le _) (by omega) j hp
    refine ⟨FaultAction.reraise, ?_, ?_, ?_, ?_⟩
    · rw [h1]
      rfl
    · constructor
      · rintro ⟨tid, j, hc⟩
        cases hc
      · intro hc
        exact absurd hc hno
    · exact ⟨fun _ => hno, fun _ => rfl⟩
    · intro tid j hc
      cases hc

/-- Witness for C15: with 4096-byte pages, in the state where threads 1 and 2
share two pages. -/
theorem fault_classification_witness :
    ∃ act, tls_page_fault (2 ^ 12) state_shared 4100 = some (act, state_shared) ∧
      ((∃ tid j, act = FaultAction.exit_thread tid j) ↔
        ∃ i j, i < MAX_THREADS ∧
          page_address state_shared i j = some (4100 / 2 ^ 12 * 2 ^ 12)) ∧
      (act = FaultAction.reraise ↔
        ¬ ∃ i j, i < MAX_THREADS ∧
          page_address state_shared i j = some (4100 / 2 ^ 12 * 2 ^ 12)) ∧
      ∀ tid j, act = FaultAction.exit_thread tid j →
        ∃ i t, i < MAX_THREADS ∧ state_shared.thread_storage i = some t ∧ t.tid = tid ∧
          page_address state_shared i j = some (4100 / 2 ^ 12 * 2 ^ 12) ∧
          (∀ j1, j1 < j → page_address state_shared i j1 ≠ some (4100 / 2 ^ 12 * 2 ^ 12)) ∧
          ∀ i1, i1 < i → ∀ j1,
            page_address state_shared i1 j1 ≠ some (4100 / 2 ^ 12 * 2 ^ 12) :=
  fault_classification 12 (by decide) state_shared reachable_shared 4100 (by decide)

/-- The handler on that state: a fault at address 4100 lies on the page at 4096,
which is page 0 of the area of thread 1 in slot 0 (and of its clone in slot 1);
the handler ends with the diagnostic for thread 1, page 0. -/
theorem fault_classification_shared :
    tls_page_fault 4096 state_shared 4100 =
      some (FaultAction.exit_thread 1 0, state_shared) ∧
    tls_page_fault 4096 state_shared 100 = some (FaultAction.reraise, state_shared) :=
  ⟨rfl, rfl⟩

/-! ## Filling the registry -/

theorem tls_create_slot (ps : Nat) (s : State) (tid size : Nat) :
    ((size = 0 ∨ has_area s tid ∨ ∀ i, i < MAX_THREADS → (s.thread_storage i).isSome) ∧
      (tls_create ps s tid size).1 = FAILURE ∧
      (tls_create ps s tid size).2.thread_storage = s.thread_storage) ∨
    (∃ i t, find_free s.thread_storage 0 MAX_THREADS = some i ∧ t.tid = tid ∧
      (tls_create ps s tid size).1 = SUCCESS ∧
      (tls_create ps s tid size).2.thread_storage =
        Function.update s.thread_storage i (some t)) := by
  rcases tls_create_cases ps s tid size with ⟨hc, h1⟩ | ⟨_, _, i, hi, h1⟩
  · left
    rw [h1]
    exact ⟨hc, rfl, rfl⟩
  · right
    rw [h1]
    exact ⟨i, _, hi, rfl, rfl, rfl⟩

/-- From a registry whose slots below `j` hold areas of the threads in `done`
and whose other slots are free, `tls_create` calls by further, pairwise
distinct threads with positive sizes all succeed as long as slots remain, and
fail once all 128 slots are taken. -/
theorem create_all_spec (ps : Nat) (calls : List (Nat × Nat)) (s : State) (j : Nat)
    (done : List Nat) (hj : j ≤ MAX_THREADS)
    (hlow : ∀ i, i < j → ∃ t, s.thread_storage i = some t ∧ t.tid ∈ done)
    (hhigh : ∀ i, j ≤ i → s.thread_storage i = none)
    (hnew : ∀ c ∈ calls, c.1 ∉ done) (hnd : (calls.map Prod.fst).Nodup)
    (hpos : ∀ c ∈ calls, c.2 ≠ 0) :
    (create_all ps s calls).1 =
      List.replicate (min calls.length (MAX_THREADS - j)) SUCCESS ++
        List.replicate (calls.length - (MAX_THREADS - j)) FAILURE := by
  induction calls generalizing s j done with
  | nil => simp [create_all]
  | cons c rest ih =>
    have hc1 : c.1 ∉ done := hnew c (List.mem_cons_self _ _)
    have hc2 : c.2 ≠ 0 := hpos c (List.mem_cons_self _ _)
    rw [List.map_cons, List.nodup_cons] at hnd
    have hno : ¬ has_area s c.1 := by
      rintro ⟨i, hi, t, ht, htid⟩
      by_cases hij : i < j
      · obtain ⟨u, hu, hud⟩ := hlow i hij
        rw [ht] at hu
        cases hu
        rw [htid] at hud
        exact hc1 hud
      · rw [hhigh i (by omega)] at ht
        cases ht
    have hrest_new : ∀ d : List Nat, (∀ x ∈ d, x ∈ done ∨ x = c.1) →
        ∀ c1 ∈ rest, c1.1 ∉ d := by
      intro d hd c1 hc1r hmem
      rcases hd _ hmem with h1 | h1
      · exact hnew c1 (List.mem_cons_of_mem _ hc1r) h1
      · apply hnd.1
        rw [← h1]
        exact List.mem_map_of_mem Prod.fst hc1r
    have hrest_pos : ∀ c1 ∈ rest, c1.2 ≠ 0 := fun c1 h => hpos c1 (List.mem_cons_of_mem _ h)
    unfold create_all
    simp only [List.length_cons]
    rcases tls_create_slot ps s c.1 c.2 with ⟨hc, h1, h2⟩ | ⟨i, t, hi, htid, h1, h2⟩
    · have hfull : j = MAX_THREADS := by
        rcases hc with h | h | h
        · exact absurd h hc2
        · exact absurd h hno
        · by_contra hne
          have := h j (by omega)
          rw [hhigh j (le_refl j)] at this
          cases this
      rw [h1, ih (tls_create ps s c.1 c.2).2 j done hj
        (by rw [h2]; exact hlow) (by rw [h2]; exact hhigh)
        (hrest_new done (fun x hx => Or.inl hx)) hnd.2 hrest_pos]
      subst hfull
      simp only [Nat.sub_self, Nat.min_zero, List.replicate_zero, List.nil_append,
        Nat.sub_zero, List.replicate_succ]
    · obtain ⟨_, b2, b3, b4⟩ := find_free_some_spec _ _ _ _ hi
      have hij : i = j := by
        have h3 : ¬ i < j := by
          intro hlt
          obtain ⟨u, hu, _⟩ := hlow i hlt
          rw [b3] at hu
          cases hu
        have h4 : ¬ j < i := by
          intro hlt
          have := b4 j (Nat.zero_le _) hlt
          rw [hhigh j (le_refl j)] at this
          cases this
        omega
      subst hij
      have hi128 : i < MAX_THREADS := by omega
      rw [h1, ih (tls_create ps s c.1 c.2).2 (i + 1) (c.1 :: done) hi128
        (by
          intro i1 hi1
          rw [h2]
          by_cases h5 : i1 = i
          · subst h5
            rw [Function.update_same]
            exact ⟨t, rfl, by rw [htid]; exact List.mem_cons_self _ _⟩
          · rw [Function.update_noteq h5]
            obtain ⟨u, hu, hud⟩ := hlow i1 (by omega)
            exact ⟨u, hu, List.mem_cons_of_mem _ hud⟩)
        (by
          intro i1 hi1
          rw [h2, Function.update_noteq (by omega)]
          exact hhigh i1 (by omega))
        (hrest_new (c.1 :: done) (fun x hx => by
          rcases List.mem_cons.1 hx with h | h
          · exact Or.inr h
          · exact Or.inl h)) hnd.2 hrest_pos]
      have e1 : min (rest.length + 1) (MAX_THREADS - i) =
          min rest.length (MAX_THREADS - (i + 1)) + 1 := by omega
      have e2 : rest.length + 1 - (MAX_THREADS - i) = rest.length - (MAX_THREADS - (i + 1)) := by
        omega
      rw [e1, e2, List.replicate_succ, List.cons_append]

/-- C14 as stated fails: from the empty registry, threads 0 to 127 each call
`tls_create(1)` and none calls `tls_destroy`; the number of calls that return
`SUCCESS` is not 127. -/
theorem registry_bound_127_fails :
    ¬ ((create_all 4096 init scenario_full).1.count SUCCESS = 127 ∧
      (create_all 4096 init scenario_full).1.count FAILURE = 1) := by
  have h := create_all_spec 4096 scenario_full init 0 [] (by decide)
    (fun i hi => absurd hi (Nat.not_lt_zero i)) (fun i _ => rfl)
    (fun c _ => List.not_mem_nil _)
    (by
      unfold scenario_full
      rw [List.map_map]
      exact List.nodup_range 128)
    (by
      unfold scenario_full
      intro c hc
      obtain ⟨x, _, hx⟩ := List.mem_map.1 hc
      rw [← hx]
      exact Nat.one_ne_zero)
  have hl : scenario_full.length = 128 := by
    unfold scenario_full
    rw [List.length_map, List.length_range]
  have e1 : min 128 (MAX_THREADS - 0) = 128 := by decide
  have e2 : 128 - (MAX_THREADS - 0) = 0 := by decide
  rw [h, hl, e1, e2, List.replicate_zero, List.append_nil, List.count_replicate_self]
  intro hc
  exact absurd hc.1 (by decide)

/-! ## Divergence of a page shared by several areas -/

/-- One iteration of the write loop that returns leaves the page it wrote with
`ref_count` 1 in the writer's area, and every page that had `ref_count` 1 in
some area keeps it. -/
theorem write_byte_private_at {ps : Nat} {s s1 : State} (h : Inv ps s)
    (idx o byte v : Nat) (hidx : idx < MAX_THREADS)
    (hw : write_byte ps s idx o byte v = some s1) :
    (∀ a k, private_at s a k → private_at s1 a k) ∧
    private_at s1 idx (to_uint (o + byte) / ps) := by
  cases hpa : page_at ps s idx o byte with
  | none =>
    unfold write_byte at hw
    simp only [hpa] at hw
    cases hw
  | some cur =>
    cases hts : s.thread_storage idx with
    | none =>
      unfold page_at at hpa
      rw [hts] at hpa
      cases hpa
    | some t =>
      obtain ⟨htn, hk, hget⟩ := page_at_some ps s idx o byte cur t hts hpa
      obtain ⟨pg, hpg⟩ := h.live idx t hidx hts cur (List.getElem?_mem hget)
      have hm : (s.prot pg.address).isSome = true := mapped_isSome h cur pg hpg
      by_cases hrc : pg.ref_count > 1
      · obtain ⟨hcur_lt, hcur_addr⟩ := h.fresh cur pg hpg
        have hne : cur ≠ s.next_ptr := by omega
        have hna : pg.address ≠ s.next_map * ps := by omega
        rw [write_byte_shared ps idx o byte v cur s t pg hts hpa hpg hrc hne hna] at hw
        simp only [hm, if_true, htn, Option.some.injEq] at hw
        subst hw
        constructor
        · rintro a k ⟨ta, p, pgp, hta, hpk, hhp, hrc1⟩
          have hpc : p ≠ cur := by
            intro hc
            rw [hc, hpg] at hhp
            cases hhp
            omega
          have hpn : p ≠ s.next_ptr := by
            have := (h.fresh p pgp hhp).1
            omega
          by_cases ha : a = idx
          · subst ha
            rw [hts] at hta
            cases hta
            have hkx : to_uint (o + byte) / ps ≠ k := by
              intro hc
              rw [← hc, hget] at hpk
              exact hpc (Option.some.inj hpk).symm
            refine ⟨_, p, pgp, Function.update_same _ _ _, ?_, ?_, hrc1⟩
            · simp only [List.getElem?_set_ne hkx, hpk]
            · simp only [Function.update_noteq hpc, Function.update_noteq hpn, hhp]
          · refine ⟨ta, p, pgp, ?_, hpk, ?_, hrc1⟩
            · simp only [Function.update_noteq ha, hta]
            · simp only [Function.update_noteq hpc, Function.update_noteq hpn, hhp]
        · refine ⟨_, s.next_ptr, ⟨s.next_map * ps, 1⟩, Function.update_same _ _ _, ?_, ?_, rfl⟩
          · simp only [List.getElem?_set_self hk]
          · simp only [Function.update_noteq (Ne.symm hne), Function.update_same]
      · rw [write_byte_private ps idx o byte v cur s pg hpa hpg hrc] at hw
        simp only [hm, if_true, Option.some.injEq] at hw
        subst hw
        refine ⟨fun a k hp => hp, t, cur, pg, hts, hget, hpg, ?_⟩
        obtain ⟨r1, r2⟩ := h.refs cur pg hpg
        omega

theorem write_loop_private_at {ps : Nat} (hps : 0 < ps) (idx o : Nat) (B : Nat → Nat)
    (hidx : idx < MAX_THREADS) (n b : Nat) {s s1 : State} (h : Inv ps s)
    (hw : write_loop ps idx o B n b s = some s1) :
    (∀ a k, private_at s a k → private_at s1 a k) ∧
    (∀ j, b ≤ j → j < b + n → private_at s1 idx (to_uint (o + j) / ps)) := by
  induction n generalizing b s with
  | zero =>
    rw [write_loop] at hw
    cases hw
    exact ⟨fun a k hp => hp, fun j h1 h2 => by omega⟩
  | succ n ih =>
    rw [write_loop] at hw
    cases hwb : write_byte ps s idx o b (B b) with
    | none =>
      rw [hwb] at hw
      cases hw
    | some s2 =>
      rw [hwb] at hw
      simp only [] at hw
      obtain ⟨hkeep, hnew⟩ := write_byte_private_at h idx o b (B b) hidx hwb
      obtain ⟨hinv2, _⟩ := write_byte_spec hps h idx o b (B b) hidx hwb
      obtain ⟨hkeep2, hnew2⟩ := ih (b + 1) hinv2 hw
      refine ⟨fun a k hp => hkeep2 a k (hkeep a k hp), ?_⟩
      intro j h1 h2
      by_cases hjb : j = b
      · subst hjb
        exact hkeep2 _ _ hnew
      · exact hnew2 j (by omega) (by omega)

/-- An in-range `tls_write` by the owner of an area that reaches its size
returns `SUCCESS`. -/
theorem tls_write_ok {ps : Nat} (hps : 0 < ps) {s : State} (h : Inv ps s) (idx : Nat)
    (t : TLS) (hidx : idx < MAX_THREADS) (ht : s.thread_storage idx = some t)
    (hcov : covers ps t) (o n : Nat) (hin : o + n ≤ t.size) (B : Nat → Nat) :
    ∃ s1, tls_write ps s t.tid o n B = some (SUCCESS, s1) ∧
      write_loop ps idx o B n 0 s = some s1 := by
  obtain ⟨_, _, _, _, hsz⟩ := h.shape idx t hidx ht
  have hu : to_uint (o + n) = o + n := to_uint_of_lt _ (by omega)
  obtain ⟨s1, hloop, _, _⟩ := write_loop_own hps idx o B hidx n 0 h t ht hcov (by omega)
  refine ⟨s1, ?_, hloop⟩
  unfold tls_write
  rw [find_tid_of_slot s h.uniq idx t hidx ht]
  simp only [ht, hu]
  rw [if_neg (by omega)]
  simp only [hloop]

/-- The writes of `write_all`, each in range of its writer's area and each
storing a byte on page index `k`: all return `SUCCESS`, and afterwards every
writer's page at index `k` has `ref_count` 1. -/
theorem write_all_spec {ps : Nat} (hps : 2 ≤ ps) (k : Nat)
    (writes : List (Nat × Nat × Nat × (Nat → Nat))) {s : State} (h : Inv ps s)
    (hw : ∀ w ∈ writes, ∃ i t, i < MAX_THREADS ∧ s.thread_storage i = some t ∧
      t.tid = w.1 ∧ t.size + ps ≤ 2 ^ 32 ∧ w.2.1 + w.2.2.1 ≤ t.size ∧
      ∃ j, j < w.2.2.1 ∧ (w.2.1 + j) / ps = k) :
    ∃ s1, write_all ps s writes = some s1 ∧ Inv ps s1 ∧
      (∀ a k1, private_at s a k1 → private_at s1 a k1) ∧
      (∀ i t, i < MAX_THREADS → s.thread_storage i = some t →
        ∃ t1, s1.thread_storage i = some t1 ∧ t1.tid = t.tid ∧ t1.size = t.size) ∧
      (∀ w ∈ writes, ∃ i t, i < MAX_THREADS ∧ s1.thread_storage i = some t ∧
        t.tid = w.1 ∧ private_at s1 i k) := by
  have hps0 : 0 < ps := by omega
  induction writes generalizing s with
  | nil =>
    exact ⟨s, rfl, h, fun a k1 hp => hp, fun i t _ ht => ⟨t, ht, rfl, rfl⟩,
      fun w hw1 => absurd hw1 (List.not_mem_nil w)⟩
  | cons w rest ih =>
    obtain ⟨i, t, hi, ht, htid, hfit, hin, j, hj, hjk⟩ := hw w (List.mem_cons_self _ _)
    obtain ⟨hcov, _⟩ := covers_of_fit hps h i t hi ht hfit
    obtain ⟨s2, hwr, hloop⟩ := tls_write_ok hps0 h i t hi ht hcov w.2.1 w.2.2.1 hin w.2.2.2
    rw [htid] at hwr
    obtain ⟨hinv2, hoth, hhead, _⟩ := write_loop_spec hps0 i w.2.1 w.2.2.2 hi w.2.2.1 0 h hloop
    obtain ⟨hkeep, hnew⟩ := write_loop_private_at hps0 i w.2.1 w.2.2.2 hi w.2.2.1 0 h hloop
    have hshape : ∀ i1 t1, i1 < MAX_THREADS → s.thread_storage i1 = some t1 →
        ∃ t2, s2.thread_storage i1 = some t2 ∧ t2.tid = t1.tid ∧ t2.size = t1.size := by
      intro i1 t1 _ ht1
      by_cases hi1 : i1 = i
      · subst hi1
        obtain ⟨t2, h1, h2, h3, _⟩ := hhead t1 ht1
        exact ⟨t2, h1, h2, h3⟩
      · exact ⟨t1, by rw [hoth i1 hi1]; exact ht1, rfl, rfl⟩
    have hw2 : ∀ w1 ∈ rest, ∃ i t, i < MAX_THREADS ∧ s2.thread_storage i = some t ∧
        t.tid = w1.1 ∧ t.size + ps ≤ 2 ^ 32 ∧ w1.2.1 + w1.2.2.1 ≤ t.size ∧
        ∃ j, j < w1.2.2.1 ∧ (w1.2.1 + j) / ps = k := by
      intro w1 hw1
      obtain ⟨i1, t1, a1, a2, a3, a4, a5, a6⟩ := hw w1 (List.mem_cons_of_mem _ hw1)
      obtain ⟨t2, b1, b2, b3⟩ := hshape i1 t1 a1 a2
      exact ⟨i1, t2, a1, b1, by rw [b2, a3], by rw [b3]; exact a4, by rw [b3]; exact a5, a6⟩
    obtain ⟨s1, hrun, hinv1, hkeep1, hshape1, hpriv1⟩ := ih hinv2 hw2
    refine ⟨s1, ?_, hinv1, fun a k1 hp => hkeep1 a k1 (hkeep a k1 hp), ?_, ?_⟩
    · rw [write_all, hwr]
      simp only [if_true]
      exact hrun
    · intro i1 t1 hi1 ht1
      obtain ⟨t2, b1, b2, b3⟩ := hshape i1 t1 hi1 ht1
      obtain ⟨t3, c1, c2, c3⟩ := hshape1 i1 t2 hi1 b1
      exact ⟨t3, c1, by rw [c2, b2], by rw [c3, b3]⟩
    · intro w1 hw1
      rcases List.mem_cons.1 hw1 with heq | hmem
      · subst heq
        obtain ⟨t2, b1, b2, _⟩ := hshape i t hi ht
        obtain ⟨t3, c1, c2, _⟩ := hshape1 i t2 hi b1
        refine ⟨i, t3, hi, c1, by rw [c2, b2, htid], hkeep1 i k ?_⟩
        have hsz := (h.shape i t hi ht).2.2.2.2
        have hp := hnew j (Nat.zero_le _) (by omega)
        rw [to_uint_of_lt _ (by omega), hjk] at hp
        exact hp
      · exact hpriv1 w1 hmem

/-- C16 (full divergence): in a reachable state, let each thread of a list
perform one `tls_write`, in the order of the list, each within its own area and
each storing at least one byte on page index `k` (the areas not being larger
than `2 ^ 32` minus the page size). Then every write returns `SUCCESS`, and
afterwards each writer's area holds at index `k` a page with `ref_count` 1 that
no other area holds at index `k`, and every allocated page object belongs to
some area of the registry. This covers any number of areas made to share a
page by one `tls_create` and `tls_clone` calls, in any order of the writes. -/
theorem full_divergence (ps : Nat) (hps : 2 ≤ ps) (s : State) (hs : Reachable ps s)
    (k : Nat) (writes : List (Nat × Nat × Nat × (Nat → Nat)))
    (hw : ∀ w ∈ writes, ∃ i t, i < MAX_THREADS ∧ s.thread_storage i = some t ∧
      t.tid = w.1 ∧ t.size + ps ≤ 2 ^ 32 ∧ w.2.1 + w.2.2.1 ≤ t.size ∧
      ∃ j, j < w.2.2.1 ∧ (w.2.1 + j) / ps = k) :
    ∃ s1, write_all ps s writes = some s1 ∧
      (∀ w ∈ writes, ∃ i t p pg, i < MAX_THREADS ∧ s1.thread_storage i = some t ∧
        t.tid = w.1 ∧ t.pages[k]? = some p ∧ s1.heap p = some pg ∧ pg.ref_count = 1 ∧
        ∀ i1 u, i1 < MAX_THREADS → i1 ≠ i → s1.thread_storage i1 = some u →
          u.pages[k]? ≠ some p) ∧
      (∀ p pg, s1.heap p = some pg → ∃ i, i < MAX_THREADS ∧ p ∈ slot_pages s1.thread_storage i) := by
  have hinv := reachable_inv (by omega : 0 < ps) hs
  obtain ⟨s1, hrun, hinv1, _, _, hpriv⟩ := write_all_spec hps k writes hinv hw
  refine ⟨s1, hrun, ?_, ?_⟩
  · intro w hmem
    obtain ⟨i, t, hi, ht, htid, t1, p, pg, ht1, hp, hpg, hrc⟩ := hpriv w hmem
    rw [ht] at ht1
    cases ht1
    refine ⟨i, t, p, pg, hi, ht, htid, hp, hpg, hrc, ?_⟩
    intro i1 u hi1 hne hu hup
    have h1 : p ∈ slot_pages s1.thread_storage i := by
      unfold slot_pages
      rw [ht]
      exact List.getElem?_mem hp
    have h2 : p ∈ slot_pages s1.thread_storage i1 := by
      unfold slot_pages
      rw [hu]
      exact List.getElem?_mem hup
    have h3 := holders_ge_two s1.thread_storage p i i1 (Ne.symm hne) hi hi1 h1 h2
    obtain ⟨r1, _⟩ := hinv1.refs p pg hpg
    omega
  · intro p pg hpg
    exact (holders_pos_iff _ _).1 (hinv1.refs p pg hpg).2

/-- Witness for C16: threads 1 and 2 share both pages of an area; thread 2 and
then thread 1 each write one byte on page 0. -/
theorem full_divergence_witness :
    ∃ s1, write_all 4096 state_shared
        [(2, 0, 1, fun _ => 66), (1, 5, 1, fun _ => 67)] = some s1 ∧
      (∀ w ∈ [((2 : Nat), (0 : Nat), (1 : Nat), fun _ : Nat => (66 : Nat)),
          (1, 5, 1, fun _ => 67)],
        ∃ i t p pg, i < MAX_THREADS ∧ s1.thread_storage i = some t ∧
        t.tid = w.1 ∧ t.pages[0]? = some p ∧ s1.heap p = some pg ∧ pg.ref_count = 1 ∧
        ∀ i1 u, i1 < MAX_THREADS → i1 ≠ i → s1.thread_storage i1 = some u →
          u.pages[0]? ≠ some p) ∧
      (∀ p pg, s1.heap p = some pg →
        ∃ i, i < MAX_THREADS ∧ p ∈ slot_pages s1.thread_storage i) :=
  full_divergence 4096 (by decide) state_shared reachable_shared 0
    [(2, 0, 1, fun _ => 66), (1, 5, 1, fun _ => 67)]
    (by
      intro w hw
      simp only [List.mem_cons, List.mem_singleton, List.not_mem_nil, or_false] at hw
      rcases hw with h | h
      · subst h
        exact ⟨1, ⟨2, 8192, 2, [1, 2]⟩, by decide, by decide, rfl, by decide, by decide,
          0, by decide, by decide⟩
      · subst h
        exact ⟨0, ⟨1, 8192, 2, [1, 2]⟩, by decide, by decide, rfl, by decide, by decide,
          0, by decide, by decide⟩)

/-! ## Which pages are left readable -/

/-- Only `tls_write` makes a page read-only: after any other completed call a
page that is read-only was read-only before the call. -/
theorem step_prot_read {ps : Nat} {s s1 : State} (h : Inv ps s) (c : Call)
    (hc : ¬ c.is_write) (hstep : step ps s c = some s1) (a : Nat)
    (ha : s1.prot a = some Prot.PROT_READ) : s.prot a = some Prot.PROT_READ := by
  cases c with
  | create tid size =>
    simp only [step, Option.some.injEq] at hstep
    rw [← hstep] at ha
    rcases tls_create_cases ps s tid size with ⟨_, h1⟩ | ⟨_, _, i, hi, h1⟩
    · rw [h1] at ha
      exact ha
    · rw [h1] at ha
      have hspec :=
        alloc_pages_spec ps (num_pages_of ps size).toNat { s with is_first_call := false }
      obtain ⟨n, hn⟩ : ∃ n : Nat, (num_pages_of ps size).toNat = n := ⟨_, rfl⟩
      rw [hn] at hspec ha
      generalize alloc_pages ps n { s with is_first_call := false } = r at hspec ha
      obtain ⟨_, _, _, _, _, _, _, a8, a9⟩ := hspec
      simp only at ha a8 a9
      by_cases hnew : ∀ k, k < n → a ≠ (s.next_map + k) * ps
      · rw [(a8 a hnew).1] at ha
        exact ha
      · push_neg at hnew
        obtain ⟨k, hk, hak⟩ := hnew
        rw [hak, (a9 k hk).1] at ha
        cases ha
  | destroy tid =>
    simp only [step, Option.map_eq_some'] at hstep
    obtain ⟨⟨r, s2⟩, h1, h2⟩ := hstep
    simp only at h2
    subst h2
    by_cases har : has_area s tid
    · obtain ⟨idx, hidx, t, ht, htid⟩ := har
      obtain ⟨s3, b1, _, _, _, _, _, _, b8, b9⟩ := tls_destroy_ok h tid idx t hidx ht htid
      rw [b1] at h1
      simp only [Option.some.injEq, Prod.mk.injEq] at h1
      rw [← h1.2] at ha
      by_cases hfreed : ∀ p ∈ t.pages, ∀ pg, s.heap p = some pg → ¬ 1 < pg.ref_count →
          pg.address ≠ a
      · rw [b9 a hfreed] at ha
        exact ha
      · push_neg at hfreed
        obtain ⟨p, hp, pg, hpg, hrc, hpa⟩ := hfreed
        rw [← hpa, ((b8 p hp pg hpg).2 (not_lt.2 hrc)).2] at ha
        cases ha
    · rw [tls_destroy_fail s tid har] at h1
      simp only [Option.some.injEq, Prod.mk.injEq] at h1
      rw [← h1.2] at ha
      exact ha
  | read tid o n buf =>
    simp only [step, Option.map_eq_some'] at hstep
    obtain ⟨⟨r, buf1, s2⟩, h1, h2⟩ := hstep
    simp only at h2
    subst h2
    rcases (tls_read_reprotected ps s s2 tid o n buf buf1 r h1).2.2.2.2.2.2 a with h3 | h3
    · rw [h3] at ha
      exact ha
    · rw [h3.1] at ha
      cases ha
  | write tid o n buf => exact absurd trivial hc
  | clone cur tid =>
    simp only [step, Option.map_eq_some'] at hstep
    obtain ⟨⟨r, s2⟩, h1, h2⟩ := hstep
    simp only at h2
    subst h2
    rcases tls_clone_cases h cur tid with ⟨_, h3⟩ |
      ⟨_, tgt, new, u, s3, _, _, _, _, h3, _, a2, _⟩
    · rw [h3] at h1
      simp only [Option.some.injEq, Prod.mk.injEq] at h1
      rw [← h1.2] at ha
      exact ha
    · rw [h3] at h1
      simp only [Option.some.injEq, Prod.mk.injEq] at h1
      rw [← h1.2, a2] at ha
      exact ha

theorem write_byte_flag {ps : Nat} {s s1 : State} (h : Inv ps s) (idx o byte v : Nat)
    (hidx : idx < MAX_THREADS) (hw : write_byte ps s idx o byte v = some s1) :
    s1.is_first_call = s.is_first_call := by
  cases hpa : page_at ps s idx o byte with
  | none =>
    unfold write_byte at hw
    simp [hpa] at hw
  | some cur =>
    obtain ⟨t, ht, hk, hcur_mem⟩ := page_at_mem ps s idx o byte cur hpa
    obtain ⟨pg, hh⟩ := h.live idx t hidx ht cur hcur_mem
    have hm : (s.prot pg.address).isSome = true := mapped_isSome h cur pg hh
    by_cases hrc : pg.ref_count > 1
    · obtain ⟨hcur_lt, hcur_addr⟩ := h.fresh cur pg hh
      rw [write_byte_shared ps idx o byte v cur s t pg ht hpa hh hrc (by omega) (by omega)] at hw
      simp only [hm, if_true, Option.some.injEq] at hw
      rw [← hw]
    · rw [write_byte_private ps idx o byte v cur s pg hpa hh hrc] at hw
      simp only [hm, if_true, Option.some.injEq] at hw
      rw [← hw]

theorem write_loop_flag {ps : Nat} (hps : 0 < ps) (idx o : Nat) (buf : Nat → Nat)
    (hidx : idx < MAX_THREADS) (n byte : Nat) {s s1 : State} (h : Inv ps s)
    (hw : write_loop ps idx o buf n byte s = some s1) :
    s1.is_first_call = s.is_first_call := by
  induction n generalizing byte s with
  | zero =>
    simp only [write_loop, Option.some.injEq] at hw
    rw [hw]
  | succ n ih =>
    rw [write_loop] at hw
    cases hb : write_byte ps s idx o byte (buf byte) with
    | none => simp [hb] at hw
    | some s2 =>
      simp only [hb] at hw
      rw [ih (byte + 1) (write_byte_spec hps h idx o byte (buf byte) hidx hb).1 hw]
      exact write_byte_flag h idx o byte (buf byte) hidx hb

theorem tls_write_flag {ps : Nat} (hps : 0 < ps) {s s1 : State} (h : Inv ps s)
    (tid o n : Nat) (buf : Nat → Nat) (r : Int)
    (hw : tls_write ps s tid o n buf = some (r, s1)) :
    s1.is_first_call = s.is_first_call := by
  unfold tls_write at hw
  cases hf : find_tid s.thread_storage tid 0 MAX_THREADS with
  | none =>
    simp only [hf, Option.some.injEq, Prod.mk.injEq] at hw
    rw [← hw.2]
  | some idx =>
    obtain ⟨_, hidx, ⟨t, ht, _⟩, _⟩ := find_tid_some_spec _ _ _ _ _ hf
    simp only [hf, ht] at hw
    by_cases hb : to_uint (o + n) > t.size
    · simp only [hb, if_true, Option.some.injEq, Prod.mk.injEq] at hw
      rw [← hw.2]
    · simp only [hb, if_false] at hw
      cases hl : write_loop ps idx o buf n 0 s with
      | none => simp [hl] at hw
      | some s2 =>
        simp only [hl, Option.some.injEq, Prod.mk.injEq] at hw
        rw [← hw.2]
        exact write_loop_flag hps idx o buf (by omega) n 0 h hl

/-- Calls other than the first `tls_create` keep the handler installed: once an
area is registered, the static flag of `tls_create` is false, that is,
`tls_init` has installed `tls_page_fault`. -/
theorem step_installed {ps : Nat} (hps : 0 < ps) {s s1 : State} (h : Inv ps s) (c : Call)
    (hflag : (∃ i t, i < MAX_THREADS ∧ s.thread_storage i = some t) → s.is_first_call = false)
    (hstep : step ps s c = some s1) :
    (∃ i t, i < MAX_THREADS ∧ s1.thread_storage i = some t) → s1.is_first_call = false := by
  cases c with
  | create tid size =>
    intro _
    simp only [step, Option.some.injEq] at hstep
    rw [← hstep]
    rcases tls_create_cases ps s tid size with ⟨_, h1⟩ | ⟨_, _, i, hi, h1⟩
    · rw [h1]
    · rw [h1]
      have hspec :=
        alloc_pages_spec ps (num_pages_of ps size).toNat { s with is_first_call := false }
      obtain ⟨n, hn⟩ : ∃ n : Nat, (num_pages_of ps size).toNat = n := ⟨_, rfl⟩
      rw [hn] at hspec ⊢
      generalize alloc_pages ps n { s with is_first_call := false } = r at hspec ⊢
      exact hspec.2.1
  | destroy tid =>
    simp only [step, Option.map_eq_some'] at hstep
    obtain ⟨⟨r, s2⟩, h1, h2⟩ := hstep
    simp only at h2
    subst h2
    by_cases har : has_area s tid
    · obtain ⟨idx, hidx, t, ht, htid⟩ := har
      obtain ⟨s3, b1, _, _, _, _, b6, _⟩ := tls_destroy_ok h tid idx t hidx ht htid
      rw [b1] at h1
      simp only [Option.some.injEq, Prod.mk.injEq] at h1
      intro _
      rw [← h1.2, b6]
      exact hflag ⟨idx, t, hidx, ht⟩
    · rw [tls_destroy_fail s tid har] at h1
      simp only [Option.some.injEq, Prod.mk.injEq] at h1
      rw [← h1.2]
      exact hflag
  | read tid o n buf =>
    simp only [step, Option.map_eq_some'] at hstep
    obtain ⟨⟨r, buf1, s2⟩, h1, h2⟩ := hstep
    simp only at h2
    subst h2
    obtain ⟨a1, _, _, _, _, a6, _⟩ := tls_read_reprotected ps s s2 tid o n buf buf1 r h1
    rw [a1, a6]
    exact hflag
  | write tid o n buf =>
    simp only [step, Option.map_eq_some'] at hstep
    obtain ⟨⟨r, s2⟩, h1, h2⟩ := hstep
    simp only at h2
    subst h2
    rintro ⟨i, t, hi, ht⟩
    rw [tls_write_flag hps h tid o n buf r h1]
    apply hflag
    have hmap := (tls_write_spec hps h tid o n buf r h1).2.1 i
    rw [ht] at hmap
    cases hs : s.thread_storage i with
    | none =>
      rw [hs] at hmap
      cases hmap
    | some t0 => exact ⟨i, t0, hi, hs⟩
  | clone cur tid =>
    simp only [step, Option.map_eq_some'] at hstep
    obtain ⟨⟨r, s2⟩, h1, h2⟩ := hstep
    simp only at h2
    subst h2
    rcases tls_clone_cases h cur tid with ⟨_, h3⟩ |
      ⟨_, tgt, new, u, s3, htgt, hu, _, _, h3, _, _, _, _, _, a6, _⟩
    · rw [h3] at h1
      simp only [Option.some.injEq, Prod.mk.injEq] at h1
      rw [← h1.2]
      exact hflag
    · rw [h3] at h1
      simp only [Option.some.injEq, Prod.mk.injEq] at h1
      intro _
      rw [← h1.2, a6]
      exact hflag ⟨tgt, u, htgt, hu⟩

theorem run_installed {ps : Nat} (hps : 0 < ps) (calls : List Call) {s s1 : State}
    (h : Inv ps s) (hc : ∀ c ∈ calls, c.typed)
    (hflag : (∃ i t, i < MAX_THREADS ∧ s.thread_storage i = some t) → s.is_first_call = false)
    (hrun : run ps s calls = some s1) :
    (∃ i t, i < MAX_THREADS ∧ s1.thread_storage i = some t) → s1.is_first_call = false := by
  induction calls generalizing s with
  | nil =>
    simp only [run, Option.some.injEq] at hrun
    rw [← hrun]
    exact hflag
  | cons c cs ih =>
    rw [run] at hrun
    cases hst : step ps s c with
    | none =>
      rw [hst] at hrun
      cases hrun
    | some s2 =>
      rw [hst] at hrun
      exact ih (step_inv hps h c (hc c (List.mem_cons_self _ _)) hst)
        (fun c1 h1 => hc c1 (List.mem_cons_of_mem _ h1)) (step_installed hps h c hflag hst) hrun

theorem reachable_installed {ps : Nat} (hps : 0 < ps) {s : State} (hs : Reachable ps s)
    (i : Nat) (t : TLS) (hi : i < MAX_THREADS) (ht : s.thread_storage i = some t) :
    s.is_first_call = false := by
  obtain ⟨calls, hc, hrun⟩ := hs
  exact run_installed hps calls (init_inv ps) hc
    (fun ⟨j, u, _, hu⟩ => by cases hu) hrun ⟨i, t, hi, ht⟩

/-- One iteration of the write loop: a page that is read-only afterwards was
read-only before, or is a page of the writer's area that was shared
(`ref_count > 1`), which the iteration copied from; and a page of the writer's
area that is shared afterwards was a shared page of the area before. -/
theorem write_byte_prot {ps : Nat} {s s1 : State} (h : Inv ps s) (idx o byte v : Nat)
    (t : TLS) (hidx : idx < MAX_THREADS) (ht : s.thread_storage idx = some t)
    (hw : write_byte ps s idx o byte v = some s1) :
    (∀ a, s1.prot a = some Prot.PROT_READ → s.prot a = some Prot.PROT_READ ∨
      ∃ p pg0, p ∈ t.pages ∧ s.heap p = some pg0 ∧ pg0.address = a ∧ 1 < pg0.ref_count) ∧
    (∀ t1 p pg1, s1.thread_storage idx = some t1 → p ∈ t1.pages → s1.heap p = some pg1 →
      1 < pg1.ref_count →
      p ∈ t.pages ∧ ∃ pg0, s.heap p = some pg0 ∧ pg0.address = pg1.address ∧
        1 < pg0.ref_count) := by
  cases hpa : page_at ps s idx o byte with
  | none =>
    unfold write_byte at hw
    simp only [hpa] at hw
    cases hw
  | some cur =>
    obtain ⟨htn, hk, hget⟩ := page_at_some ps s idx o byte cur t ht hpa
    have hcur_mem : cur ∈ t.pages := List.getElem?_mem hget
    obtain ⟨pg, hpg⟩ := h.live idx t hidx ht cur hcur_mem
    have hm : (s.prot pg.address).isSome = true := mapped_isSome h cur pg hpg
    by_cases hrc : pg.ref_count > 1
    · obtain ⟨hcur_lt, hcur_addr⟩ := h.fresh cur pg hpg
      have hne : cur ≠ s.next_ptr := by omega
      have hna : pg.address ≠ s.next_map * ps := by omega
      rw [write_byte_shared ps idx o byte v cur s t pg ht hpa hpg hrc hne hna] at hw
      simp only [hm, if_true, htn, Option.some.injEq] at hw
      subst hw
      constructor
      · intro a ha
        simp only [] at ha
        by_cases ha1 : a = pg.address
        · right
          exact ⟨cur, pg, hcur_mem, hpg, ha1.symm, hrc⟩
        · rw [Function.update_noteq ha1] at ha
          by_cases ha2 : a = s.next_map * ps
          · rw [ha2, Function.update_same] at ha
            cases ha
          · rw [Function.update_noteq ha2] at ha
            exact Or.inl ha
      · intro t1 p pg1 ht1 hp hpg1 hrc1
        simp only [Function.update_same, Option.some.injEq] at ht1
        subst ht1
        simp only [] at hp hpg1
        by_cases hpc : p = cur
        · subst hpc
          rw [Function.update_same] at hpg1
          cases hpg1
          exact ⟨hcur_mem, pg, hpg, rfl, hrc⟩
        · rw [Function.update_noteq hpc] at hpg1
          by_cases hpn : p = s.next_ptr
          · rw [hpn, Function.update_same] at hpg1
            cases hpg1
            exact absurd hrc1 (lt_irrefl (1 : Int))
          · rw [Function.update_noteq hpn] at hpg1
            rcases mem_set_cases _ _ _ _ hp with h1 | h1
            · exact ⟨h1, pg1, hpg1, rfl, hrc1⟩
            · exact absurd h1 hpn
    · rw [write_byte_private ps idx o byte v cur s pg hpa hpg hrc] at hw
      simp only [hm, if_true, Option.some.injEq] at hw
      subst hw
      constructor
      · intro a ha
        simp only [] at ha
        by_cases ha1 : a = pg.address
        · rw [ha1, Function.update_same] at ha
          cases ha
        · rw [Function.update_noteq ha1] at ha
          exact Or.inl ha
      · intro t1 p pg1 ht1 hp hpg1 hrc1
        simp only [] at ht1 hpg1
        rw [ht] at ht1
        cases ht1
        exact ⟨hp, pg1, hpg1, rfl, hrc1⟩

theorem write_loop_prot {ps : Nat} (hps : 0 < ps) (idx o : Nat) (B : Nat → Nat)
    (hidx : idx < MAX_THREADS) (n b : Nat) {s s1 : State} (h : Inv ps s) (t : TLS)
    (ht : s.thread_storage idx = some t)
    (hw : write_loop ps idx o B n b s = some s1) (a : Nat)
    (ha : s1.prot a = some Prot.PROT_READ) :
    s.prot a = some Prot.PROT_READ ∨
      ∃ p pg0, p ∈ t.pages ∧ s.heap p = some pg0 ∧ pg0.address = a ∧ 1 < pg0.ref_count := by
  induction n generalizing b s t with
  | zero =>
    rw [write_loop] at hw
    cases hw
    exact Or.inl ha
  | succ n ih =>
    rw [write_loop] at hw
    cases hwb : write_byte ps s idx o b (B b) with
    | none =>
      rw [hwb] at hw
      cases hw
    | some s2 =>
      rw [hwb] at hw
      simp only [] at hw
      obtain ⟨hprot, hshared⟩ := write_byte_prot h idx o b (B b) t hidx ht hwb
      obtain ⟨hinv2, _, ⟨t0, t2, ht0, ht2, _, _, _⟩, _⟩ :=
        write_byte_spec hps h idx o b (B b) hidx hwb
      rcases ih (b + 1) hinv2 t2 ht2 hw with h1 | ⟨p, pg1, hp, hpg1, haddr, hrc1⟩
      · exact hprot a h1
      · obtain ⟨hp0, pg0, hpg0, haddr0, hrc0⟩ := hshared t2 p pg1 ht2 hp hpg1 hrc1
        exact Or.inr ⟨p, pg0, hp0, hpg0, by rw [haddr0, haddr], hrc0⟩

/-- A page that is read-only after a `tls_write` was read-only before the call,
or was a shared page (`ref_count > 1`) of the writer's area before the call:
the page the write copied from. -/
theorem tls_write_prot {ps : Nat} (hps : 0 < ps) {s s1 : State} (h : Inv ps s)
    (tid o n : Nat) (B : Nat → Nat) (r : Int)
    (hw : tls_write ps s tid o n B = some (r, s1)) (a : Nat)
    (ha : s1.prot a = some Prot.PROT_READ) :
    s.prot a = some Prot.PROT_READ ∨
      ∃ idx t p pg0, idx < MAX_THREADS ∧ s.thread_storage idx = some t ∧ t.tid = tid ∧
        p ∈ t.pages ∧ s.heap p = some pg0 ∧ pg0.address = a ∧ 1 < pg0.ref_count := by
  unfold tls_write at hw
  cases hf : find_tid s.thread_storage tid 0 MAX_THREADS with
  | none =>
    simp only [hf, Option.some.injEq, Prod.mk.injEq] at hw
    rw [← hw.2] at ha
    exact Or.inl ha
  | some idx =>
    obtain ⟨_, hidx, ⟨t, ht, htid⟩, _⟩ := find_tid_some_spec _ _ _ _ _ hf
    simp only [hf, ht] at hw
    by_cases hb : to_uint (o + n) > t.size
    · simp only [hb, if_true, Option.some.injEq, Prod.mk.injEq] at hw
      rw [← hw.2] at ha
      exact Or.inl ha
    · simp only [hb, if_false] at hw
      cases hl : write_loop ps idx o B n 0 s with
      | none => simp [hl] at hw
      | some s2 =>
        simp only [hl, Option.some.injEq, Prod.mk.injEq] at hw
        rw [← hw.2] at ha
        rcases write_loop_prot hps idx o B (by omega) n 0 h t ht hl a ha with
          h1 | ⟨p, pg0, h1, h2, h3, h4⟩
        · exact Or.inl h1
        · exact Or.inr ⟨idx, t, p, pg0, by omega, ht, htid, h1, h2, h3, h4⟩

/-- The handler on a fault inside a page of a registered area ends with the
diagnostic and `pthread_exit`. -/
theorem fault_in_area_page (k : Nat) (hk : k ≤ 64) {s : State} (h : Inv (2 ^ k) s) (i : Nat)
    (t : TLS) (hi : i < MAX_THREADS) (ht : s.thread_storage i = some t) (p : Nat)
    (hp : p ∈ t.pages) (pg : page) (hpg : s.heap p = some pg) (off : Nat)
    (hoff : off < 2 ^ k) (h64 : pg.address + off < 2 ^ 64) :
    ∃ tid j, tls_page_fault (2 ^ k) s (pg.address + off) =
      some (FaultAction.exit_thread tid j, s) := by
  obtain ⟨m, hm⟩ := h.aligned p pg hpg
  have hpos : 0 < 2 ^ k := Nat.two_pow_pos k
  have hfa : (pg.address + off) / 2 ^ k * 2 ^ k = pg.address := by
    rw [hm, Nat.mul_add_div hpos, Nat.div_eq_of_lt hoff, Nat.add_zero, Nat.mul_comm]
  unfold tls_page_fault
  rw [fault_page_eq k _ hk h64, hfa]
  obtain ⟨j, hj⟩ := List.getElem?_of_mem hp
  have hpa : page_address s i j = some pg.address := by
    unfold page_address entry_address
    rw [ht]
    simp only [hj, hpg, Option.map_some']
  rcases fault_scan_spec h pg.address MAX_THREADS 0 (by decide) with
    ⟨i0, t0, j0, h1, _⟩ | ⟨_, h2⟩
  · exact ⟨t0.tid, j0, by rw [h1]; rfl⟩
  · exact absurd hpa (h2 i (Nat.zero_le _) (by omega) j)

/-- C5 amended: with a page size that is a power of two, after every completed
TLS API call from a reachable state, every page of every registered area is
allocated and every direct store into it traps; the page has protection
`PROT_NONE`, so that every direct load from it traps too, unless it was
read-only already before the call or the call is a `tls_write` and the page was
a shared page of the writer's area, which the write copied from: such a page is
left `PROT_READ`.  The handler `tls_page_fault` is installed, and on a fault at
any address inside the page it ends with the diagnostic and `pthread_exit`,
which terminates the accessing thread. -/
theorem isolation_by_protection (k : Nat) (hk : k ≤ 64) (s s1 : State)
    (hs : Reachable (2 ^ k) s) (c : Call) (hc : c.typed)
    (hstep : step (2 ^ k) s c = some s1)
    (i : Nat) (t : TLS) (hi : i < MAX_THREADS) (ht : s1.thread_storage i = some t)
    (p : Nat) (hp : p ∈ t.pages) :
    ∃ pg, s1.heap p = some pg ∧
      (∀ off v, store s1 pg.address off v = none) ∧
      ((s1.prot pg.address = some Prot.PROT_NONE ∧ ∀ off, load s1 pg.address off = none) ∨
        (s1.prot pg.address = some Prot.PROT_READ ∧
          (s.prot pg.address = some Prot.PROT_READ ∨
            ∃ tid o n B idx t0 p0 pg0, c = Call.write tid o n B ∧ idx < MAX_THREADS ∧
              s.thread_storage idx = some t0 ∧ t0.tid = tid ∧ p0 ∈ t0.pages ∧
              s.heap p0 = some pg0 ∧ pg0.address = pg.address ∧ 1 < pg0.ref_count))) ∧
      s1.is_first_call = false ∧
      ∀ off, off < 2 ^ k → pg.address + off < 2 ^ 64 →
        ∃ tid j, tls_page_fault (2 ^ k) s1 (pg.address + off) =
          some (FaultAction.exit_thread tid j, s1) := by
  have hps : 0 < 2 ^ k := Nat.two_pow_pos k
  have hinv := reachable_inv hps hs
  have hinv1 := step_inv hps hinv c hc hstep
  have hs1 : Reachable (2 ^ k) s1 :=
    reachable_run hs [c] (fun c1 h1 => by
      rw [List.mem_singleton] at h1
      rw [h1]
      exact hc) (by simp only [run, hstep])
  obtain ⟨pg, hpg⟩ := hinv1.live i t hi ht p hp
  refine ⟨pg, hpg, ?_, ?_, reachable_installed hps hs1 i t hi ht,
    fun off hoff h64 => fault_in_area_page k hk hinv1 i t hi ht p hp pg hpg off hoff h64⟩
  · intro off v
    unfold store
    rcases hinv1.mapped p pg hpg with h1 | h1 <;> rw [h1]
  · rcases hinv1.mapped p pg hpg with h1 | h1
    · left
      refine ⟨h1, fun off => ?_⟩
      unfold load
      rw [h1]
    · right
      refine ⟨h1, ?_⟩
      by_cases hw : c.is_write
      · cases c with
        | write tid o n B =>
          simp only [step, Option.map_eq_some'] at hstep
          obtain ⟨⟨r, s2⟩, h2, h3⟩ := hstep
          simp only at h3
          subst h3
          rcases tls_write_prot hps hinv tid o n B r h2 pg.address h1 with
            h4 | ⟨idx, t0, p0, pg0, a1, a2, a3, a4, a5, a6, a7⟩
          · exact Or.inl h4
          · exact Or.inr ⟨tid, o, n, B, idx, t0, p0, pg0, rfl, a1, a2, a3, a4, a5, a6, a7⟩
        | create _ _ => exact absurd hw (fun h => h)
        | destroy _ => exact absurd hw (fun h => h)
        | read _ _ _ _ => exact absurd hw (fun h => h)
        | clone _ _ => exact absurd hw (fun h => h)
      · exact Or.inl (step_prot_read hinv c hw hstep pg.address h1)

/-- Witness for C5 amended: thread 2 writes into a page it shares with thread 1;
afterwards the page that thread 1 still holds is the page the write copied
from. -/
theorem isolation_by_protection_witness :
    ∃ pg, state_diverged.heap 1 = some pg ∧
      (∀ off v, store state_diverged pg.address off v = none) ∧
      ((state_diverged.prot pg.address = some Prot.PROT_NONE ∧
          ∀ off, load state_diverged pg.address off = none) ∨
        (state_diverged.prot pg.address = some Prot.PROT_READ ∧
          (state_shared.prot pg.address = some Prot.PROT_READ ∨
            ∃ tid o n B idx t0 p0 pg0, Call.write 2 0 1 (fun _ => 66) = Call.write tid o n B ∧
              idx < MAX_THREADS ∧
              state_shared.thread_storage idx = some t0 ∧ t0.tid = tid ∧ p0 ∈ t0.pages ∧
              state_shared.heap p0 = some pg0 ∧ pg0.address = pg.address ∧
              1 < pg0.ref_count))) ∧
      state_diverged.is_first_call = false ∧
      ∀ off, off < 2 ^ 12 → pg.address + off < 2 ^ 64 →
        ∃ tid j, tls_page_fault (2 ^ 12) state_diverged (pg.address + off) =
          some (FaultAction.exit_thread tid j, state_diverged) :=
  isolation_by_protection 12 (by decide) state_shared state_diverged reachable_shared
    (Call.write 2 0 1 (fun _ => 66)) (by simp [Call.typed]) rfl 0 ⟨1, 8192, 2, [1, 2]⟩ (by decide)
    (by decide) 1 (by decide)

/-- C14 amended: from the empty registry, when 129 threads with pairwise
distinct identities each call `tls_create` with a positive size and none calls
`tls_destroy`, exactly 128 of the calls return `SUCCESS`, namely the first 128,
and exactly 1 returns `FAILURE`, namely the last. -/
theorem registry_bound (ps : Nat) (calls : List (Nat × Nat)) (hlen : calls.length = 129)
    (hnd : (calls.map Prod.fst).Nodup) (hpos : ∀ c ∈ calls, 0 < c.2) :
    (create_all ps init calls).1 = List.replicate 128 SUCCESS ++ [FAILURE] ∧
    (create_all ps init calls).1.count SUCCESS = 128 ∧
    (create_all ps init calls).1.count FAILURE = 1 := by
  have h := create_all_spec ps calls init 0 [] (by decide)
    (fun i hi => absurd hi (Nat.not_lt_zero i)) (fun i _ => rfl)
    (fun c _ => List.not_mem_nil _) hnd (fun c hc => Nat.pos_iff_ne_zero.1 (hpos c hc))
  have e1 : min 129 (MAX_THREADS - 0) = 128 := by decide
  have e2 : 129 - (MAX_THREADS - 0) = 1 := by decide
  have hne : ¬ (SUCCESS == FAILURE) = true := by decide
  have hne2 : ¬ (FAILURE == SUCCESS) = true := by decide
  rw [h, hlen, e1, e2]
  refine ⟨rfl, ?_, ?_⟩
  · rw [List.count_append, List.count_replicate_self, List.count_replicate, if_neg hne2]
  · rw [List.count_append, List.count_replicate_self, List.count_replicate, if_neg hne]

/-- Witness for C14 amended: threads 0 to 128 each call `tls_create(1)`. -/
theorem registry_bound_witness :
    (create_all 4096 init scenario_overfull).1 = List.replicate 128 SUCCESS ++ [FAILURE] ∧
    (create_all 4096 init scenario_overfull).1.count SUCCESS = 128 ∧
    (create_all 4096 init scenario_overfull).1.count FAILURE = 1 :=
  registry_bound 4096 scenario_overfull (by simp [scenario_overfull])
    (by
      unfold scenario_overfull
      rw [List.map_map]
      exact List.nodup_range 129)
    (by
      unfold scenario_overfull
      intro c hc
      obtain ⟨x, _, hx⟩ := List.mem_map.1 hc
      rw [← hx]
      exact Nat.one_pos)

end Cow

/-! # Theorems about the thread library -/

namespace Threads

/-! ## Barriers -/

/-- The part of C19 that holds: with `count == 0` the function returns the
non-zero code `EINVAL` and leaves heap and barrier variable as they were; with
`0 < count < 2 ^ 31` it returns 0 and the barrier variable points to a new
object with `max_count = count`, `current_count = 0`, `exited = 0`, whatever
the variable held before. -/
theorem pthread_barrier_init_spec (h : BarrierHeap) (barrier count : Nat) :
    (pthread_barrier_init h barrier 0 = (EINVAL, h, barrier) ∧ EINVAL ≠ 0) ∧
    (0 < count → count < 2 ^ 31 →
      (pthread_barrier_init h barrier count).1 = 0 ∧
      (pthread_barrier_init h barrier count).2.1.objects
          (pthread_barrier_init h barrier count).2.2 =
        some { max_count := (count : Int), current_count := 0, exited := 0 }) := by
  refine ⟨⟨rfl, by decide⟩, ?_⟩
  intro h0 h1
  have hu : Cow.to_uint count = count := Cow.to_uint_of_lt _ (by omega)
  have hne : ¬ Cow.to_uint count = 0 := by omega
  unfold pthread_barrier_init
  rw [if_neg hne]
  simp only [Function.update_same, hu, Cow.to_int_of_lt _ h1]
  exact ⟨trivial, trivial⟩

/-- C19 fails on the code for `count >= 2 ^ 31`: `pthread_barrier_init` with the
`unsigned` count 2147483648 returns 0 and stores into the `int` field
`max_count` the value -2147483648, which is not the count. -/
theorem pthread_barrier_init_limit_wraps :
    (pthread_barrier_init BarrierHeap.empty 0 2147483648).1 = 0 ∧
    (pthread_barrier_init BarrierHeap.empty 0 2147483648).2.1.objects 1 =
      some { max_count := -2147483648, current_count := 0, exited := 0 } ∧
    (-2147483648 : Int) ≠ 2147483648 := by
  refine ⟨by decide, by decide, by decide⟩

/-- A call of `pthread_barrier_wait` on an allocated barrier object never
yields: the waiting loop is guarded by `!new_barrier`, which is false for the
address of an object. -/
theorem pthread_barrier_wait_returns (h : BarrierHeap) (hnull : h.objects 0 = none)
    (p : Nat) (r : WaitOutcome) (h1 : BarrierHeap)
    (hw : pthread_barrier_wait h p = some (r, h1)) : ∃ is_serial, r = WaitOutcome.returned is_serial := by
  unfold pthread_barrier_wait at hw
  cases hb : h.objects p with
  | none =>
    rw [hb] at hw
    cases hw
  | some b =>
    have hp : p ≠ 0 := by
      intro hc
      rw [hc, hnull] at hb
      cases hb
    rw [hb] at hw
    simp only [hp, false_and, if_false, Option.some.injEq, Prod.mk.injEq] at hw
    exact ⟨_, hw.1.symm⟩

/-- On a barrier object that is fresh or has been left by an earlier wait, with
a limit of at least 2, `pthread_barrier_wait` returns 0 at once and leaves
`current_count = 1`, `exited = 1`. -/
theorem pthread_barrier_wait_never_serial (h : BarrierHeap) (hnull : h.objects 0 = none)
    (p : Nat) (b : barrier_info)
    (hb : h.objects p = some b) (hmax : 2 ≤ b.max_count)
    (hstate : b.exited = 1 ∨ b.current_count = 0) :
    pthread_barrier_wait h p =
      some (WaitOutcome.returned 0,
        BarrierHeap.mk
          (Function.update h.objects p
            (some { max_count := b.max_count, current_count := 1, exited := 1 }))
          h.next_ptr) := by
  have hp : p ≠ 0 := by
    intro hc
    rw [hc, hnull] at hb
    cases hb
  have h1 : ¬ ((0 : Int) + 1 ≥ b.max_count) := by omega
  unfold pthread_barrier_wait
  rw [hb]
  by_cases he : b.exited = 1
  · simp only [he, if_true, hp, false_and, if_false, h1]
    rfl
  · rcases hstate with hc | hc
    · exact absurd hc he
    · simp only [he, if_false, hc, hp, false_and, h1]
      rfl

/-- For a limit of at least 2, each of any number of successive calls of
`pthread_barrier_wait` on a fresh barrier returns 0: none returns
`PTHREAD_BARRIER_SERIAL_THREAD`. -/
theorem wait_all_never_serial (n : Nat) (h : BarrierHeap) (hnull : h.objects 0 = none)
    (p : Nat) (b : barrier_info)
    (hb : h.objects p = some b) (hmax : 2 ≤ b.max_count)
    (hstate : b.exited = 1 ∨ b.current_count = 0) :
    ∃ h1, wait_all p n h = some (List.replicate n (WaitOutcome.returned 0), h1) := by
  induction n generalizing h b with
  | zero => exact ⟨h, rfl⟩
  | succ n ih =>
    have hp : p ≠ 0 := by
      intro hc
      rw [hc, hnull] at hb
      cases hb
    have hw := pthread_barrier_wait_never_serial h hnull p b hb hmax hstate
    obtain ⟨h2, h3⟩ := ih
      (BarrierHeap.mk
        (Function.update h.objects p
          (some { max_count := b.max_count, current_count := 1, exited := 1 }))
        h.next_ptr)
      (by simp only [Function.update_noteq (Ne.symm hp), hnull])
      { max_count := b.max_count, current_count := 1, exited := 1 }
      (by simp only [Function.update_same]) hmax (Or.inl rfl)
    refine ⟨h2, ?_⟩
    rw [wait_all, hw]
    simp only [h3, List.replicate_succ]

/-- C17 fails on the code: on a barrier initialised with count 2 both calls of
`pthread_barrier_wait` of the first generation return 0, none returns
`PTHREAD_BARRIER_SERIAL_THREAD`; and in the scenario of
`test_barrier_reininitialize.c` (count 5, five calls, destroy, count 4, four
calls) all nine calls return 0. -/
theorem barrier_generation_without_serial_thread :
    (wait_all 1 2 (pthread_barrier_init BarrierHeap.empty 0 2).2.1).map Prod.fst =
      some [WaitOutcome.returned 0, WaitOutcome.returned 0] ∧
    scenario_reinit = some (List.replicate 9 (WaitOutcome.returned 0)) ∧
    PTHREAD_BARRIER_SERIAL_THREAD ≠ 0 := by
  refine ⟨by decide, by decide, by decide⟩

/-- C18 fails on the code: on a barrier initialised with count 2 the first call
of `pthread_barrier_wait` returns to its caller, without yielding, when one
participant has arrived: the object is left with `current_count = 1`, below
`max_count = 2`. -/
theorem barrier_wait_returns_before_all_arrived :
    (pthread_barrier_wait (pthread_barrier_init BarrierHeap.empty 0 2).2.1 1).map Prod.fst =
      some (WaitOutcome.returned 0) ∧
    (pthread_barrier_wait (pthread_barrier_init BarrierHeap.empty 0 2).2.1 1).map
        (fun r => r.2.objects 1) =
      some (some { max_count := 2, current_count := 1, exited := 1 }) := by
  refine ⟨by decide, by decide⟩

/-! ## The mutex -/

/-- The statements of the mutex operations one by one: `pthread_mutex_init`
returns 0 and leaves the mutex unlocked and initialised; the test of
`pthread_mutex_lock` leads to the assignment only when `is_locked` is false and
to `unlock(); schedule(0)` otherwise, without changing the mutex; the
assignment leaves `is_locked` true; the assignment of `pthread_mutex_unlock`
leaves it false. -/
theorem mutex_statements (s : MutexSys) :
    pthread_mutex_init = (0, { is_locked := false, is_init := true }) ∧
    (s.pc s.running = Pc.lock_test → ∃ s1, s.move Move.exec = some s1 ∧
      s1.mutex = s.mutex ∧
      s1.pc s1.running = (if s.mutex.is_locked then Pc.lock_unmask else Pc.lock_set)) ∧
    (s.pc s.running = Pc.lock_set → ∃ s1, s.move Move.exec = some s1 ∧
      s1.mutex.is_locked = true ∧ s1.pc s1.running = Pc.lock_return) ∧
    (s.pc s.running = Pc.unlock_clear → ∃ s1, s.move Move.exec = some s1 ∧
      s1.mutex.is_locked = false) := by
  refine ⟨rfl, ?_, ?_, ?_⟩
  · intro h
    unfold MutexSys.move
    simp only [h]
    exact ⟨_, rfl, rfl, Function.update_same _ _ _⟩
  · intro h
    unfold MutexSys.move
    simp only [h]
    exact ⟨_, rfl, rfl, Function.update_same _ _ _⟩
  · intro h
    unfold MutexSys.move
    simp only [h]
    exact ⟨_, rfl, rfl⟩

/-- C20 fails on the code: in the interleaving `race`, which uses only
`schedule(0)` inside the loop of `pthread_mutex_lock` and timer signals taken
while `SIGALRM` is not blocked, the call of `pthread_mutex_lock` by thread 1
returns and then, before thread 1 calls `pthread_mutex_unlock`, the call by
thread 0 returns too. -/
theorem mutex_exclusion_fails :
    (MutexSys.init.run race).map (fun s => (s.holding 0, s.holding 1, s.mutex.is_locked)) =
      some (true, true, true) := by
  decide

/-- C31 fails on the code: in the interleaving `lock_after_yield` thread 0 comes
back from `schedule(0)` inside `pthread_mutex_lock` with `SIGALRM` not blocked,
and its test of `is_locked` and its assignment `is_locked = true` are performed
without the signal being blocked again. -/
theorem mutex_lock_writes_unmasked :
    (MutexSys.init.run lock_after_yield).map
        (fun s => (s.pc 0, s.masked, s.unmasked_writes, s.mutex.is_locked)) =
      some (Pc.lock_return, false, 1, true) := by
  decide

/-! ## Saved registers -/

theorem rorq_rolq (x : Nat) (hx : x < 2 ^ 64) : rorq (rolq x) = x := by
  obtain ⟨a, b, hb, ha, rfl⟩ : ∃ a b, b < 2 ^ 47 ∧ a < 2 ^ 17 ∧ x = a * 2 ^ 47 + b :=
    ⟨x / 2 ^ 47, x % 2 ^ 47, Nat.mod_lt _ (Nat.two_pow_pos 47), by omega, by omega⟩
  have h1 : (a * 2 ^ 47 + b) % 2 ^ 64 = a * 2 ^ 47 + b := Nat.mod_eq_of_lt hx
  have h2 : (a * 2 ^ 47 + b) * 2 ^ 17 % 2 ^ 64 = b * 2 ^ 17 := by omega
  have h3 : (a * 2 ^ 47 + b) / 2 ^ 47 = a := by omega
  have h4 : (b * 2 ^ 17 + a) % 2 ^ 64 = b * 2 ^ 17 + a := Nat.mod_eq_of_lt (by omega)
  have h5 : (b * 2 ^ 17 + a) / 2 ^ 17 = b := by omega
  have h6 : (b * 2 ^ 17 + a) % 2 ^ 17 = a := by omega
  unfold rorq rolq
  rw [h1, h2, h3, h4, h5, h6]
  omega

theorem rolq_lt (x : Nat) : rolq x < 2 ^ 64 := by
  unfold rolq
  omega

theorem _ptr_demangle_mangle (guard v : Nat) (hv : v < 2 ^ 64) :
    _ptr_demangle guard (_ptr_mangle guard v) = v := by
  unfold _ptr_demangle _ptr_mangle
  have hg : guard % 2 ^ 64 < 2 ^ 64 := Nat.mod_lt _ (Nat.two_pow_pos 64)
  have hxor : (v % 2 ^ 64) ^^^ (guard % 2 ^ 64) < 2 ^ 64 :=
    Nat.xor_lt_two_pow (Nat.mod_lt _ (Nat.two_pow_pos 64)) hg
  rw [rorq_rolq _ hxor, Nat.mod_eq_of_lt hv, Nat.xor_assoc, Nat.xor_self, Nat.xor_zero]

/-- C32 (symmetric pointer mangling): for every 64-bit value `v` and every
guard word, `_ptr_demangle (_ptr_mangle v) = v`; and for each of the eight
registers `r`, `get_reg` after `set_reg(buf, r, v)` returns `v` and the other
seven slots of the buffer are as before. -/
theorem get_reg_set_reg (guard v : Nat) (hv : v < 2 ^ 64) (buf : Nat → Nat) (r : JBL) :
    _ptr_demangle guard (_ptr_mangle guard v) = v ∧
    get_reg guard (set_reg guard buf r v) r = v ∧
    ∀ r1 : JBL, r1 ≠ r → set_reg guard buf r v r1.val = buf r1.val := by
  refine ⟨_ptr_demangle_mangle guard v hv, ?_, ?_⟩
  · cases r <;>
      simp only [get_reg, set_reg, Function.update_same, _ptr_demangle_mangle guard v hv,
        Nat.mod_eq_of_lt hv]
  · intro r1 hne
    have hval : r1.val ≠ r.val := by
      cases r <;> cases r1 <;> first | exact absurd rfl hne | decide
    cases r <;> simp only [set_reg, Function.update_noteq hval]

/-- Witness for C32: the program counter slot with guard `0xdeadbeef`. -/
theorem get_reg_set_reg_witness :
    _ptr_demangle 3735928559 (_ptr_mangle 3735928559 4198400) = 4198400 ∧
    get_reg 3735928559 (set_reg 3735928559 (fun _ => 0) JBL.JBL_PC 4198400) JBL.JBL_PC =
      4198400 ∧
    ∀ r1 : JBL, r1 ≠ JBL.JBL_PC →
      set_reg 3735928559 (fun _ => 0) JBL.JBL_PC 4198400 r1.val = (fun _ => 0) r1.val :=
  get_reg_set_reg 3735928559 4198400 (by decide) (fun _ => 0) JBL.JBL_PC

/-! ## The ring of control blocks: executions -/

set_option maxRecDepth 1000000

theorem some_getD_of_isSome (o : Option Sched) (d : Sched) (h : o.isSome = true) :
    o = some (o.getD d) := by
  cases o with
  | none => cases h
  | some s => rfl

/-- C26 fails on the code: the state `long_ring` is reached from program start
by `ring_ops 2`; in it the cursor is the main thread, the control block at
address 131 (linked after the one at address 130) is ready, yet `pthread_exit`
called by the main thread reaches `exit(0)`: the search of `schedule` gives up
after 129 control blocks that have exited. -/
theorem exit_ends_process_while_a_thread_is_ready :
    long_ring.Reachable ∧
    long_ring.current_thread = some 1 ∧
    (long_ring.tcb 131).map (fun t => t.status) = some thread_status.TS_READY ∧
    (long_ring.tcb 130).map (fun t => t.next) = some 131 ∧
    (pthread_exit long_ring 7).map Option.isSome = some false := by
  have h : (Sched.init.run (ring_ops 2)).isSome = true ∧
      long_ring.current_thread = some 1 ∧
      (long_ring.tcb 131).map (fun t => t.status) = some thread_status.TS_READY ∧
      (long_ring.tcb 130).map (fun t => t.next) = some 131 ∧
      (pthread_exit long_ring 7).map Option.isSome = some false := by
    decide!
  exact ⟨⟨ring_ops 2, some_getD_of_isSome _ _ h.1⟩, h.2⟩

/-- C29 fails on the code: in the state `long_ring`, reached from program start
by `ring_ops 2`, the cursor is the main thread at address 1, the control blocks
at addresses 2 to 130 follow it through the `next` links and have exited, and
the control block at address 131 comes next and is ready; it is the first ready
one after the cursor.  But `schedule` returns to its caller after 129 exited
control blocks: the cursor is left on address 131, whose status stays
`TS_READY`, the caller is marked `TS_READY`, and no control block is
`TS_RUNNING`. -/
theorem schedule_gives_up_before_ready_thread :
    long_ring.Reachable ∧
    long_ring.current_thread = some 1 ∧
    (long_ring.tcb 1).map (fun t => (t.status, t.next)) =
      some (thread_status.TS_RUNNING, 2) ∧
    (∀ p ∈ List.range' 2 129,
      (long_ring.tcb p).map (fun t => (t.status, t.next)) =
        some (thread_status.TS_EXITED, p + 1)) ∧
    (long_ring.tcb 131).map (fun t => (t.status, t.next)) =
      some (thread_status.TS_READY, 1) ∧
    (schedule long_ring).map
        (fun r => (r.1, r.2.current_thread, (r.2.tcb 131).map (fun t => t.status),
          (r.2.tcb 1).map (fun t => t.status), running_count r.2)) =
      some (Resume.returned, some 131, some thread_status.TS_READY,
        some thread_status.TS_READY, 0) := by
  have h : (Sched.init.run (ring_ops 2)).isSome = true ∧
      long_ring.current_thread = some 1 ∧
      (long_ring.tcb 1).map (fun t => (t.status, t.next)) =
        some (thread_status.TS_RUNNING, 2) ∧
      (∀ p ∈ List.range' 2 129,
        (long_ring.tcb p).map (fun t => (t.status, t.next)) =
          some (thread_status.TS_EXITED, p + 1)) ∧
      (long_ring.tcb 131).map (fun t => (t.status, t.next)) =
        some (thread_status.TS_READY, 1) ∧
      (schedule long_ring).map
          (fun r => (r.1, r.2.current_thread, (r.2.tcb 131).map (fun t => t.status),
            (r.2.tcb 1).map (fun t => t.status), running_count r.2)) =
        some (Resume.returned, some 131, some thread_status.TS_READY,
          some thread_status.TS_READY, 0) := by
    decide!
  exact ⟨⟨ring_ops 2, some_getD_of_isSome _ _ h.1⟩, h.2⟩

/-- C25 fails on the code: after the first call of `pthread_create`, which runs
`scheduler_init`, the ring holds the main thread and the new thread, both with
status `TS_READY`: no control block is `TS_RUNNING`, and the cursor points to a
control block that is `TS_READY`. -/
theorem no_running_thread_after_create :
    (pthread_create Sched.init).map (fun r => (r.1, r.2.2, r.2.1.current_thread)) =
      some (0, some 1, some 1) ∧
    (pthread_create Sched.init).map (fun r => running_count r.2.1) = some 0 ∧
    (pthread_create Sched.init).map
        (fun r => (r.2.1.tcb 1).map (fun t => (t.ID, t.status, t.next, t.prev))) =
      some (some (0, thread_status.TS_READY, 2, 2)) ∧
    (pthread_create Sched.init).map
        (fun r => (r.2.1.tcb 2).map (fun t => (t.ID, t.status, t.next, t.prev))) =
      some (some (1, thread_status.TS_READY, 1, 1)) := by
  refine ⟨by decide, by decide, by decide, by decide⟩

/-- C21 fails on the code: the thread with identity 130 terminates with
`pthread_exit(130)`; after a timer signal whose `schedule` gives up and leaves
the cursor on that thread's control block, `pthread_exit(999)` by the main
thread overwrites its `retval`; a later `pthread_join` on identity 130 returns
0 and stores 999. -/
theorem join_stores_foreign_value :
    after_stray_exit.Reachable ∧
    ((Sched.init.run (ring_ops 3)).bind (fun s => s.tcb 131)).map
        (fun t => (t.ID, t.status, t.retval)) =
      some (130, thread_status.TS_EXITED, 130) ∧
    (pthread_join after_stray_exit.next_ptr after_stray_exit 130).map Prod.fst =
      some (JoinOutcome.returned 0 999) := by
  have h : (Sched.init.run (ring_ops 3 ++ [Op.sched, Op.exit 999])).isSome = true ∧
      ((Sched.init.run (ring_ops 3)).bind (fun s => s.tcb 131)).map
          (fun t => (t.ID, t.status, t.retval)) =
        some (130, thread_status.TS_EXITED, 130) ∧
      (pthread_join after_stray_exit.next_ptr after_stray_exit 130).map Prod.fst =
        some (JoinOutcome.returned 0 999) := by
    decide!
  exact ⟨⟨ring_ops 3 ++ [Op.sched, Op.exit 999], some_getD_of_isSome _ _ h.1⟩, h.2⟩

/-- C23 fails on the code: in the state `crowded`, reached from program start,
128 control blocks have a status other than `TS_EXITED`, yet
`num_running_threads` is 127 and `pthread_create` returns 0 and adds a
thread. -/
theorem create_succeeds_with_128_live_threads :
    crowded.Reachable ∧ live_count crowded = 128 ∧ crowded.num_running_threads = 127 ∧
    (pthread_create crowded).map (fun r => (r.1, r.2.2, live_count r.2.1)) =
      some (0, some 258, 129) := by
  have h : (Sched.init.run
        (ring_ops 3 ++ [Op.sched, Op.exit 999] ++ List.replicate 126 Op.create)).isSome = true ∧
      live_count crowded = 128 ∧ crowded.num_running_threads = 127 ∧
      (pthread_create crowded).map (fun r => (r.1, r.2.2, live_count r.2.1)) =
        some (0, some 258, 129) := by
    decide!
  exact ⟨⟨ring_ops 3 ++ [Op.sched, Op.exit 999] ++ List.replicate 126 Op.create,
    some_getD_of_isSome _ _ h.1⟩, h.2⟩

/-- When `pthread_create` refuses: after the first call, it returns -1 exactly
when `num_running_threads` is at least 128, and then the state is unchanged. -/
theorem pthread_create_refuses_iff (s : Sched) (hfirst : s.is_first_call = false)
    (r : Int) (s1 : Sched) (id : Option Nat) (h : pthread_create s = some (r, s1, id)) :
    (r = -1 ↔ 128 ≤ s.num_running_threads) ∧ (r = -1 → s1 = s ∧ id = none) ∧
    (r ≠ -1 → r = 0) := by
  unfold pthread_create at h
  simp only [hfirst, Bool.false_eq_true, if_false] at h
  by_cases hlim : s.num_running_threads < (MAX_THREADS : Int)
  · rw [if_pos hlim] at h
    have hr : r = 0 := by
      unfold pthread_create_link at h
      cases hc : s.current_thread with
      | none =>
        rw [hc] at h
        cases h
      | some cur =>
        rw [hc] at h
        simp only [] at h
        split at h
        · cases h
        · split at h
          · cases h
          · split at h
            · cases h
            · split at h
              · cases h
              · split at h
                · cases h
                · split at h
                  · cases h
                  · simp only [Option.some.injEq, Prod.mk.injEq] at h
                    exact h.1.symm
    have hl : s.num_running_threads < 128 := hlim
    subst hr
    refine ⟨⟨fun hc => absurd hc (by decide), fun hc => by omega⟩,
      fun hc => absurd hc (by decide), fun _ => rfl⟩
  · rw [if_neg hlim] at h
    simp only [Option.some.injEq, Prod.mk.injEq] at h
    obtain ⟨h1, h2, h3⟩ := h
    have hl : ¬ s.num_running_threads < 128 := hlim
    subst h1
    exact ⟨⟨fun _ => by omega, fun _ => rfl⟩, fun _ => ⟨h2.symm, h3.symm⟩,
      fun hc => absurd rfl hc⟩

/-! ## Invariants of the ring -/

theorem assign_some (s s1 : Sched) (p : Nat) (f : thread_control_block → thread_control_block)
    (h : s.assign p f = some s1) :
    ∃ t, s.tcb p = some t ∧ s1 = { s with tcb := Function.update s.tcb p (some (f t)) } := by
  unfold Sched.assign at h
  cases ht : s.tcb p with
  | none =>
    rw [ht] at h
    cases h
  | some t =>
    rw [ht] at h
    simp only [Option.some.injEq] at h
    exact ⟨t, rfl, h.symm⟩

/-- The branch of `pthread_create` that links a new control block: what it
returns and what it changes. -/
theorem pthread_create_link_ok (s : Sched) (cur : Nat) (c pt : thread_control_block)
    (hcur : s.current_thread = some cur) (hc : s.tcb cur = some c)
    (hpt : s.tcb c.prev = some pt) (hne1 : cur ≠ s.next_ptr) (hne2 : c.prev ≠ s.next_ptr) :
    ∃ s1, pthread_create_link s = some (0, s1, some s.num_thread_total) ∧
      s1.next_ptr = s.next_ptr + 1 ∧ s1.num_thread_total = s.num_thread_total + 1 ∧
      s1.num_running_threads = s.num_running_threads + 1 ∧
      s1.current_thread = s.current_thread ∧ s1.is_first_call = s.is_first_call ∧
      s1.tcb s.next_ptr =
        some { ID := s.num_thread_total, status := thread_status.TS_READY, retval := 0,
               next := cur, prev := c.prev } ∧
      (∀ q t, q ≠ s.next_ptr → s.tcb q = some t →
        s1.tcb q =
          some { t with next := if q = c.prev then s.next_ptr else t.next,
                        prev := if q = cur then s.next_ptr else t.prev }) ∧
      (∀ q, q ≠ s.next_ptr → s.tcb q = none → s1.tcb q = none) := by
  by_cases hcp : cur = c.prev
  · have hpt1 : pt = c := by
      rw [← hcp, hc] at hpt
      exact (Option.some.inj hpt).symm
    subst hpt1
    unfold pthread_create_link
    simp only [hcur, Sched.assign,
      Function.update_noteq hne1, Function.update_noteq hne2, hc, ← hcp,
      Function.update_same, Function.update_noteq (Ne.symm hne1)]
    refine ⟨_, rfl, rfl, rfl, rfl, rfl, rfl, ?_, ?_, ?_⟩
    · simp only [Function.update_same]
    · intro q t hq ht
      simp only [Function.update_noteq hq]
      by_cases hqc : q = cur
      · subst hqc
        rw [hc] at ht
        cases ht
        simp only [Function.update_same, if_true]
      · simp only [Function.update_noteq hqc, Function.update_noteq hq, ht, hqc, if_false]
    · intro q hq hn
      have hqc : q ≠ cur := by
        intro h
        rw [h, hc] at hn
        cases hn
      simp only [Function.update_noteq hq, Function.update_noteq hqc, hn]
  · unfold pthread_create_link
    simp only [hcur, Sched.assign,
      Function.update_noteq hne1, Function.update_noteq hne2, hc, hpt,
      Function.update_same, Function.update_noteq (Ne.symm hne1),
      Function.update_noteq (Ne.symm hne2), Function.update_noteq hcp]
    refine ⟨_, rfl, rfl, rfl, rfl, rfl, rfl, ?_, ?_, ?_⟩
    · simp only [Function.update_same]
    · intro q t hq ht
      simp only [Function.update_noteq hq]
      by_cases hqc : q = cur
      · subst hqc
        rw [hc] at ht
        cases ht
        simp only [Function.update_same, if_true, hcp, if_false]
      · by_cases hqp : q = c.prev
        · subst hqp
          rw [hpt] at ht
          cases ht
          simp only [Function.update_noteq hqc, Function.update_noteq hq,
            Function.update_same, if_true, hqc, if_false]
        · simp only [Function.update_noteq hqc, Function.update_noteq hq,
            Function.update_noteq hqp, ht, hqc, hqp, if_false]
    · intro q hq hn
      have hqc : q ≠ cur := by
        intro h
        rw [h, hc] at hn
        cases hn
      have hqp : q ≠ c.prev := by
        intro h
        rw [h, hpt] at hn
        cases hn
      simp only [Function.update_noteq hq, Function.update_noteq hqc,
        Function.update_noteq hqp, hn]

theorem init_ringInv : RingInv Sched.init where
  ids := fun p t h => by cases h
  total := rfl
  closed := fun p t h => by cases h
  cursor := fun c h => by cases h
  started := fun h => by cases h
  fresh := fun _ => ⟨rfl, rfl⟩

/-- A state that differs from a consistent one only in statuses, return values
and the cursor, the new cursor being the address of a control block, is
consistent. -/
theorem RingInv.of_same_links {s s1 : Sched} (h : RingInv s)
    (hn : s1.next_ptr = s.next_ptr) (ht : s1.num_thread_total = s.num_thread_total)
    (hf : s1.is_first_call = s.is_first_call)
    (hl : ∀ p, (s1.tcb p).map (fun t => (t.ID, t.next, t.prev)) =
      (s.tcb p).map (fun t => (t.ID, t.next, t.prev)))
    (hc : ∀ c, s1.current_thread = some c → (s.tcb c).isSome)
    (hs : s.current_thread.isSome → s1.current_thread.isSome) : RingInv s1 := by
  have hsome : ∀ p, (s1.tcb p).isSome = (s.tcb p).isSome := by
    intro p
    have := congrArg Option.isSome (hl p)
    simpa only [Option.isSome_map'] using this
  have hget : ∀ p t1, s1.tcb p = some t1 →
      ∃ t, s.tcb p = some t ∧ t1.ID = t.ID ∧ t1.next = t.next ∧ t1.prev = t.prev := by
    intro p t1 h1
    have h2 := hl p
    rw [h1] at h2
    cases hsp : s.tcb p with
    | none =>
      rw [hsp] at h2
      cases h2
    | some t =>
      rw [hsp] at h2
      simp only [Option.map_some', Option.some.injEq, Prod.mk.injEq] at h2
      exact ⟨t, rfl, h2.1, h2.2.1, h2.2.2⟩
  constructor
  · intro p t1 h1
    obtain ⟨t, h2, e1, _, _⟩ := hget p t1 h1
    rw [e1, hn]
    exact h.ids p t h2
  · rw [hn, ht]
    exact h.total
  · intro p t1 h1
    obtain ⟨t, h2, _, e2, e3⟩ := hget p t1 h1
    rw [e2, e3, hsome, hsome]
    exact h.closed p t h2
  · intro c h1
    rw [hsome]
    exact hc c h1
  · intro h1
    rw [hf] at h1
    rw [hsome]
    exact ⟨hs (h.started h1).1, (h.started h1).2⟩
  · intro h1
    rw [hf] at h1
    obtain ⟨a, b⟩ := h.fresh h1
    refine ⟨by rw [hn]; exact a, ?_⟩
    cases hc1 : s1.current_thread with
    | none => rfl
    | some c =>
      have h2 := hc c hc1
      have h3 : ∀ t, s.tcb c = some t → False := by
        intro t h4
        have := h.ids c t h4
        omega
      cases hsc : s.tcb c with
      | none =>
        rw [hsc] at h2
        cases h2
      | some t => exact absurd hsc (fun h5 => h3 t h5)

theorem schedule_scan_alloc (tcb : Nat → Option thread_control_block)
    (hclosed : ∀ p t, tcb p = some t → (tcb t.next).isSome ∧ (tcb t.prev).isSome)
    (n c : Nat) (r : Resume) (d : Nat) (h : schedule_scan tcb c n = some (r, d)) :
    (tcb d).isSome := by
  induction n generalizing c with
  | zero =>
    unfold schedule_scan at h
    cases ht : tcb c with
    | none =>
      rw [ht] at h
      cases h
    | some t =>
      rw [ht] at h
      simp only [] at h
      split at h
      · simp only [Option.some.injEq, Prod.mk.injEq] at h
        rw [← h.2, ht]
        rfl
      · simp only [Option.some.injEq, Prod.mk.injEq] at h
        rw [← h.2]
        exact (hclosed c t ht).1
  | succ n ih =>
    unfold schedule_scan at h
    cases ht : tcb c with
    | none =>
      rw [ht] at h
      cases h
    | some t =>
      rw [ht] at h
      simp only [] at h
      split at h
      · simp only [Option.some.injEq, Prod.mk.injEq] at h
        rw [← h.2, ht]
        rfl
      · exact ih t.next h

/-- The function `schedule` changes statuses and the cursor only. -/
theorem schedule_same_links (s s1 : Sched) (r : Resume) (h : schedule s = some (r, s1)) :
    s1.next_ptr = s.next_ptr ∧ s1.num_thread_total = s.num_thread_total ∧
    s1.num_running_threads = s.num_running_threads ∧
    s1.is_first_call = s.is_first_call ∧
    (∀ p, (s1.tcb p).map (fun t => (t.ID, t.retval, t.next, t.prev)) =
      (s.tcb p).map (fun t => (t.ID, t.retval, t.next, t.prev))) ∧
    s1.current_thread.isSome ∧
    ((∀ p t, s.tcb p = some t → (s.tcb t.next).isSome ∧ (s.tcb t.prev).isSome) →
      ∀ c, s1.current_thread = some c → (s.tcb c).isSome) := by
  unfold schedule at h
  cases hcur : s.current_thread with
  | none =>
    rw [hcur] at h
    cases h
  | some cur =>
    rw [hcur] at h
    simp only [] at h
    cases ht : s.tcb cur with
    | none =>
      rw [ht] at h
      cases h
    | some t =>
      rw [ht] at h
      simp only [] at h
      have ha : (schedule_mark s cur t).next_ptr = s.next_ptr ∧
          (schedule_mark s cur t).num_thread_total = s.num_thread_total ∧
          (schedule_mark s cur t).num_running_threads = s.num_running_threads ∧
          (schedule_mark s cur t).is_first_call = s.is_first_call ∧
          (∀ p, ((schedule_mark s cur t).tcb p).map (fun t => (t.ID, t.retval, t.next, t.prev)) =
            (s.tcb p).map (fun t => (t.ID, t.retval, t.next, t.prev))) := by
        unfold schedule_mark
        split
        · refine ⟨rfl, rfl, rfl, rfl, ?_⟩
          intro p
          by_cases hp : p = cur
          · subst hp
            simp only [Function.update_same, ht, Option.map_some']
          · simp only [Function.update_noteq hp]
        · exact ⟨rfl, rfl, rfl, rfl, fun _ => rfl⟩
      generalize schedule_mark s cur t = sa at h ha
      obtain ⟨a1, a2, a3, a4, a5⟩ := ha
      have hsome : ∀ p, (sa.tcb p).isSome = (s.tcb p).isSome := by
        intro p
        have := congrArg Option.isSome (a5 p)
        simpa only [Option.isSome_map'] using this
      have hlinks : ∀ p u, sa.tcb p = some u → ∃ u0, s.tcb p = some u0 ∧ u.next = u0.next ∧
          u.prev = u0.prev := by
        intro p u hu
        have h2 := a5 p
        rw [hu] at h2
        cases hsp : s.tcb p with
        | none =>
          rw [hsp] at h2
          cases h2
        | some u0 =>
          rw [hsp] at h2
          simp only [Option.map_some', Option.some.injEq, Prod.mk.injEq] at h2
          exact ⟨u0, rfl, h2.2.2.1, h2.2.2.2⟩
      cases hscan : schedule_scan sa.tcb t.next MAX_THREADS with
      | none =>
        rw [hscan] at h
        cases h
      | some rd =>
        obtain ⟨r1, d⟩ := rd
        rw [hscan] at h
        have halloc : (∀ p t, s.tcb p = some t → (s.tcb t.next).isSome ∧ (s.tcb t.prev).isSome) →
            (s.tcb d).isSome := by
          intro hclosed
          rw [← hsome]
          apply schedule_scan_alloc sa.tcb _ MAX_THREADS t.next r1 d hscan
          intro p u hu
          obtain ⟨u0, hu0, e1, e2⟩ := hlinks p u hu
          rw [e1, e2, hsome, hsome]
          exact hclosed p u0 hu0
        cases r1 with
        | returned =>
          simp only [Option.some.injEq, Prod.mk.injEq] at h
          rw [← h.2]
          exact ⟨a1, a2, a3, a4, a5, rfl, fun hclosed c hc => by
            simp only [Option.some.injEq] at hc
            rw [← hc]
            exact halloc hclosed⟩
        | switched =>
          simp only [] at h
          cases hu : sa.tcb d with
          | none =>
            rw [hu] at h
            cases h
          | some u =>
            rw [hu] at h
            simp only [Option.some.injEq, Prod.mk.injEq] at h
            rw [← h.2]
            refine ⟨a1, a2, a3, a4, ?_, rfl, fun hclosed c hc => by
              simp only [Option.some.injEq] at hc
              rw [← hc]
              exact halloc hclosed⟩
            intro p
            by_cases hp : p = d
            · subst hp
              rw [← a5 p]
              simp only [Function.update_same, hu, Option.map_some']
            · simp only [Function.update_noteq hp]
              exact a5 p

theorem schedule_inv {s s1 : Sched} (h : RingInv s) (r : Resume)
    (hs : schedule s = some (r, s1)) : RingInv s1 := by
  obtain ⟨a1, a2, _, a4, a5, a6, a7⟩ := schedule_same_links s s1 r hs
  refine h.of_same_links a1 a2 a4 ?_ (a7 h.closed) (fun _ => a6)
  intro p
  have := congrArg (Option.map (fun x : Nat × Nat × Nat × Nat => (x.1, x.2.2.1, x.2.2.2))) (a5 p)
  simpa only [Option.map_map] using this

theorem pthread_exit_inv {s s1 : Sched} (h : RingInv s) (v : Nat)
    (hs : pthread_exit s v = some (some s1)) :
    RingInv s1 ∧ s1.num_thread_total = s.num_thread_total ∧
      s1.is_first_call = s.is_first_call := by
  unfold pthread_exit at hs
  cases hcur : s.current_thread with
  | none =>
    rw [hcur] at hs
    cases hs
  | some cur =>
    rw [hcur] at hs
    simp only [] at hs
    cases ha : ({ s with
          current_thread := some cur
          num_running_threads := s.num_running_threads - 1 } : Sched).assign cur
        (fun t => { t with status := thread_status.TS_EXITED, retval := v }) with
    | none =>
      rw [ha] at hs
      cases hs
    | some s2 =>
      rw [ha] at hs
      simp only [] at hs
      obtain ⟨t, ht, hs2⟩ := assign_some _ _ _ _ ha
      simp only [] at ht
      have hinv2 : RingInv s2 := by
        rw [hs2]
        refine h.of_same_links rfl rfl rfl ?_ ?_ (fun _ => rfl)
        · intro p
          by_cases hp : p = cur
          · subst hp
            simp only [Function.update_same, ht, Option.map_some']
          · simp only [Function.update_noteq hp]
        · intro c hc
          simp only [Option.some.injEq] at hc
          rw [← hc]
          exact h.cursor cur hcur
      cases hsch : schedule s2 with
      | none =>
        rw [hsch] at hs
        cases hs
      | some rs =>
        obtain ⟨r, s3⟩ := rs
        rw [hsch] at hs
        cases r with
        | returned => cases hs
        | switched =>
          simp only [Option.some.injEq] at hs
          subst hs
          obtain ⟨_, a2, _, a4, _⟩ := schedule_same_links s2 s3 _ hsch
          refine ⟨schedule_inv hinv2 _ hsch, ?_, ?_⟩
          · rw [a2, hs2]
          · rw [a4, hs2]

theorem join_wait_inv {s s1 : Sched} (h : RingInv s) (temp : Nat) (o : JoinOutcome)
    (hs : join_wait s temp = some (o, s1)) :
    RingInv s1 ∧ s1.num_thread_total = s.num_thread_total ∧
      s1.is_first_call = s.is_first_call := by
  unfold join_wait at hs
  cases ht : s.tcb temp with
  | none =>
    rw [ht] at hs
    cases hs
  | some t =>
    rw [ht] at hs
    simp only [] at hs
    split at hs
    · cases hsch : schedule s with
      | none =>
        rw [hsch] at hs
        cases hs
      | some rs =>
        obtain ⟨r, s3⟩ := rs
        rw [hsch] at hs
        simp only [Option.some.injEq, Prod.mk.injEq] at hs
        rw [← hs.2]
        obtain ⟨_, a2, _, a4, _⟩ := schedule_same_links s s3 _ hsch
        exact ⟨schedule_inv h _ hsch, a2, a4⟩
    · simp only [Option.some.injEq, Prod.mk.injEq] at hs
      rw [← hs.2]
      exact ⟨h, rfl, rfl⟩

theorem pthread_join_inv {s s1 : Sched} (h : RingInv s) (fuel thread : Nat) (o : JoinOutcome)
    (hs : pthread_join fuel s thread = some (o, s1)) :
    RingInv s1 ∧ s1.num_thread_total = s.num_thread_total ∧
      s1.is_first_call = s.is_first_call := by
  unfold pthread_join at hs
  cases hcur : s.current_thread with
  | none =>
    rw [hcur] at hs
    cases hs
  | some cur =>
    rw [hcur] at hs
    simp only [] at hs
    cases hf : join_find s.tcb thread cur fuel with
    | none =>
      rw [hf] at hs
      cases hs
    | some temp =>
      rw [hf] at hs
      exact join_wait_inv h temp o hs

theorem scheduler_init_inv {s : Sched} (h : RingInv s) (hf : s.is_first_call = true) :
    RingInv (scheduler_init { s with is_first_call := false }) ∧
    (scheduler_init { s with is_first_call := false }).num_thread_total =
      s.num_thread_total + 1 ∧
    (scheduler_init { s with is_first_call := false }).is_first_call = false := by
  obtain ⟨h1, h2⟩ := h.fresh hf
  have htot := h.total
  have hnone : ∀ p, s.tcb p = none := by
    intro p
    cases hp : s.tcb p with
    | none => rfl
    | some t =>
      have := h.ids p t hp
      omega
  refine ⟨?_, rfl, rfl⟩
  unfold scheduler_init
  constructor
  · intro p t hp
    simp only [] at hp ⊢
    by_cases hpn : p = s.next_ptr
    · rw [hpn, Function.update_same] at hp
      cases hp
      simp only []
      omega
    · rw [Function.update_noteq hpn, hnone] at hp
      cases hp
  · simp only []
    omega
  · intro p t hp
    simp only [] at hp ⊢
    by_cases hpn : p = s.next_ptr
    · rw [hpn, Function.update_same] at hp
      cases hp
      simp only [Function.update_same]
      exact ⟨rfl, rfl⟩
    · rw [Function.update_noteq hpn, hnone] at hp
      cases hp
  · intro c hc
    simp only [Option.some.injEq] at hc ⊢
    rw [← hc, Function.update_same]
    rfl
  · intro _
    refine ⟨rfl, ?_⟩
    simp only []
    rw [show (1 : Nat) = s.next_ptr from h1.symm, Function.update_same]
    rfl
  · intro hc
    cases hc

theorem pthread_create_link_inv {s : Sched} (h : RingInv s) (hf : s.is_first_call = false) :
    ∃ s1, pthread_create_link s = some (0, s1, some s.num_thread_total) ∧ RingInv s1 ∧
      s1.num_thread_total = s.num_thread_total + 1 ∧ s1.is_first_call = false := by
  obtain ⟨hcs, _⟩ := h.started hf
  obtain ⟨cur, hcur⟩ := Option.isSome_iff_exists.1 hcs
  obtain ⟨c, hc⟩ := Option.isSome_iff_exists.1 (h.cursor cur hcur)
  obtain ⟨pt, hpt⟩ := Option.isSome_iff_exists.1 (h.closed cur c hc).2
  have hlt1 := (h.ids cur c hc).2
  have hlt2 := (h.ids c.prev pt hpt).2
  obtain ⟨s1, b1, b2, b3, _, b5, b6, b7, b8, b9⟩ :=
    pthread_create_link_ok s cur c pt hcur hc hpt (by omega) (by omega)
  have hsome : ∀ q, q ≠ s.next_ptr → (s1.tcb q).isSome = (s.tcb q).isSome := by
    intro q hq
    cases hsq : s.tcb q with
    | none => rw [b9 q hq hsq]
    | some t => rw [b8 q t hq hsq]; rfl
  have halloc : ∀ q, (s.tcb q).isSome → (s1.tcb q).isSome := by
    intro q hq
    have hne : q ≠ s.next_ptr := by
      obtain ⟨t, ht⟩ := Option.isSome_iff_exists.1 hq
      have := (h.ids q t ht).2
      omega
    rw [hsome q hne]
    exact hq
  have hnew : (s1.tcb s.next_ptr).isSome := by
    rw [b7]
    rfl
  refine ⟨s1, b1, ?_, b3, by rw [b6, hf]⟩
  constructor
  · intro p t hp
    by_cases hpn : p = s.next_ptr
    · rw [hpn, b7] at hp
      cases hp
      have := h.total
      simp only []
      omega
    · cases hsp : s.tcb p with
      | none =>
        rw [b9 p hpn hsp] at hp
        cases hp
      | some t0 =>
        rw [b8 p t0 hpn hsp] at hp
        cases hp
        have := h.ids p t0 hsp
        simp only []
        omega
  · rw [b2, b3]
    have := h.total
    omega
  · intro p t hp
    by_cases hpn : p = s.next_ptr
    · rw [hpn, b7] at hp
      cases hp
      simp only []
      exact ⟨halloc cur (by rw [hc]; rfl), halloc c.prev (by rw [hpt]; rfl)⟩
    · cases hsp : s.tcb p with
      | none =>
        rw [b9 p hpn hsp] at hp
        cases hp
      | some t0 =>
        rw [b8 p t0 hpn hsp] at hp
        cases hp
        simp only []
        obtain ⟨c1, c2⟩ := h.closed p t0 hsp
        constructor
        · split
          · exact hnew
          · exact halloc _ c1
        · split
          · exact hnew
          · exact halloc _ c2
  · intro c1 hc1
    rw [b5] at hc1
    exact halloc c1 (h.cursor c1 hc1)
  · intro _
    rw [b5]
    exact ⟨hcs, halloc 1 (h.started hf).2⟩
  · intro hc1
    rw [b6, hf] at hc1
    cases hc1

/-- The function `pthread_create` keeps the control blocks consistent; it
stores the identity `num_thread_total` (counted after `scheduler_init` on the
first call) exactly when it returns 0, and then it raises the counter by one. -/
theorem pthread_create_inv {s s1 : Sched} (h : RingInv s) (r : Int) (id : Option Nat)
    (hs : pthread_create s = some (r, s1, id)) :
    RingInv s1 ∧ s1.is_first_call = false ∧
    (id = none ∧ s1.num_thread_total =
        (if s.is_first_call then s.num_thread_total + 1 else s.num_thread_total) ∨
      id = some (if s.is_first_call then s.num_thread_total + 1 else s.num_thread_total) ∧
        s1.num_thread_total =
          (if s.is_first_call then s.num_thread_total + 1 else s.num_thread_total) + 1) := by
  obtain ⟨s0, hs0⟩ : ∃ s0 : Sched, s0 =
      (if s.is_first_call then scheduler_init { s with is_first_call := false } else s) :=
    ⟨_, rfl⟩
  have h0 : RingInv s0 ∧ s0.is_first_call = false ∧ s0.num_thread_total =
      (if s.is_first_call then s.num_thread_total + 1 else s.num_thread_total) := by
    rw [hs0]
    cases hf : s.is_first_call with
    | true =>
      obtain ⟨c1, c2, c3⟩ := scheduler_init_inv h hf
      exact ⟨c1, c3, c2⟩
    | false => exact ⟨h, hf, rfl⟩
  obtain ⟨hinv0, hf0, htot0⟩ := h0
  unfold pthread_create at hs
  simp only [] at hs
  rw [← hs0] at hs
  split at hs
  · obtain ⟨s2, c1, c2, c3, c4⟩ := pthread_create_link_inv hinv0 hf0
    rw [c1] at hs
    simp only [Option.some.injEq, Prod.mk.injEq] at hs
    obtain ⟨_, e2, e3⟩ := hs
    subst e2
    refine ⟨c2, c4, Or.inr ⟨?_, ?_⟩⟩
    · rw [← e3, htot0]
    · rw [c3, htot0]
  · simp only [Option.some.injEq, Prod.mk.injEq] at hs
    obtain ⟨_, e2, e3⟩ := hs
    subst e2
    exact ⟨hinv0, hf0, Or.inl ⟨e3.symm, htot0⟩⟩

theorem step_ringInv {s s1 : Sched} (h : RingInv s) (o : Op) (hs : s.step o = some s1) :
    RingInv s1 := by
  cases o with
  | create =>
    simp only [Sched.step, Option.map_eq_some'] at hs
    obtain ⟨⟨r, s2, id⟩, h1, h2⟩ := hs
    simp only at h2
    subst h2
    exact (pthread_create_inv h r id h1).1
  | sched =>
    simp only [Sched.step, Option.map_eq_some'] at hs
    obtain ⟨⟨r, s2⟩, h1, h2⟩ := hs
    simp only at h2
    subst h2
    exact schedule_inv h r h1
  | exit v =>
    simp only [Sched.step] at hs
    cases he : pthread_exit s v with
    | none =>
      rw [he] at hs
      cases hs
    | some r =>
      rw [he] at hs
      simp only [Option.some_bind] at hs
      subst hs
      exact (pthread_exit_inv h v he).1
  | join thread =>
    simp only [Sched.step, Option.map_eq_some'] at hs
    obtain ⟨⟨r, s2⟩, h1, h2⟩ := hs
    simp only at h2
    subst h2
    exact (pthread_join_inv h _ thread r h1).1

theorem run_ringInv (ops : List Op) {s s1 : Sched} (h : RingInv s)
    (hs : s.run ops = some s1) : RingInv s1 := by
  induction ops generalizing s with
  | nil =>
    simp only [Sched.run, Option.some.injEq] at hs
    rw [← hs]
    exact h
  | cons o os ih =>
    rw [Sched.run] at hs
    cases hst : s.step o with
    | none =>
      rw [hst] at hs
      cases hs
    | some s2 =>
      rw [hst] at hs
      exact ih (step_ringInv h o hst) hs

theorem reachable_ringInv {s : Sched} (hs : s.Reachable) : RingInv s := by
  obtain ⟨ops, h⟩ := hs
  exact run_ringInv ops init_ringInv h

/-! ## Identities -/

/-- The identities of the witness: 1, 2 and 3. -/
theorem three_created_ids : three_created.1 = [1, 2, 3] := by decide

/-! ## Joining an identity that no control block carries -/

theorem two_threads_reachable : two_threads.Reachable := ⟨[Op.create], rfl⟩

theorem linked_congr (tcb1 tcb : Nat → Option thread_control_block)
    (h : ∀ p, (tcb1 p).map (fun t => (t.ID, t.retval, t.next, t.prev)) =
      (tcb p).map (fun t => (t.ID, t.retval, t.next, t.prev))) (a b : Nat) :
    linked tcb1 a b ↔ linked tcb a b := by
  have h1 : ∀ p, (tcb1 p).map (fun t => t.next) = (tcb p).map (fun t => t.next) := by
    intro p
    have := congrArg (Option.map (fun x : Nat × Nat × Nat × Nat => x.2.2.1)) (h p)
    simpa only [Option.map_map] using this
  have h2 : ∀ p, (tcb1 p).map (fun t => t.prev) = (tcb p).map (fun t => t.prev) := by
    intro p
    have := congrArg (Option.map (fun x : Nat × Nat × Nat × Nat => x.2.2.2)) (h p)
    simpa only [Option.map_map] using this
  unfold linked
  rw [h1, h2]

theorem chain_congr (tcb1 tcb : Nat → Option thread_control_block)
    (h : ∀ p, (tcb1 p).map (fun t => (t.ID, t.retval, t.next, t.prev)) =
      (tcb p).map (fun t => (t.ID, t.retval, t.next, t.prev))) (a : Nat) (l : List Nat) :
    List.Chain (linked tcb1) a l ↔ List.Chain (linked tcb) a l :=
  List.Chain.iff (fun a b => linked_congr tcb1 tcb h a b)

/-- Every control block of a chain that ends at `z` has its successor in the
chain. -/
theorem chain_next_mem (tcb : Nat → Option thread_control_block) (l : List Nat) (a z : Nat)
    (h : List.Chain (linked tcb) a (l ++ [z])) (p : Nat) (hp : p ∈ a :: l) :
    ∃ q, q ∈ l ++ [z] ∧ linked tcb p q := by
  induction l generalizing a with
  | nil =>
    simp only [List.mem_singleton] at hp
    subst hp
    simp only [List.nil_append, List.chain_singleton] at h
    exact ⟨z, by simp, h⟩
  | cons b l ih =>
    simp only [List.cons_append, List.chain_cons] at h
    rcases List.mem_cons.1 hp with hp | hp
    · subst hp
      exact ⟨b, by simp, h.1⟩
    · obtain ⟨q, hq, hl⟩ := ih b h.2 hp
      exact ⟨q, by simp only [List.cons_append, List.mem_cons]; right; exact hq, hl⟩

/-- The ring can be read from any of its control blocks. -/
theorem ring_rotate (tcb : Nat → Option thread_control_block) (c d : Nat) (rest : List Nat)
    (hch : List.Chain (linked tcb) c (rest ++ [c])) (hd : d ∈ c :: rest) :
    ∃ rest1, List.Perm (d :: rest1) (c :: rest) ∧ List.Chain (linked tcb) d (rest1 ++ [d]) := by
  rcases List.mem_cons.1 hd with hd | hd
  · subst hd
    exact ⟨rest, List.Perm.refl _, hch⟩
  · obtain ⟨l1, l2, hl⟩ := List.append_of_mem hd
    subst hl
    refine ⟨l2 ++ c :: l1, ?_, ?_⟩
    · rw [List.perm_iff_count]
      intro a
      simp only [List.count_cons, List.count_append]
      omega
    · have h1 : List.Chain (linked tcb) c (l1 ++ d :: (l2 ++ [c])) := by
        simpa only [List.append_assoc, List.cons_append] using hch
      obtain ⟨h2, h3⟩ := List.chain_split.1 h1
      have : l2 ++ c :: l1 ++ [d] = l2 ++ c :: (l1 ++ [d]) := by simp
      rw [this]
      exact List.chain_split.2 ⟨h3, h2⟩

/-- Every control block of a chain that starts at `a` has its predecessor in the
chain. -/
theorem chain_prev_mem (tcb : Nat → Option thread_control_block) (l : List Nat) (a z : Nat)
    (h : List.Chain (linked tcb) a (l ++ [z])) (p : Nat) (hp : p ∈ l ++ [z]) :
    ∃ q, q ∈ a :: l ∧ linked tcb q p := by
  induction l generalizing a with
  | nil =>
    simp only [List.nil_append, List.mem_singleton] at hp
    subst hp
    simp only [List.nil_append, List.chain_singleton] at h
    exact ⟨a, by simp, h⟩
  | cons b l ih =>
    simp only [List.cons_append, List.chain_cons] at h
    simp only [List.cons_append] at hp
    rcases List.mem_cons.1 hp with hp | hp
    · subst hp
      exact ⟨a, by simp, h.1⟩
    · obtain ⟨q, hq, hl⟩ := ih b h.2 hp
      exact ⟨q, List.mem_cons_of_mem _ hq, hl⟩

/-- In a ring read as a list, `next` and `prev` of a control block are
addresses of control blocks. -/
theorem RingList.closed {s : Sched} {c : Nat} {rest : List Nat} (h : RingList s c rest)
    (p : Nat) (t : thread_control_block) (ht : s.tcb p = some t) :
    (s.tcb t.next).isSome ∧ (s.tcb t.prev).isSome := by
  have hp : p ∈ c :: rest := (h.all p).1 (by rw [ht]; rfl)
  constructor
  · obtain ⟨q, hq, hl⟩ := chain_next_mem s.tcb rest c c h.chain p hp
    have h1 := hl.1
    rw [ht] at h1
    simp only [Option.map_some', Option.some.injEq] at h1
    rw [h1]
    apply (h.all q).2
    rcases List.mem_append.1 hq with hq | hq
    · exact List.mem_cons_of_mem _ hq
    · simp only [List.mem_singleton] at hq
      rw [hq]
      exact List.mem_cons_self _ _
  · have hp2 : p ∈ rest ++ [c] := by
      rcases List.mem_cons.1 hp with hp | hp
      · rw [hp]
        simp
      · exact List.mem_append_left _ hp
    obtain ⟨q, hq, hl⟩ := chain_prev_mem s.tcb rest c c h.chain p hp2
    have h1 := hl.2
    rw [ht] at h1
    simp only [Option.map_some', Option.some.injEq] at h1
    rw [h1]
    exact (h.all q).2 hq

/-- After `schedule`, a control block with status `TS_RUNNING` is the one at
the cursor, or it is another block than the caller that had this status
before. -/
theorem schedule_running (s s1 : Sched) (r : Resume) (h : schedule s = some (r, s1))
    (cur : Nat) (hcur : s.current_thread = some cur) (p : Nat) (t1 : thread_control_block)
    (h1 : s1.tcb p = some t1) (h2 : t1.status = thread_status.TS_RUNNING) :
    s1.current_thread = some p ∨
      (p ≠ cur ∧ ∃ t0, s.tcb p = some t0 ∧ t0.status = thread_status.TS_RUNNING) := by
  unfold schedule at h
  rw [hcur] at h
  simp only [] at h
  cases ht : s.tcb cur with
  | none =>
    rw [ht] at h
    cases h
  | some t =>
    rw [ht] at h
    simp only [] at h
    have ha : ∀ u, (schedule_mark s cur t).tcb p = some u →
        u.status = thread_status.TS_RUNNING → p ≠ cur ∧ s.tcb p = some u := by
      intro u hu hst
      unfold schedule_mark at hu
      split at hu
      · by_cases hp : p = cur
        · subst hp
          simp only [Function.update_same, Option.some.injEq] at hu
          rw [← hu] at hst
          cases hst
        · simp only [Function.update_noteq hp] at hu
          exact ⟨hp, hu⟩
      · rename_i hex
        simp only [ne_eq, not_not] at hex
        by_cases hp : p = cur
        · subst hp
          rw [ht] at hu
          simp only [Option.some.injEq] at hu
          rw [← hu, hex] at hst
          cases hst
        · exact ⟨hp, hu⟩
    generalize schedule_mark s cur t = sa at h ha
    cases hscan : schedule_scan sa.tcb t.next MAX_THREADS with
    | none =>
      rw [hscan] at h
      cases h
    | some rd =>
      obtain ⟨r1, d⟩ := rd
      rw [hscan] at h
      cases r1 with
      | returned =>
        simp only [Option.some.injEq, Prod.mk.injEq] at h
        rw [← h.2] at h1
        simp only [] at h1
        obtain ⟨b1, b2⟩ := ha t1 h1 h2
        exact Or.inr ⟨b1, t1, b2, h2⟩
      | switched =>
        simp only [] at h
        cases hu : sa.tcb d with
        | none =>
          rw [hu] at h
          cases h
        | some u =>
          rw [hu] at h
          simp only [Option.some.injEq, Prod.mk.injEq] at h
          by_cases hp : p = d
          · left
            rw [← h.2, hp]
          · rw [← h.2] at h1
            simp only [Function.update_noteq hp] at h1
            obtain ⟨b1, b2⟩ := ha t1 h1 h2
            exact Or.inr ⟨b1, t1, b2, h2⟩

/-- The function `schedule` keeps the ring and moves the cursor to one of its
control blocks. -/
theorem schedule_ringList {s s1 : Sched} {c : Nat} {rest : List Nat} (h : RingList s c rest)
    (r : Resume) (hs : schedule s = some (r, s1)) :
    ∃ d rest1, RingList s1 d rest1 ∧ List.Perm (d :: rest1) (c :: rest) := by
  obtain ⟨_, _, _, _, a5, a6, a7⟩ := schedule_same_links s s1 r hs
  obtain ⟨d, hd⟩ := Option.isSome_iff_exists.1 a6
  have hdm : d ∈ c :: rest := (h.all d).1 (a7 h.closed d hd)
  obtain ⟨rest1, hperm, hch⟩ := ring_rotate s.tcb c d rest h.chain hdm
  have hsome : ∀ p, (s1.tcb p).isSome = (s.tcb p).isSome := by
    intro p
    have := congrArg Option.isSome (a5 p)
    simpa only [Option.isSome_map'] using this
  have hnd : (d :: rest1).Nodup := hperm.nodup_iff.2 h.nodup
  refine ⟨d, rest1, ⟨hd, hnd, ?_, ?_, ?_⟩, hperm⟩
  · intro p
    rw [hsome, h.all, hperm.mem_iff]
  · exact (chain_congr s1.tcb s.tcb a5 d _).2 hch
  · intro p t hp ht hrun
    rcases schedule_running s s1 r hs c h.cursor p t ht hrun with h3 | ⟨h3, t0, h4, h5⟩
    · rw [hd] at h3
      simp only [Option.some.injEq] at h3
      rw [← h3] at hp
      exact (List.nodup_cons.1 hnd).1 hp
    · have hpm : p ∈ c :: rest := (h.all p).1 (by rw [h4]; rfl)
      rcases List.mem_cons.1 hpm with h6 | h6
      · exact h3 h6
      · exact h.idle p t0 h6 h4 h5

theorem pthread_exit_ringList {s s1 : Sched} {c : Nat} {rest : List Nat}
    (h : RingList s c rest) (v : Nat) (hs : pthread_exit s v = some (some s1)) :
    ∃ d rest1, RingList s1 d rest1 ∧ List.Perm (d :: rest1) (c :: rest) := by
  unfold pthread_exit at hs
  rw [h.cursor] at hs
  simp only [] at hs
  cases ha : ({ s with
        current_thread := some c
        num_running_threads := s.num_running_threads - 1 } : Sched).assign c
      (fun t => { t with status := thread_status.TS_EXITED, retval := v }) with
  | none =>
    rw [ha] at hs
    cases hs
  | some s2 =>
    rw [ha] at hs
    simp only [] at hs
    obtain ⟨t, ht, hs2⟩ := assign_some _ _ _ _ ha
    simp only [] at ht
    have hl : ∀ p, (s2.tcb p).map (fun t => (t.next, t.prev)) =
        (s.tcb p).map (fun t => (t.next, t.prev)) := by
      intro p
      rw [hs2]
      by_cases hp : p = c
      · subst hp
        simp only [Function.update_same, ht, Option.map_some']
      · simp only [Function.update_noteq hp]
    have hl1 : ∀ p, (s2.tcb p).map (fun t => t.next) = (s.tcb p).map (fun t => t.next) := by
      intro p
      have := congrArg (Option.map (fun x : Nat × Nat => x.1)) (hl p)
      simpa only [Option.map_map] using this
    have hl2 : ∀ p, (s2.tcb p).map (fun t => t.prev) = (s.tcb p).map (fun t => t.prev) := by
      intro p
      have := congrArg (Option.map (fun x : Nat × Nat => x.2)) (hl p)
      simpa only [Option.map_map] using this
    have hsome : ∀ p, (s2.tcb p).isSome = (s.tcb p).isSome := by
      intro p
      have := congrArg Option.isSome (hl p)
      simpa only [Option.isSome_map'] using this
    have h2 : RingList s2 c rest := by
      refine ⟨by rw [hs2], h.nodup, ?_, ?_, ?_⟩
      · intro p
        rw [hsome]
        exact h.all p
      · refine (List.Chain.iff (fun a b => ?_)).2 h.chain
        unfold linked
        rw [hl1, hl2]
      · intro p u hp hu
        have hpc : p ≠ c := by
          intro e
          rw [e] at hp
          exact (List.nodup_cons.1 h.nodup).1 hp
        rw [hs2] at hu
        simp only [Function.update_noteq hpc] at hu
        exact h.idle p u hp hu
    cases hsch : schedule s2 with
    | none =>
      rw [hsch] at hs
      cases hs
    | some rs =>
      obtain ⟨r, s3⟩ := rs
      rw [hsch] at hs
      cases r with
      | returned => cases hs
      | switched =>
        simp only [Option.some.injEq] at hs
        subst hs
        exact schedule_ringList h2 _ hsch

theorem pthread_join_ringList {s s1 : Sched} {c : Nat} {rest : List Nat}
    (h : RingList s c rest) (fuel thread : Nat) (o : JoinOutcome)
    (hs : pthread_join fuel s thread = some (o, s1)) :
    ∃ d rest1, RingList s1 d rest1 ∧ List.Perm (d :: rest1) (c :: rest) := by
  unfold pthread_join at hs
  rw [h.cursor] at hs
  simp only [] at hs
  cases hf : join_find s.tcb thread c fuel with
  | none =>
    rw [hf] at hs
    cases hs
  | some temp =>
    rw [hf] at hs
    simp only [] at hs
    unfold join_wait at hs
    cases ht : s.tcb temp with
    | none =>
      rw [ht] at hs
      cases hs
    | some t =>
      rw [ht] at hs
      simp only [] at hs
      split at hs
      · cases hsch : schedule s with
        | none =>
          rw [hsch] at hs
          cases hs
        | some rs =>
          obtain ⟨r, s3⟩ := rs
          rw [hsch] at hs
          simp only [Option.some.injEq, Prod.mk.injEq] at hs
          rw [← hs.2]
          exact schedule_ringList h _ hsch
      · simp only [Option.some.injEq, Prod.mk.injEq] at hs
        rw [← hs.2]
        exact ⟨c, rest, h, List.Perm.refl _⟩

/-- A chain that ends at `c` becomes a chain that ends at `new` when the links
inside it are kept and every block linked to `c` is linked to `new`. -/
theorem chain_redirect (R R1 : Nat → Nat → Prop) (c new : Nat) (rest : List Nat) (a : Nat)
    (h : List.Chain R a (rest ++ [c]))
    (h1 : ∀ x y, x ∈ a :: rest → y ∈ rest → R x y → R1 x y)
    (h2 : ∀ x, x ∈ a :: rest → R x c → R1 x new) :
    List.Chain R1 a (rest ++ [new]) := by
  induction rest generalizing a with
  | nil =>
    simp only [List.nil_append, List.chain_singleton] at h ⊢
    exact h2 a (List.mem_cons_self _ _) h
  | cons b l ih =>
    simp only [List.cons_append, List.chain_cons] at h ⊢
    refine ⟨h1 a b (List.mem_cons_self _ _) (List.mem_cons_self _ _) h.1, ?_⟩
    apply ih b h.2
    · intro x y hx hy hr
      exact h1 x y (List.mem_cons_of_mem _ hx) (List.mem_cons_of_mem _ hy) hr
    · intro x hx hr
      exact h2 x (List.mem_cons_of_mem _ hx) hr

/-- The linking branch of `pthread_create` puts the new control block at
the end of the ring read from the cursor, that is, just before the cursor. -/
theorem pthread_create_link_ringList {s : Sched} {c : Nat} {rest : List Nat}
    (hinv : RingInv s) (h : RingList s c rest) :
    ∃ s1, pthread_create_link s = some (0, s1, some s.num_thread_total) ∧
      RingList s1 c (rest ++ [s.next_ptr]) ∧
      s1.next_ptr = s.next_ptr + 1 ∧ s1.num_thread_total = s.num_thread_total + 1 ∧
      s1.num_running_threads = s.num_running_threads + 1 ∧
      s1.is_first_call = s.is_first_call ∧
      (s1.tcb s.next_ptr).map (fun t => (t.ID, t.status)) =
        some (s.num_thread_total, thread_status.TS_READY) ∧
      ∀ q, q ≠ s.next_ptr → (s1.tcb q).map (fun t => (t.ID, t.status)) =
        (s.tcb q).map (fun t => (t.ID, t.status)) := by
  obtain ⟨tc, hc⟩ := Option.isSome_iff_exists.1 ((h.all c).2 (List.mem_cons_self _ _))
  obtain ⟨pt, hpt⟩ := Option.isSome_iff_exists.1 (h.closed c tc hc).2
  have hlt1 := (hinv.ids c tc hc).2
  have hlt2 := (hinv.ids tc.prev pt hpt).2
  obtain ⟨s1, b1, b2, b3, b4, b5, b6, b7, b8, b9⟩ :=
    pthread_create_link_ok s c tc pt h.cursor hc hpt (by omega) (by omega)
  have hnew : ∀ p, p ∈ c :: rest → p ≠ s.next_ptr := by
    intro p hp e
    obtain ⟨u, hu⟩ := Option.isSome_iff_exists.1 ((h.all p).2 hp)
    have := (hinv.ids p u hu).2
    omega
  -- the block before the cursor
  obtain ⟨z, hz, hzl⟩ := chain_prev_mem s.tcb rest c c h.chain c (by simp)
  have hzp : tc.prev = z := by
    have := hzl.2
    rw [hc] at this
    simpa only [Option.map_some', Option.some.injEq] using this
  have hnext : ∀ x y, linked s.tcb x y → ∀ y2, linked s.tcb x y2 → y = y2 := by
    intro x y h1 y2 h2
    have := h1.1.symm.trans h2.1
    simpa only [Option.some.injEq] using this
  have hprev : ∀ x y, linked s.tcb x y → ∀ x2, linked s.tcb x2 y → x = x2 := by
    intro x y h1 x2 h2
    have := h1.2.symm.trans h2.2
    simpa only [Option.some.injEq] using this
  have hcr : c ∉ rest := (List.nodup_cons.1 h.nodup).1
  have hold : ∀ x y, x ∈ c :: rest → y ∈ rest → linked s.tcb x y → linked s1.tcb x y := by
    intro x y hx hy hl
    have hxz : x ≠ tc.prev := by
      intro e
      rw [hzp] at e
      rw [e] at hl
      have := hnext z y hl c hzl
      rw [this] at hy
      exact hcr hy
    have hyc : y ≠ c := fun e => hcr (e ▸ hy)
    obtain ⟨tx, htx⟩ := Option.isSome_iff_exists.1 ((h.all x).2 hx)
    obtain ⟨ty, hty⟩ := Option.isSome_iff_exists.1 ((h.all y).2 (List.mem_cons_of_mem _ hy))
    have e1 := b8 x tx (hnew x hx) htx
    have e2 := b8 y ty (hnew y (List.mem_cons_of_mem _ hy)) hty
    rw [if_neg hxz] at e1
    rw [if_neg hyc] at e2
    have l1 := hl.1
    have l2 := hl.2
    rw [htx] at l1
    rw [hty] at l2
    simp only [Option.map_some', Option.some.injEq] at l1 l2
    constructor
    · rw [e1]
      simp only [Option.map_some', Option.some.injEq]
      exact l1
    · rw [e2]
      simp only [Option.map_some', Option.some.injEq]
      exact l2
  have hlast : ∀ x, x ∈ c :: rest → linked s.tcb x c → linked s1.tcb x s.next_ptr := by
    intro x hx hl
    have hxz : x = z := hprev x c hl z hzl
    obtain ⟨tx, htx⟩ := Option.isSome_iff_exists.1 ((h.all x).2 hx)
    have e1 := b8 x tx (hnew x hx) htx
    rw [if_pos (by rw [hzp]; exact hxz)] at e1
    constructor
    · rw [e1]
      rfl
    · rw [b7]
      simp only [Option.map_some', Option.some.injEq]
      rw [hzp]
      exact hxz.symm
  have hback : linked s1.tcb s.next_ptr c := by
    have e1 := b8 c tc (hnew c (List.mem_cons_self _ _)) hc
    rw [if_pos rfl] at e1
    constructor
    · rw [b7]
      rfl
    · rw [e1]
      rfl
  have hsome : ∀ q, q ≠ s.next_ptr → (s1.tcb q).isSome = (s.tcb q).isSome := by
    intro q hq
    cases hsq : s.tcb q with
    | none => rw [b9 q hq hsq]
    | some u => rw [b8 q u hq hsq]; rfl
  have hkeep : ∀ q, q ≠ s.next_ptr → (s1.tcb q).map (fun t => (t.ID, t.status)) =
      (s.tcb q).map (fun t => (t.ID, t.status)) := by
    intro q hq
    cases hsq : s.tcb q with
    | none => rw [b9 q hq hsq]
    | some u => rw [b8 q u hq hsq]; rfl
  refine ⟨s1, b1, ⟨?_, ?_, ?_, ?_, ?_⟩, b2, b3, b4, b6, ?_, hkeep⟩
  · rw [b5]
    exact h.cursor
  · have : c :: (rest ++ [s.next_ptr]) = (c :: rest) ++ [s.next_ptr] := rfl
    rw [this, List.nodup_append]
    refine ⟨h.nodup, List.nodup_singleton _, ?_⟩
    intro a ha hb
    simp only [List.mem_singleton] at hb
    exact hnew a ha hb
  · intro p
    by_cases hp : p = s.next_ptr
    · subst hp
      rw [b7]
      simp
    · rw [hsome p hp, h.all]
      simp only [List.mem_cons, List.mem_append, List.mem_singleton, List.not_mem_nil,
        or_false]
      constructor
      · rintro (e | e)
        · exact Or.inl e
        · exact Or.inr (Or.inl e)
      · rintro (e | e | e)
        · exact Or.inl e
        · exact Or.inr e
        · exact (hp e).elim
  · have h3 := chain_redirect (linked s.tcb) (linked s1.tcb) c s.next_ptr rest c h.chain hold hlast
    have : rest ++ [s.next_ptr] ++ [c] = rest ++ s.next_ptr :: [c] := by simp
    rw [this]
    exact List.chain_split.2 ⟨h3, List.chain_singleton.2 hback⟩
  · intro p u hp hu hrun
    rcases List.mem_append.1 hp with hp | hp
    · have hpn := hnew p (List.mem_cons_of_mem _ hp)
      obtain ⟨u0, hu0⟩ := Option.isSome_iff_exists.1 ((h.all p).2 (List.mem_cons_of_mem _ hp))
      have e := hkeep p hpn
      rw [hu, hu0] at e
      simp only [Option.map_some', Option.some.injEq, Prod.mk.injEq] at e
      exact h.idle p u0 hp hu0 (e.2 ▸ hrun)
    · simp only [List.mem_singleton] at hp
      subst hp
      rw [b7] at hu
      simp only [Option.some.injEq] at hu
      rw [← hu] at hrun
      cases hrun
  · rw [b7]
    rfl

theorem scheduler_init_ringList {s : Sched} (h : RingInv s) (hf : s.is_first_call = true) :
    RingList (scheduler_init { s with is_first_call := false }) s.next_ptr [] := by
  have hnone : ∀ p, s.tcb p = none := by
    intro p
    cases hp : s.tcb p with
    | none => rfl
    | some t =>
      have := h.ids p t hp
      have := (h.fresh hf).1
      omega
  unfold scheduler_init
  refine ⟨rfl, List.nodup_singleton _, ?_, ?_, ?_⟩
  · intro p
    simp only [List.mem_singleton]
    by_cases hp : p = s.next_ptr
    · subst hp
      simp only [Function.update_same, Option.isSome_some]
    · simp only [Function.update_noteq hp, hnone, Option.isSome_none, hp]
      simp
  · simp only [List.nil_append, List.chain_singleton]
    unfold linked
    simp only [Function.update_same, Option.map_some', and_self]
  · intro p t hp
    cases hp

/-- A call of `pthread_create` leaves a ring that can be read as a list. -/
theorem pthread_create_ringList {s s1 : Sched} (hinv : RingInv s)
    (h : s.is_first_call = false → ∃ c rest, RingList s c rest) (r : Int) (id : Option Nat)
    (hs : pthread_create s = some (r, s1, id)) : ∃ c rest, RingList s1 c rest := by
  obtain ⟨s0, hs0⟩ : ∃ s0 : Sched, s0 =
      (if s.is_first_call then scheduler_init { s with is_first_call := false } else s) :=
    ⟨_, rfl⟩
  have h0 : RingInv s0 ∧ ∃ c rest, RingList s0 c rest := by
    rw [hs0]
    cases hf : s.is_first_call with
    | true =>
      exact ⟨(scheduler_init_inv hinv hf).1, _, _, scheduler_init_ringList hinv hf⟩
    | false => exact ⟨hinv, h hf⟩
  obtain ⟨hinv0, c, rest, hr0⟩ := h0
  unfold pthread_create at hs
  simp only [] at hs
  rw [← hs0] at hs
  split at hs
  · obtain ⟨s2, c1, c2, _⟩ := pthread_create_link_ringList hinv0 hr0
    rw [c1] at hs
    simp only [Option.some.injEq, Prod.mk.injEq] at hs
    obtain ⟨_, e2, _⟩ := hs
    subst e2
    exact ⟨c, _, c2⟩
  · simp only [Option.some.injEq, Prod.mk.injEq] at hs
    obtain ⟨_, e2, _⟩ := hs
    subst e2
    exact ⟨c, rest, hr0⟩

theorem step_ringList {s s1 : Sched} (hinv : RingInv s)
    (h : s.is_first_call = false → ∃ c rest, RingList s c rest) (o : Op)
    (hs : s.step o = some s1) : s1.is_first_call = false → ∃ c rest, RingList s1 c rest := by
  intro hf1
  cases o with
  | create =>
    simp only [Sched.step, Option.map_eq_some'] at hs
    obtain ⟨⟨r, s2, id⟩, h1, h2⟩ := hs
    simp only at h2
    subst h2
    exact pthread_create_ringList hinv h r id h1
  | sched =>
    simp only [Sched.step, Option.map_eq_some'] at hs
    obtain ⟨⟨r, s2⟩, h1, h2⟩ := hs
    simp only at h2
    subst h2
    obtain ⟨_, _, _, a4, _⟩ := schedule_same_links s s2 r h1
    obtain ⟨c, rest, hr⟩ := h (a4 ▸ hf1)
    obtain ⟨d, rest1, h3, _⟩ := schedule_ringList hr r h1
    exact ⟨d, rest1, h3⟩
  | exit v =>
    simp only [Sched.step] at hs
    cases he : pthread_exit s v with
    | none =>
      rw [he] at hs
      cases hs
    | some r =>
      rw [he] at hs
      simp only [Option.some_bind] at hs
      subst hs
      obtain ⟨_, _, a3⟩ := pthread_exit_inv hinv v he
      obtain ⟨c, rest, hr⟩ := h (a3 ▸ hf1)
      obtain ⟨d, rest1, h3, _⟩ := pthread_exit_ringList hr v he
      exact ⟨d, rest1, h3⟩
  | join thread =>
    simp only [Sched.step, Option.map_eq_some'] at hs
    obtain ⟨⟨r, s2⟩, h1, h2⟩ := hs
    simp only at h2
    subst h2
    obtain ⟨_, _, a3⟩ := pthread_join_inv hinv _ thread r h1
    obtain ⟨c, rest, hr⟩ := h (a3 ▸ hf1)
    obtain ⟨d, rest1, h3, _⟩ := pthread_join_ringList hr _ thread r h1
    exact ⟨d, rest1, h3⟩

theorem run_ringList (ops : List Op) {s s1 : Sched} (hinv : RingInv s)
    (h : s.is_first_call = false → ∃ c rest, RingList s c rest)
    (hs : s.run ops = some s1) : s1.is_first_call = false → ∃ c rest, RingList s1 c rest := by
  induction ops generalizing s with
  | nil =>
    simp only [Sched.run, Option.some.injEq] at hs
    rw [← hs]
    exact h
  | cons o os ih =>
    rw [Sched.run] at hs
    cases hst : s.step o with
    | none =>
      rw [hst] at hs
      cases hs
    | some s2 =>
      rw [hst] at hs
      exact ih (step_ringInv hinv o hst) (step_ringList hinv h o hst) hs

/-- In every reachable state in which the scheduler has been initialised the
control blocks form a ring that can be read as a list from the cursor. -/
theorem reachable_ringList {s : Sched} (hs : s.Reachable) (hf : s.is_first_call = false) :
    ∃ c rest, RingList s c rest := by
  obtain ⟨ops, h⟩ := hs
  exact run_ringList ops init_ringInv (fun h1 => by cases h1) h hf

/-! ## Round robin -/

/-- Successive calls of `pthread_create` that all return 0 append the new
control blocks to the ring read from the cursor, in the order of the calls. -/
theorem create_n_ringList (m : Nat) {s s1 : Sched} {c : Nat} {rest : List Nat} (ids : List Nat)
    (hinv : RingInv s) (hf : s.is_first_call = false) (h : RingList s c rest)
    (hc : create_n m s = some (ids, s1)) :
    RingInv s1 ∧ RingList s1 c (rest ++ List.range' s.next_ptr m) ∧
      ids = List.range' s.num_thread_total m := by
  induction m generalizing s rest ids with
  | zero =>
    simp only [create_n, Option.some.injEq, Prod.mk.injEq] at hc
    obtain ⟨e1, e2⟩ := hc
    subst e2
    simp only [List.range'_zero, List.append_nil]
    exact ⟨hinv, h, e1.symm⟩
  | succ m ih =>
    unfold create_n at hc
    have hpc : pthread_create s =
        if s.num_running_threads < MAX_THREADS then pthread_create_link s
        else some (-1, s, none) := by
      unfold pthread_create
      simp only [hf, Bool.false_eq_true, if_false]
    obtain ⟨s2, c1, c2, c3, c4, _, c6, _⟩ := pthread_create_link_ringList hinv h
    by_cases hlim : s.num_running_threads < (MAX_THREADS : Int)
    · rw [hpc, if_pos hlim, c1] at hc
      simp only [if_true] at hc
      cases hrec : create_n m s2 with
      | none =>
        rw [hrec] at hc
        cases hc
      | some x =>
        obtain ⟨ids1, s3⟩ := x
        rw [hrec] at hc
        simp only [Option.map_some', Option.some.injEq, Prod.mk.injEq] at hc
        obtain ⟨e1, e2⟩ := hc
        subst e2
        have hinv2 : RingInv s2 := by
          have h5 : pthread_create s = some (0, s2, some s.num_thread_total) := by
            rw [hpc, if_pos hlim, c1]
          exact (pthread_create_inv hinv 0 _ h5).1
        obtain ⟨d1, d2, d3⟩ := ih ids1 hinv2 (by rw [c6]; exact hf) c2 hrec
        refine ⟨d1, ?_, ?_⟩
        · have : rest ++ List.range' s.next_ptr (m + 1) =
              rest ++ [s.next_ptr] ++ List.range' s2.next_ptr m := by
            rw [List.range'_succ, c3]
            simp
          rw [this]
          exact d2
        · rw [← e1, d3, c4, List.range'_succ]
    · rw [hpc, if_neg hlim] at hc
      cases hc

/-- One invocation of `schedule` in a ring without exited control blocks: the
control block after the cursor becomes the running one, and the ring is then
read from it. -/
theorem schedule_next_live {s : Sched} {c x : Nat} {rest T : List Nat} (h : RingList s c rest)
    (hlive : ∀ p t, s.tcb p = some t → t.status ≠ thread_status.TS_EXITED)
    (hx : rest ++ [c] = x :: T) :
    ∃ s1, schedule s = some (Resume.switched, s1) ∧ RingList s1 x T ∧
      (∀ p t, s1.tcb p = some t → t.status ≠ thread_status.TS_EXITED) ∧
      (s1.tcb x).map (fun t => t.status) = some thread_status.TS_RUNNING ∧
      (∀ p t, p ≠ x → s1.tcb p = some t → t.status = thread_status.TS_READY) := by
  obtain ⟨t, ht⟩ := Option.isSome_iff_exists.1 ((h.all c).2 (List.mem_cons_self _ _))
  have hch := h.chain
  rw [hx, List.chain_cons] at hch
  obtain ⟨hcx, hxT⟩ := hch
  have htn : t.next = x := by
    have := hcx.1
    rw [ht] at this
    simpa only [Option.map_some', Option.some.injEq] using this
  have hxm : x ∈ c :: rest := by
    have : x ∈ rest ++ [c] := by
      rw [hx]
      exact List.mem_cons_self _ _
    rcases List.mem_append.1 this with h1 | h1
    · exact List.mem_cons_of_mem _ h1
    · simp only [List.mem_singleton] at h1
      rw [h1]
      exact List.mem_cons_self _ _
  have hready : ∀ p u, p ≠ c → s.tcb p = some u → u.status = thread_status.TS_READY := by
    intro p u hp hu
    have hpm : p ∈ c :: rest := (h.all p).1 (by rw [hu]; rfl)
    rcases List.mem_cons.1 hpm with h1 | h1
    · exact absurd h1 hp
    · have a := h.idle p u h1 hu
      have b := hlive p u hu
      cases hst : u.status with
      | TS_EXITED => exact absurd hst b
      | TS_RUNNING => exact absurd hst a
      | TS_READY => rfl
  have hmark : schedule_mark s c t =
      { s with
        tcb := Function.update s.tcb c (some { t with status := thread_status.TS_READY }) } := by
    unfold schedule_mark
    rw [if_pos (hlive c t ht)]
  have hmr : ∀ p u, (schedule_mark s c t).tcb p = some u →
      u.status = thread_status.TS_READY := by
    intro p u hu
    rw [hmark] at hu
    by_cases hp : p = c
    · subst hp
      simp only [Function.update_same, Option.some.injEq] at hu
      rw [← hu]
    · simp only [Function.update_noteq hp] at hu
      exact hready p u hp hu
  have hms : ∀ p, ((schedule_mark s c t).tcb p).isSome = (s.tcb p).isSome := by
    intro p
    rw [hmark]
    by_cases hp : p = c
    · subst hp
      simp only [Function.update_same, ht, Option.isSome_some]
    · simp only [Function.update_noteq hp]
  obtain ⟨u, hu⟩ := Option.isSome_iff_exists.1
    (show ((schedule_mark s c t).tcb x).isSome = true by
      rw [hms]
      exact (h.all x).2 hxm)
  have hscan : ∀ n, schedule_scan (schedule_mark s c t).tcb x n = some (Resume.switched, x) := by
    intro n
    cases n with
    | zero =>
      unfold schedule_scan
      rw [hu]
      simp only [hmr x u hu, if_true]
    | succ n =>
      unfold schedule_scan
      rw [hu]
      simp only [hmr x u hu, if_true]
  have hsch : schedule s = some (Resume.switched,
      { schedule_mark s c t with
        tcb := Function.update (schedule_mark s c t).tcb x
          (some { u with status := thread_status.TS_RUNNING })
        current_thread := some x }) := by
    unfold schedule
    rw [h.cursor]
    simp only []
    rw [ht]
    simp only []
    rw [htn, hscan]
    simp only []
    rw [hu]
  refine ⟨_, hsch, ?_⟩
  have hstat : ∀ p v, p ≠ x →
      (Function.update (schedule_mark s c t).tcb x
        (some { u with status := thread_status.TS_RUNNING })) p = some v →
      v.status = thread_status.TS_READY := by
    intro p v hp hv
    rw [Function.update_noteq hp] at hv
    exact hmr p v hv
  obtain ⟨_, _, _, _, a5, _, _⟩ := schedule_same_links s _ _ hsch
  have hperm : List.Perm (x :: T) (c :: rest) := by
    rw [← hx]
    exact List.perm_append_singleton c rest
  have hnd : (x :: T).Nodup := hperm.nodup_iff.2 h.nodup
  refine ⟨⟨rfl, hnd, ?_, ?_, ?_⟩, ?_, ?_, hstat⟩
  · intro p
    have := congrArg Option.isSome (a5 p)
    simp only [Option.isSome_map'] at this
    rw [this, h.all, hperm.mem_iff]
  · refine (chain_congr _ s.tcb a5 x _).2 ?_
    cases rest with
    | nil =>
      simp only [List.nil_append, List.cons.injEq] at hx
      obtain ⟨e1, e2⟩ := hx
      subst e1
      subst e2
      simp only [List.nil_append, List.chain_singleton]
      exact hcx
    | cons r R =>
      simp only [List.cons_append, List.cons.injEq] at hx
      obtain ⟨e1, e2⟩ := hx
      subst e1
      subst e2
      have : R ++ [c] ++ [r] = R ++ c :: [r] := by simp
      rw [this]
      exact List.chain_split.2 ⟨hxT, List.chain_singleton.2 hcx⟩
  · intro p v hp hv hrun
    have hpx : p ≠ x := by
      intro e
      rw [e] at hp
      exact (List.nodup_cons.1 hnd).1 hp
    have := hstat p v hpx hv
    rw [this] at hrun
    cases hrun
  · intro p v hv hex
    by_cases hp : p = x
    · subst hp
      simp only [Function.update_same, Option.some.injEq] at hv
      rw [← hv] at hex
      cases hex
    · have := hstat p v hp hv
      rw [this] at hex
      cases hex
  · simp only [Function.update_same, Option.map_some']

/-- In a ring without exited control blocks, consecutive invocations of
`schedule` make the control blocks running in the order of the ring: the one
at position `pre.length` after the cursor by invocation `pre.length + 1`. -/
theorem schedule_n_visits (pre : List Nat) :
    ∀ (s : Sched) (c : Nat) (rest : List Nat) (x : Nat) (post : List Nat),
      RingList s c rest →
      (∀ p t, s.tcb p = some t → t.status ≠ thread_status.TS_EXITED) →
      rest ++ [c] = pre ++ x :: post →
      ∃ sk, schedule_n (pre.length + 1) s = some sk ∧ sk.current_thread = some x ∧
        (sk.tcb x).map (fun t => t.status) = some thread_status.TS_RUNNING ∧
        ∀ p t, p ≠ x → sk.tcb p = some t → t.status = thread_status.TS_READY := by
  induction pre with
  | nil =>
    intro s c rest x post h hlive hx
    simp only [List.nil_append] at hx
    obtain ⟨s1, h1, h2, _, h4, h5⟩ := schedule_next_live h hlive hx
    refine ⟨s1, ?_, h2.cursor, h4, h5⟩
    simp only [List.length_nil, Nat.zero_add, schedule_n, h1]
  | cons y pre ih =>
    intro s c rest x post h hlive hx
    simp only [List.cons_append] at hx
    obtain ⟨s1, h1, h2, h3, _, _⟩ := schedule_next_live h hlive hx
    obtain ⟨sk, k1, k2⟩ := ih s1 y (pre ++ x :: post) x (post ++ [y]) h2 h3 (by simp)
    refine ⟨sk, ?_, k2⟩
    simp only [List.length_cons, schedule_n, h1]
    exact k1

/-- C30 (bounded fairness, creation order): let `s` be a reachable state with the
scheduler initialised, let the running thread make `m` successive calls of
`pthread_create` that all return 0, storing the identities `ids` and leading to
`s1`, and let no control block of `s1` be exited.  Read from the cursor `c`, the
ring of `s` is `c`, then `rest`; the ring of `s1` is `c`, then `rest`, then the
new control blocks `news` in the order of their creation, which is the order of
`ids`: each was linked just before the cursor.  The list `rest ++ news ++ [c]`
holds every control block of `s1` once, and with no other call in between the
invocation number `k + 1` of `schedule` makes the control block at position `k`
of this list the running one, all others being ready: `N` invocations make
each of the `N` control blocks the running thread exactly once, the new threads
in creation order. -/
theorem round_robin_in_creation_order (s : Sched) (hs : s.Reachable)
    (hf : s.is_first_call = false) (m : Nat) (ids : List Nat) (s1 : Sched)
    (hc : create_n m s = some (ids, s1))
    (hlive : ∀ p t, s1.tcb p = some t → t.status ≠ thread_status.TS_EXITED) :
    ∃ c rest news,
      s.current_thread = some c ∧ s1.current_thread = some c ∧
      (∀ p, (s.tcb p).isSome ↔ p ∈ rest ++ [c]) ∧
      List.Chain (linked s.tcb) c (rest ++ [c]) ∧
      ids.length = m ∧ news.length = m ∧
      news.map (fun p => (s1.tcb p).map (fun t => t.ID)) = ids.map some ∧
      (rest ++ news ++ [c]).Nodup ∧
      (∀ p, (s1.tcb p).isSome ↔ p ∈ rest ++ news ++ [c]) ∧
      List.Chain (linked s1.tcb) c (rest ++ news ++ [c]) ∧
      ∀ pre x post, rest ++ news ++ [c] = pre ++ x :: post →
        ∃ sk, schedule_n (pre.length + 1) s1 = some sk ∧ sk.current_thread = some x ∧
          (sk.tcb x).map (fun t => t.status) = some thread_status.TS_RUNNING ∧
          ∀ p t, p ≠ x → sk.tcb p = some t → t.status = thread_status.TS_READY := by
  have hinv := reachable_ringInv hs
  obtain ⟨c, rest, h⟩ := reachable_ringList hs hf
  obtain ⟨hinv1, h1, hids⟩ := create_n_ringList m ids hinv hf h hc
  have hperm : List.Perm (rest ++ List.range' s.next_ptr m ++ [c])
      (c :: (rest ++ List.range' s.next_ptr m)) := List.perm_append_singleton c _
  refine ⟨c, rest, List.range' s.next_ptr m, h.cursor, h1.cursor, ?_, h.chain, ?_, ?_, ?_,
    hperm.nodup_iff.2 h1.nodup, ?_, h1.chain, ?_⟩
  · intro p
    rw [h.all, (List.perm_append_singleton c rest).mem_iff]
  · rw [hids, List.length_range']
  · rw [List.length_range']
  · rw [hids, hinv.total, List.range'_eq_map_range, List.range'_eq_map_range, List.map_map,
      List.map_map]
    apply List.map_congr_left
    intro j hj
    simp only [Function.comp_apply]
    have hmem : s.num_thread_total + 1 + j ∈ List.range' s.next_ptr m := by
      rw [hinv.total, List.mem_range']
      exact ⟨j, List.mem_range.1 hj, by omega⟩
    obtain ⟨t, ht⟩ := Option.isSome_iff_exists.1
      ((h1.all (s.num_thread_total + 1 + j)).2
        (List.mem_cons_of_mem _ (List.mem_append_right _ hmem)))
    have := (hinv1.ids _ t ht).1
    rw [ht]
    simp only [Option.map_some', Option.some.injEq]
    omega
  · intro p
    rw [h1.all, hperm.mem_iff]
  · intro pre x post hx
    exact schedule_n_visits pre s1 c (rest ++ List.range' s.next_ptr m) x post h1 hlive hx

/-- A result whose first component is known is `some` of that component and of
the state kept by the scenario definitions. -/
theorem some_of_fst {α β : Type} (o : Option (α × β)) (d : α × β) (a : α)
    (h : o.map (fun x => x.1) = some a) : o = some (a, (o.getD d).2) := by
  cases o with
  | none => simp at h
  | some x =>
    simp only [Option.map_some', Option.some.injEq] at h
    simp only [Option.getD_some, ← h]

theorem four_threads_live (p : Nat) (t : thread_control_block)
    (h : four_threads.tcb p = some t) : t.status ≠ thread_status.TS_EXITED := by
  have hc : create_n 2 two_threads = some ([2, 3], four_threads) :=
    some_of_fst (create_n 2 two_threads) ([], two_threads) [2, 3] (by decide)
  obtain ⟨c, rest, hr⟩ := reachable_ringList two_threads_reachable (by decide)
  obtain ⟨hinv1, _, _⟩ :=
    create_n_ringList 2 [2, 3] (reachable_ringInv two_threads_reachable) (by decide) hr hc
  have hlt := (hinv1.ids p t h).2
  have hn : four_threads.next_ptr = 5 := by decide
  have hall : ∀ q, q < 5 →
      (four_threads.tcb q).all (fun u => u.status ≠ thread_status.TS_EXITED) = true := by
    decide
  have := hall p (by omega)
  rw [h] at this
  simpa using this

/-- Witness for C30: after the first call of `pthread_create` the main thread
creates two more threads, with identities 2 and 3. -/
theorem round_robin_in_creation_order_witness :
    ∃ c rest news,
      two_threads.current_thread = some c ∧ four_threads.current_thread = some c ∧
      (∀ p, (two_threads.tcb p).isSome ↔ p ∈ rest ++ [c]) ∧
      List.Chain (linked two_threads.tcb) c (rest ++ [c]) ∧
      [2, 3].length = 2 ∧ news.length = 2 ∧
      news.map (fun p => (four_threads.tcb p).map (fun t => t.ID)) = [2, 3].map some ∧
      (rest ++ news ++ [c]).Nodup ∧
      (∀ p, (four_threads.tcb p).isSome ↔ p ∈ rest ++ news ++ [c]) ∧
      List.Chain (linked four_threads.tcb) c (rest ++ news ++ [c]) ∧
      ∀ pre x post, rest ++ news ++ [c] = pre ++ x :: post →
        ∃ sk, schedule_n (pre.length + 1) four_threads = some sk ∧
          sk.current_thread = some x ∧
          (sk.tcb x).map (fun t => t.status) = some thread_status.TS_RUNNING ∧
          ∀ p t, p ≠ x → sk.tcb p = some t → t.status = thread_status.TS_READY :=
  round_robin_in_creation_order two_threads two_threads_reachable (by decide) 2 [2, 3]
    four_threads
    (some_of_fst (create_n 2 two_threads) ([], two_threads) [2, 3] (by decide))
    four_threads_live

/-- The run of the witness: four invocations of `schedule` make running the
threads with identities 1, 2, 3 and 0, in this order. -/
theorem four_threads_round :
    ((schedule_n 1 four_threads).bind pthread_self,
      (schedule_n 2 four_threads).bind pthread_self,
      (schedule_n 3 four_threads).bind pthread_self,
      (schedule_n 4 four_threads).bind pthread_self) = (some 1, some 2, some 3, some 0) := by
  decide

end Threads

/-! # Theorems about the file system -/

namespace Fs

set_option maxRecDepth 1000000

/-! ## Conversions -/

theorem to_int_of_range (v : Int) (h1 : -2147483648 ≤ v) (h2 : v < 2147483648) :
    to_int v = v := by
  unfold to_int
  omega

/-- A result with return code 0 is `some` of that code and of the state kept by
the scenario definitions. -/
theorem some_of_code {α : Type} (o : Option (Int × α)) (d : Int × α) (r : Int)
    (h : o.map (fun x => x.1) = some r) : o = some (r, (o.getD d).2) := by
  cases o with
  | none => simp at h
  | some x =>
    simp only [Option.map_some', Option.some.injEq] at h
    simp only [Option.getD_some, ← h]

/-! ## The loops of `fs_create` -/

theorem find_free_entry_spec (dir : Nat → directory_file) (n i d : Nat)
    (h : find_free_entry dir i n = some d) :
    i ≤ d ∧ d < i + n ∧ (dir d).inode_index = -1 ∧
      ∀ j, i ≤ j → j < d → (dir j).inode_index ≠ -1 := by
  induction n generalizing i with
  | zero => simp [find_free_entry] at h
  | succ n ih =>
    unfold find_free_entry at h
    by_cases hi : (dir i).inode_index = -1
    · rw [if_pos hi] at h
      cases h
      exact ⟨le_refl _, by omega, hi, fun j h1 h2 => by omega⟩
    · rw [if_neg hi] at h
      obtain ⟨a, b, c, e⟩ := ih (i + 1) h
      refine ⟨by omega, by omega, c, fun j h1 h2 => ?_⟩
      by_cases hj : j = i
      · subst hj
        exact hi
      · exact e j (by omega) h2

theorem find_free_inode_spec (tbl : Nat → inode) (n i : Nat) (acc : Int) :
    (find_free_inode tbl i n acc = acc ∧ ∀ j, i ≤ j → j < i + n → (tbl j).ref_count ≠ 0) ∨
    ∃ k, i ≤ k ∧ k < i + n ∧ find_free_inode tbl i n acc = (k : Int) ∧
      (tbl k).ref_count = 0 ∧ ∀ j, k < j → j < i + n → (tbl j).ref_count ≠ 0 := by
  induction n generalizing i acc with
  | zero =>
    left
    exact ⟨rfl, fun j h1 h2 => by omega⟩
  | succ n ih =>
    unfold find_free_inode
    by_cases hi : (tbl i).ref_count = 0
    · rw [if_pos hi]
      rcases ih (i + 1) (i : Int) with ⟨h1, h2⟩ | ⟨k, h1, h2, h3, h4, h5⟩
      · right
        exact ⟨i, le_refl _, by omega, h1, hi, fun j a b => h2 j (by omega) (by omega)⟩
      · right
        exact ⟨k, by omega, by omega, h3, h4, fun j a b => h5 j a (by omega)⟩
    · rw [if_neg hi]
      rcases ih (i + 1) acc with ⟨h1, h2⟩ | ⟨k, h1, h2, h3, h4, h5⟩
      · left
        refine ⟨h1, fun j a b => ?_⟩
        by_cases hj : j = i
        · subst hj
          exact hi
        · exact h2 j (by omega) (by omega)
      · right
        exact ⟨k, by omega, by omega, h3, h4, fun j a b => h5 j a (by omega)⟩

/-- C34 (`fs_create` binds the highest free inode): when `fs_create` returns 0,
the new name and inode index are stored in the directory entry `d` of lowest
index whose `inode_index` was -1, the inode index stored is the highest `i`
whose `ref_count` was 0, the `ref_count` of inode `i` becomes 1 and the rest of
that inode is kept, and no other directory entry, no other inode and nothing
else of the state changes. -/
theorem fs_create_binds_highest_free_inode (s s1 : FS) (name : List Nat)
    (h : fs_create s name = some (0, s1)) :
    ∃ d i : Nat, d < MAX_FILES ∧ i < MAX_FILES ∧
      (s.directory d).inode_index = -1 ∧
      (∀ j, j < d → (s.directory j).inode_index ≠ -1) ∧
      (s.inode_table i).ref_count = 0 ∧
      (∀ j, i < j → j < MAX_FILES → (s.inode_table j).ref_count ≠ 0) ∧
      (s1.directory d).inode_index = (i : Int) ∧
      (∀ k, k < name.length → (s1.directory d).name k = name.getD k 0) ∧
      (s1.directory d).name name.length = 0 ∧
      (∀ j, j ≠ d → s1.directory j = s.directory j) ∧
      (s1.inode_table i).ref_count = 1 ∧
      (s1.inode_table i).file_size = (s.inode_table i).file_size ∧
      (s1.inode_table i).blocks = (s.inode_table i).blocks ∧
      (∀ j, j ≠ i → s1.inode_table j = s.inode_table j) ∧
      s1.disk = s.disk ∧ s1.file_descriptors = s.file_descriptors ∧
      s1.disk_super_block = s.disk_super_block := by
  unfold fs_create at h
  split at h
  · simp at h
  · split at h
    · simp at h
    · split at h
      · cases h
      · simp at h
      · split at h
        · simp at h
        · rename_i d hd
          simp only [] at h
          split at h
          · simp at h
          · rename_i hne
            simp only [Option.some.injEq, Prod.mk.injEq, true_and] at h
            obtain ⟨d1, d2, d3, d4⟩ := find_free_entry_spec s.directory MAX_FILES 0 d hd
            rcases find_free_inode_spec s.inode_table MAX_FILES 0 (-1) with
              ⟨h1, _⟩ | ⟨k, k1, k2, k3, k4, k5⟩
            · exact absurd h1 hne
            · rw [k3] at h
              simp only [Int.toNat_ofNat] at h
              subst h
              refine ⟨d, k, by omega, by omega, d3, fun j hj => d4 j (Nat.zero_le _) hj, k4,
                fun j a b => k5 j a (by omega), ?_, ?_, ?_, ?_, ?_, ?_, ?_, ?_, rfl, rfl, rfl⟩
              · simp only [Function.update_same]
              · intro q hq
                simp only [Function.update_same, strcpy, if_pos hq]
              · simp only [Function.update_same, strcpy, lt_irrefl, if_false, if_true]
              · intro j hj
                simp only [Function.update_noteq hj]
              · simp only [Function.update_same, k4]
                rfl
              · simp only [Function.update_same]
              · simp only [Function.update_same]
              · intro j hj
                simp only [Function.update_noteq hj]

/-- Witness for C34: `fs_create("a")` on the freshly mounted file system. -/
theorem fs_create_binds_highest_free_inode_witness :
    ∃ d i : Nat, d < MAX_FILES ∧ i < MAX_FILES ∧
      (mounted.directory d).inode_index = -1 ∧
      (∀ j, j < d → (mounted.directory j).inode_index ≠ -1) ∧
      (mounted.inode_table i).ref_count = 0 ∧
      (∀ j, i < j → j < MAX_FILES → (mounted.inode_table j).ref_count ≠ 0) ∧
      (created.directory d).inode_index = (i : Int) ∧
      (∀ k, k < [97].length → (created.directory d).name k = [97].getD k 0) ∧
      (created.directory d).name [97].length = 0 ∧
      (∀ j, j ≠ d → created.directory j = mounted.directory j) ∧
      (created.inode_table i).ref_count = 1 ∧
      (created.inode_table i).file_size = (mounted.inode_table i).file_size ∧
      (created.inode_table i).blocks = (mounted.inode_table i).blocks ∧
      (∀ j, j ≠ i → created.inode_table j = mounted.inode_table j) ∧
      created.disk = mounted.disk ∧ created.file_descriptors = mounted.file_descriptors ∧
      created.disk_super_block = mounted.disk_super_block :=
  fs_create_binds_highest_free_inode mounted created [97]
    (some_of_code (fs_create mounted [97]) (0, mounted) 0 (by decide!))

/-- The entry and the inode of the witness: entry 0 and inode 63. -/
theorem created_entry :
    (created.directory 0).inode_index = 63 ∧ (created.inode_table 63).ref_count = 1 ∧
      (created.directory 0).name 0 = 97 ∧ (created.directory 0).name 1 = 0 := by decide!

/-! ## `fs_lseek` -/

/-- C35 (`fs_lseek` bounds): for a descriptor `fildes` in `0 .. 31` that is open
on an inode of the table whose `file_size` is `size`, `fs_lseek(fildes, offset)`
returns -1 and changes nothing when `offset < 0` or `offset >= size`, so also
for `offset = size` and for every offset on an empty file; otherwise it returns 0
and stores `offset` in the file pointer of the descriptor, changing nothing
else.  It returns -1 exactly in the first case. -/
theorem fs_lseek_spec (s : FS) (fildes offset size : Int)
    (hfd : 0 ≤ fildes ∧ fildes < 32)
    (hopen : (s.file_descriptors fildes.toNat).inode_index ≠ -1)
    (hii : 0 ≤ (s.file_descriptors fildes.toNat).inode_index ∧
      (s.file_descriptors fildes.toNat).inode_index < 64)
    (hsize : (s.inode_table (s.file_descriptors fildes.toNat).inode_index.toNat).file_size = size)
    (hrange : -2147483648 < size ∧ size < 2147483648) :
    (offset < 0 ∨ size ≤ offset → fs_lseek s fildes offset = some (-1, s)) ∧
    (0 ≤ offset ∧ offset < size →
      fs_lseek s fildes offset =
        some (0,
          { s with
            file_descriptors :=
              Function.update s.file_descriptors fildes.toNat
                { s.file_descriptors fildes.toNat with file_pointer := offset } })) ∧
    ((fs_lseek s fildes offset).map (fun r => r.1) = some (-1) ↔ offset < 0 ∨ size ≤ offset) := by
  have h1 : ¬ (fildes < 0 ∨ fildes > ((MAX_FILE_DESCRIPTORS : Nat) : Int) - 1 ∨
      (s.file_descriptors fildes.toNat).inode_index = -1) := by
    have : ((MAX_FILE_DESCRIPTORS : Nat) : Int) = 32 := rfl
    rw [this]
    rintro (h | h | h)
    · omega
    · omega
    · exact hopen h
  have h2 : ¬ ((s.file_descriptors fildes.toNat).inode_index < 0 ∨
      ((MAX_FILES : Nat) : Int) ≤ (s.file_descriptors fildes.toNat).inode_index) := by
    have : ((MAX_FILES : Nat) : Int) = 64 := rfl
    rw [this]
    omega
  have h3 : to_int (size - 1) = size - 1 := to_int_of_range _ (by omega) (by omega)
  have hbad : offset < 0 ∨ size ≤ offset → fs_lseek s fildes offset = some (-1, s) := by
    intro h
    unfold fs_lseek
    rw [if_neg h1]
    simp only []
    rw [if_neg h2, hsize, h3, if_pos (by omega)]
  have hgood : 0 ≤ offset ∧ offset < size →
      fs_lseek s fildes offset =
        some (0,
          { s with
            file_descriptors :=
              Function.update s.file_descriptors fildes.toNat
                { s.file_descriptors fildes.toNat with file_pointer := offset } }) := by
    intro h
    unfold fs_lseek
    rw [if_neg h1]
    simp only []
    rw [if_neg h2, hsize, h3, if_neg (by omega), to_int_of_range offset (by omega) (by omega)]
  refine ⟨hbad, hgood, ?_⟩
  constructor
  · intro h
    by_contra hn
    rw [hgood (by omega)] at h
    simp at h
  · intro h
    rw [hbad h]
    rfl

/-- Witness for C35: descriptor 0 of the state `written`, open on a file of 2
bytes, and offset 2. -/
theorem fs_lseek_spec_witness :
    (((2 : Int) < 0 ∨ (2 : Int) ≤ 2) → fs_lseek written 0 2 = some (-1, written)) ∧
    ((0 : Int) ≤ 2 ∧ (2 : Int) < 2 →
      fs_lseek written 0 2 =
        some (0,
          { written with
            file_descriptors :=
              Function.update written.file_descriptors (0 : Int).toNat
                { written.file_descriptors (0 : Int).toNat with file_pointer := 2 } })) ∧
    ((fs_lseek written 0 2).map (fun r => r.1) = some (-1) ↔ (2 : Int) < 0 ∨ (2 : Int) ≤ 2) :=
  fs_lseek_spec written 0 2 2 (by decide) (by decide!) (by decide!) (by decide!) (by decide)

/-! ## `fs_truncate` -/

/-- C36 (block bitmap consistent) fails in the code: after `make_fs`,
`mount_fs`, `fs_create("a")`, `fs_open("a")` and `fs_write(0, "xy", 2)` the
usage bits of the metadata blocks 0 .. 64 are set and the file holds data block
65, whose bit is set.  `fs_truncate(0, 0)` returns 0 and frees that block, but
clears the usage bit of block 0, a metadata block, and leaves the bit of block
65 set although the inode no longer lists it. -/
theorem truncate_clears_metadata_bit :
    (make_fs FS.start).1 = 0 ∧ (mount_fs (make_fs FS.start).2).1 = 0 ∧
    (fs_create mounted [97]).map (fun r => r.1) = some 0 ∧
    (fs_open created [97]).map (fun r => r.1) = some 0 ∧
    (fs_write opened 0 (bytes [120, 121]) 2).map (fun r => r.1) = some 2 ∧
    written.disk_super_block.data_offset = 65 ∧
    (∀ b, b < 65 → is_used written.disk_super_block.usage_bitmap b = true) ∧
    is_used written.disk_super_block.usage_bitmap 65 = true ∧
    (written.file_descriptors 0).inode_index = 63 ∧
    (written.inode_table 63).blocks 0 = 65 ∧
    (fs_truncate written 0 0).map (fun r => r.1) = some 0 ∧
    emptied.disk_super_block.data_offset = 65 ∧
    is_used emptied.disk_super_block.usage_bitmap 0 = false ∧
    is_used emptied.disk_super_block.usage_bitmap 65 = true ∧
    (emptied.inode_table 63).blocks 0 = -1 := by decide!

/-- C37 (truncate keeps the first bytes) fails in the code: in the state `written`
descriptor 0 is open on a file of size 2 whose first byte, read back by
`fs_lseek(0, 0)` and `fs_read(0, buf, 1)`, is 120.  `fs_truncate(0, 1)` returns 0
and sets the file size to 1, but it also overwrites the data block of the file
with zeros and removes it from the inode, so that the same two calls now read
the byte 0. -/
theorem truncate_loses_kept_bytes :
    (written.file_descriptors 0).inode_index = 63 ∧
    (written.inode_table 63).file_size = 2 ∧
    (written.inode_table 63).blocks 0 = 65 ∧
    written.disk.data 65 0 = 120 ∧
    read_first written = some (0, 1, 120) ∧
    (fs_truncate written 0 1).map (fun r => r.1) = some 0 ∧
    (shortened.inode_table 63).file_size = 1 ∧
    (shortened.inode_table 63).blocks 0 = -1 ∧
    shortened.disk.data 65 0 = 0 ∧
    read_first shortened = some (0, 1, 0) := by decide!

end Fs
